import Mathlib

/-!
# MySTL red-black tree (`src/TinySTL/rb_tree.h`): embedding and verification

The tree of `rb_tree.h` is a pointer structure: nodes carry `color`, `parent`,
`left`, `right` and a payload, and a header node anchors root, leftmost and
rightmost.  The embedding keeps that shape.  Memory is a finite map from
addresses to node records, address `0` is `nullptr`, every C++ statement is a
read or a write on that map, and a read through `nullptr` or through a freed
address is a fault.  Loops take a fuel argument and recurse structurally on it.

The second half relates a memory to an abstract binary tree carrying the
address of every node (`Rep`, `Z`, `WF`) and proves the properties of the
operations through that relation.
-/

set_option autoImplicit false

namespace mystl

/-! ## Memory model -/

/-- Ways an operation can end without a result: undefined behaviour of the
C++ program (`null_deref`, `wild_access`, `uninit_read`), the exceptions thrown
by `THROW_LENGTH_ERROR_IF` (`length_error`) and `THROW_OUT_OF_RANGE_IF`
(`out_of_range`), or an exhausted loop budget. -/
inductive Fault where
  | null_deref
  | wild_access
  | uninit_read
  | length_error
  | out_of_fuel
  | out_of_range
deriving DecidableEq, Repr

deriving instance DecidableEq for Except

/-- Colour constants of `rb_tree.h`: `rb_tree_color_type` is `bool`. -/
abbrev rb_tree_red : Bool := false

/-- Colour constant `rb_tree_black = true`. -/
abbrev rb_tree_black : Bool := true

/-- Record `rb_tree_node<Value>` (with the fields of `rb_tree_node_base`).
Pointers are addresses, `0` is `nullptr`.  The payload of the header node is
never constructed, hence `value_field` is optional. -/
structure rb_tree_node (α : Type) where
  color : Bool
  parent : Nat
  left : Nat
  right : Nat
  value_field : Option α
deriving DecidableEq, Repr

/-- The node heap: which addresses hold a live node, and its contents. -/
abbrev Mem (α : Type) := Nat → Option (rb_tree_node α)

/-- Store a node record at an address. -/
def upd {α : Type} (m : Mem α) (p : Nat) (n : rb_tree_node α) : Mem α :=
  fun a => if a = p then some n else m a

/-- Release an address (`node_allocator::deallocate`). -/
def free {α : Type} (m : Mem α) (p : Nat) : Mem α :=
  fun a => if a = p then none else m a

/-- Dereference a node pointer. -/
def rd {α : Type} (m : Mem α) (p : Nat) : Except Fault (rb_tree_node α) :=
  if p = 0 then .error .null_deref
  else match m p with
    | some n => .ok n
    | none => .error .wild_access

/-- Read `p->parent`. -/
def get_parent {α : Type} (m : Mem α) (p : Nat) : Except Fault Nat :=
  match rd m p with
  | .ok n => .ok n.parent
  | .error e => .error e

/-- Read `p->left`. -/
def get_left {α : Type} (m : Mem α) (p : Nat) : Except Fault Nat :=
  match rd m p with
  | .ok n => .ok n.left
  | .error e => .error e

/-- Read `p->right`. -/
def get_right {α : Type} (m : Mem α) (p : Nat) : Except Fault Nat :=
  match rd m p with
  | .ok n => .ok n.right
  | .error e => .error e

/-- Read `p->color`. -/
def get_color {α : Type} (m : Mem α) (p : Nat) : Except Fault Bool :=
  match rd m p with
  | .ok n => .ok n.color
  | .error e => .error e

/-- Read `p->value_field`; the header has none. -/
def get_value {α : Type} (m : Mem α) (p : Nat) : Except Fault α :=
  match rd m p with
  | .ok n =>
    match n.value_field with
    | some v => .ok v
    | none => .error .uninit_read
  | .error e => .error e

/-- Write `p->parent = v`. -/
def set_parent {α : Type} (m : Mem α) (p v : Nat) : Except Fault (Mem α) :=
  match rd m p with
  | .ok n => .ok (upd m p { n with parent := v })
  | .error e => .error e

/-- Write `p->left = v`. -/
def set_left {α : Type} (m : Mem α) (p v : Nat) : Except Fault (Mem α) :=
  match rd m p with
  | .ok n => .ok (upd m p { n with left := v })
  | .error e => .error e

/-- Write `p->right = v`. -/
def set_right {α : Type} (m : Mem α) (p v : Nat) : Except Fault (Mem α) :=
  match rd m p with
  | .ok n => .ok (upd m p { n with right := v })
  | .error e => .error e

/-- Write `p->color = c`. -/
def set_color {α : Type} (m : Mem α) (p : Nat) (c : Bool) : Except Fault (Mem α) :=
  match rd m p with
  | .ok n => .ok (upd m p { n with color := c })
  | .error e => .error e

/-! ## `rb_tree_node_base::minimum`, `maximum` and the iterator steps -/

/-- Loop of `rb_tree_node_base::minimum`: `while (nullptr != x->left) x = x->left`. -/
def minimum {α : Type} : Nat → Mem α → Nat → Except Fault Nat
  | 0, _, _ => .error .out_of_fuel
  | fuel + 1, m, x => do
    let l ← get_left m x
    if l = 0 then pure x else minimum fuel m l

/-- Loop of `rb_tree_node_base::maximum`: `while (nullptr != x->right) x = x->right`. -/
def maximum {α : Type} : Nat → Mem α → Nat → Except Fault Nat
  | 0, _, _ => .error .out_of_fuel
  | fuel + 1, m, x => do
    let r ← get_right m x
    if r = 0 then pure x else maximum fuel m r

/-- Upward loop of `increment`: `while (node == y->right) { node = y; y = y->parent; }`,
returning the final `(node, y)`. -/
def increment_up {α : Type} : Nat → Mem α → Nat → Nat → Except Fault (Nat × Nat)
  | 0, _, _, _ => .error .out_of_fuel
  | fuel + 1, m, node, y => do
    let yr ← get_right m y
    if node = yr then
      let yp ← get_parent m y
      increment_up fuel m y yp
    else pure (node, y)

/-- Last statement of the upward branch of `increment`:
`if (node->right != y) node = y;`, applied to the `(node, y)` the loop ended with. -/
def increment_finish {α : Type} (m : Mem α) (r : Nat × Nat) : Except Fault Nat := do
  let nr ← get_right m r.1
  if nr = r.2 then pure r.1 else pure r.2

/-- Step `rb_tree_base_iterator::increment`. -/
def increment {α : Type} (fuel : Nat) (m : Mem α) (node : Nat) : Except Fault Nat := do
  let r ← get_right m node
  if r = 0 then
    let y ← get_parent m node
    let r ← increment_up fuel m node y
    increment_finish m r
  else
    minimum fuel m r

/-- Upward loop of `decrement`: `while (node == y->left) { node = y; y = y->parent; }`,
returning the final `y`. -/
def decrement_up {α : Type} : Nat → Mem α → Nat → Nat → Except Fault Nat
  | 0, _, _, _ => .error .out_of_fuel
  | fuel + 1, m, node, y => do
    let yl ← get_left m y
    if node = yl then
      let yp ← get_parent m y
      decrement_up fuel m y yp
    else pure y

/-- Test of `decrement` for `end()`:
`node->color == rb_tree_red && node->parent->parent == node`. -/
def is_header {α : Type} (m : Mem α) (node : Nat) : Except Fault Bool := do
  let c ← get_color m node
  if c = rb_tree_red then
    let p ← get_parent m node
    let pp ← get_parent m p
    pure (decide (pp = node))
  else pure false

/-- Step `rb_tree_base_iterator::decrement`. -/
def decrement {α : Type} (fuel : Nat) (m : Mem α) (node : Nat) : Except Fault Nat := do
  if (← is_header m node) then
    get_right m node
  else
    let l ← get_left m node
    if l = 0 then
      let y ← get_parent m node
      decrement_up fuel m node y
    else
      maximum fuel m l

/-! ## Rotations and the repair after insertion -/

/-- Statement `if (p) p->parent = v;` (also written `if (nullptr != p) ...`). -/
def set_parent_opt {α : Type} (m : Mem α) (p v : Nat) : Except Fault (Mem α) :=
  if p = 0 then pure m else set_parent m p v

/-- Statement of `rb_tree_rotate_left`:
`if (x == root) root = y; else if (x == x->parent->left) x->parent->left = y;
else x->parent->right = y;`. -/
def replace_child_l {α : Type} (m : Mem α) (x y hdr : Nat) : Except Fault (Mem α) := do
  let root ← get_parent m hdr
  if x = root then set_parent m hdr y
  else do
    let xp ← get_parent m x
    let xpl ← get_left m xp
    if x = xpl then set_left m xp y
    else set_right m xp y

/-- Statement of `rb_tree_rotate_right`:
`if (x == root) root = y; else if (x == x->parent->right) x->parent->right = y;
else x->parent->left = y;`. -/
def replace_child_r {α : Type} (m : Mem α) (x y hdr : Nat) : Except Fault (Mem α) := do
  let root ← get_parent m hdr
  if x = root then set_parent m hdr y
  else do
    let xp ← get_parent m x
    let xpr ← get_right m xp
    if x = xpr then set_right m xp y
    else set_left m xp y

/-- Function `rb_tree_rotate_left(x, root)`.  The reference parameter `root` is
always bound to `header->parent`; it is passed as the header address `hdr`. -/
def rb_tree_rotate_left {α : Type} (m : Mem α) (x hdr : Nat) : Except Fault (Mem α) := do
  let y ← get_right m x
  let yl ← get_left m y
  let m ← set_right m x yl
  let yl ← get_left m y
  let m ← set_parent_opt m yl x
  let xp ← get_parent m x
  let m ← set_parent m y xp
  let m ← replace_child_l m x y hdr
  let m ← set_left m y x
  set_parent m x y

/-- Function `rb_tree_rotate_right(x, root)`, mirror image of the left rotation. -/
def rb_tree_rotate_right {α : Type} (m : Mem α) (x hdr : Nat) : Except Fault (Mem α) := do
  let y ← get_left m x
  let yr ← get_right m y
  let m ← set_left m x yr
  let yr ← get_right m y
  let m ← set_parent_opt m yr x
  let xp ← get_parent m x
  let m ← set_parent m y xp
  let m ← replace_child_r m x y hdr
  let m ← set_right m y x
  set_parent m x y

/-- Loop test of `rb_tree_reblance`: `x != root && x->parent->color == rb_tree_red`. -/
def reblance_cond {α : Type} (m : Mem α) (x hdr : Nat) : Except Fault Bool := do
  let root ← get_parent m hdr
  if x = root then pure false
  else
    let xp ← get_parent m x
    let c ← get_color m xp
    pure (c == rb_tree_red)

/-- Test `y && y->color == rb_tree_red` on the uncle. -/
def is_red_ptr {α : Type} (m : Mem α) (y : Nat) : Except Fault Bool :=
  if y = 0 then pure false
  else do
    let c ← get_color m y
    pure (c == rb_tree_red)

/-- One pass through the loop body of `rb_tree_reblance`; returns the memory and
the new `x`. -/
def reblance_body {α : Type} (m : Mem α) (x hdr : Nat) : Except Fault (Mem α × Nat) := do
  let xp ← get_parent m x
  let xpp ← get_parent m xp
  let xppl ← get_left m xpp
  if xp = xppl then
    let y ← get_right m xpp
    if (← is_red_ptr m y) then
      -- case 1
      let m ← set_color m xp rb_tree_black
      let m ← set_color m y rb_tree_black
      let xp ← get_parent m x
      let xpp ← get_parent m xp
      let m ← set_color m xpp rb_tree_red
      let xp ← get_parent m x
      let xpp ← get_parent m xp
      pure (m, xpp)
    else
      -- case 2
      let xpr ← get_right m xp
      let (m, x) ←
        if x = xpr then do
          let m ← rb_tree_rotate_left m xp hdr
          pure (m, xp)
        else pure (m, x)
      -- case 3
      let xp ← get_parent m x
      let m ← set_color m xp rb_tree_black
      let xp ← get_parent m x
      let xpp ← get_parent m xp
      let m ← set_color m xpp rb_tree_red
      let xp ← get_parent m x
      let xpp ← get_parent m xp
      let m ← rb_tree_rotate_right m xpp hdr
      pure (m, x)
  else
    let y ← get_left m xpp
    if (← is_red_ptr m y) then
      let m ← set_color m xp rb_tree_black
      let m ← set_color m y rb_tree_black
      let xp ← get_parent m x
      let xpp ← get_parent m xp
      let m ← set_color m xpp rb_tree_red
      let xp ← get_parent m x
      let xpp ← get_parent m xp
      pure (m, xpp)
    else
      let xpl ← get_left m xp
      let (m, x) ←
        if x = xpl then do
          let m ← rb_tree_rotate_right m xp hdr
          pure (m, xp)
        else pure (m, x)
      let xp ← get_parent m x
      let m ← set_color m xp rb_tree_black
      let xp ← get_parent m x
      let xpp ← get_parent m xp
      let m ← set_color m xpp rb_tree_red
      let xp ← get_parent m x
      let xpp ← get_parent m xp
      let m ← rb_tree_rotate_left m xpp hdr
      pure (m, x)

/-- The `while` loop of `rb_tree_reblance`. -/
def reblance_loop {α : Type} : Nat → Mem α → Nat → Nat → Except Fault (Mem α)
  | 0, _, _, _ => .error .out_of_fuel
  | fuel + 1, m, x, hdr => do
    if (← reblance_cond m x hdr) then
      let (m, x) ← reblance_body m x hdr
      reblance_loop fuel m x hdr
    else pure m

/-- Function `rb_tree_reblance(x, root)`: colour `x` red, run the repair loop,
force the root black. -/
def rb_tree_reblance {α : Type} (fuel : Nat) (m : Mem α) (x hdr : Nat) :
    Except Fault (Mem α) := do
  let m ← set_color m x rb_tree_red
  let m ← reblance_loop fuel m x hdr
  let root ← get_parent m hdr
  set_color m root rb_tree_black

/-! ## The class `rb_tree` -/

/-- Template parameters of `rb_tree<Key, Value, KeyOfValue, Compare>` and the
width of `size_type`. -/
structure Traits (α κ : Type) where
  KeyOfValue : α → κ
  key_compare : κ → κ → Bool
  size_bits : Nat

/-- Member `max_size()`: `static_cast<size_type>(-1)`. -/
def Traits.max_size {α κ : Type} (T : Traits α κ) : Nat := 2 ^ T.size_bits - 1

/-- Data members of `rb_tree` (`node_count`, `header`) together with the node
heap they point into; `key_compare` is part of `Traits`. -/
structure rb_tree (α : Type) where
  mem : Mem α
  header : Nat
  node_count : Nat

/-- Member `key(x)`: `KeyOfValue()(value(x))`. -/
def get_key {α κ : Type} (T : Traits α κ) (m : Mem α) (x : Nat) : Except Fault κ :=
  match get_value m x with
  | .ok v => .ok (T.KeyOfValue v)
  | .error e => .error e

/-- Constructor `rb_tree()` with `rb_tree_init`; `h` is the address `get_node()`
returns for the header. -/
def rb_tree_init {α : Type} (m : Mem α) (h : Nat) : rb_tree α :=
  { mem := upd m h
      { color := rb_tree_red, parent := 0, left := h, right := h, value_field := none },
    header := h,
    node_count := 0 }

/-- Member `create_node(value)`: `p` is the address returned by `get_node()`,
`junk` the indeterminate colour bit of the raw block (`create_node` does not
initialise `color`). -/
def create_node {α : Type} (m : Mem α) (p : Nat) (junk : Bool) (value : α) : Mem α :=
  upd m p { color := junk, parent := 0, left := 0, right := 0, value_field := some value }

/-- Member `destroy_node(p)`: destroy the payload, release the node. -/
def destroy_node {α : Type} (m : Mem α) (p : Nat) : Except Fault (Mem α) :=
  match rd m p with
  | .ok _ => .ok (free m p)
  | .error e => .error e

/-- Member `begin()`: `leftmost()`, that is `header->left`. -/
def rb_tree.begin {α : Type} (s : rb_tree α) : Except Fault Nat :=
  get_left s.mem s.header

/-- Member `end()`: the header. -/
def rb_tree.end_ {α : Type} (s : rb_tree α) : Nat := s.header

/-- Descent loop shared by `find` and `lower_bound`:
`if (!key_compare(key(x), key)) y = x, x = left(x); else x = right(x);`. -/
def lower_loop {α κ : Type} (T : Traits α κ) (key : κ) :
    Nat → Mem α → Nat → Nat → Except Fault Nat
  | 0, _, _, _ => .error .out_of_fuel
  | fuel + 1, m, x, y =>
    if x = 0 then pure y
    else do
      let k ← get_key T m x
      if !T.key_compare k key then
        let l ← get_left m x
        lower_loop T key fuel m l x
      else
        let r ← get_right m x
        lower_loop T key fuel m r y

/-- Descent loop of `upper_bound`:
`if (key_compare(key, key(x))) y = x, x = left(x); else x = right(x);`. -/
def upper_loop {α κ : Type} (T : Traits α κ) (key : κ) :
    Nat → Mem α → Nat → Nat → Except Fault Nat
  | 0, _, _, _ => .error .out_of_fuel
  | fuel + 1, m, x, y =>
    if x = 0 then pure y
    else do
      let k ← get_key T m x
      if T.key_compare key k then
        let l ← get_left m x
        upper_loop T key fuel m l x
      else
        let r ← get_right m x
        upper_loop T key fuel m r y

/-- Member `lower_bound(key)`. -/
def rb_tree.lower_bound {α κ : Type} (T : Traits α κ) (fuel : Nat) (s : rb_tree α)
    (key : κ) : Except Fault Nat := do
  let root ← get_parent s.mem s.header
  lower_loop T key fuel s.mem root s.header

/-- Member `upper_bound(key)`. -/
def rb_tree.upper_bound {α κ : Type} (T : Traits α κ) (fuel : Nat) (s : rb_tree α)
    (key : κ) : Except Fault Nat := do
  let root ← get_parent s.mem s.header
  upper_loop T key fuel s.mem root s.header

/-- Member `find(key)`. -/
def rb_tree.find {α κ : Type} (T : Traits α κ) (fuel : Nat) (s : rb_tree α)
    (key : κ) : Except Fault Nat := do
  let root ← get_parent s.mem s.header
  let j ← lower_loop T key fuel s.mem root s.header
  if j = s.end_ then pure s.end_
  else
    let kj ← get_key T s.mem j
    if T.key_compare key kj then pure s.end_ else pure j

/-- Descent loop of `get_insert_multi_pos` and `get_insert_unique_pos`:
`y = x; add_to_left = key_compare(key, key(x)); x = add_to_left ? left(x) : right(x);`. -/
def insert_pos_loop {α κ : Type} (T : Traits α κ) (key : κ) :
    Nat → Mem α → Nat → Nat → Bool → Except Fault (Nat × Bool)
  | 0, _, _, _, _ => .error .out_of_fuel
  | fuel + 1, m, x, y, add_to_left =>
    if x = 0 then pure (y, add_to_left)
    else do
      let k ← get_key T m x
      if T.key_compare key k then
        let l ← get_left m x
        insert_pos_loop T key fuel m l x true
      else
        let r ← get_right m x
        insert_pos_loop T key fuel m r x false

/-- Member `get_insert_multi_pos(key)`. -/
def rb_tree.get_insert_multi_pos {α κ : Type} (T : Traits α κ) (fuel : Nat)
    (s : rb_tree α) (key : κ) : Except Fault (Nat × Bool) := do
  let root ← get_parent s.mem s.header
  insert_pos_loop T key fuel s.mem root s.header true

/-- Member `get_insert_unique_pos(key)`. -/
def rb_tree.get_insert_unique_pos {α κ : Type} (T : Traits α κ) (fuel : Nat)
    (s : rb_tree α) (key : κ) : Except Fault ((Nat × Bool) × Bool) := do
  let root ← get_parent s.mem s.header
  let (y, add_to_left) ← insert_pos_loop T key fuel s.mem root s.header true
  let at_front ←
    if add_to_left then
      if y = s.header then pure true
      else do
        let first ← s.begin
        pure (decide (y = first))
    else pure false
  if at_front then
    pure ((y, true), true)
  else
    let j ← if add_to_left then decrement fuel s.mem y else pure y
    let kj ← get_key T s.mem j
    if T.key_compare kj key then pure ((y, add_to_left), true)
    else pure ((y, add_to_left), false)

/-- First part of `insert_node_at` and `insert_value_at`: hang `node` below `x`
and update `root()`, `leftmost()`, `rightmost()`. -/
def link_node {α : Type} (m : Mem α) (hdr x node : Nat) (add_to_left : Bool) :
    Except Fault (Mem α) := do
  let m ← set_parent m node x
  if x = hdr then do
    let m ← set_parent m hdr node
    let m ← set_left m hdr node
    set_right m hdr node
  else if add_to_left then do
    let m ← set_left m x node
    let lm ← get_left m hdr
    if lm = x then set_left m hdr node else pure m
  else do
    let m ← set_right m x node
    let rm ← get_right m hdr
    if rm = x then set_right m hdr node else pure m

/-- Member `insert_node_at(x, node, add_to_left)`. -/
def rb_tree.insert_node_at {α κ : Type} (T : Traits α κ) (fuel : Nat) (s : rb_tree α)
    (x node : Nat) (add_to_left : Bool) : Except Fault (rb_tree α × Nat) := do
  let m ← link_node s.mem s.header x node add_to_left
  let m ← rb_tree_reblance fuel m node s.header
  pure ({ s with mem := m, node_count := (s.node_count + 1) % 2 ^ T.size_bits }, node)

/-- Member `insert_value_at(x, value, add_to_left)`: `create_node(value)` at the
fresh address `p`, then the body it shares with `insert_node_at`. -/
def rb_tree.insert_value_at {α κ : Type} (T : Traits α κ) (fuel : Nat) (s : rb_tree α)
    (x : Nat) (value : α) (add_to_left : Bool) (p : Nat) (junk : Bool) :
    Except Fault (rb_tree α × Nat) :=
  rb_tree.insert_node_at T fuel { s with mem := create_node s.mem p junk value } x p add_to_left

/-- Member `insert_multi(const value_type&)`. -/
def rb_tree.insert_multi {α κ : Type} (T : Traits α κ) (fuel : Nat) (s : rb_tree α)
    (value : α) (p : Nat) (junk : Bool) : Except Fault (rb_tree α × Nat) :=
  if s.node_count > T.max_size - 1 then .error .length_error
  else do
    let res ← s.get_insert_multi_pos T fuel (T.KeyOfValue value)
    s.insert_value_at T fuel res.1 value res.2 p junk

/-- Member `insert_unique(const value_type&)`. -/
def rb_tree.insert_unique {α κ : Type} (T : Traits α κ) (fuel : Nat) (s : rb_tree α)
    (value : α) (p : Nat) (junk : Bool) : Except Fault (rb_tree α × (Nat × Bool)) :=
  if s.node_count > T.max_size - 1 then .error .length_error
  else do
    let res ← s.get_insert_unique_pos T fuel (T.KeyOfValue value)
    if res.2 then
      let (s, it) ← s.insert_value_at T fuel res.1.1 value res.1.2 p junk
      pure (s, (it, true))
    else pure (s, (res.1.1, false))

/-- Member `emplace_unique(args...)`; `value` is the payload the arguments
construct. -/
def rb_tree.emplace_unique {α κ : Type} (T : Traits α κ) (fuel : Nat) (s : rb_tree α)
    (value : α) (p : Nat) (junk : Bool) : Except Fault (rb_tree α × (Nat × Bool)) :=
  if s.node_count > T.max_size - 1 then .error .length_error
  else do
    let s1 : rb_tree α := { s with mem := create_node s.mem p junk value }
    let k ← get_key T s1.mem p
    let res ← s1.get_insert_unique_pos T fuel k
    if res.2 then
      let (s2, it) ← s1.insert_node_at T fuel res.1.1 p res.1.2
      pure (s2, (it, true))
    else
      let m ← destroy_node s1.mem p
      pure ({ s1 with mem := m }, (res.1.1, false))

/-! ## Erasure -/

/-- Successor search of `rb_tree_rebalance_for_erase`, as written in the source:
`while (nullptr == y->left) y = y->left;`. -/
def erase_succ_loop {α : Type} : Nat → Mem α → Nat → Except Fault Nat
  | 0, _, _ => .error .out_of_fuel
  | fuel + 1, m, y => do
    let l ← get_left m y
    if l = 0 then erase_succ_loop fuel m l else pure y

/-- Test `nullptr == p || p->color == rb_tree_black`. -/
def is_black_or_null {α : Type} (m : Mem α) (p : Nat) : Except Fault Bool :=
  if p = 0 then pure true
  else do
    let c ← get_color m p
    pure (c == rb_tree_black)

/-- Loop test of the repair walk:
`x != root && (nullptr == x || x->color == rb_tree_black)`. -/
def erase_fix_cond {α : Type} (m : Mem α) (x hdr : Nat) : Except Fault Bool := do
  let root ← get_parent m hdr
  if x = root then pure false else is_black_or_null m x

/-- One pass through the body of the repair walk of
`rb_tree_rebalance_for_erase`; returns memory, `x`, `x_parent` and whether the
pass ended in `break`. -/
def erase_fix_body {α : Type} (m : Mem α) (x x_parent hdr : Nat) :
    Except Fault (Mem α × Nat × Nat × Bool) := do
  let xpl ← get_left m x_parent
  if x = xpl then
    let w ← get_right m x_parent
    let wc ← get_color m w
    let (m, w) ←
      if wc = rb_tree_red then do
        let m ← set_color m w rb_tree_black
        let m ← set_color m x_parent rb_tree_red
        let m ← rb_tree_rotate_left m x_parent hdr
        let w ← get_right m x_parent
        pure (m, w)
      else pure (m, w)
    let wl ← get_left m w
    let both ←
      if (← is_black_or_null m wl) then do
        let wr ← get_right m w
        is_black_or_null m wr
      else pure false
    if both then
      let m ← set_color m w rb_tree_red
      let xpp ← get_parent m x_parent
      pure (m, x_parent, xpp, false)
    else
      let wr ← get_right m w
      let (m, w) ←
        if (← is_black_or_null m wr) then do
          let m ← set_color m w rb_tree_red
          let m ← rb_tree_rotate_right m w hdr
          let w ← get_right m x_parent
          pure (m, w)
        else pure (m, w)
      let xpc ← get_color m x_parent
      let m ← set_color m w xpc
      let m ← set_color m x_parent rb_tree_black
      let wr ← get_right m w
      let m ← if wr ≠ 0 then set_color m wr rb_tree_black else pure m
      let m ← rb_tree_rotate_left m x_parent hdr
      pure (m, x, x_parent, true)
  else
    let w ← get_left m x_parent
    let wc ← get_color m w
    let (m, w) ←
      if wc = rb_tree_red then do
        let m ← set_color m w rb_tree_black
        let m ← set_color m x_parent rb_tree_red
        let m ← rb_tree_rotate_right m x_parent hdr
        let w ← get_left m x_parent
        pure (m, w)
      else pure (m, w)
    let wr ← get_right m w
    let both ←
      if (← is_black_or_null m wr) then do
        let wl ← get_left m w
        is_black_or_null m wl
      else pure false
    if both then
      let m ← set_color m w rb_tree_red
      let xpp ← get_parent m x_parent
      pure (m, x_parent, xpp, false)
    else
      let wl ← get_left m w
      let (m, w) ←
        if (← is_black_or_null m wl) then do
          let wr ← get_right m w
          let m ← if wr ≠ 0 then set_color m wr rb_tree_black else pure m
          let m ← set_color m w rb_tree_red
          let w ← get_left m x_parent
          pure (m, w)
        else pure (m, w)
      let xpc ← get_color m x_parent
      let m ← set_color m w xpc
      let m ← set_color m x_parent rb_tree_black
      let wl ← get_left m w
      let m ← if wl ≠ 0 then set_color m wl rb_tree_black else pure m
      let m ← rb_tree_rotate_right m x_parent hdr
      pure (m, x, x_parent, true)

/-- The repair walk of `rb_tree_rebalance_for_erase`; returns memory and the
final `x`. -/
def erase_fix_loop {α : Type} : Nat → Mem α → Nat → Nat → Nat → Except Fault (Mem α × Nat)
  | 0, _, _, _, _ => .error .out_of_fuel
  | fuel + 1, m, x, x_parent, hdr => do
    if (← erase_fix_cond m x hdr) then
      let (m, x, x_parent, stop) ← erase_fix_body m x x_parent hdr
      if stop then pure (m, x) else erase_fix_loop fuel m x x_parent hdr
    else pure (m, x)

/-- Function `rb_tree_rebalance_for_erase(z, root, leftmost, rightmost)`.  The
three reference parameters are bound to `header->parent`, `header->left` and
`header->right`; they are passed as the header address `hdr`.  Returns the
memory and the node to destroy. -/
def rb_tree_rebalance_for_erase {α : Type} (fuel : Nat) (m : Mem α) (z hdr : Nat) :
    Except Fault (Mem α × Nat) := do
  let zl ← get_left m z
  let zr ← get_right m z
  let (y, x) ←
    if zl = 0 then pure (z, zr)
    else if zr = 0 then pure (z, zl)
    else do
      let y ← erase_succ_loop fuel m zr
      let x ← get_right m y
      pure (y, x)
  let (m, y, x_parent) ←
    if y ≠ z then do
      let zl ← get_left m z
      let m ← set_parent m zl y
      let zl ← get_left m z
      let m ← set_left m y zl
      let zr ← get_right m z
      let (m, x_parent) ←
        if y ≠ zr then do
          let x_parent ← get_parent m y
          let m ←
            if x ≠ 0 then do
              let yp ← get_parent m y
              set_parent m x yp
            else pure m
          let yp ← get_parent m y
          let m ← set_left m yp x
          let zr ← get_right m z
          let m ← set_right m y zr
          let zr ← get_right m z
          let m ← set_parent m zr y
          pure (m, x_parent)
        else pure (m, y)
      let root ← get_parent m hdr
      let m ←
        if root = z then set_parent m hdr y
        else do
          let zp ← get_parent m z
          let zpl ← get_left m zp
          if zpl = z then set_left m zp y
          else set_right m zp y
      let zp ← get_parent m z
      let m ← set_parent m y zp
      let yc ← get_color m y
      let zc ← get_color m z
      let m ← set_color m y zc
      let m ← set_color m z yc
      pure (m, z, x_parent)
    else do
      let x_parent ← get_parent m y
      let m ←
        if x ≠ 0 then do
          let yp ← get_parent m y
          set_parent m x yp
        else pure m
      let root ← get_parent m hdr
      let m ←
        if root = z then set_parent m hdr x
        else do
          -- `else if (z->parent->left = z)`: an assignment, whose value `z` is
          -- non-null, so the branch below is always the one taken
          let zp ← get_parent m z
          let m ← set_left m zp z
          if z ≠ 0 then do
            let zp ← get_parent m z
            set_left m zp x
          else do
            let zp ← get_parent m z
            set_right m zp x
      let lm ← get_left m hdr
      let m ←
        if lm = z then do
          let zr ← get_right m z
          if zr = 0 then do
            let zp ← get_parent m z
            set_left m hdr zp
          else do
            let mn ← minimum fuel m x
            set_left m hdr mn
        else pure m
      let rm ← get_right m hdr
      let m ←
        if rm = z then do
          let zl ← get_left m z
          if zl = 0 then do
            let zp ← get_parent m z
            set_right m hdr zp
          else do
            let mx ← maximum fuel m x
            set_right m hdr mx
        else pure m
      pure (m, y, x_parent)
  let yc ← get_color m y
  if yc ≠ rb_tree_red then
    let (m, x) ← erase_fix_loop fuel m x x_parent hdr
    let m ← if x ≠ 0 then set_color m x rb_tree_black else pure m
    pure (m, y)
  else pure (m, y)

/-- Member `erase(iterator hint)`; returns the tree and the iterator to the
element after the erased one. -/
def rb_tree.erase {α κ : Type} (T : Traits α κ) (fuel : Nat) (s : rb_tree α) (hint : Nat) :
    Except Fault (rb_tree α × Nat) := do
  let nex ← increment fuel s.mem hint
  let (m, _) ← rb_tree_rebalance_for_erase fuel s.mem hint s.header
  let m ← destroy_node m hint
  pure ({ s with mem := m,
                 node_count := (s.node_count + 2 ^ T.size_bits - 1) % 2 ^ T.size_bits }, nex)

/-! ## Observation: walking the iterator range -/

/-- Collect `*it` for `it` running from `it` up to `last` by `++it`. -/
def walk {α : Type} : Nat → Nat → Mem α → Nat → Nat → Except Fault (List α)
  | 0, _, _, _, _ => .error .out_of_fuel
  | n + 1, fuel, m, it, last =>
    if it = last then pure []
    else do
      let v ← get_value m it
      let nx ← increment fuel m it
      let rest ← walk n fuel m nx last
      pure (v :: rest)

/-- The sequence of payloads met from `begin()` to `end()`. -/
def rb_tree.to_list {α : Type} (fuel : Nat) (s : rb_tree α) : Except Fault (List α) := do
  let b ← s.begin
  walk fuel fuel s.mem b s.end_

/-- Member `size()`. -/
def rb_tree.size {α : Type} (s : rb_tree α) : Nat := s.node_count

/-! ## Abstract trees and the representation relation -/

/-- Binary tree in which every node carries its address, colour and payload. -/
inductive Tree (α : Type) where
  | nil : Tree α
  | node (a : Nat) (c : Bool) (l : Tree α) (v : α) (r : Tree α) : Tree α

/-- Address of the root, `0` for the empty tree. -/
def Tree.ptr {α : Type} : Tree α → Nat
  | .nil => 0
  | .node a _ _ _ _ => a

/-- In-order list of (address, payload). -/
def Tree.nodes {α : Type} : Tree α → List (Nat × α)
  | .nil => []
  | .node a _ l v r => Tree.nodes l ++ (a, v) :: Tree.nodes r

/-- In-order list of addresses. -/
def Tree.addrs {α : Type} (t : Tree α) : List Nat := t.nodes.map Prod.fst

/-- In-order list of payloads. -/
def Tree.toList {α : Type} (t : Tree α) : List α := t.nodes.map Prod.snd

/-- Number of nodes. -/
def Tree.size {α : Type} : Tree α → Nat
  | .nil => 0
  | .node _ _ l _ r => Tree.size l + 1 + Tree.size r

/-- Number of nodes on the longest path from the root to a leaf. -/
def Tree.height {α : Type} : Tree α → Nat
  | .nil => 0
  | .node _ _ l _ r => max (Tree.height l) (Tree.height r) + 1

/-- Whether the root exists and is red. -/
def Tree.isRed {α : Type} : Tree α → Bool
  | .node _ c _ _ _ => c == rb_tree_red
  | .nil => false

/-- Colour the root black. -/
def Tree.blacken {α : Type} : Tree α → Tree α
  | .nil => .nil
  | .node a _ l v r => .node a rb_tree_black l v r

/-- No red node has a red child. -/
def Tree.NoRedRed {α : Type} : Tree α → Prop
  | .nil => True
  | .node _ c l _ r =>
    (c = rb_tree_red → l.isRed = false ∧ r.isRed = false) ∧ Tree.NoRedRed l ∧ Tree.NoRedRed r

/-- Number of black nodes on the leftmost path to a null link. -/
def Tree.bh {α : Type} : Tree α → Nat
  | .nil => 0
  | .node _ c l _ _ => Tree.bh l + (if c = rb_tree_black then 1 else 0)

/-- Every path from a node to a null link below it has the same number of
black nodes. -/
def Tree.Balanced {α : Type} : Tree α → Prop
  | .nil => True
  | .node _ _ l _ r => Tree.bh l = Tree.bh r ∧ Tree.Balanced l ∧ Tree.Balanced r

/-- The root, if any, is black. -/
def Tree.RootBlack {α : Type} (t : Tree α) : Prop := t.isRed = false

/-- Memory `m` holds the tree `t` below the parent address `par`: every node
record has the colour, payload and child links of `t` and points back to its
parent. -/
def Rep {α : Type} (m : Mem α) : Nat → Tree α → Prop
  | _, .nil => True
  | par, .node a c l v r =>
    a ≠ 0 ∧
    m a = some { color := c, parent := par, left := l.ptr, right := r.ptr,
                 value_field := some v } ∧
    Rep m a l ∧ Rep m a r

/-- One step of the path from a subtree up to the root: the parent node and the
sibling subtree.  `L`: the subtree is the left child; `R`: it is the right child. -/
inductive Frame (α : Type) where
  | L (a : Nat) (c : Bool) (v : α) (r : Tree α) : Frame α
  | R (a : Nat) (c : Bool) (l : Tree α) (v : α) : Frame α

/-- Address of the parent node. -/
def Frame.addr {α : Type} : Frame α → Nat
  | .L a _ _ _ => a
  | .R a _ _ _ => a

/-- Colour of the parent node. -/
def Frame.color {α : Type} : Frame α → Bool
  | .L _ c _ _ => c
  | .R _ c _ _ => c

/-- Put a subtree into the hole of the frame. -/
def Frame.fill {α : Type} : Frame α → Tree α → Tree α
  | .L a c v r, t => .node a c t v r
  | .R a c l v, t => .node a c l v t

/-- Path from a subtree to the root, innermost frame first. -/
abbrev Ctx (α : Type) := List (Frame α)

/-- Rebuild the whole tree from a path and the subtree in its hole. -/
def plug {α : Type} : Ctx α → Tree α → Tree α
  | [], t => t
  | f :: fs, t => plug fs (f.fill t)

/-- Address the subtree in the hole has as its parent: the innermost frame, or
the header for the root. -/
def ctxPtr {α : Type} (hdr : Nat) : Ctx α → Nat
  | [] => hdr
  | f :: _ => f.addr

/-- In-order nodes of the path that come before the hole. -/
def ctxBefore {α : Type} : Ctx α → List (Nat × α)
  | [] => []
  | .L _ _ _ _ :: fs => ctxBefore fs
  | .R a _ l v :: fs => ctxBefore fs ++ (l.nodes ++ [(a, v)])

/-- In-order nodes of the path that come after the hole. -/
def ctxAfter {α : Type} : Ctx α → List (Nat × α)
  | [] => []
  | .L a _ v r :: fs => ((a, v) :: r.nodes) ++ ctxAfter fs
  | .R _ _ _ _ :: fs => ctxAfter fs

/-- Memory `m` holds the path `ctx` around a hole whose content has root address
`h`: the header record (for the empty path) or the parent record points down to
`h`, siblings are represented, and so on up to the header.  `lm` and `rm` are
the header's `left` and `right` fields. -/
def RepCtx {α : Type} (m : Mem α) (hdr lm rm : Nat) : Ctx α → Nat → Prop
  | [], h =>
    m hdr = some { color := rb_tree_red, parent := h, left := lm, right := rm,
                   value_field := none }
  | .L a c v r :: fs, h =>
    a ≠ 0 ∧
    m a = some { color := c, parent := ctxPtr hdr fs, left := h, right := r.ptr,
                 value_field := some v } ∧
    Rep m a r ∧ RepCtx m hdr lm rm fs a
  | .R a c l v :: fs, h =>
    a ≠ 0 ∧
    m a = some { color := c, parent := ctxPtr hdr fs, left := l.ptr, right := h,
                 value_field := some v } ∧
    Rep m a l ∧ RepCtx m hdr lm rm fs a

/-- Zipper representation: memory `m` holds the tree `plug ctx t` under the
header `hdr`, seen from the subtree `t`; all addresses are distinct, and
outside the header and the tree `m` agrees with the reference memory `m0`. -/
structure Z {α : Type} (m m0 : Mem α) (hdr lm rm : Nat) (ctx : Ctx α) (t : Tree α) : Prop where
  hdr_ne : hdr ≠ 0
  nodup : (hdr :: (plug ctx t).addrs).Nodup
  rctx : RepCtx m hdr lm rm ctx t.ptr
  rsub : Rep m (ctxPtr hdr ctx) t
  frame : ∀ a, a ≠ hdr → a ∉ (plug ctx t).addrs → m a = m0 a

/-- Root address of `plug ctx t` in terms of the root address `h` of `t`: the
outermost frame, or `h` itself for the empty path. -/
def ctxRoot {α : Type} (h : Nat) : Ctx α → Nat
  | [] => h
  | f :: fs => ctxRoot f.addr fs

/-- In-order addresses of the path that come before the hole. -/
def ctxBeforeA {α : Type} : Ctx α → List Nat
  | [] => []
  | .L _ _ _ _ :: fs => ctxBeforeA fs
  | .R a _ l _ :: fs => ctxBeforeA fs ++ (l.addrs ++ [a])

/-- In-order addresses of the path that come after the hole. -/
def ctxAfterA {α : Type} : Ctx α → List Nat
  | [] => []
  | .L a _ _ r :: fs => (a :: r.addrs) ++ ctxAfterA fs
  | .R _ _ _ _ :: fs => ctxAfterA fs

/-- Addresses of the frames and siblings of a path. -/
def ctxAddrs {α : Type} (ctx : Ctx α) : List Nat :=
  ctxBeforeA ctx ++ ctxAfterA ctx

/-- One pass of the repair loop of `rb_tree_reblance`, on the path: `t` is the
subtree at `x`, `f1` its (red) parent, `f2` its grandparent.  Case 1 (red
uncle) gives the recoloured grandparent subtree, from which the loop
continues; otherwise the rotations give the final parent frame and subtree of
the loop variable `x`. -/
def fix_case {α : Type} : Tree α → Frame α → Frame α → Tree α ⊕ (Frame α × Tree α)
  | t, .L p _ pv ps, .L g _ gv u =>
    if u.isRed then .inl (.node g rb_tree_red (.node p rb_tree_black t pv ps) gv u.blacken)
    else .inr (.L p rb_tree_black pv (.node g rb_tree_red ps gv u), t)
  | .node x xc tl xv tr, .R p pc pl pv, .L g _ gv u =>
    if u.isRed then
      .inl (.node g rb_tree_red (.node p rb_tree_black pl pv (.node x xc tl xv tr)) gv
        u.blacken)
    else .inr (.L x rb_tree_black xv (.node g rb_tree_red tr gv u), .node p pc pl pv tl)
  | .node x xc tl xv tr, .L p pc pv ps, .R g _ ul gv =>
    if ul.isRed then
      .inl (.node g rb_tree_red ul.blacken gv
        (.node p rb_tree_black (.node x xc tl xv tr) pv ps))
    else .inr (.R x rb_tree_black (.node g rb_tree_red ul gv tl) xv, .node p pc tr pv ps)
  | t, .R p _ pl pv, .R g _ ul gv =>
    if ul.isRed then .inl (.node g rb_tree_red ul.blacken gv (.node p rb_tree_black pl pv t))
    else .inr (.R p rb_tree_black (.node g rb_tree_red ul gv pl) pv, t)
  | .nil, f1, _ => .inr (f1, .nil)

/-- The repair loop of `rb_tree_reblance` on the path: the final path and
subtree of the loop variable `x`. -/
def fixup {α : Type} : Ctx α → Tree α → Ctx α × Tree α
  | f1 :: f2 :: rest, t =>
    if f1.color = rb_tree_red then
      match fix_case t f1 f2 with
      | .inl t' => fixup rest t'
      | .inr (f', t') => (f' :: rest, t')
    else (f1 :: f2 :: rest, t)
  | [f], t => ([f], t)
  | [], t => ([], t)

/-- The outermost frame of the path (the root of the tree) is black. -/
def LastBlack {α : Type} : Ctx α → Prop
  | [] => True
  | [f] => f.color = rb_tree_black
  | _ :: g :: fs => LastBlack (g :: fs)

/-- Colour the root red (first statement of `rb_tree_reblance`). -/
def Tree.redden {α : Type} : Tree α → Tree α
  | .nil => .nil
  | .node a _ l v r => .node a rb_tree_red l v r

/-- Result of `rb_tree_reblance` on the whole tree, for the node at the root of
`t` below the path `ctx`. -/
def reblanced {α : Type} (ctx : Ctx α) (t : Tree α) : Tree α :=
  (plug (fixup ctx t.redden).1 (fixup ctx t.redden).2).blacken

/-- The sibling subtree stored in a frame. -/
def Frame.sib {α : Type} : Frame α → Tree α
  | .L _ _ _ r => r
  | .R _ _ l _ => l

/-- The path is non-empty and its innermost frame is black. -/
def HeadBlack {α : Type} : Ctx α → Prop
  | [] => False
  | f :: _ => f.color = rb_tree_black

/-- Red-black conditions on a path whose hole expects a subtree of black
height `n`: siblings are balanced red-black trees of the matching black
height, and a red frame has a black sibling and a black parent frame. -/
def CtxOK {α : Type} : Ctx α → Nat → Prop
  | [], _ => True
  | f :: rest, n =>
    f.sib.bh = n ∧ f.sib.Balanced ∧ f.sib.NoRedRed ∧
    (f.color = rb_tree_red → f.sib.isRed = false ∧ HeadBlack rest) ∧
    CtxOK rest (n + if f.color = rb_tree_black then 1 else 0)

/-- The insertion descent of `get_insert_multi_pos` / `get_insert_unique_pos` on
the abstract tree: the path from the null link it ends at up to the root. -/
def descend {α κ : Type} (T : Traits α κ) (key : κ) : Tree α → Ctx α → Ctx α
  | .nil, ctx => ctx
  | .node a c l v r, ctx =>
    if T.key_compare key (T.KeyOfValue v) then descend T key l (.L a c v r :: ctx)
    else descend T key r (.R a c l v :: ctx)

/-- Value of `add_to_left` at the end of the descent along a path. -/
def headIsLeft {α : Type} : Ctx α → Bool
  | [] => true
  | .L _ _ _ _ :: _ => true
  | .R _ _ _ _ :: _ => false

/-- Result of the `lower_bound` descent on the abstract tree, with `y` the
candidate so far. -/
def lbound {α κ : Type} (T : Traits α κ) (key : κ) : Tree α → Nat → Nat
  | .nil, y => y
  | .node a _ l v r, y =>
    if !T.key_compare (T.KeyOfValue v) key then lbound T key l a else lbound T key r y

/-- Result of the `upper_bound` descent on the abstract tree. -/
def ubound {α κ : Type} (T : Traits α κ) (key : κ) : Tree α → Nat → Nat
  | .nil, y => y
  | .node a _ l v r, y =>
    if T.key_compare key (T.KeyOfValue v) then ubound T key l a else ubound T key r y

/-- Address of the first node in order, or `hdr` for the empty tree
(`leftmost()`). -/
def Tree.first {α : Type} (t : Tree α) (hdr : Nat) : Nat := t.addrs.head?.getD hdr

/-- Address of the last node in order, or `hdr` for the empty tree
(`rightmost()`). -/
def Tree.last {α : Type} (t : Tree α) (hdr : Nat) : Nat := t.addrs.getLast?.getD hdr

/-- The tree object `s` is well formed and holds the abstract tree `t`: the
header record and every node record are linked as in `t` (children, parents,
colours, payloads), `leftmost()` and `rightmost()` are the first and last node,
and `node_count` is the number of nodes. -/
structure WF {α : Type} (s : rb_tree α) (t : Tree α) : Prop where
  z : Z s.mem s.mem s.header (t.first s.header) (t.last s.header) [] t
  count : s.node_count = t.size

/-- Strict weak order: irreflexive, transitive, and incomparability is
transitive (stated through negative transitivity). -/
structure StrictWeakOrder {κ : Type} (lt : κ → κ → Bool) : Prop where
  irrefl : ∀ a, lt a a = false
  trans : ∀ a b c, lt a b = true → lt b c = true → lt a c = true
  neg_trans : ∀ a b c, lt a b = false → lt b c = false → lt a c = false

/-- Keys `a` and `b` are equivalent: neither compares less than the other. -/
def equiv {κ : Type} (lt : κ → κ → Bool) (a b : κ) : Prop := lt a b = false ∧ lt b a = false

/-- BST order: the in-order key sequence never decreases under `key_compare`. -/
def Tree.Ordered {α κ : Type} (T : Traits α κ) (t : Tree α) : Prop :=
  t.toList.Pairwise (fun a b => T.key_compare (T.KeyOfValue b) (T.KeyOfValue a) = false)

/-- BST order for unique keys: the in-order key sequence strictly increases. -/
def Tree.StrictOrdered {α κ : Type} (T : Traits α κ) (t : Tree α) : Prop :=
  t.toList.Pairwise (fun a b => T.key_compare (T.KeyOfValue a) (T.KeyOfValue b) = true)

/-- The red-black invariants of the abstract tree: BST order, black root, no
red node with a red child, equal black count on every path to a null link. -/
structure Tree.RB {α κ : Type} (T : Traits α κ) (t : Tree α) : Prop where
  ordered : t.Ordered T
  root_black : t.RootBlack
  no_red_red : t.NoRedRed
  balanced : t.Balanced

/-- Path to the null link where `insert_multi` / `insert_unique` attach a node
carrying `v`. -/
def ins_path {α κ : Type} (T : Traits α κ) (v : α) (t : Tree α) : Ctx α :=
  descend T (T.KeyOfValue v) t []

/-- The abstract tree after inserting a node with address `p` and payload `v`
(`junk` is the colour bit the raw node had). -/
def ins_tree {α κ : Type} (T : Traits α κ) (v : α) (p : Nat) (junk : Bool) (t : Tree α) :
    Tree α :=
  reblanced (ins_path T v t) (.node p junk .nil v .nil)

/-- Outcome of the duplicate test of `get_insert_unique_pos`: `B` are the nodes
before the insertion position; the test passes when there is none or the last
of them has a key less than `key`. -/
def pred_ok {α κ : Type} (T : Traits α κ) (key : κ) (B : List (Nat × α)) : Bool :=
  match B.getLast? with
  | none => true
  | some e => T.key_compare (T.KeyOfValue e.2) key

/-- Boolean form of key equivalence of a stored payload with `key`. -/
def equivb {α κ : Type} (T : Traits α κ) (key : κ) (e : Nat × α) : Bool :=
  !T.key_compare (T.KeyOfValue e.2) key && !T.key_compare key (T.KeyOfValue e.2)

/-- Address of the first node of `l` that satisfies `p`, or `d` when there is
none. -/
def first_addr {α : Type} (p : Nat × α → Bool) (l : List (Nat × α)) (d : Nat) : Nat :=
  ((l.find? p).map Prod.fst).getD d

/-! ## Sequences of insertions and concrete instances -/

/-- Run `insert_unique` for each `(value, address, junk)` of a list in turn; the
address is the one `get_node()` returns for that call. -/
def insert_unique_all {α κ : Type} (T : Traits α κ) (fuel : Nat) :
    List (α × Nat × Bool) → rb_tree α → Except Fault (rb_tree α)
  | [], s => pure s
  | x :: rest, s => do
    let r ← s.insert_unique T fuel x.1 x.2.1 x.2.2
    insert_unique_all T fuel rest r.1

/-- Colour of the root, `rb_tree_black` for the empty tree. -/
def rb_tree.root_color {α : Type} (s : rb_tree α) : Except Fault Bool := do
  let r ← get_parent s.mem s.header
  if r = 0 then pure rb_tree_black else get_color s.mem r

/-- Instance `rb_tree<int, int, identity, less>` with a 64-bit `size_type`
(the tree behind `set<int>`), keys taken as natural numbers. -/
def natT : Traits Nat Nat :=
  { KeyOfValue := fun v => v, key_compare := fun a b => decide (a < b), size_bits := 64 }

/-- The empty tree with its header at address 1 in an otherwise empty heap. -/
def empty_tree : rb_tree Nat := rb_tree_init (fun _ => none) 1

/-- Insert the given keys with `insert_unique`, the nodes going to the
consecutive addresses from `p` on. -/
def ops_from (p : Nat) : List Nat → List (Nat × Nat × Bool)
  | [] => []
  | v :: vs => (v, p, rb_tree_red) :: ops_from (p + 1) vs

/-- Scenario A of the specification: keys 50, 30, 70, 20, 40, 60, 80 inserted
into the empty tree. -/
def scenario_A : Except Fault (rb_tree Nat) :=
  insert_unique_all natT 20 (ops_from 2 [50, 30, 70, 20, 40, 60, 80]) empty_tree

/-- The tree built by inserting 2, 1, 3: root 2 at address 2, left child 1 at
address 3, right child 3 at address 4. -/
def scenario_213 : Except Fault (rb_tree Nat) :=
  insert_unique_all natT 20 (ops_from 2 [2, 1, 3]) empty_tree

/-- Erase the element found under `key` and hand the resulting tree on. -/
def erase_key (fuel : Nat) (s : rb_tree Nat) (key : Nat) : Except Fault (rb_tree Nat) := do
  let it ← s.find natT fuel key
  let r ← s.erase natT fuel it
  pure r.1

/-- A well-formed three-node tree, written out: header at 1; root 2 (black) at
address 2; 1 (red) at address 3; 3 (red) at address 4. -/
def three_mem : Mem Nat := fun a =>
  if a = 1 then some { color := rb_tree_red, parent := 2, left := 3, right := 4,
                       value_field := none }
  else if a = 2 then some { color := rb_tree_black, parent := 1, left := 3, right := 4,
                            value_field := some 2 }
  else if a = 3 then some { color := rb_tree_red, parent := 2, left := 0, right := 0,
                            value_field := some 1 }
  else if a = 4 then some { color := rb_tree_red, parent := 2, left := 0, right := 0,
                            value_field := some 3 }
  else none

/-- The tree object over `three_mem`. -/
def three_tree : rb_tree Nat := { mem := three_mem, header := 1, node_count := 3 }

/-- The abstract tree `three_tree` holds. -/
def three_abs : Tree Nat :=
  .node 2 rb_tree_black (.node 3 rb_tree_red .nil 1 .nil) 2 (.node 4 rb_tree_red .nil 3 .nil)

/-! ## Further members of `rb_tree`, and `map::at` -/

/-- Member `erase_unique(key)`, as written in the source: both paths end in
`return 1`. -/
def rb_tree.erase_unique {α κ : Type} (T : Traits α κ) (fuel : Nat) (s : rb_tree α)
    (key : κ) : Except Fault (rb_tree α × Nat) := do
  let p ← s.find T fuel key
  if s.end_ = p then pure (s, 1)
  else do
    let r ← s.erase T fuel p
    pure (r.1, 1)

/-- Member `equal_range_multi(key)`: the pair `(lower_bound(key), upper_bound(key))`. -/
def rb_tree.equal_range_multi {α κ : Type} (T : Traits α κ) (fuel : Nat) (s : rb_tree α)
    (key : κ) : Except Fault (Nat × Nat) := do
  let lo ← s.lower_bound T fuel key
  let hi ← s.upper_bound T fuel key
  pure (lo, hi)

/-- Modelled from the spec: `mystl::distance(first, last)` of `iterator.h`, which
is not among the sources; for the bidirectional tree iterators it is the number
of `++first` steps that reach `last`. -/
def distance {α : Type} : Nat → Nat → Mem α → Nat → Nat → Except Fault Nat
  | 0, _, _, _, _ => .error .out_of_fuel
  | n + 1, fuel, m, first, last =>
    if first = last then pure 0
    else do
      let nx ← increment fuel m first
      let d ← distance n fuel m nx last
      pure (d + 1)

/-- Member `count_multi(key)`: `distance` over `equal_range_multi(key)`, cast to
`size_type`. -/
def rb_tree.count_multi {α κ : Type} (T : Traits α κ) (fuel : Nat) (s : rb_tree α)
    (key : κ) : Except Fault Nat := do
  let p ← s.equal_range_multi T fuel key
  let d ← distance fuel fuel s.mem p.1 p.2
  pure (d % 2 ^ T.size_bits)

/-- Run `insert_multi` for each `(value, address, junk)` of a list in turn. -/
def insert_multi_all {α κ : Type} (T : Traits α κ) (fuel : Nat) :
    List (α × Nat × Bool) → rb_tree α → Except Fault (rb_tree α)
  | [], s => pure s
  | x :: rest, s => do
    let r ← s.insert_multi T fuel x.1 x.2.1 x.2.2
    insert_multi_all T fuel rest r.1

/-- Member `map::at(key)` of `map.h` on the underlying tree `t`:
`it = lower_bound(key)`, then
`THROW_OUT_OF_RANGE_IF(it == end() || key_comp()(it->first, key))`, then
`it->second`. -/
def map_at {κ β : Type} (T : Traits (κ × β) κ) (fuel : Nat) (s : rb_tree (κ × β)) (key : κ) :
    Except Fault β := do
  let it ← s.lower_bound T fuel key
  if it = s.end_ then .error .out_of_range
  else do
    let v ← get_value s.mem it
    if T.key_compare v.1 key then .error .out_of_range else pure v.2

/-- Instance behind `map<int, int>` and `multimap<int, int>`: payloads are
pairs, `select1st` takes the key, `less` compares. -/
def pairT : Traits (Nat × Nat) Nat :=
  { KeyOfValue := fun v => v.1, key_compare := fun a b => decide (a < b), size_bits := 64 }

/-- The empty tree of pairs with its header at address 1. -/
def empty_pairs : rb_tree (Nat × Nat) := rb_tree_init (fun _ => none) 1

/-- Give payloads consecutive node addresses from `p` on. -/
def at_addrs {α : Type} (p : Nat) : List α → List (α × Nat × Bool)
  | [] => []
  | v :: vs => (v, p, rb_tree_red) :: at_addrs (p + 1) vs

/-- The map holding 1 ↦ 10 and 3 ↦ 30. -/
def map_13 : Except Fault (rb_tree (Nat × Nat)) :=
  insert_unique_all pairT 20 (at_addrs 2 [(1, 10), (3, 30)]) empty_pairs

/-- The multimap holding 1 ↦ 10, 2 ↦ 20, 3 ↦ 30, inserted as 2, 1, 3. -/
def multi_123 : Except Fault (rb_tree (Nat × Nat)) :=
  insert_multi_all pairT 20 (at_addrs 2 [(2, 20), (1, 10), (3, 30)]) empty_pairs

/-- Scenario D of the specification: multi-mode insertion of 5, 3, 5, 5, 1. -/
def scenario_D : Except Fault (rb_tree Nat) :=
  insert_multi_all natT 20 (ops_from 2 [5, 3, 5, 5, 1]) empty_tree

/-! ## Height, teardown and copying -/

/-- Number of nodes on the longest path from node `x` down to a null link. -/
def node_height {α : Type} : Nat → Mem α → Nat → Except Fault Nat
  | 0, _, _ => .error .out_of_fuel
  | fuel + 1, m, x =>
    if x = 0 then pure 0
    else do
      let l ← get_left m x
      let r ← get_right m x
      let hl ← node_height fuel m l
      let hr ← node_height fuel m r
      pure (max hl hr + 1)

/-- Height of the tree: `node_height` of `root()`. -/
def rb_tree.height {α : Type} (fuel : Nat) (s : rb_tree α) : Except Fault Nat := do
  let root ← get_parent s.mem s.header
  node_height fuel s.mem root

/-- Member `erase_since(x)`:
`while (nullptr != x) { erase_since(right(x)); y = left(x); destroy_node(x); x = y; }`. -/
def erase_since {α : Type} : Nat → Mem α → Nat → Except Fault (Mem α)
  | 0, _, _ => .error .out_of_fuel
  | fuel + 1, m, x =>
    if x = 0 then pure m
    else do
      let r ← get_right m x
      let m ← erase_since fuel m r
      let y ← get_left m x
      let m ← destroy_node m x
      erase_since fuel m y

/-- Member `clear()`. -/
def rb_tree.clear {α : Type} (fuel : Nat) (s : rb_tree α) : Except Fault (rb_tree α) :=
  if s.node_count > 0 then do
    let root ← get_parent s.mem s.header
    let m ← erase_since fuel s.mem root
    let m ← set_left m s.header s.header
    let m ← set_parent m s.header 0
    let m ← set_right m s.header s.header
    pure { s with mem := m, node_count := 0 }
  else pure s

/-- Loop of `erase(first, last)`: `for (; first != last; ) erase(first++);`. -/
def erase_range_loop {α κ : Type} (T : Traits α κ) :
    Nat → Nat → rb_tree α → Nat → Nat → Except Fault (rb_tree α)
  | 0, _, _, _, _ => .error .out_of_fuel
  | n + 1, fuel, s, first, last =>
    if first = last then pure s
    else do
      let nx ← increment fuel s.mem first
      let r ← s.erase T fuel first
      erase_range_loop T n fuel r.1 nx last

/-- Member `erase(first, last)`. -/
def rb_tree.erase_range {α κ : Type} (T : Traits α κ) (fuel : Nat) (s : rb_tree α)
    (first last : Nat) : Except Fault (rb_tree α) := do
  let b ← s.begin
  if first = b ∧ last = s.end_ then s.clear fuel
  else erase_range_loop T fuel fuel s first last

/-- Member `clone_type(x)`: `create_node(x->value_field)` at the fresh address
`p`, then `tmp->color = x->color; tmp->left = nullptr; tmp->right = nullptr;`. -/
def clone_type {α : Type} (m : Mem α) (x p : Nat) (junk : Bool) : Except Fault (Mem α) := do
  let v ← get_value m x
  let m := create_node m p junk v
  let c ← get_color m x
  let m ← set_color m p c
  let m ← set_left m p 0
  set_right m p 0

mutual
/-- Member `__copy(x, p)`.  `alloc n` is the address the `n`-th call of
`get_node()` returns and `junk n` the colour bit of that raw block; the result
is the memory, the address of the copy of `x`, and the number of nodes
allocated so far. -/
def __copy {α : Type} (alloc : Nat → Nat) (junk : Nat → Bool) :
    Nat → Mem α → Nat → Nat → Nat → Except Fault (Mem α × Nat × Nat)
  | 0, _, _, _, _ => .error .out_of_fuel
  | fuel + 1, m, x, p, n => do
    let top := alloc n
    let m ← clone_type m x top (junk n)
    let m ← set_parent m top p
    let xr ← get_right m x
    let (m, n) ←
      if xr = 0 then pure (m, n + 1)
      else do
        let (m, r, n) ← __copy alloc junk fuel m xr top (n + 1)
        let m ← set_right m top r
        pure (m, n)
    let xl ← get_left m x
    let (m, n) ← copy_left alloc junk fuel m xl top n
    pure (m, top, n)
/-- The loop of `__copy` down the left spine:
`while (nullptr != x) { y = clone_type(x); p->left = y; y->parent = p; ... }`. -/
def copy_left {α : Type} (alloc : Nat → Nat) (junk : Nat → Bool) :
    Nat → Mem α → Nat → Nat → Nat → Except Fault (Mem α × Nat)
  | 0, _, _, _, _ => .error .out_of_fuel
  | fuel + 1, m, x, p, n =>
    if x = 0 then pure (m, n)
    else do
      let y := alloc n
      let m ← clone_type m x y (junk n)
      let m ← set_left m p y
      let m ← set_parent m y p
      let xr ← get_right m x
      let (m, n) ←
        if xr = 0 then pure (m, n + 1)
        else do
          let (m, r, n) ← __copy alloc junk fuel m xr y (n + 1)
          let m ← set_right m y r
          pure (m, n)
      let xl ← get_left m x
      copy_left alloc junk fuel m xl y n
end

/-- Second half of the copy constructor and of copy assignment:
`root() = __copy(other.root(), header); leftmost() = minimum(root());
rightmost() = maximum(root());` on the heap `m`, for the tree with header `h`. -/
def copy_into {α : Type} (alloc : Nat → Nat) (junk : Nat → Bool) (fuel : Nat) (m : Mem α)
    (h oh : Nat) : Except Fault (Mem α) := do
  let oroot ← get_parent m oh
  let (m, top, _) ← __copy alloc junk fuel m oroot h 0
  let m ← set_parent m h top
  let root ← get_parent m h
  let lm ← minimum fuel m root
  let m ← set_left m h lm
  let root ← get_parent m h
  let rm ← maximum fuel m root
  set_right m h rm

/-- Copy constructor `rb_tree(const rb_tree& other)`; the new header goes to
address `h` of the heap that holds `other`. -/
def rb_tree.copy_construct {α : Type} (alloc : Nat → Nat) (junk : Nat → Bool) (fuel : Nat)
    (other : rb_tree α) (h : Nat) : Except Fault (rb_tree α) := do
  let s : rb_tree α := { rb_tree_init other.mem h with node_count := other.node_count }
  if other.node_count = 0 then pure s
  else do
    let m ← copy_into alloc junk fuel s.mem h other.header
    pure { s with mem := m }

/-- Copy assignment `operator=(const rb_tree& rhs)`; `s` and `rhs` live in the
heap `s.mem`, and two objects are the same when their headers are. -/
def rb_tree.copy_assign {α : Type} (alloc : Nat → Nat) (junk : Nat → Bool) (fuel : Nat)
    (s rhs : rb_tree α) : Except Fault (rb_tree α) :=
  if s.header = rhs.header then pure s
  else do
    let s ← s.clear fuel
    let s ←
      if rhs.node_count = 0 then pure s
      else do
        let m ← copy_into alloc junk fuel s.mem s.header rhs.header
        pure { s with mem := m }
    pure { s with node_count := rhs.node_count }

/-- The tree 2(1, 3) in a heap, its copy with header 10 and nodes from address
11 on, and the heap they share. -/
def three_copy : Except Fault (rb_tree Nat) :=
  rb_tree.copy_construct (fun n => 11 + n) (fun _ => rb_tree_red) 10 three_tree 10

/-! ## `emplace_multi` and the hinted insertions -/

/-- Member `emplace_multi(args...)`; `value` is the payload the arguments
construct. -/
def rb_tree.emplace_multi {α κ : Type} (T : Traits α κ) (fuel : Nat) (s : rb_tree α)
    (value : α) (p : Nat) (junk : Bool) : Except Fault (rb_tree α × Nat) :=
  if s.node_count > T.max_size - 1 then .error .length_error
  else do
    let s1 : rb_tree α := { s with mem := create_node s.mem p junk value }
    let k ← get_key T s1.mem p
    let res ← s1.get_insert_multi_pos T fuel k
    s1.insert_node_at T fuel res.1 p res.2

/-- Last statements of the multi-key hinted paths:
`pos = get_insert_multi_pos(key); return insert_node_at(pos.first, node, pos.second);`. -/
def rb_tree.insert_multi_at_pos {α κ : Type} (T : Traits α κ) (fuel : Nat) (s : rb_tree α)
    (key : κ) (node : Nat) : Except Fault (rb_tree α × Nat) := do
  let pos ← s.get_insert_multi_pos T fuel key
  s.insert_node_at T fuel pos.1 node pos.2

/-- Last statements of the unique-key hinted paths: `get_insert_unique_pos(key)`,
then either `destroy_node(node); return pos.first.first;` or `insert_node_at`. -/
def rb_tree.insert_unique_at_pos {α κ : Type} (T : Traits α κ) (fuel : Nat) (s : rb_tree α)
    (key : κ) (node : Nat) : Except Fault (rb_tree α × Nat) := do
  let pos ← s.get_insert_unique_pos T fuel key
  if pos.2 then s.insert_node_at T fuel pos.1.1 node pos.1.2
  else do
    let m ← destroy_node s.mem node
    pure ({ s with mem := m }, pos.1.1)

/-- The inner test of the hinted insertions, taken once the keys fit between
`before` and `hint`: attach right of `bnp` if `bnp->right` is null, else left of
`np` if `np->left` is null, else no direct place. -/
def hint_place {α : Type} (m : Mem α) (bnp np : Nat) : Except Fault (Option (Nat × Bool)) := do
  let br ← get_right m bnp
  if br = 0 then pure (some (bnp, false))
  else do
    let nl ← get_left m np
    if nl = 0 then pure (some (np, true)) else pure none

/-- Member `insert_multi_use_hint(hint, key, node)`. -/
def rb_tree.insert_multi_use_hint {α κ : Type} (T : Traits α κ) (fuel : Nat) (s : rb_tree α)
    (hint : Nat) (key : κ) (node : Nat) : Except Fault (rb_tree α × Nat) := do
  let before ← decrement fuel s.mem hint
  let kb ← get_key T s.mem before
  let fits ←
    if !T.key_compare key kb then do
      let kh ← get_key T s.mem hint
      pure (!T.key_compare kh key)
    else pure false
  let place ← if fits then hint_place s.mem before hint else pure none
  match place with
  | some (x, add_to_left) => s.insert_node_at T fuel x node add_to_left
  | none => s.insert_multi_at_pos T fuel key node

/-- Member `insert_unique_use_hint(hint, key, node)`. -/
def rb_tree.insert_unique_use_hint {α κ : Type} (T : Traits α κ) (fuel : Nat) (s : rb_tree α)
    (hint : Nat) (key : κ) (node : Nat) : Except Fault (rb_tree α × Nat) := do
  let before ← decrement fuel s.mem hint
  let kb ← get_key T s.mem before
  let fits ←
    if T.key_compare kb key then do
      let kh ← get_key T s.mem hint
      pure (T.key_compare key kh)
    else pure false
  let place ← if fits then hint_place s.mem before hint else pure none
  match place with
  | some (x, add_to_left) => s.insert_node_at T fuel x node add_to_left
  | none => s.insert_unique_at_pos T fuel key node

/-- Member `emplace_multi_use_hint(hint, args...)`; `insert_multi(hint, value)`
forwards to it. -/
def rb_tree.emplace_multi_use_hint {α κ : Type} (T : Traits α κ) (fuel : Nat) (s : rb_tree α)
    (hint : Nat) (value : α) (p : Nat) (junk : Bool) : Except Fault (rb_tree α × Nat) :=
  if s.node_count > T.max_size - 1 then .error .length_error
  else do
    let s1 : rb_tree α := { s with mem := create_node s.mem p junk value }
    if s1.node_count = 0 then s1.insert_node_at T fuel s1.header p true
    else do
      let key ← get_key T s1.mem p
      let b ← s1.begin
      if hint = b then do
        let kh ← get_key T s1.mem hint
        if T.key_compare key kh then s1.insert_node_at T fuel hint p true
        else s1.insert_multi_at_pos T fuel key p
      else if hint = s1.end_ then do
        let rm ← get_right s1.mem s1.header
        let kr ← get_key T s1.mem rm
        if !T.key_compare key kr then s1.insert_node_at T fuel rm p false
        else s1.insert_multi_at_pos T fuel key p
      else s1.insert_multi_use_hint T fuel hint key p

/-- Member `emplace_unique_use_hint(hint, args...)`; `insert_unique(hint, value)`
forwards to it. -/
def rb_tree.emplace_unique_use_hint {α κ : Type} (T : Traits α κ) (fuel : Nat)
    (s : rb_tree α) (hint : Nat) (value : α) (p : Nat) (junk : Bool) :
    Except Fault (rb_tree α × Nat) :=
  if s.node_count > T.max_size - 1 then .error .length_error
  else do
    let s1 : rb_tree α := { s with mem := create_node s.mem p junk value }
    if s1.node_count = 0 then s1.insert_node_at T fuel s1.header p true
    else do
      let key ← get_key T s1.mem p
      let b ← s1.begin
      if hint = b then do
        let kh ← get_key T s1.mem hint
        if T.key_compare key kh then s1.insert_node_at T fuel hint p true
        else s1.insert_unique_at_pos T fuel key p
      else if hint = s1.end_ then do
        let rm ← get_right s1.mem s1.header
        let kr ← get_key T s1.mem rm
        if T.key_compare kr key then s1.insert_node_at T fuel rm p false
        else s1.insert_unique_at_pos T fuel key p
      else s1.insert_unique_use_hint T fuel hint key p

/-- How a member call ends: it returns a value and leaves a tree; or it throws
a C++ exception, leaving the tree as it was when the exception was raised; or
the program has no defined behaviour (or the loop budget is exhausted). -/
inductive Outcome (α X : Type) where
  | returned (s : rb_tree α) (x : X)
  | thrown (e : Fault) (s : rb_tree α)
  | undefined (e : Fault)

/-- A single-element insertion as a call on the tree object `s`: every one of
them opens with `THROW_LENGTH_ERROR_IF(node_count > max_size() - 1, ...)`, which
is evaluated on the tree as passed in; `rest` is the whole function run on the
same tree, whose statements after that first one raise no exception. -/
def insertion_call {α κ X : Type} (T : Traits α κ) (s : rb_tree α)
    (rest : Except Fault (rb_tree α × X)) : Outcome α X :=
  if s.node_count > T.max_size - 1 then .thrown .length_error s
  else
    match rest with
    | .ok r => .returned r.1 r.2
    | .error e => .undefined e

/-- The call ended in a C++ exception (`length_error` or `out_of_range`), as
opposed to a result, undefined behaviour or an exhausted loop budget. -/
def throws {X : Type} (r : Except Fault X) : Prop :=
  r = .error .length_error ∨ r = .error .out_of_range

/-- The tree `__copy` builds from `t`: same colours, payloads and shape, with
node addresses taken from `alloc` in the order `__copy` allocates (a node, then
its right subtree, then its left subtree); also the next allocation index. -/
def Tree.copy {α : Type} (alloc : Nat → Nat) : Tree α → Nat → Tree α × Nat
  | .nil, n => (.nil, n)
  | .node _ c l v r, n =>
    let r' := Tree.copy alloc r (n + 1)
    let l' := Tree.copy alloc l r'.2
    (.node (alloc n) c l'.1 v r'.1, l'.2)

/-- Shape, colours and payloads of a tree, with the node addresses erased. -/
def Tree.strip {α : Type} : Tree α → Tree α
  | .nil => .nil
  | .node _ c l v r => .node 0 c (Tree.strip l) v (Tree.strip r)

/-- What the length check of a single-element insertion amounts to, for the
call `rest` on the tree `s`: the call signals `length_error` exactly when
`size()` equals `max_size()`, it signals no other exception, and when it throws,
the tree is left as it was passed in. -/
def LengthChecked {α κ X : Type} (T : Traits α κ) (s : rb_tree α)
    (rest : Except Fault (rb_tree α × X)) : Prop :=
  (rest = .error .length_error ↔ s.size = T.max_size) ∧
    rest ≠ .error .out_of_range ∧
    ((∃ e s', insertion_call T s rest = .thrown e s') ↔ s.size = T.max_size) ∧
    ∀ e s', insertion_call T s rest = .thrown e s' → e = .length_error ∧ s' = s

/-- The instance `natT` with a 2-bit `size_type`, so that `max_size()` is 3. -/
def smallT : Traits Nat Nat :=
  { KeyOfValue := fun v => v, key_compare := fun a b => decide (a < b), size_bits := 2 }


/-! ## Counting, iteration and the family of insertions -/

/-- Member `count_unique(key)`: `return find(key) == end() ? 0 : 1;`. -/
def rb_tree.count_unique {α κ : Type} (T : Traits α κ) (fuel : Nat) (s : rb_tree α)
    (key : κ) : Except Fault Nat := do
  let it ← s.find T fuel key
  if it = s.end_ then pure 0 else pure 1

/-- Member `multimap::count(key)` of `map.h`: `return t.count_unique(key);`. -/
def multimap_count {κ β : Type} (T : Traits (κ × β) κ) (fuel : Nat) (t : rb_tree (κ × β))
    (key : κ) : Except Fault Nat :=
  t.count_unique T fuel key

/-- Member `multiset::count(key)` of `set.h`: `return tree_.count_multi(key);`. -/
def multiset_count {κ : Type} (T : Traits κ κ) (fuel : Nat) (tree_ : rb_tree κ) (key : κ) :
    Except Fault Nat :=
  tree_.count_multi T fuel key

/-- The multimap holding 1 ↦ 10 and 1 ↦ 20, inserted in this order with
`insert_multi`. -/
def multi_11 : Except Fault (rb_tree (Nat × Nat)) :=
  insert_multi_all pairT 20 (at_addrs 2 [(1, 10), (1, 20)]) empty_pairs

/-- The iterator reached from `it` by `n` applications of `operator++`
(`increment`). -/
def increments {α : Type} (fuel : Nat) (m : Mem α) : Nat → Nat → Except Fault Nat
  | 0, it => pure it
  | n + 1, it => do
    let it ← increment fuel m it
    increments fuel m n it

/-- The single-element insertion members of `rb_tree`; the hinted `insert_*`
overloads forward to the hinted `emplace_*` members. -/
inductive Insertion (α : Type) where
  | insert_unique (value : α)
  | insert_multi (value : α)
  | emplace_unique (value : α)
  | emplace_multi (value : α)
  | insert_unique_hint (hint : Nat) (value : α)
  | insert_multi_hint (hint : Nat) (value : α)
  | emplace_unique_use_hint (hint : Nat) (value : α)
  | emplace_multi_use_hint (hint : Nat) (value : α)

/-- Run one insertion member on `s`, the node going to the fresh address `p`:
the tree it leaves and the iterator it returns (for the members that return a
pair, its `first`). -/
def rb_tree.insertion {α κ : Type} (T : Traits α κ) (fuel : Nat) (s : rb_tree α) (p : Nat)
    (junk : Bool) : Insertion α → Except Fault (rb_tree α × Nat)
  | .insert_unique value => do
    let r ← s.insert_unique T fuel value p junk
    pure (r.1, r.2.1)
  | .insert_multi value => s.insert_multi T fuel value p junk
  | .emplace_unique value => do
    let r ← s.emplace_unique T fuel value p junk
    pure (r.1, r.2.1)
  | .emplace_multi value => s.emplace_multi T fuel value p junk
  | .insert_unique_hint hint value => s.emplace_unique_use_hint T fuel hint value p junk
  | .insert_multi_hint hint value => s.emplace_multi_use_hint T fuel hint value p junk
  | .emplace_unique_use_hint hint value => s.emplace_unique_use_hint T fuel hint value p junk
  | .emplace_multi_use_hint hint value => s.emplace_multi_use_hint T fuel hint value p junk

/-- The position hint an insertion is called with, if it takes one. -/
def Insertion.hint {α : Type} : Insertion α → Option Nat
  | .insert_unique _ => none
  | .insert_multi _ => none
  | .emplace_unique _ => none
  | .emplace_multi _ => none
  | .insert_unique_hint hint _ => some hint
  | .insert_multi_hint hint _ => some hint
  | .emplace_unique_use_hint hint _ => some hint
  | .emplace_multi_use_hint hint _ => some hint

/-- Member `root()`, that is `header->parent`. -/
def rb_tree.root {α : Type} (s : rb_tree α) : Except Fault Nat :=
  get_parent s.mem s.header

/-! ## Insertions whose payload constructor may throw -/

/-- Member `get_node()`: `node_allocator::allocate(1)`, a raw block at the fresh
address `p`, none of its fields initialised. -/
def get_node {α : Type} (m : Mem α) (p : Nat) (junk : Bool) : Mem α :=
  upd m p { color := junk, parent := 0, left := 0, right := 0, value_field := none }

/-- Member `create_node(...)` when the payload constructor throws: `get_node()`,
then the handler `node_allocator::deallocate(tmp); throw;`.  Nothing else of the
tree object is touched. -/
def rb_tree.create_node_throws {α : Type} (s : rb_tree α) (p : Nat) (junk : Bool) :
    rb_tree α :=
  { s with mem := free (get_node s.mem p junk) p }

/-- Member `insert_value_at(x, value, add_to_left)` when copying `value` into
the node may throw: `ctor` is `none` if the constructor returns and `some e` if
it throws `e`. -/
def rb_tree.insert_value_at_try {α κ : Type} (T : Traits α κ) (fuel : Nat) (s : rb_tree α)
    (x : Nat) (value : α) (ctor : Option Fault) (add_to_left : Bool) (p : Nat) (junk : Bool) :
    Outcome α Nat :=
  match ctor with
  | some e => .thrown e (s.create_node_throws p junk)
  | none =>
    match s.insert_value_at T fuel x value add_to_left p junk with
    | .ok r => .returned r.1 r.2
    | .error e => .undefined e

/-- Member `insert_multi(const value_type&)` with a copy constructor that may
throw. -/
def rb_tree.insert_multi_try {α κ : Type} (T : Traits α κ) (fuel : Nat) (s : rb_tree α)
    (value : α) (ctor : Option Fault) (p : Nat) (junk : Bool) : Outcome α Nat :=
  if s.node_count > T.max_size - 1 then .thrown .length_error s
  else
    match s.get_insert_multi_pos T fuel (T.KeyOfValue value) with
    | .error e => .undefined e
    | .ok res => s.insert_value_at_try T fuel res.1 value ctor res.2 p junk

/-- Member `insert_unique(const value_type&)` with a copy constructor that may
throw. -/
def rb_tree.insert_unique_try {α κ : Type} (T : Traits α κ) (fuel : Nat) (s : rb_tree α)
    (value : α) (ctor : Option Fault) (p : Nat) (junk : Bool) : Outcome α (Nat × Bool) :=
  if s.node_count > T.max_size - 1 then .thrown .length_error s
  else
    match s.get_insert_unique_pos T fuel (T.KeyOfValue value) with
    | .error e => .undefined e
    | .ok res =>
      if res.2 then
        match s.insert_value_at_try T fuel res.1.1 value ctor res.1.2 p junk with
        | .returned s' it => .returned s' (it, true)
        | .thrown e s' => .thrown e s'
        | .undefined e => .undefined e
      else .returned s (res.1.1, false)

/-- An `emplace_*` member with a payload constructor that may throw: after the
length check its first statement is `create_node(args...)`; `rest` is the whole
call for the case that the constructor returns. -/
def rb_tree.emplace_try {α κ X : Type} (T : Traits α κ) (s : rb_tree α) (ctor : Option Fault)
    (p : Nat) (junk : Bool) (rest : Except Fault (rb_tree α × X)) : Outcome α X :=
  if s.node_count > T.max_size - 1 then .thrown .length_error s
  else
    match ctor with
    | some e => .thrown e (s.create_node_throws p junk)
    | none =>
      match rest with
      | .ok r => .returned r.1 r.2
      | .error e => .undefined e

/-! ## Raw storage: `construct`, `destroy` and the `uninitialized_*` algorithms -/

/-- Raw destination storage: `cells ptr` is the live object at position `ptr`
(`none` for raw memory), `destroyed` the positions `destroy` ran a destructor on,
in call order. -/
structure Raw (β : Type) where
  cells : Nat → Option β
  destroyed : List Nat

/-- Function `construct(ptr, value)` when the constructor returns: placement new
makes the object at `ptr` live. -/
def construct {β : Type} (r : Raw β) (ptr : Nat) (value : β) : Raw β :=
  { r with cells := fun a => if a = ptr then some value else r.cells a }

/-- Function `destroy(pointer)` for an element type with a destructor to run
(`destroy_one(pointer, std::false_type)`): `if (pointer != nullptr) pointer->~Ty();`. -/
def destroy {β : Type} (r : Raw β) (pointer : Nat) : Raw β :=
  if pointer ≠ 0 then
    { cells := fun a => if a = pointer then none else r.cells a,
      destroyed := r.destroyed ++ [pointer] }
  else r

/-- How a bulk operation ends: it returns `x`, or the exception of the failed
construction leaves it (`throw;`). -/
inductive Ending (X : Type) where
  | returned (x : X)
  | rethrown
deriving DecidableEq, Repr

/-- The `try` block of `unchecked_uninit_copy` and `unchecked_uninit_move`:
`for (; first != last; ++first, ++cur) construct(&*cur, *first);` over the source
elements `src`.  `ok ptr` tells whether the constructor call at `ptr` returns.
The result is the storage, `cur`, and whether an exception left the loop. -/
def construct_range {β : Type} (ok : Nat → Bool) : List β → Nat → Raw β → Raw β × Nat × Bool
  | [], cur, r => (r, cur, false)
  | v :: rest, cur, r =>
    if ok cur then construct_range ok rest (cur + 1) (construct r cur v) else (r, cur, true)

/-- The `try` block of the counted operations:
`for (; n > 0; --n, ++cur, ++first) construct(&*cur, *first);` where `src i` is the
element the source iterator yields after `i` steps (the constant `value` for
`unchecked_uninit_fill_n`). -/
def construct_n {β : Type} (ok : Nat → Bool) (src : Nat → β) :
    Nat → Nat → Nat → Raw β → Raw β × Nat × Bool
  | 0, _, cur, r => (r, cur, false)
  | n + 1, i, cur, r =>
    if ok cur then construct_n ok src n (i + 1) (cur + 1) (construct r cur (src i))
    else (r, cur, true)

/-- The `try` block of `unchecked_uninit_fill`:
`for (; cur != last; ++cur) construct(&*cur, value);`. -/
def fill_range {β : Type} (ok : Nat → Bool) (value : β) :
    Nat → Nat → Nat → Raw β → Except Fault (Raw β × Nat × Bool)
  | 0, _, _, _ => .error .out_of_fuel
  | fuel + 1, cur, last, r =>
    if cur ≠ last then
      if ok cur then fill_range ok value fuel (cur + 1) last (construct r cur value)
      else .ok (r, cur, true)
    else .ok (r, cur, false)

/-- Handler loop of `unchecked_uninit_copy` and `unchecked_uninit_copy_n`, as
written in the source: `for (; result != cur; --cur) destroy(&*cur);`.  Gives the
storage and the final `cur`. -/
def destroy_down {β : Type} : Nat → Nat → Nat → Raw β → Except Fault (Raw β × Nat)
  | 0, _, _, _ => .error .out_of_fuel
  | fuel + 1, result, cur, r =>
    if result ≠ cur then destroy_down fuel result (cur - 1) (destroy r cur)
    else .ok (r, cur)

/-- The loop `for (; first != last; ++first) destroy(&*first);`: the handlers of
the fill and move operations, and `destroy(first, last)` through
`destroy_cat(first, last, std::false_type)`. -/
def destroy_cat {β : Type} : Nat → Nat → Nat → Raw β → Except Fault (Raw β)
  | 0, _, _, _ => .error .out_of_fuel
  | fuel + 1, first, last, r =>
    if first ≠ last then destroy_cat fuel (first + 1) last (destroy r first)
    else .ok r

/-- Function `unchecked_uninit_copy(first, last, result, std::false_type)`: the
handler ends without `throw;`, so control reaches `return cur;`. -/
def unchecked_uninit_copy {β : Type} (ok : Nat → Bool) (fuel : Nat) (src : List β)
    (result : Nat) (r : Raw β) : Except Fault (Raw β × Ending Nat) :=
  match construct_range ok src result r with
  | (r, cur, false) => .ok (r, .returned cur)
  | (r, cur, true) => do
    let x ← destroy_down fuel result cur r
    pure (x.1, .returned x.2)

/-- Function `unchecked_uninit_copy_n(first, n, result, std::false_type)`: same
handler as `unchecked_uninit_copy`, again without `throw;`. -/
def unchecked_uninit_copy_n {β : Type} (ok : Nat → Bool) (fuel : Nat) (first : Nat → β)
    (n : Nat) (result : Nat) (r : Raw β) : Except Fault (Raw β × Ending Nat) :=
  match construct_n ok first n 0 result r with
  | (r, cur, false) => .ok (r, .returned cur)
  | (r, cur, true) => do
    let x ← destroy_down fuel result cur r
    pure (x.1, .returned x.2)

/-- Function `unchecked_uninit_fill(first, last, value, std::false_type)`: the
handler destroys `[first, cur)` and ends without `throw;`; the function returns
`void`. -/
def unchecked_uninit_fill {β : Type} (ok : Nat → Bool) (fuel : Nat) (first last : Nat)
    (value : β) (r : Raw β) : Except Fault (Raw β × Ending Unit) := do
  let x ← fill_range ok value fuel first last r
  if x.2.2 then do
    let r ← destroy_cat fuel first x.2.1 x.1
    pure (r, .returned ())
  else pure (x.1, .returned ())

/-- Function `unchecked_uninit_fill_n(first, n, value, std::false_type)`: the
handler destroys `[first, cur)`, then `throw;`. -/
def unchecked_uninit_fill_n {β : Type} (ok : Nat → Bool) (fuel : Nat) (first n : Nat)
    (value : β) (r : Raw β) : Except Fault (Raw β × Ending Nat) :=
  match construct_n ok (fun _ => value) n 0 first r with
  | (r, cur, false) => .ok (r, .returned cur)
  | (r, cur, true) => do
    let r ← destroy_cat fuel first cur r
    pure (r, .rethrown)

/-- Function `unchecked_uninit_move(first, last, result, std::false_type)`: the
handler is `mystl::destroy(result, cur);` without `throw;`, so control reaches
`return cur;`. -/
def unchecked_uninit_move {β : Type} (ok : Nat → Bool) (fuel : Nat) (src : List β)
    (result : Nat) (r : Raw β) : Except Fault (Raw β × Ending Nat) :=
  match construct_range ok src result r with
  | (r, cur, false) => .ok (r, .returned cur)
  | (r, cur, true) => do
    let r ← destroy_cat fuel result cur r
    pure (r, .returned cur)

/-- Function `unchecked_uninit_move_n(first, n, result, std::false_type)`: the
handler destroys `[result, cur)`, then `throw;`. -/
def unchecked_uninit_move_n {β : Type} (ok : Nat → Bool) (fuel : Nat) (first : Nat → β)
    (n : Nat) (result : Nat) (r : Raw β) : Except Fault (Raw β × Ending Nat) :=
  match construct_n ok first n 0 result r with
  | (r, cur, false) => .ok (r, .returned cur)
  | (r, cur, true) => do
    let r ← destroy_cat fuel result cur r
    pure (r, .rethrown)

/-- Modelled from the spec: `mystl::copy(first, last, result)` of `algobase.h`,
the flat copy the trivially copyable path falls back to; it writes the source
elements to consecutive positions and returns the end of the destination. -/
def algobase_copy {β : Type} : List β → Nat → Raw β → Raw β × Nat
  | [], cur, r => (r, cur)
  | v :: rest, cur, r => algobase_copy rest (cur + 1) (construct r cur v)

/-- Modelled from the spec: `mystl::copy_n(first, n, result).second` of
`algobase.h`, the counted flat copy. -/
def algobase_copy_n {β : Type} (src : Nat → β) : Nat → Nat → Nat → Raw β → Raw β × Nat
  | 0, _, cur, r => (r, cur)
  | n + 1, i, cur, r => algobase_copy_n src n (i + 1) (cur + 1) (construct r cur (src i))

/-- Function `uninitialized_copy(first, last, result)`: dispatch on
`std::is_trivially_copy_assignable` of the element type. -/
def uninitialized_copy {β : Type} (trivially_copy_assignable : Bool) (ok : Nat → Bool)
    (fuel : Nat) (src : List β) (result : Nat) (r : Raw β) :
    Except Fault (Raw β × Ending Nat) :=
  if trivially_copy_assignable then
    .ok ((algobase_copy src result r).1, .returned (algobase_copy src result r).2)
  else unchecked_uninit_copy ok fuel src result r

/-- Function `uninitialized_copy_n(first, n, result)`: dispatch on
`std::is_trivially_copy_assignable` of the element type. -/
def uninitialized_copy_n {β : Type} (trivially_copy_assignable : Bool) (ok : Nat → Bool)
    (fuel : Nat) (first : Nat → β) (n : Nat) (result : Nat) (r : Raw β) :
    Except Fault (Raw β × Ending Nat) :=
  if trivially_copy_assignable then
    .ok ((algobase_copy_n first n 0 result r).1, .returned (algobase_copy_n first n 0 result r).2)
  else unchecked_uninit_copy_n ok fuel first n result r

/-- Raw storage in which nothing is live and no destructor has run. -/
def raw_storage (β : Type) : Raw β := { cells := fun _ => none, destroyed := [] }

/-! ## Mirror images -/

/-- The mirror image of a node heap: in every record (the header included, so
`leftmost` and `rightmost` change places) the `left` and `right` links are
swapped. -/
def mirror_mem {α : Type} (m : Mem α) : Mem α :=
  fun a => (m a).map (fun n => { n with left := n.right, right := n.left })

/-- The tree object over the mirrored heap. -/
def rb_tree.mirror {α : Type} (s : rb_tree α) : rb_tree α :=
  { s with mem := mirror_mem s.mem }

/-- Mirror image of an abstract tree. -/
def Tree.mirror {α : Type} : Tree α → Tree α
  | .nil => .nil
  | .node a c l v r => .node a c (Tree.mirror r) v (Tree.mirror l)

/-- Mirror image of a path step: a left child becomes a right child. -/
def Frame.mirror {α : Type} : Frame α → Frame α
  | .L a c v r => .R a c (Tree.mirror r) v
  | .R a c l v => .L a c v (Tree.mirror l)

/-! ## Places of an insertion and the loop invariant of `rb_tree_reblance` -/

/-- The null place `ctx` is a place for `key` in a tree with possibly repeated
keys: no node before it has a key greater than `key`, no node after it a key
less than `key`. -/
def SidesWeak {α κ : Type} (T : Traits α κ) (key : κ) (ctx : Ctx α) : Prop :=
  (∀ e ∈ ctxBefore ctx, T.key_compare key (T.KeyOfValue e.2) = false) ∧
    (∀ e ∈ ctxAfter ctx, T.key_compare (T.KeyOfValue e.2) key = false)

/-- The null place `ctx` is the place for `key` in a tree with unique keys:
every node before it has a smaller key, every node after it a greater key. -/
def SidesStrict {α κ : Type} (T : Traits α κ) (key : κ) (ctx : Ctx α) : Prop :=
  (∀ e ∈ ctxBefore ctx, T.key_compare (T.KeyOfValue e.2) key = true) ∧
    (∀ e ∈ ctxAfter ctx, T.key_compare key (T.KeyOfValue e.2) = true)

/-- Loop invariant of `rb_tree_reblance` at the loop variable `x`: the heap
holds a tree under the header, `x` is a node of it, and the root is black
unless it is `x` itself. -/
def ReblanceInv {α : Type} (m : Mem α) (hdr x : Nat) : Prop :=
  ∃ (m0 : Mem α) (lm rm : Nat) (ctx : Ctx α) (t : Tree α),
    Z m m0 hdr lm rm ctx t ∧ t ≠ .nil ∧ t.ptr = x ∧ LastBlack ctx

/-! ## Post-increment, post-decrement and `map::operator[]` -/

/-- Member `iterator operator++(int)`: `iterator tmp = *this; increment();
return tmp;`.  The result is the returned iterator and the position of `*this`
after the call. -/
def post_increment {α : Type} (fuel : Nat) (m : Mem α) (node : Nat) :
    Except Fault (Nat × Nat) := do
  let tmp := node
  let node ← increment fuel m node
  pure (tmp, node)

/-- Member `iterator operator--(int)`, as written in the source:
`iterator tmp = *this; decrement(); return *this;`.  The result is the returned
iterator and the position of `*this` after the call. -/
def post_decrement {α : Type} (fuel : Nat) (m : Mem α) (node : Nat) :
    Except Fault (Nat × Nat) := do
  let node ← decrement fuel m node
  pure (node, node)

/-- Member `map::operator[](key)` of `map.h`:
`it = lower_bound(key); if (it == end() || key_comp()(key, it->first))
it = emplace_hint(it, key, T()); return it->second;`, where `emplace_hint` is
`t.emplace_unique_use_hint`.  `dflt` is `T()`; the result is the map and the
mapped value the returned reference designates. -/
def map_index {κ β : Type} (T : Traits (κ × β) κ) (fuel : Nat) (s : rb_tree (κ × β)) (key : κ)
    (dflt : β) (p : Nat) (junk : Bool) : Except Fault (rb_tree (κ × β) × β) := do
  let it ← s.lower_bound T fuel key
  let absent ←
    if it = s.end_ then pure true
    else do
      let v ← get_value s.mem it
      pure (T.key_compare key v.1)
  if absent then do
    let r ← s.emplace_unique_use_hint T fuel it (key, dflt) p junk
    let v ← get_value r.1.mem r.2
    pure (r.1, v.2)
  else do
    let v ← get_value s.mem it
    pure (s, v.2)

/-! ## Further concrete instances -/

/-- The tree built by inserting 2, 1, 3, 4: root 2 at address 2, 1 at address 3,
3 at address 4 with the right child 4 at address 5. -/
def scenario_2134 : Except Fault (rb_tree Nat) :=
  insert_unique_all natT 20 (ops_from 2 [2, 1, 3, 4]) empty_tree

/-- An instance whose comparison looks at the tens only
(`a / 10 < b / 10`), so that 10, 11 and 12 are equivalent keys. -/
def decadeT : Traits Nat Nat :=
  { KeyOfValue := fun v => v, key_compare := fun a b => decide (a / 10 < b / 10),
    size_bits := 64 }

/-- The tree holding 10 (address 2) and 11 (address 3), inserted in this order
with `insert_multi` under `decadeT`. -/
def decade_pair : Except Fault (rb_tree Nat) :=
  insert_multi_all decadeT 20 (ops_from 2 [10, 11]) empty_tree

/-! ## `hashtable::erase(const iterator&)` -/

/-- Struct `hashtable_node<T>`. -/
structure hashtable_node (β : Type) where
  next : Nat
  value : β

/-- Template parameters `HashFcn`, `ExtractKey`, `EqualKey` of `hashtable` and
the width of `size_type`. -/
structure HashTraits (β κ : Type) where
  hash : κ → Nat
  get_key : β → κ
  equals : κ → κ → Bool
  size_bits : Nat

/-- Data members `buckets` and `num_elements` of `hashtable`, with the node heap
the bucket chains live in (address 0 is `nullptr`). -/
structure hashtable (β : Type) where
  mem : Nat → Option (hashtable_node β)
  buckets : List Nat
  num_elements : Nat

/-- Dereference a chain node pointer. -/
def hashtable.node_at {β : Type} (ht : hashtable β) (p : Nat) :
    Except Fault (hashtable_node β) :=
  if p = 0 then .error .null_deref
  else match ht.mem p with
    | some n => .ok n
    | none => .error .wild_access

/-- Read `buckets[n]`. -/
def hashtable.bucket {β : Type} (ht : hashtable β) (n : Nat) : Except Fault Nat :=
  match ht.buckets[n]? with
  | some c => .ok c
  | none => .error .wild_access

/-- Member `bkt_num(value)`: `hash(get_key(value)) % buckets.size()`. -/
def hashtable.bkt_num {β κ : Type} (H : HashTraits β κ) (ht : hashtable β) (value : β) : Nat :=
  H.hash (H.get_key value) % ht.buckets.length

/-- Member `size()`: `return num_elements;`. -/
def hashtable.size {β : Type} (ht : hashtable β) : Nat := ht.num_elements

/-- Member `delete_node(n)`: destroy the value, release the node. -/
def hashtable.delete_node {β : Type} (ht : hashtable β) (n : Nat) : hashtable β :=
  { ht with mem := fun a => if a = n then none else ht.mem a }

/-- Statement `cur->next = v;`. -/
def hashtable.set_next {β : Type} (ht : hashtable β) (cur v : Nat) :
    Except Fault (hashtable β) := do
  let c ← ht.node_at cur
  pure { ht with mem := fun a => if a = cur then some { c with next := v } else ht.mem a }

/-- The `while (next)` loop of `erase(const iterator&)` for a node that is not
the first of its bucket: when `p` is found it is unlinked and deleted, and the
loop is left by `break`; `num_elements` is not touched. -/
def hashtable.erase_scan {β : Type} :
    Nat → hashtable β → Nat → Nat → Nat → Except Fault (hashtable β)
  | 0, _, _, _, _ => .error .out_of_fuel
  | fuel + 1, ht, cur, next, p =>
    if next ≠ 0 then
      if next = p then do
        let nx ← ht.node_at next
        let ht ← ht.set_next cur nx.next
        pure (ht.delete_node next)
      else do
        let c ← ht.node_at next
        hashtable.erase_scan fuel ht next c.next p
    else pure ht

/-- Member `erase(const iterator& it)` of `hashtable.h`, `p` being `it.cur`. -/
def hashtable.erase {β κ : Type} (H : HashTraits β κ) (fuel : Nat) (ht : hashtable β)
    (p : Nat) : Except Fault (hashtable β) :=
  if p ≠ 0 then do
    let pn ← ht.node_at p
    let n := ht.bkt_num H pn.value
    let cur ← ht.bucket n
    if cur = p then do
      let c ← ht.node_at cur
      let ht1 : hashtable β := { ht with buckets := ht.buckets.set n c.next }
      let ht2 := ht1.delete_node cur
      pure { ht2 with
        num_elements := (ht2.num_elements + 2 ^ H.size_bits - 1) % 2 ^ H.size_bits }
    else do
      let c ← ht.node_at cur
      hashtable.erase_scan fuel ht cur c.next p
  else pure ht

/-- The loop of `elems_in_bucket`:
`for (auto cur = buckets[bucket]; cur != nullptr; cur = cur->next) ++result;`. -/
def hashtable.chain_length {β : Type} : Nat → hashtable β → Nat → Except Fault Nat
  | 0, _, _ => .error .out_of_fuel
  | fuel + 1, ht, cur =>
    if cur ≠ 0 then do
      let c ← ht.node_at cur
      let r ← hashtable.chain_length fuel ht c.next
      pure (r + 1)
    else pure 0

/-- Member `elems_in_bucket(bucket)`. -/
def hashtable.elems_in_bucket {β : Type} (fuel : Nat) (ht : hashtable β) (bucket : Nat) :
    Except Fault Nat := do
  let cur ← ht.bucket bucket
  hashtable.chain_length fuel ht cur

/-- Total number of nodes in all bucket chains: `elems_in_bucket` summed over
the buckets. -/
def hashtable.chained_nodes {β : Type} (fuel : Nat) (ht : hashtable β) : Except Fault Nat := do
  let counts ← (List.range ht.buckets.length).mapM (ht.elems_in_bucket fuel)
  pure counts.sum

/-- Instance with the identity hash on natural numbers, equality of keys and a
64-bit `size_type` (the table behind `unordered_set<int>`). -/
def natH : HashTraits Nat Nat :=
  { hash := fun k => k, get_key := fun v => v, equals := fun a b => decide (a = b),
    size_bits := 64 }

/-- Array `stl_prime_list` of `hashtable.h` for a 64-bit system (`PRIME_NUM`
is 99). -/
def stl_prime_list : List Nat :=
  [101, 173, 263, 397, 599, 907, 1361, 2053, 3083, 4637, 6959, 10453, 15683, 23531, 35311,
    52967, 79451, 119179, 178781, 268189, 402299, 603457, 905189, 1357787, 2036687, 3055043,
    4582577, 6873871, 10310819, 15466229, 23199347, 34799021, 52198537, 78297827, 117446801,
    176170229, 264255353, 396383041, 594574583, 891861923, 1337792887, 2006689337, 3010034021,
    4515051137, 6772576709, 10158865069, 15238297621, 22857446471, 34286169707, 51429254599,
    77143881917, 115715822899, 173573734363, 260360601547, 390540902329, 585811353559,
    878717030339, 1318075545511, 1977113318311, 2965669977497, 4448504966249, 6672757449409,
    10009136174239, 15013704261371, 22520556392057, 33780834588157, 50671251882247,
    76006877823377, 114010316735089, 171015475102649, 256523212653977, 384784818980971,
    577177228471507, 865765842707309, 1298648764060979, 1947973146091477, 2921959719137273,
    4382939578705967, 6574409368058969, 9861614052088471, 14792421078132871,
    22188631617199337, 33282947425799017, 49924421138698549, 74886631708047827,
    112329947562071807, 168494921343107851, 252742382014661767, 379113573021992729,
    568670359532989111, 853005539299483657, 1279508308949225477, 1919262463423838231,
    2878893695135757317, 4318340542703636011, 6477510814055453699, 9716266221083181299,
    14574399331624771603, 18446744073709551557]

/-- Modelled from the spec: `mystl::lower_bound(first, last, n)` of `algo.h`, which
is not part of the sources, on a sorted range: the position of the first
element that is not less than `n`, the end of the range when there is none. -/
def algo_lower_bound (range : List Nat) (n : Nat) : Nat :=
  (range.takeWhile (fun p => decide (p < n))).length

/-- Function `stl_next_prime(n)`:
`pos = lower_bound(first, last, n); return pos == last ? *(last - 1) : *pos;`. -/
def stl_next_prime (n : Nat) : Nat :=
  let pos := algo_lower_bound stl_prime_list n
  if pos = stl_prime_list.length then stl_prime_list.getLast?.getD 0
  else stl_prime_list.getD pos 0

/-- Member `next_size(n)`: `return stl_next_prime(n);`. -/
def next_size (n : Nat) : Nat := stl_next_prime n

/-- Member `initialize_buckets(n)`: `buckets.assign(next_size(n), nullptr);
num_elements = 0;`. -/
def hashtable.initialize_buckets {β : Type} (ht : hashtable β) (n : Nat) : hashtable β :=
  { ht with buckets := List.replicate (next_size n) 0, num_elements := 0 }

/-- Constructor `hashtable(bucket_count, hf, eql)` in an empty node heap. -/
def hashtable_ctor {β : Type} (bucket_count : Nat) : hashtable β :=
  hashtable.initialize_buckets { mem := fun _ => none, buckets := [], num_elements := 0 }
    bucket_count

/-- Member `new_node(value)`: `p` is the address `node_allocator::allocate(1)`
returns; the value is constructed and `n->next = nullptr`. -/
def hashtable.new_node {β : Type} (ht : hashtable β) (p : Nat) (value : β) : hashtable β :=
  { ht with mem := fun a => if a = p then some { next := 0, value := value } else ht.mem a }

/-- The loop of `resize` for one bucket of the old table:
`while (first) { new_bucket = bkt_num(first->value, n);
buckets[bucket] = first->next; first->next = tmp[new_bucket];
tmp[new_bucket] = first; first = buckets[bucket]; }`. -/
def hashtable.resize_chain {β κ : Type} (H : HashTraits β κ) :
    Nat → hashtable β → List Nat → Nat → Nat → Except Fault (hashtable β × List Nat)
  | 0, _, _, _, _ => .error .out_of_fuel
  | fuel + 1, ht, tmp, n, bucket => do
    let first ← ht.bucket bucket
    if first ≠ 0 then do
      let f ← ht.node_at first
      let new_bucket := H.hash (H.get_key f.value) % n
      let ht1 : hashtable β := { ht with buckets := ht.buckets.set bucket f.next }
      let head ← match tmp[new_bucket]? with
        | some c => (pure c : Except Fault Nat)
        | none => .error .wild_access
      let ht2 ← ht1.set_next first head
      hashtable.resize_chain H fuel ht2 (tmp.set new_bucket first) n bucket
    else pure (ht, tmp)

/-- Member `resize(num_elements_hint)`: when the hint exceeds the number of
buckets and `next_size` gives more buckets, every node is moved to its bucket
in a new bucket vector, which then replaces the old one. -/
def hashtable.resize {β κ : Type} (H : HashTraits β κ) (fuel : Nat) (ht : hashtable β)
    (num_elements_hint : Nat) : Except Fault (hashtable β) :=
  let old_n := ht.buckets.length
  if num_elements_hint > old_n then
    let n := next_size num_elements_hint
    if n > old_n then do
      let r ← (List.range old_n).foldlM
        (fun (st : hashtable β × List Nat) bucket =>
          hashtable.resize_chain H fuel st.1 st.2 n bucket)
        (ht, List.replicate n 0)
      pure { r.1 with buckets := r.2 }
    else pure ht
  else pure ht

/-- The loop of `insert_unique_noresize` over one bucket chain:
`for (auto cur = first; cur; cur = cur->next)
if (equals(get_key(cur->value), get_key(value))) return ...;`
The result is the node found, `nullptr` when the loop runs to its end. -/
def hashtable.find_equal {β κ : Type} (H : HashTraits β κ) :
    Nat → hashtable β → Nat → κ → Except Fault Nat
  | 0, _, _, _ => .error .out_of_fuel
  | fuel + 1, ht, cur, key =>
    if cur ≠ 0 then do
      let c ← ht.node_at cur
      if H.equals (H.get_key c.value) key then pure cur
      else hashtable.find_equal H fuel ht c.next key
    else pure 0

/-- Member `insert_unique_noresize(value)`: when no node of the bucket holds an
equal key, the new node (at the address `p`) becomes the first node of the
bucket and `num_elements` is incremented.  The result is the table and the
returned pair of the node and the success flag. -/
def hashtable.insert_unique_noresize {β κ : Type} (H : HashTraits β κ) (fuel : Nat)
    (ht : hashtable β) (value : β) (p : Nat) : Except Fault (hashtable β × Nat × Bool) := do
  let n := ht.bkt_num H value
  let first ← ht.bucket n
  let cur ← hashtable.find_equal H fuel ht first (H.get_key value)
  if cur ≠ 0 then pure (ht, cur, false)
  else do
    let ht1 := ht.new_node p value
    let ht2 ← ht1.set_next p first
    pure ({ ht2 with
        buckets := ht2.buckets.set n p,
        num_elements := (ht2.num_elements + 1) % 2 ^ H.size_bits },
      p, true)

/-- Member `insert_unique(value)`:
`resize(num_elements + 1); return insert_unique_noresize(value);`. -/
def hashtable.insert_unique {β κ : Type} (H : HashTraits β κ) (fuel : Nat) (ht : hashtable β)
    (value : β) (p : Nat) : Except Fault (hashtable β × Nat × Bool) := do
  let ht ← ht.resize H fuel ((ht.num_elements + 1) % 2 ^ H.size_bits)
  ht.insert_unique_noresize H fuel value p

/-- The table built by the constructor `hashtable(100)` (101 buckets, the
smallest entry of `stl_prime_list`) and `insert_unique` of 2 (node at address 1)
and of 103 (node at address 2): both values hash to bucket 2, whose chain is
the node holding 103 followed by the node holding 2. -/
def table_2_103 : Except Fault (hashtable Nat) := do
  let r ← (hashtable_ctor 100 : hashtable Nat).insert_unique natH 10 2 1
  let r ← r.1.insert_unique natH 10 103 2
  pure r.1

/-! ## Two trees in one heap, a place where the repair rotates, insertions with
their success flag, and the tree behind `map` -/

/-- A heap holding two trees: the tree 2(1, 3) of `three_mem` (header at 1),
and the tree with the single black node 9 at address 6 and its header at
address 5. -/
def two_trees_mem : Mem Nat := fun a =>
  if a = 5 then some { color := rb_tree_red, parent := 6, left := 6, right := 6,
                       value_field := none }
  else if a = 6 then some { color := rb_tree_black, parent := 5, left := 0, right := 0,
                            value_field := some 9 }
  else three_mem a

/-- The tree 2(1, 3) as an object of the heap `two_trees_mem`. -/
def three_shared : rb_tree Nat := { mem := two_trees_mem, header := 1, node_count := 3 }

/-- The one-node tree of the heap `two_trees_mem`. -/
def nine_tree : rb_tree Nat := { mem := two_trees_mem, header := 5, node_count := 1 }

/-- The abstract tree `nine_tree` holds. -/
def nine_abs : Tree Nat := .node 6 rb_tree_black .nil 9 .nil

/-- The links and colour of the node at an address. -/
def node_fields {α : Type} (m : Mem α) (a : Nat) :
    Except Fault Nat × Except Fault Nat × Except Fault Nat × Except Fault Bool :=
  (get_parent m a, get_left m a, get_right m a, get_color m a)

/-- The heap of `two_trees_mem` as the members build it: 2, 1, 3 inserted into
the empty tree (header 1, nodes at 2, 3, 4), then a second tree constructed in
the same heap (header 5) and 9 inserted into it (node at 6). -/
def two_trees_built : Except Fault (rb_tree Nat) := do
  let a ← insert_unique_all natT 20 (ops_from 2 [2, 1, 3]) empty_tree
  let r ← (rb_tree_init a.mem 5).insert_unique natT 20 9 6 rb_tree_red
  pure r.1

/-- An allocator that first hands out again the block at address 6 and then the
blocks from address 11 on. -/
def reuse_alloc (n : Nat) : Nat := if n = 0 then 6 else 10 + n

/-- The heap of the tree holding 2 (black root, address 2) and 4 (red, address
3, right child of the root) right after `insert_node_at` has hung the new node
3 (address 4) as the left child of 4 and before `rb_tree_reblance` runs; the
header is at address 1. -/
def zigzag_mem : Mem Nat := fun a =>
  if a = 1 then some { color := rb_tree_red, parent := 2, left := 2, right := 3,
                       value_field := none }
  else if a = 2 then some { color := rb_tree_black, parent := 1, left := 0, right := 3,
                            value_field := some 2 }
  else if a = 3 then some { color := rb_tree_red, parent := 2, left := 4, right := 0,
                            value_field := some 4 }
  else if a = 4 then some { color := rb_tree_red, parent := 3, left := 0, right := 0,
                            value_field := some 3 }
  else none

/-- The steps of `insert_unique(3)` on the tree built from 2 and 4 up to the call
of `rb_tree_reblance`: the node is created at address 4 and hung as the left
child of the node 4 (address 3). -/
def zigzag_linked : Except Fault (Mem Nat) := do
  let s ← insert_unique_all natT 20 (ops_from 2 [2, 4]) empty_tree
  link_node (create_node s.mem 4 rb_tree_red 3) s.header 3 4 true

/-- The value an insertion is called with. -/
def Insertion.value {α : Type} : Insertion α → α
  | .insert_unique value => value
  | .insert_multi value => value
  | .emplace_unique value => value
  | .emplace_multi value => value
  | .insert_unique_hint _ value => value
  | .insert_multi_hint _ value => value
  | .emplace_unique_use_hint _ value => value
  | .emplace_multi_use_hint _ value => value

/-- Whether an insertion is one of the members that reject a duplicate key. -/
def Insertion.unique {α : Type} : Insertion α → Bool
  | .insert_unique _ => true
  | .insert_multi _ => false
  | .emplace_unique _ => true
  | .emplace_multi _ => false
  | .insert_unique_hint _ _ => true
  | .insert_multi_hint _ _ => false
  | .emplace_unique_use_hint _ _ => true
  | .emplace_multi_use_hint _ _ => false

/-- Run one insertion member on `s`, the node going to the fresh address `p`:
the tree it leaves, the iterator it returns and, for `insert_unique` and
`emplace_unique`, which return a pair, the success flag that is its `second`. -/
def rb_tree.insertion_result {α κ : Type} (T : Traits α κ) (fuel : Nat) (s : rb_tree α)
    (p : Nat) (junk : Bool) : Insertion α → Except Fault (rb_tree α × Nat × Option Bool)
  | .insert_unique value => do
    let r ← s.insert_unique T fuel value p junk
    pure (r.1, r.2.1, some r.2.2)
  | .insert_multi value => do
    let r ← s.insert_multi T fuel value p junk
    pure (r.1, r.2, none)
  | .emplace_unique value => do
    let r ← s.emplace_unique T fuel value p junk
    pure (r.1, r.2.1, some r.2.2)
  | .emplace_multi value => do
    let r ← s.emplace_multi T fuel value p junk
    pure (r.1, r.2, none)
  | .insert_unique_hint hint value => do
    let r ← s.emplace_unique_use_hint T fuel hint value p junk
    pure (r.1, r.2, none)
  | .insert_multi_hint hint value => do
    let r ← s.emplace_multi_use_hint T fuel hint value p junk
    pure (r.1, r.2, none)
  | .emplace_unique_use_hint hint value => do
    let r ← s.emplace_unique_use_hint T fuel hint value p junk
    pure (r.1, r.2, none)
  | .emplace_multi_use_hint hint value => do
    let r ← s.emplace_multi_use_hint T fuel hint value p junk
    pure (r.1, r.2, none)

/-- Functor `select1st` of `map.h`:
`T operator()(const value_type& value) const { return value.first; }`.
Its result type is the mapped type `T`, so the key is returned converted to
`T`; `conv` is that implicit conversion from `Key` to `T`. -/
def select1st {κ β : Type} (conv : κ → β) (value : κ × β) : β := conv value.1

/-- The tree behind `map<Key, T, Compare>`,
`rb_tree<key_type, value_type, select1st, key_compare>`.  Wherever the tree
takes `KeyOfValue()(v)` as a key (an argument of `key_compare`, the
initialiser of a `key_type`), the `T` that `select1st` returns is converted
to `Key`; `back` is that implicit conversion. -/
def map_traits {κ β : Type} (conv : κ → β) (back : β → κ) (comp : κ → κ → Bool)
    (bits : Nat) : Traits (κ × β) κ :=
  { KeyOfValue := fun v => back (select1st conv v), key_compare := comp, size_bits := bits }

/-- Instance behind `map<int, bool, less<int>>` with a 64-bit `size_type`,
keys taken as natural numbers: the conversion of an `int` to `bool` is
`k != 0`, that of a `bool` to `int` gives 0 or 1. -/
def flagT : Traits (Nat × Bool) Nat :=
  map_traits (fun k => decide (k ≠ 0)) (fun b => if b then 1 else 0)
    (fun a b => decide (a < b)) 64

/-- The empty `map<int, bool, less<int>>` with its header at address 1. -/
def empty_flags : rb_tree (Nat × Bool) := rb_tree_init (fun _ => none) 1

/-- The map after `m[5]` on the empty map, the node going to address 2. -/
def flags_5 : Except Fault (rb_tree (Nat × Bool)) :=
  (map_index flagT 10 empty_flags 5 false 2 rb_tree_red).map fun r => r.1
end mystl

namespace mystl

open Tree

/-! ## Basic facts about trees and paths -/

section basics

variable {α : Type}

@[simp] theorem Tree.ptr_nil : (Tree.nil : Tree α).ptr = 0 := rfl
@[simp] theorem Tree.ptr_node (a c l v r) : (Tree.node a c l v r : Tree α).ptr = a := rfl
@[simp] theorem Tree.nodes_nil : (Tree.nil : Tree α).nodes = [] := rfl
@[simp] theorem Tree.nodes_node (a c l v r) :
    (Tree.node a c l v r : Tree α).nodes = l.nodes ++ (a, v) :: r.nodes := rfl
@[simp] theorem Tree.addrs_nil : (Tree.nil : Tree α).addrs = [] := rfl
@[simp] theorem Tree.addrs_node (a c l v r) :
    (Tree.node a c l v r : Tree α).addrs = l.addrs ++ a :: r.addrs := by
  simp [Tree.addrs]
@[simp] theorem Tree.toList_nil : (Tree.nil : Tree α).toList = [] := rfl
@[simp] theorem Tree.toList_node (a c l v r) :
    (Tree.node a c l v r : Tree α).toList = l.toList ++ v :: r.toList := by
  simp [Tree.toList]
@[simp] theorem Tree.size_nil : (Tree.nil : Tree α).size = 0 := rfl
@[simp] theorem Tree.size_node (a c l v r) :
    (Tree.node a c l v r : Tree α).size = l.size + 1 + r.size := rfl

theorem Tree.length_nodes (t : Tree α) : t.nodes.length = t.size := by
  induction t with
  | nil => rfl
  | node a c l v r ihl ihr => simp [ihl, ihr]; omega

theorem Tree.length_addrs (t : Tree α) : t.addrs.length = t.size := by
  simp [Tree.addrs, Tree.length_nodes]

theorem Tree.ptr_mem_addrs {t : Tree α} (h : t ≠ .nil) : t.ptr ∈ t.addrs := by
  cases t with
  | nil => exact absurd rfl h
  | node a c l v r => simp

theorem Tree.ptr_eq_zero_or_mem (t : Tree α) : t.ptr = 0 ∨ t.ptr ∈ t.addrs := by
  cases t with
  | nil => exact Or.inl rfl
  | node a c l v r => right; simp

@[simp] theorem Frame.addr_L (a c v) (r : Tree α) : (Frame.L a c v r).addr = a := rfl
@[simp] theorem Frame.addr_R (a c) (l : Tree α) (v) : (Frame.R a c l v).addr = a := rfl
@[simp] theorem Frame.color_L (a c v) (r : Tree α) : (Frame.L a c v r).color = c := rfl
@[simp] theorem Frame.color_R (a c) (l : Tree α) (v) : (Frame.R a c l v).color = c := rfl
@[simp] theorem Frame.fill_L (a c v) (r t : Tree α) :
    (Frame.L a c v r).fill t = .node a c t v r := rfl
@[simp] theorem Frame.fill_R (a c) (l : Tree α) (v) (t : Tree α) :
    (Frame.R a c l v).fill t = .node a c l v t := rfl

@[simp] theorem plug_nil (t : Tree α) : plug [] t = t := rfl
@[simp] theorem plug_cons (f : Frame α) (fs : Ctx α) (t : Tree α) :
    plug (f :: fs) t = plug fs (f.fill t) := rfl
@[simp] theorem ctxPtr_nil (hdr : Nat) : ctxPtr hdr ([] : Ctx α) = hdr := rfl
@[simp] theorem ctxPtr_cons (hdr : Nat) (f : Frame α) (fs : Ctx α) :
    ctxPtr hdr (f :: fs) = f.addr := rfl

theorem nodes_plug (ctx : Ctx α) (t : Tree α) :
    (plug ctx t).nodes = ctxBefore ctx ++ t.nodes ++ ctxAfter ctx := by
  induction ctx generalizing t with
  | nil => simp [ctxBefore, ctxAfter]
  | cons f fs ih =>
    cases f <;> simp [ih, ctxBefore, ctxAfter]

theorem plug_ne_nil (ctx : Ctx α) (t : Tree α) (h : t ≠ .nil) :
    plug ctx t ≠ .nil := by
  induction ctx generalizing t with
  | nil => simpa using h
  | cons f fs ih =>
    apply ih
    cases f <;> simp

theorem size_plug (ctx : Ctx α) (t : Tree α) :
    (plug ctx t).size = (ctxBefore ctx).length + t.size + (ctxAfter ctx).length := by
  rw [← Tree.length_nodes, nodes_plug]
  simp [Tree.length_nodes]
  omega

end basics

/-! ## Memory reads and writes -/

section memory

variable {α : Type}

@[simp] theorem ok_bind {ε β γ : Type} (a : β) (f : β → Except ε γ) :
    (Except.ok a >>= f) = f a := rfl

@[simp] theorem error_bind {ε β γ : Type} (e : ε) (f : β → Except ε γ) :
    ((Except.error e : Except ε β) >>= f) = Except.error e := rfl

@[simp] theorem pure_eq_ok {ε β : Type} (a : β) : (pure a : Except ε β) = Except.ok a := rfl

@[simp] theorem map_ok {ε β γ : Type} (f : β → γ) (a : β) :
    (f <$> (Except.ok a : Except ε β)) = Except.ok (f a) := rfl

@[simp] theorem map_error {ε β γ : Type} (f : β → γ) (e : ε) :
    (f <$> (Except.error e : Except ε β)) = Except.error e := rfl

@[simp] theorem upd_same (m : Mem α) (p : Nat) (n : rb_tree_node α) : upd m p n p = some n := by
  simp [upd]

theorem upd_ne (m : Mem α) {p a : Nat} (n : rb_tree_node α) (h : a ≠ p) :
    upd m p n a = m a := by
  simp [upd, h]

theorem free_ne (m : Mem α) {p a : Nat} (h : a ≠ p) : free m p a = m a := by
  simp [free, h]

@[simp] theorem free_same (m : Mem α) (p : Nat) : free m p p = none := by
  simp [free]

theorem rd_ok {m : Mem α} {p : Nat} {n : rb_tree_node α} (h0 : p ≠ 0) (h : m p = some n) :
    rd m p = .ok n := by
  simp [rd, h0, h]

theorem rd_upd_same (m : Mem α) {p : Nat} (n : rb_tree_node α) (h0 : p ≠ 0) :
    rd (upd m p n) p = .ok n := by
  simp [rd, h0]

theorem rd_upd_ne (m : Mem α) {p a : Nat} (n : rb_tree_node α) (h : a ≠ p) :
    rd (upd m p n) a = rd m a := by
  simp [rd, upd_ne m n h]

@[simp] theorem rd_zero (m : Mem α) : rd m 0 = .error .null_deref := by
  simp [rd]

/-! ## Representation: frame rules -/

theorem Rep_congr {m m' : Mem α} {par : Nat} {t : Tree α}
    (h : ∀ a ∈ t.addrs, m' a = m a) (hr : Rep m par t) : Rep m' par t := by
  induction t generalizing par with
  | nil => trivial
  | node a c l v r ihl ihr =>
    obtain ⟨h0, ha, hl, hrr⟩ := hr
    refine ⟨h0, ?_, ihl (fun b hb => h b (by simp [hb])) hl,
      ihr (fun b hb => h b (by simp [hb])) hrr⟩
    rw [h a (by simp)]; exact ha

theorem Rep_zero_not_mem {m : Mem α} {par : Nat} {t : Tree α} (hr : Rep m par t) :
    0 ∉ t.addrs := by
  induction t generalizing par with
  | nil => simp
  | node a c l v r ihl ihr =>
    obtain ⟨h0, _, hl, hrr⟩ := hr
    simp [ihl hl, ihr hrr, Ne.symm h0]

theorem Rep_ptr_ne_zero {m : Mem α} {par : Nat} {t : Tree α} (hr : Rep m par t)
    (hne : t ≠ .nil) : t.ptr ≠ 0 := by
  cases t with
  | nil => exact absurd rfl hne
  | node a c l v r => exact hr.1

theorem Rep_ptr_eq_zero_iff {m : Mem α} {par : Nat} {t : Tree α} (hr : Rep m par t) :
    t.ptr = 0 ↔ t = .nil := by
  cases t with
  | nil => simp
  | node a c l v r => simp [hr.1]

theorem Rep_live {m : Mem α} {par : Nat} {t : Tree α} (hr : Rep m par t) :
    ∀ a ∈ t.addrs, m a ≠ none := by
  induction t generalizing par with
  | nil => simp
  | node a c l v r ihl ihr =>
    obtain ⟨_, ha, hl, hrr⟩ := hr
    intro b hb
    simp at hb
    rcases hb with hb | rfl | hb
    · exact ihl hl b hb
    · simp [ha]
    · exact ihr hrr b hb

/-- Re-parenting the root of a represented subtree. -/
theorem Rep_reparent {m : Mem α} {par par' : Nat} {a : Nat} {c : Bool} {l r : Tree α} {v : α}
    (hr : Rep m par (.node a c l v r)) (hl : a ∉ l.addrs) (hrr : a ∉ r.addrs) :
    Rep (upd m a { color := c, parent := par', left := l.ptr, right := r.ptr,
                   value_field := some v }) par' (.node a c l v r) := by
  obtain ⟨h0, _, h1, h2⟩ := hr
  refine ⟨h0, by simp, Rep_congr ?_ h1, Rep_congr ?_ h2⟩
  · intro b hb
    exact upd_ne m _ (fun h => hl (h ▸ hb))
  · intro b hb
    exact upd_ne m _ (fun h => hrr (h ▸ hb))

theorem map_fst_ctxBefore (ctx : Ctx α) : (ctxBefore ctx).map Prod.fst = ctxBeforeA ctx := by
  induction ctx with
  | nil => rfl
  | cons f fs ih => cases f <;> simp [ctxBefore, ctxBeforeA, ih, Tree.addrs]

theorem map_fst_ctxAfter (ctx : Ctx α) : (ctxAfter ctx).map Prod.fst = ctxAfterA ctx := by
  induction ctx with
  | nil => rfl
  | cons f fs ih => cases f <;> simp [ctxAfter, ctxAfterA, ih, Tree.addrs]

theorem addrs_plug (ctx : Ctx α) (t : Tree α) :
    (plug ctx t).addrs = ctxBeforeA ctx ++ t.addrs ++ ctxAfterA ctx := by
  simp only [Tree.addrs, nodes_plug, List.map_append, map_fst_ctxBefore, map_fst_ctxAfter]

theorem mem_addrs_plug {ctx : Ctx α} {t : Tree α} {a : Nat} :
    a ∈ (plug ctx t).addrs ↔ a ∈ ctxBeforeA ctx ∨ a ∈ t.addrs ∨ a ∈ ctxAfterA ctx := by
  simp only [addrs_plug, List.mem_append, or_assoc]

@[simp] theorem ctxBeforeA_nil : ctxBeforeA ([] : Ctx α) = [] := rfl
@[simp] theorem ctxAfterA_nil : ctxAfterA ([] : Ctx α) = [] := rfl
@[simp] theorem ctxBeforeA_L (a c v) (r : Tree α) (fs : Ctx α) :
    ctxBeforeA (.L a c v r :: fs) = ctxBeforeA fs := rfl
@[simp] theorem ctxBeforeA_R (a c) (l : Tree α) (v) (fs : Ctx α) :
    ctxBeforeA (.R a c l v :: fs) = ctxBeforeA fs ++ (l.addrs ++ [a]) := rfl
@[simp] theorem ctxAfterA_L (a c v) (r : Tree α) (fs : Ctx α) :
    ctxAfterA (.L a c v r :: fs) = (a :: r.addrs) ++ ctxAfterA fs := rfl
@[simp] theorem ctxAfterA_R (a c) (l : Tree α) (v) (fs : Ctx α) :
    ctxAfterA (.R a c l v :: fs) = ctxAfterA fs := rfl

/-- A path stays represented when memory changes outside its addresses. -/
theorem RepCtx_congr {m m' : Mem α} {hdr lm rm : Nat} {ctx : Ctx α} {h : Nat}
    (hh : m' hdr = m hdr)
    (hc : ∀ a, a ∈ ctxBeforeA ctx ∨ a ∈ ctxAfterA ctx → m' a = m a)
    (hr : RepCtx m hdr lm rm ctx h) : RepCtx m' hdr lm rm ctx h := by
  induction ctx generalizing h with
  | nil => simpa [RepCtx, hh] using hr
  | cons f fs ih =>
    cases f with
    | L a c v r =>
      obtain ⟨h0, ha, hs, hrest⟩ := hr
      refine ⟨h0, ?_, Rep_congr (fun b hb => hc b ?_) hs, ih (fun b hb => hc b ?_) hrest⟩
      · rw [hc a (by simp)]; exact ha
      · simp [hb]
      · rcases hb with hb | hb <;> simp [hb]
    | R a c l v =>
      obtain ⟨h0, ha, hs, hrest⟩ := hr
      refine ⟨h0, ?_, Rep_congr (fun b hb => hc b ?_) hs, ih (fun b hb => hc b ?_) hrest⟩
      · rw [hc a (by simp)]; exact ha
      · simp [hb]
      · rcases hb with hb | hb <;> simp [hb]

end memory

/-! ## The zipper representation -/

section zfacts
variable {α : Type}

theorem Z_up {m m0 : Mem α} {hdr lm rm : Nat} {f : Frame α} {ctx : Ctx α} {t : Tree α} :
    Z m m0 hdr lm rm (f :: ctx) t ↔ Z m m0 hdr lm rm ctx (f.fill t) := by
  constructor
  · rintro ⟨h1, h2, h3, h4, h5⟩
    cases f with
    | L a c v r =>
      obtain ⟨h0, ha, hs, hrest⟩ := h3
      exact ⟨h1, h2, hrest, ⟨h0, ha, h4, hs⟩, h5⟩
    | R a c l v =>
      obtain ⟨h0, ha, hs, hrest⟩ := h3
      exact ⟨h1, h2, hrest, ⟨h0, ha, hs, h4⟩, h5⟩
  · rintro ⟨h1, h2, h3, h4, h5⟩
    cases f with
    | L a c v r =>
      obtain ⟨h0, ha, hs, hrest⟩ := h4
      exact ⟨h1, h2, ⟨h0, ha, hrest, h3⟩, hs, h5⟩
    | R a c l v =>
      obtain ⟨h0, ha, hs, hrest⟩ := h4
      exact ⟨h1, h2, ⟨h0, ha, hs, h3⟩, hrest, h5⟩

theorem Z_top {m m0 : Mem α} {hdr lm rm : Nat} {ctx : Ctx α} {t : Tree α} :
    Z m m0 hdr lm rm ctx t ↔ Z m m0 hdr lm rm [] (plug ctx t) := by
  induction ctx generalizing t with
  | nil => simp
  | cons f fs ih => rw [Z_up, ih]; simp

theorem Z.header {m m0 : Mem α} {hdr lm rm : Nat} {ctx : Ctx α} {t : Tree α}
    (h : Z m m0 hdr lm rm ctx t) :
    m hdr = some { color := rb_tree_red, parent := (plug ctx t).ptr, left := lm, right := rm,
                   value_field := none } :=
  (Z_top.1 h).rctx

theorem Z.nodup_parts {m m0 : Mem α} {hdr lm rm : Nat} {ctx : Ctx α} {t : Tree α}
    (h : Z m m0 hdr lm rm ctx t) :
    (hdr :: (ctxBeforeA ctx ++ t.addrs ++ ctxAfterA ctx)).Nodup := by
  have := h.nodup
  rwa [addrs_plug] at this

/-- The focused node is different from the header and from every other node. -/
theorem Z.focus_not_mem {m m0 : Mem α} {hdr lm rm : Nat} {ctx : Ctx α} {a : Nat} {c : Bool}
    {l r : Tree α} {v : α} (h : Z m m0 hdr lm rm ctx (.node a c l v r)) :
    a ≠ hdr ∧ a ∉ ctxBeforeA ctx ∧ a ∉ l.addrs ∧ a ∉ r.addrs ∧
      a ∉ ctxAfterA ctx := by
  have hnd := h.nodup_parts
  rw [List.nodup_cons] at hnd
  obtain ⟨hh, hnd⟩ := hnd
  have e : ctxBeforeA ctx ++ (Tree.node a c l v r).addrs ++
      ctxAfterA ctx =
      (ctxBeforeA ctx ++ l.addrs) ++ a :: (r.addrs ++ ctxAfterA ctx) := by
    simp
  rw [e] at hnd hh
  rw [List.nodup_middle, List.nodup_cons] at hnd
  have h1 := hnd.1
  simp only [List.mem_append, not_or] at h1 hh
  exact ⟨fun e => hh.2 (by simp [e]), h1.1.1, h1.1.2, h1.2.1, h1.2.2⟩

theorem Z.hdr_not_mem {m m0 : Mem α} {hdr lm rm : Nat} {ctx : Ctx α} {t : Tree α}
    (h : Z m m0 hdr lm rm ctx t) :
    hdr ∉ ctxBeforeA ctx ∧ hdr ∉ t.addrs ∧ hdr ∉ ctxAfterA ctx := by
  have hnd := h.nodup_parts
  rw [List.nodup_cons] at hnd
  have h1 := hnd.1
  simp only [List.mem_append, not_or] at h1
  exact ⟨h1.1.1, h1.1.2, h1.2⟩

theorem Z.rd_focus {m m0 : Mem α} {hdr lm rm : Nat} {ctx : Ctx α} {a : Nat} {c : Bool}
    {l r : Tree α} {v : α} (h : Z m m0 hdr lm rm ctx (.node a c l v r)) :
    rd m a = .ok (rb_tree_node.mk c (ctxPtr hdr ctx) l.ptr r.ptr (some v)) :=
  rd_ok h.rsub.1 h.rsub.2.1

theorem Z.rd_header {m m0 : Mem α} {hdr lm rm : Nat} {ctx : Ctx α} {t : Tree α}
    (h : Z m m0 hdr lm rm ctx t) :
    rd m hdr = .ok (rb_tree_node.mk rb_tree_red (plug ctx t).ptr lm rm none) :=
  rd_ok h.hdr_ne h.header

theorem Z.recolor {m m0 : Mem α} {hdr lm rm : Nat} {ctx : Ctx α} {a : Nat} {c : Bool}
    {l r : Tree α} {v : α} (h : Z m m0 hdr lm rm ctx (.node a c l v r)) (c' : Bool) :
    ∃ m', set_color m a c' = .ok m' ∧ Z m' m0 hdr lm rm ctx (.node a c' l v r) := by
  obtain ⟨n1, n2, n3, n4, n5⟩ := h.focus_not_mem
  obtain ⟨h0, ha, hl, hr⟩ := h.rsub
  refine ⟨_, by simp [set_color, h.rd_focus]; rfl, h.hdr_ne, ?_, ?_, ?_, ?_⟩
  · have := h.nodup
    simpa [addrs_plug] using this
  · refine RepCtx_congr (upd_ne m _ (Ne.symm n1)) ?_ h.rctx
    intro b hb
    apply upd_ne
    rintro rfl
    rcases hb with hb | hb
    · exact n2 hb
    · exact n5 hb
  · refine ⟨h0, by simp, Rep_congr ?_ hl, Rep_congr ?_ hr⟩
    · intro b hb; exact upd_ne m _ (fun e => n3 (e ▸ hb))
    · intro b hb; exact upd_ne m _ (fun e => n4 (e ▸ hb))
  · intro b hb1 hb2
    rw [upd_ne m _ (fun e => hb2 (by rw [e, mem_addrs_plug]; simp)), h.frame b hb1]
    simpa [mem_addrs_plug] using hb2
end zfacts

/-! ## Rotations on the zipper representation -/

section zrot
variable {α : Type}

theorem get_parent_ok {m : Mem α} {p : Nat} {n : rb_tree_node α} (h : rd m p = .ok n) :
    get_parent m p = .ok n.parent := by simp [get_parent, h]
theorem get_left_ok {m : Mem α} {p : Nat} {n : rb_tree_node α} (h : rd m p = .ok n) :
    get_left m p = .ok n.left := by simp [get_left, h]
theorem get_right_ok {m : Mem α} {p : Nat} {n : rb_tree_node α} (h : rd m p = .ok n) :
    get_right m p = .ok n.right := by simp [get_right, h]
theorem get_color_ok {m : Mem α} {p : Nat} {n : rb_tree_node α} (h : rd m p = .ok n) :
    get_color m p = .ok n.color := by simp [get_color, h]
theorem set_parent_ok {m : Mem α} {p : Nat} {n : rb_tree_node α} (h : rd m p = .ok n) (v : Nat) :
    set_parent m p v = .ok (upd m p { n with parent := v }) := by simp [set_parent, h]
theorem set_left_ok {m : Mem α} {p : Nat} {n : rb_tree_node α} (h : rd m p = .ok n) (v : Nat) :
    set_left m p v = .ok (upd m p { n with left := v }) := by simp [set_left, h]
theorem set_right_ok {m : Mem α} {p : Nat} {n : rb_tree_node α} (h : rd m p = .ok n) (v : Nat) :
    set_right m p v = .ok (upd m p { n with right := v }) := by simp [set_right, h]
theorem set_color_ok {m : Mem α} {p : Nat} {n : rb_tree_node α} (h : rd m p = .ok n) (c : Bool) :
    set_color m p c = .ok (upd m p { n with color := c }) := by simp [set_color, h]

theorem ptr_plug (ctx : Ctx α) (t : Tree α) : (plug ctx t).ptr = ctxRoot t.ptr ctx := by
  induction ctx generalizing t with
  | nil => rfl
  | cons f fs ih => cases f <;> simp [ih, ctxRoot]

theorem ctxRoot_mem (h : Nat) (f : Frame α) (fs : Ctx α) :
    ctxRoot h (f :: fs) ∈ ctxAddrs (f :: fs) := by
  induction fs generalizing h f with
  | nil => cases f <;> simp [ctxRoot, ctxAddrs]
  | cons g gs ih =>
    have := ih f.addr g
    simp only [ctxRoot] at this ⊢
    simp only [ctxAddrs, List.mem_append] at this ⊢
    cases f <;> simp <;> tauto

theorem ctxPtr_mem (hdr : Nat) (ctx : Ctx α) :
    ctxPtr hdr ctx = hdr ∨ ctxPtr hdr ctx ∈ ctxAddrs ctx := by
  cases ctx with
  | nil => exact Or.inl rfl
  | cons f fs => right; cases f <;> simp [ctxAddrs]

theorem RepCtx.header_rec {m : Mem α} {hdr lm rm : Nat} {ctx : Ctx α} {h : Nat}
    (hc : RepCtx m hdr lm rm ctx h) :
    m hdr = some (rb_tree_node.mk rb_tree_red (ctxRoot h ctx) lm rm none) := by
  induction ctx generalizing h with
  | nil => exact hc
  | cons f fs ih =>
    cases f with
    | L a c v r => exact ih hc.2.2.2
    | R a c l v => exact ih hc.2.2.2

theorem Z.nodup_focus {m m0 : Mem α} {hdr lm rm : Nat} {ctx : Ctx α} {t : Tree α}
    (h : Z m m0 hdr lm rm ctx t) : t.addrs.Nodup := by
  have := h.nodup_parts
  exact (List.Nodup.of_append_right (List.Nodup.of_append_left (List.Nodup.of_cons this)))

theorem Z.nodup_ctx {m m0 : Mem α} {hdr lm rm : Nat} {ctx : Ctx α} {t : Tree α}
    (h : Z m m0 hdr lm rm ctx t) : (hdr :: ctxAddrs ctx).Nodup := by
  have := h.nodup_parts
  refine List.Nodup.sublist ?_ this
  refine List.Sublist.cons₂ _ ?_
  rw [List.append_assoc]
  exact List.Sublist.append (List.Sublist.refl _) (List.sublist_append_right _ _)

/-- Nodes of the focused subtree are different from the header, the path and
the siblings along it. -/
theorem Z.focus_disjoint {m m0 : Mem α} {hdr lm rm : Nat} {ctx : Ctx α} {t : Tree α}
    (h : Z m m0 hdr lm rm ctx t) {z : Nat} (hz : z ∈ t.addrs) :
    z ≠ hdr ∧ z ∉ ctxAddrs ctx ∧ z ≠ ctxPtr hdr ctx ∧ z ≠ 0 := by
  have hnd := h.nodup_parts
  rw [List.nodup_cons] at hnd
  obtain ⟨hh, hnd⟩ := hnd
  have h1 : z ≠ hdr := fun e => hh (by simp [← e, hz])
  have h2 : z ∉ ctxAddrs ctx := by
    rw [List.append_assoc, List.nodup_append] at hnd
    have d1 := hnd.2.2
    have d2 := (List.nodup_append.1 hnd.2.1).2.2
    simp only [ctxAddrs, List.mem_append, not_or]
    exact ⟨fun hb => d1 hb (by simp [hz]), fun ha => d2 hz ha⟩
  refine ⟨h1, h2, ?_, ?_⟩
  · rcases ctxPtr_mem hdr ctx with e | e
    · rw [e]; exact h1
    · exact fun e' => h2 (e' ▸ e)
  · exact fun e => Rep_zero_not_mem h.rsub (e ▸ hz)

theorem RepCtx.relink_l {m : Mem α} {hdr lm rm : Nat} {ctx : Ctx α} {x : Nat} (y : Nat)
    (hc : RepCtx m hdr lm rm ctx x) (hh0 : hdr ≠ 0) (hx0 : x ≠ 0)
    (hxp : get_parent m x = .ok (ctxPtr hdr ctx))
    (hnd : (hdr :: ctxAddrs ctx).Nodup) (hx : x ∉ ctxAddrs ctx) :
    ∃ m', replace_child_l m x y hdr = .ok m' ∧ RepCtx m' hdr lm rm ctx y ∧
      ∀ z, z ≠ ctxPtr hdr ctx → m' z = m z := by
  have hhd := rd_ok hh0 hc.header_rec
  cases ctx with
  | nil =>
    refine ⟨_, by simp [replace_child_l, get_parent_ok hhd, ctxRoot, set_parent_ok hhd]; rfl, ?_, ?_⟩
    · simp [RepCtx]
    · intro z hz; exact upd_ne m _ hz
  | cons f fs =>
    have hroot : x ≠ ctxRoot x (f :: fs) := fun e => hx (e ▸ ctxRoot_mem x f fs)
    cases f with
    | L p pc pv pr =>
      obtain ⟨p0, hp, hs, hrest⟩ := hc
      have e : hdr :: ctxAddrs (Frame.L p pc pv pr :: fs) =
          (hdr :: ctxBeforeA fs) ++ p :: (pr.addrs ++ ctxAfterA fs) := by simp [ctxAddrs]
      rw [e, List.nodup_middle, List.nodup_cons] at hnd
      have hn := hnd.1
      simp only [List.mem_append, List.mem_cons, not_or] at hn
      refine ⟨_, by simp [replace_child_l, get_parent_ok hhd, hroot, hxp,
        get_left_ok (rd_ok p0 hp), set_left_ok (rd_ok p0 hp)]; rfl, ⟨p0, by simp, ?_, ?_⟩, ?_⟩
      · exact Rep_congr (fun b hb => upd_ne m _ (fun e => hn.2.1 (e ▸ hb))) hs
      · refine RepCtx_congr (upd_ne m _ (Ne.symm hn.1.1)) ?_ hrest
        intro b hb
        apply upd_ne
        rintro rfl
        rcases hb with hb | hb
        · exact hn.1.2 hb
        · exact hn.2.2 hb
      · intro z hz; exact upd_ne m _ hz
    | R p pc pl pv =>
      obtain ⟨p0, hp, hs, hrest⟩ := hc
      have e : hdr :: ctxAddrs (Frame.R p pc pl pv :: fs) =
          (hdr :: (ctxBeforeA fs ++ pl.addrs)) ++ p :: ctxAfterA fs := by simp [ctxAddrs]
      have hxpl : x ≠ pl.ptr := by
        rcases pl.ptr_eq_zero_or_mem with e0 | e0
        · rw [e0]; exact hx0
        · intro e1; apply hx; rw [e1]; simp [ctxAddrs, e0]
      rw [e, List.nodup_middle, List.nodup_cons] at hnd
      have hn := hnd.1
      simp only [List.mem_append, List.mem_cons, not_or] at hn
      refine ⟨_, by simp [replace_child_l, get_parent_ok hhd, hroot, hxp,
        get_left_ok (rd_ok p0 hp), hxpl, set_right_ok (rd_ok p0 hp)]; rfl, ⟨p0, by simp, ?_, ?_⟩, ?_⟩
      · exact Rep_congr (fun b hb => upd_ne m _ (fun e => hn.1.2.2 (e ▸ hb))) hs
      · refine RepCtx_congr (upd_ne m _ (Ne.symm hn.1.1)) ?_ hrest
        intro b hb
        apply upd_ne
        rintro rfl
        rcases hb with hb | hb
        · exact hn.1.2.1 hb
        · exact hn.2 hb
      · intro z hz; exact upd_ne m _ hz

theorem RepCtx.relink_r {m : Mem α} {hdr lm rm : Nat} {ctx : Ctx α} {x : Nat} (y : Nat)
    (hc : RepCtx m hdr lm rm ctx x) (hh0 : hdr ≠ 0) (hx0 : x ≠ 0)
    (hxp : get_parent m x = .ok (ctxPtr hdr ctx))
    (hnd : (hdr :: ctxAddrs ctx).Nodup) (hx : x ∉ ctxAddrs ctx) :
    ∃ m', replace_child_r m x y hdr = .ok m' ∧ RepCtx m' hdr lm rm ctx y ∧
      ∀ z, z ≠ ctxPtr hdr ctx → m' z = m z := by
  have hhd := rd_ok hh0 hc.header_rec
  cases ctx with
  | nil =>
    refine ⟨_, by simp [replace_child_r, get_parent_ok hhd, ctxRoot, set_parent_ok hhd]; rfl, ?_, ?_⟩
    · simp [RepCtx]
    · intro z hz; exact upd_ne m _ hz
  | cons f fs =>
    have hroot : x ≠ ctxRoot x (f :: fs) := fun e => hx (e ▸ ctxRoot_mem x f fs)
    cases f with
    | L p pc pv pr =>
      obtain ⟨p0, hp, hs, hrest⟩ := hc
      have e : hdr :: ctxAddrs (Frame.L p pc pv pr :: fs) =
          (hdr :: ctxBeforeA fs) ++ p :: (pr.addrs ++ ctxAfterA fs) := by simp [ctxAddrs]
      rw [e, List.nodup_middle, List.nodup_cons] at hnd
      have hn := hnd.1
      simp only [List.mem_append, List.mem_cons, not_or] at hn
      have hxpr : x ≠ pr.ptr := by
        rcases pr.ptr_eq_zero_or_mem with e0 | e0
        · rw [e0]; exact hx0
        · intro e1; apply hx; rw [e1]; simp [ctxAddrs, e0]
      refine ⟨_, by simp [replace_child_r, get_parent_ok hhd, hroot, hxp,
        get_right_ok (rd_ok p0 hp), hxpr, set_left_ok (rd_ok p0 hp)]; rfl, ⟨p0, by simp, ?_, ?_⟩, ?_⟩
      · exact Rep_congr (fun b hb => upd_ne m _ (fun e => hn.2.1 (e ▸ hb))) hs
      · refine RepCtx_congr (upd_ne m _ (Ne.symm hn.1.1)) ?_ hrest
        intro b hb
        apply upd_ne
        rintro rfl
        rcases hb with hb | hb
        · exact hn.1.2 hb
        · exact hn.2.2 hb
      · intro z hz; exact upd_ne m _ hz
    | R p pc pl pv =>
      obtain ⟨p0, hp, hs, hrest⟩ := hc
      have e : hdr :: ctxAddrs (Frame.R p pc pl pv :: fs) =
          (hdr :: (ctxBeforeA fs ++ pl.addrs)) ++ p :: ctxAfterA fs := by simp [ctxAddrs]
      rw [e, List.nodup_middle, List.nodup_cons] at hnd
      have hn := hnd.1
      simp only [List.mem_append, List.mem_cons, not_or] at hn
      refine ⟨_, by simp [replace_child_r, get_parent_ok hhd, hroot, hxp,
        get_right_ok (rd_ok p0 hp), set_right_ok (rd_ok p0 hp)]; rfl, ⟨p0, by simp, ?_, ?_⟩, ?_⟩
      · exact Rep_congr (fun b hb => upd_ne m _ (fun e => hn.1.2.2 (e ▸ hb))) hs
      · refine RepCtx_congr (upd_ne m _ (Ne.symm hn.1.1)) ?_ hrest
        intro b hb
        apply upd_ne
        rintro rfl
        rcases hb with hb | hb
        · exact hn.1.2.1 hb
        · exact hn.2 hb
      · intro z hz; exact upd_ne m _ hz

theorem Rep.reparent_child {m : Mem α} {par : Nat} (x : Nat) {b : Tree α} (hb : Rep m par b)
    (hnd : b.addrs.Nodup) :
    ∃ m', set_parent_opt m b.ptr x = .ok m' ∧ Rep m' x b ∧
      ∀ z, z ∉ b.addrs → m' z = m z := by
  cases b with
  | nil => exact ⟨m, by simp [set_parent_opt], trivial, fun _ _ => rfl⟩
  | node bb cb bl vb br =>
    have h0 := hb.1
    have e : (Tree.node bb cb bl vb br).addrs = bl.addrs ++ bb :: br.addrs := by simp
    rw [e, List.nodup_middle, List.nodup_cons] at hnd
    have hn := hnd.1
    simp only [List.mem_append, not_or] at hn
    refine ⟨_, by simp [set_parent_opt, set_parent, rd_ok h0 hb.2.1, h0],
      Rep_reparent hb hn.1 hn.2, ?_⟩
    intro z hz
    exact upd_ne m _ (fun e => hz (by simp [e]))


theorem Z.rotate_left {m m0 : Mem α} {hdr lm rm : Nat} {ctx : Ctx α} {x y : Nat} {cx cy : Bool}
    {a b c : Tree α} {vx vy : α}
    (h : Z m m0 hdr lm rm ctx (.node x cx a vx (.node y cy b vy c))) :
    ∃ m', rb_tree_rotate_left m x hdr = .ok m' ∧
      Z m' m0 hdr lm rm ctx (.node y cy (.node x cx a vx b) vy c) := by
  have hy : Z m m0 hdr lm rm (.R x cx a vx :: ctx) (.node y cy b vy c) := Z_up.2 h
  have hb : Z m m0 hdr lm rm (.L y cy vy c :: .R x cx a vx :: ctx) b := Z_up.2 hy
  obtain ⟨x1, x2, x3, x4, x5⟩ := h.focus_not_mem
  obtain ⟨y1, y2, y3, y4, y5⟩ := hy.focus_not_mem
  simp only [Tree.addrs_node, List.mem_append, List.mem_cons, not_or] at x4
  simp only [ctxBeforeA_R, ctxAfterA_R, List.mem_append, List.mem_cons, List.mem_singleton,
    not_or, List.not_mem_nil, or_false] at y2 y5
  have hxy : x ≠ y := x4.2.1
  have x0 := h.rsub.1
  have y0 := hy.rsub.1
  have hxP : x ≠ ctxPtr hdr ctx := (h.focus_disjoint (z := x) (by simp)).2.2.1
  have hyP : y ≠ ctxPtr hdr ctx := (h.focus_disjoint (z := y) (by simp)).2.2.1
  have hxc : x ∉ ctxAddrs ctx := (h.focus_disjoint (z := x) (by simp)).2.1
  have hyc : y ∉ ctxAddrs ctx := (h.focus_disjoint (z := y) (by simp)).2.1
  have hbd : ∀ z, z ∈ b.addrs → z ≠ hdr ∧ z ∉ ctxAddrs ctx ∧ z ≠ ctxPtr hdr ctx ∧ z ≠ x ∧ z ≠ y ∧
      z ∉ a.addrs ∧ z ∉ c.addrs := by
    intro z hz
    have d1 := h.focus_disjoint (z := z) (by simp [hz])
    have d2 := (hb.focus_disjoint hz).2.1
    simp only [ctxAddrs, ctxBeforeA_R, ctxBeforeA_L, ctxAfterA_R, ctxAfterA_L, List.mem_append,
      List.mem_cons, List.mem_singleton, not_or, List.not_mem_nil, or_false] at d2
    exact ⟨d1.1, d1.2.1, d1.2.2.1, d2.1.2.2, d2.2.1.1, d2.1.2.1, d2.2.1.2⟩
  -- x->right = y->left
  obtain ⟨m1, e1⟩ : ∃ m1, m1 = upd m x (rb_tree_node.mk cx (ctxPtr hdr ctx) a.ptr b.ptr (some vx)) :=
    ⟨_, rfl⟩
  have s1 : set_right m x b.ptr = .ok m1 := by rw [e1]; exact set_right_ok h.rd_focus _
  have hm1y : rd m1 y = .ok (rb_tree_node.mk cy x b.ptr c.ptr (some vy)) := by
    rw [e1, rd_upd_ne m _ (Ne.symm hxy)]; exact hy.rd_focus
  -- if (y->left) y->left->parent = x
  have rb1 : Rep m1 y b :=
    Rep_congr (fun z hz => by rw [e1]; exact upd_ne m _ (hbd z hz).2.2.2.1) hy.rsub.2.2.1
  obtain ⟨m2, e2, r2, f2⟩ := rb1.reparent_child x hb.nodup_focus
  have hm2x : rd m2 x = .ok (rb_tree_node.mk cx (ctxPtr hdr ctx) a.ptr b.ptr (some vx)) := by
    apply rd_ok x0
    rw [f2 x (fun hz => (hbd x hz).2.2.2.1 rfl), e1]; simp
  have hm2y : rd m2 y = .ok (rb_tree_node.mk cy x b.ptr c.ptr (some vy)) := by
    have := f2 y (fun hz => (hbd y hz).2.2.2.2.1 rfl)
    simp only [rd, this] at hm1y ⊢
    exact hm1y
  -- y->parent = x->parent
  obtain ⟨m3, e3⟩ : ∃ m3, m3 = upd m2 y (rb_tree_node.mk cy (ctxPtr hdr ctx) b.ptr c.ptr (some vy)) :=
    ⟨_, rfl⟩
  have s3 : set_parent m2 y (ctxPtr hdr ctx) = .ok m3 := by rw [e3]; exact set_parent_ok hm2y _
  have f3 : ∀ z, z ≠ x → z ≠ y → z ∉ b.addrs → m3 z = m z := by
    intro z hzx hzy hzb
    rw [e3, upd_ne m2 _ hzy, f2 z hzb, e1, upd_ne m _ hzx]
  have hm3x : rd m3 x = .ok (rb_tree_node.mk cx (ctxPtr hdr ctx) a.ptr b.ptr (some vx)) := by
    rw [e3, rd_upd_ne m2 _ hxy]; exact hm2x
  have c3 : RepCtx m3 hdr lm rm ctx x := by
    refine RepCtx_congr ?_ ?_ h.rctx
    · exact f3 hdr (Ne.symm x1) (Ne.symm y1) (fun hz => (hbd hdr hz).1 rfl)
    · intro z hz
      have hzc : z ∈ ctxAddrs ctx := by simpa [ctxAddrs] using hz
      exact f3 z (fun e => hxc (e ▸ hzc)) (fun e => hyc (e ▸ hzc))
        (fun hzb => (hbd z hzb).2.1 hzc)
  obtain ⟨m4, e4, c4, f4⟩ := c3.relink_l y h.hdr_ne x0 (get_parent_ok hm3x) h.nodup_ctx hxc
  have hm4y : rd m4 y = .ok (rb_tree_node.mk cy (ctxPtr hdr ctx) b.ptr c.ptr (some vy)) := by
    apply rd_ok y0
    rw [f4 y hyP, e3]; simp
  -- y->left = x
  obtain ⟨m5, e5⟩ : ∃ m5, m5 = upd m4 y (rb_tree_node.mk cy (ctxPtr hdr ctx) x c.ptr (some vy)) :=
    ⟨_, rfl⟩
  have s5 : set_left m4 y x = .ok m5 := by rw [e5]; exact set_left_ok hm4y _
  have hm5x : rd m5 x = .ok (rb_tree_node.mk cx (ctxPtr hdr ctx) a.ptr b.ptr (some vx)) := by
    rw [e5, rd_upd_ne m4 _ hxy]
    have := f4 x hxP
    simp only [rd, this] at hm3x ⊢
    exact hm3x
  -- x->parent = y
  obtain ⟨m6, e6⟩ : ∃ m6, m6 = upd m5 x (rb_tree_node.mk cx y a.ptr b.ptr (some vx)) :=
    ⟨_, rfl⟩
  have s6 : set_parent m5 x y = .ok m6 := by rw [e6]; exact set_parent_ok hm5x _
  have f6 : ∀ z, z ≠ x → z ≠ y → z ≠ ctxPtr hdr ctx → m6 z = m3 z := by
    intro z hzx hzy hzP
    rw [e6, upd_ne m5 _ hzx, e5, upd_ne m4 _ hzy, f4 z hzP]
  have run : rb_tree_rotate_left m x hdr = .ok m6 := by
    simp only [rb_tree_rotate_left, get_right_ok h.rd_focus, get_left_ok hy.rd_focus, ok_bind,
      Tree.ptr_node, s1, get_left_ok hm1y, e2, get_parent_ok hm2x, s3, e4, s5, s6]
  refine ⟨m6, run, h.hdr_ne, ?_, ?_, ?_, ?_⟩
  · have := h.nodup
    simpa [addrs_plug] using this
  · refine RepCtx_congr ?_ ?_ c4
    · rw [e6, upd_ne m5 _ (Ne.symm x1), e5, upd_ne m4 _ (Ne.symm y1)]
    · intro z hz
      have hzc : z ∈ ctxAddrs ctx := by simpa [ctxAddrs] using hz
      have hzx : z ≠ x := fun e => hxc (e ▸ hzc)
      have hzy : z ≠ y := fun e => hyc (e ▸ hzc)
      rw [e6, upd_ne m5 _ hzx, e5, upd_ne m4 _ hzy]
  · refine ⟨y0, ?_, ⟨x0, by simp [e6], ?_, ?_⟩, ?_⟩
    · rw [e6, upd_ne m5 _ (Ne.symm hxy), e5]; simp
    · refine Rep_congr ?_ h.rsub.2.2.1
      intro z hz
      have d := h.focus_disjoint (z := z) (by simp [hz])
      rw [f6 z (fun e => x3 (e ▸ hz)) (fun e => y2.2.1 (e ▸ hz)) d.2.2.1]
      exact f3 z (fun e => x3 (e ▸ hz)) (fun e => y2.2.1 (e ▸ hz)) (fun hzb => (hbd z hzb).2.2.2.2.2.1 hz)
    · refine Rep_congr ?_ r2
      intro z hz
      have d := hbd z hz
      rw [f6 z d.2.2.2.1 d.2.2.2.2.1 d.2.2.1, e3, upd_ne m2 _ d.2.2.2.2.1]
    · refine Rep_congr ?_ hy.rsub.2.2.2
      intro z hz
      have d := h.focus_disjoint (z := z) (by simp [hz])
      rw [f6 z (fun e => x4.2.2 (e ▸ hz)) (fun e => y4 (e ▸ hz)) d.2.2.1]
      exact f3 z (fun e => x4.2.2 (e ▸ hz)) (fun e => y4 (e ▸ hz)) (fun hzb => (hbd z hzb).2.2.2.2.2.2 hz)
  · intro z hz1 hz2
    have hz3 : z ∉ (plug ctx (.node x cx a vx (.node y cy b vy c))).addrs := by
      simpa [mem_addrs_plug] using hz2
    have hz4 := hz3
    simp only [mem_addrs_plug, Tree.addrs_node, List.mem_append, List.mem_cons, not_or] at hz4
    have hzP : z ≠ ctxPtr hdr ctx := by
      rcases ctxPtr_mem hdr ctx with e | e
      · rw [e]; exact hz1
      · intro e'; rw [← e'] at e
        simp only [ctxAddrs, List.mem_append] at e
        rcases e with e | e
        · exact hz4.1 e
        · exact hz4.2.2 e
    rw [f6 z hz4.2.1.2.1 hz4.2.1.2.2.2.1 hzP, f3 z hz4.2.1.2.1 hz4.2.1.2.2.2.1 hz4.2.1.2.2.1]
    exact h.frame z hz1 hz3

theorem Z.rotate_right {m m0 : Mem α} {hdr lm rm : Nat} {ctx : Ctx α} {x y : Nat} {cx cy : Bool}
    {a b c : Tree α} {vx vy : α}
    (h : Z m m0 hdr lm rm ctx (.node x cx (.node y cy a vy b) vx c)) :
    ∃ m', rb_tree_rotate_right m x hdr = .ok m' ∧
      Z m' m0 hdr lm rm ctx (.node y cy a vy (.node x cx b vx c)) := by
  have hy : Z m m0 hdr lm rm (.L x cx vx c :: ctx) (.node y cy a vy b) := Z_up.2 h
  have hb : Z m m0 hdr lm rm (.R y cy a vy :: .L x cx vx c :: ctx) b := Z_up.2 hy
  obtain ⟨x1, x2, x3, x4, x5⟩ := h.focus_not_mem
  obtain ⟨y1, y2, y3, y4, y5⟩ := hy.focus_not_mem
  simp only [Tree.addrs_node, List.mem_append, List.mem_cons, not_or] at x3
  simp only [ctxBeforeA_L, ctxAfterA_L, List.mem_append, List.mem_cons, List.mem_singleton,
    not_or, List.not_mem_nil, or_false, List.cons_append] at y2 y5
  have hxy : x ≠ y := x3.2.1
  have x0 := h.rsub.1
  have y0 := hy.rsub.1
  have hxP : x ≠ ctxPtr hdr ctx := (h.focus_disjoint (z := x) (by simp)).2.2.1
  have hyP : y ≠ ctxPtr hdr ctx := (h.focus_disjoint (z := y) (by simp)).2.2.1
  have hxc : x ∉ ctxAddrs ctx := (h.focus_disjoint (z := x) (by simp)).2.1
  have hyc : y ∉ ctxAddrs ctx := (h.focus_disjoint (z := y) (by simp)).2.1
  have hbd : ∀ z, z ∈ b.addrs → z ≠ hdr ∧ z ∉ ctxAddrs ctx ∧ z ≠ ctxPtr hdr ctx ∧ z ≠ x ∧ z ≠ y ∧
      z ∉ a.addrs ∧ z ∉ c.addrs := by
    intro z hz
    have d1 := h.focus_disjoint (z := z) (by simp [hz])
    have d2 := (hb.focus_disjoint hz).2.1
    simp only [ctxAddrs, ctxBeforeA_R, ctxBeforeA_L, ctxAfterA_R, ctxAfterA_L, List.mem_append,
      List.mem_cons, List.mem_singleton, not_or, List.not_mem_nil, or_false] at d2
    exact ⟨d1.1, d1.2.1, d1.2.2.1, d2.2.1.1, d2.1.2.2, d2.1.2.1, d2.2.1.2⟩
  -- x->left = y->right
  obtain ⟨m1, e1⟩ : ∃ m1, m1 = upd m x (rb_tree_node.mk cx (ctxPtr hdr ctx) b.ptr c.ptr (some vx)) :=
    ⟨_, rfl⟩
  have s1 : set_left m x b.ptr = .ok m1 := by rw [e1]; exact set_left_ok h.rd_focus _
  have hm1y : rd m1 y = .ok (rb_tree_node.mk cy x a.ptr b.ptr (some vy)) := by
    rw [e1, rd_upd_ne m _ (Ne.symm hxy)]; exact hy.rd_focus
  -- if (y->right) y->right->parent = x
  have rb1 : Rep m1 y b :=
    Rep_congr (fun z hz => by rw [e1]; exact upd_ne m _ (hbd z hz).2.2.2.1) hy.rsub.2.2.2
  obtain ⟨m2, e2, r2, f2⟩ := rb1.reparent_child x hb.nodup_focus
  have hm2x : rd m2 x = .ok (rb_tree_node.mk cx (ctxPtr hdr ctx) b.ptr c.ptr (some vx)) := by
    apply rd_ok x0
    rw [f2 x (fun hz => (hbd x hz).2.2.2.1 rfl), e1]; simp
  have hm2y : rd m2 y = .ok (rb_tree_node.mk cy x a.ptr b.ptr (some vy)) := by
    have := f2 y (fun hz => (hbd y hz).2.2.2.2.1 rfl)
    simp only [rd, this] at hm1y ⊢
    exact hm1y
  -- y->parent = x->parent
  obtain ⟨m3, e3⟩ : ∃ m3, m3 = upd m2 y (rb_tree_node.mk cy (ctxPtr hdr ctx) a.ptr b.ptr (some vy)) :=
    ⟨_, rfl⟩
  have s3 : set_parent m2 y (ctxPtr hdr ctx) = .ok m3 := by rw [e3]; exact set_parent_ok hm2y _
  have f3 : ∀ z, z ≠ x → z ≠ y → z ∉ b.addrs → m3 z = m z := by
    intro z hzx hzy hzb
    rw [e3, upd_ne m2 _ hzy, f2 z hzb, e1, upd_ne m _ hzx]
  have hm3x : rd m3 x = .ok (rb_tree_node.mk cx (ctxPtr hdr ctx) b.ptr c.ptr (some vx)) := by
    rw [e3, rd_upd_ne m2 _ hxy]; exact hm2x
  have c3 : RepCtx m3 hdr lm rm ctx x := by
    refine RepCtx_congr ?_ ?_ h.rctx
    · exact f3 hdr (Ne.symm x1) (Ne.symm y1) (fun hz => (hbd hdr hz).1 rfl)
    · intro z hz
      have hzc : z ∈ ctxAddrs ctx := by simpa [ctxAddrs] using hz
      exact f3 z (fun e => hxc (e ▸ hzc)) (fun e => hyc (e ▸ hzc))
        (fun hzb => (hbd z hzb).2.1 hzc)
  obtain ⟨m4, e4, c4, f4⟩ := c3.relink_r y h.hdr_ne x0 (get_parent_ok hm3x) h.nodup_ctx hxc
  have hm4y : rd m4 y = .ok (rb_tree_node.mk cy (ctxPtr hdr ctx) a.ptr b.ptr (some vy)) := by
    apply rd_ok y0
    rw [f4 y hyP, e3]; simp
  -- y->right = x
  obtain ⟨m5, e5⟩ : ∃ m5, m5 = upd m4 y (rb_tree_node.mk cy (ctxPtr hdr ctx) a.ptr x (some vy)) :=
    ⟨_, rfl⟩
  have s5 : set_right m4 y x = .ok m5 := by rw [e5]; exact set_right_ok hm4y _
  have hm5x : rd m5 x = .ok (rb_tree_node.mk cx (ctxPtr hdr ctx) b.ptr c.ptr (some vx)) := by
    rw [e5, rd_upd_ne m4 _ hxy]
    have := f4 x hxP
    simp only [rd, this] at hm3x ⊢
    exact hm3x
  -- x->parent = y
  obtain ⟨m6, e6⟩ : ∃ m6, m6 = upd m5 x (rb_tree_node.mk cx y b.ptr c.ptr (some vx)) :=
    ⟨_, rfl⟩
  have s6 : set_parent m5 x y = .ok m6 := by rw [e6]; exact set_parent_ok hm5x _
  have f6 : ∀ z, z ≠ x → z ≠ y → z ≠ ctxPtr hdr ctx → m6 z = m3 z := by
    intro z hzx hzy hzP
    rw [e6, upd_ne m5 _ hzx, e5, upd_ne m4 _ hzy, f4 z hzP]
  have run : rb_tree_rotate_right m x hdr = .ok m6 := by
    simp only [rb_tree_rotate_right, get_left_ok h.rd_focus, get_right_ok hy.rd_focus, ok_bind,
      Tree.ptr_node, s1, get_right_ok hm1y, e2, get_parent_ok hm2x, s3, e4, s5, s6]
  refine ⟨m6, run, h.hdr_ne, ?_, ?_, ?_, ?_⟩
  · have := h.nodup
    simpa [addrs_plug] using this
  · refine RepCtx_congr ?_ ?_ c4
    · rw [e6, upd_ne m5 _ (Ne.symm x1), e5, upd_ne m4 _ (Ne.symm y1)]
    · intro z hz
      have hzc : z ∈ ctxAddrs ctx := by simpa [ctxAddrs] using hz
      have hzx : z ≠ x := fun e => hxc (e ▸ hzc)
      have hzy : z ≠ y := fun e => hyc (e ▸ hzc)
      rw [e6, upd_ne m5 _ hzx, e5, upd_ne m4 _ hzy]
  · refine ⟨y0, ?_, ?_, ⟨x0, by simp [e6], ?_, ?_⟩⟩
    · rw [e6, upd_ne m5 _ (Ne.symm hxy), e5]; simp
    · refine Rep_congr ?_ hy.rsub.2.2.1
      intro z hz
      have d := h.focus_disjoint (z := z) (by simp [hz])
      rw [f6 z (fun e => x3.1 (e ▸ hz)) (fun e => y3 (e ▸ hz)) d.2.2.1]
      exact f3 z (fun e => x3.1 (e ▸ hz)) (fun e => y3 (e ▸ hz)) (fun hzb => (hbd z hzb).2.2.2.2.2.1 hz)
    · refine Rep_congr ?_ r2
      intro z hz
      have d := hbd z hz
      rw [f6 z d.2.2.2.1 d.2.2.2.2.1 d.2.2.1, e3, upd_ne m2 _ d.2.2.2.2.1]
    · refine Rep_congr ?_ h.rsub.2.2.2
      intro z hz
      have d := h.focus_disjoint (z := z) (by simp [hz])
      rw [f6 z (fun e => x4 (e ▸ hz)) (fun e => y5.2.1 (e ▸ hz)) d.2.2.1]
      exact f3 z (fun e => x4 (e ▸ hz)) (fun e => y5.2.1 (e ▸ hz)) (fun hzb => (hbd z hzb).2.2.2.2.2.2 hz)
  · intro z hz1 hz2
    have hz3 : z ∉ (plug ctx (.node x cx (.node y cy a vy b) vx c)).addrs := by
      simpa [mem_addrs_plug] using hz2
    have hz4 := hz3
    simp only [mem_addrs_plug, Tree.addrs_node, List.mem_append, List.mem_cons, not_or] at hz4
    have hzP : z ≠ ctxPtr hdr ctx := by
      rcases ctxPtr_mem hdr ctx with e | e
      · rw [e]; exact hz1
      · intro e'; rw [← e'] at e
        simp only [ctxAddrs, List.mem_append] at e
        rcases e with e | e
        · exact hz4.1 e
        · exact hz4.2.2 e
    rw [f6 z hz4.2.1.2.1 hz4.2.1.1.2.1 hzP, f3 z hz4.2.1.2.1 hz4.2.1.1.2.1 hz4.2.1.1.2.2]
    exact h.frame z hz1 hz3

end zrot

/-! ## The repair loop of `rb_tree_reblance` on the zipper representation -/

section zfix
variable {α : Type}

theorem Z.get_parent {m m0 : Mem α} {hdr lm rm : Nat} {ctx : Ctx α} {a : Nat} {c : Bool}
    {l r : Tree α} {v : α} (h : Z m m0 hdr lm rm ctx (.node a c l v r)) :
    mystl.get_parent m a = .ok (ctxPtr hdr ctx) := get_parent_ok h.rd_focus

theorem Z.get_left {m m0 : Mem α} {hdr lm rm : Nat} {ctx : Ctx α} {a : Nat} {c : Bool}
    {l r : Tree α} {v : α} (h : Z m m0 hdr lm rm ctx (.node a c l v r)) :
    mystl.get_left m a = .ok l.ptr := get_left_ok h.rd_focus

theorem Z.get_right {m m0 : Mem α} {hdr lm rm : Nat} {ctx : Ctx α} {a : Nat} {c : Bool}
    {l r : Tree α} {v : α} (h : Z m m0 hdr lm rm ctx (.node a c l v r)) :
    mystl.get_right m a = .ok r.ptr := get_right_ok h.rd_focus

theorem Z.get_color {m m0 : Mem α} {hdr lm rm : Nat} {ctx : Ctx α} {a : Nat} {c : Bool}
    {l r : Tree α} {v : α} (h : Z m m0 hdr lm rm ctx (.node a c l v r)) :
    mystl.get_color m a = .ok c := get_color_ok h.rd_focus

theorem Z.get_root {m m0 : Mem α} {hdr lm rm : Nat} {ctx : Ctx α} {t : Tree α}
    (h : Z m m0 hdr lm rm ctx t) :
    mystl.get_parent m hdr = .ok (plug ctx t).ptr := get_parent_ok h.rd_header

theorem Z.is_red_ptr {m m0 : Mem α} {hdr lm rm : Nat} {ctx : Ctx α} {u : Tree α}
    (h : Z m m0 hdr lm rm ctx u) : mystl.is_red_ptr m u.ptr = .ok u.isRed := by
  cases u with
  | nil => simp [mystl.is_red_ptr, Tree.isRed]
  | node y c l v r => simp [mystl.is_red_ptr, h.rsub.1, h.get_color, Tree.isRed]

/-- Blacken a subtree known to be red-rooted: the colour write of case 1. -/
theorem Z.blacken {m m0 : Mem α} {hdr lm rm : Nat} {ctx : Ctx α} {u : Tree α}
    (h : Z m m0 hdr lm rm ctx u) (hu : u.isRed = true) :
    ∃ m', set_color m u.ptr rb_tree_black = .ok m' ∧ Z m' m0 hdr lm rm ctx u.blacken := by
  cases u with
  | nil => simp [Tree.isRed] at hu
  | node y c l v r => exact h.recolor rb_tree_black

theorem ptr_ne_of_sibling {m m0 : Mem α} {hdr lm rm : Nat} {ctx : Ctx α} {a : Nat} {c : Bool}
    {l r : Tree α} {v : α} (h : Z m m0 hdr lm rm ctx (.node a c l v r)) :
    l.ptr ≠ 0 → l.ptr ≠ r.ptr := by
  intro h0 e
  have hl : l.ptr ∈ l.addrs := by
    rcases l.ptr_eq_zero_or_mem with e0 | e0
    · exact absurd e0 h0
    · exact e0
  have hr : l.ptr ∈ r.addrs := by
    rw [e] at h0 ⊢
    rcases r.ptr_eq_zero_or_mem with e0 | e0
    · exact absurd e0 h0
    · exact e0
  have hnd := h.nodup_focus
  rw [Tree.addrs_node, List.nodup_append] at hnd
  exact hnd.2.2 hl (by simp [hr])

theorem reblance_body_LL {m m0 : Mem α} {hdr lm rm : Nat} {rest : Ctx α} {x p g : Nat}
    {xc pc gc : Bool} {tl tr ps u : Tree α} {xv pv gv : α}
    (h : Z m m0 hdr lm rm (.L p pc pv ps :: .L g gc gv u :: rest) (.node x xc tl xv tr)) :
    ∃ m', (match fix_case (.node x xc tl xv tr) (.L p pc pv ps) (.L g gc gv u) with
      | .inl t' => reblance_body m x hdr = .ok (m', t'.ptr) ∧ Z m' m0 hdr lm rm rest t'
      | .inr (f', t') =>
        reblance_body m x hdr = .ok (m', t'.ptr) ∧ Z m' m0 hdr lm rm (f' :: rest) t') := by
  have hp := Z_up.1 h
  have hg := Z_up.1 hp
  simp only [Frame.fill_L] at hp hg
  have hu : Z m m0 hdr lm rm (.R g gc (.node p pc (.node x xc tl xv tr) pv ps) gv :: rest) u :=
    Z_up.2 hg
  by_cases hred : u.isRed = true
  · -- case 1
    obtain ⟨m1, s1, z1⟩ := hp.recolor rb_tree_black
    have hg1 := Z_up.1 z1
    simp only [Frame.fill_L] at hg1
    have hu1 : Z m1 m0 hdr lm rm
        (.R g gc (.node p rb_tree_black (.node x xc tl xv tr) pv ps) gv :: rest) u :=
      Z_up.2 hg1
    obtain ⟨m2, s2, z2⟩ := hu1.blacken hred
    have hg2 := Z_up.1 z2
    simp only [Frame.fill_R] at hg2
    have hp2 : Z m2 m0 hdr lm rm (.L g gc gv u.blacken :: rest)
        (.node p rb_tree_black (.node x xc tl xv tr) pv ps) := Z_up.2 hg2
    have hx2 : Z m2 m0 hdr lm rm (.L p rb_tree_black pv ps :: .L g gc gv u.blacken :: rest)
        (.node x xc tl xv tr) := Z_up.2 hp2
    obtain ⟨m3, s3, z3⟩ := hg2.recolor rb_tree_red
    have hp3 : Z m3 m0 hdr lm rm (.L g rb_tree_red gv u.blacken :: rest)
        (.node p rb_tree_black (.node x xc tl xv tr) pv ps) := Z_up.2 z3
    have hx3 : Z m3 m0 hdr lm rm (.L p rb_tree_black pv ps :: .L g rb_tree_red gv u.blacken :: rest)
        (.node x xc tl xv tr) := Z_up.2 hp3
    refine ⟨m3, ?_⟩
    simp only [fix_case, hred, if_true]
    refine ⟨?_, z3⟩
    simp [reblance_body, h.get_parent, hp.get_parent, hg.get_left, hg.get_right, hu.is_red_ptr,
      hred, s1, s2, hx2.get_parent, hp2.get_parent, s3, hx3.get_parent, hp3.get_parent]
  · -- case 3
    simp only [Bool.not_eq_true] at hred
    have hne : x ≠ ps.ptr := by
      have := ptr_ne_of_sibling hp (by simpa using h.rsub.1)
      simpa using this
    obtain ⟨m1, s1, z1⟩ := hp.recolor rb_tree_black
    have hx1 : Z m1 m0 hdr lm rm (.L p rb_tree_black pv ps :: .L g gc gv u :: rest)
        (.node x xc tl xv tr) := Z_up.2 z1
    have hg1 := Z_up.1 z1
    simp only [Frame.fill_L] at hg1
    obtain ⟨m2, s2, z2⟩ := hg1.recolor rb_tree_red
    have hp2 : Z m2 m0 hdr lm rm (.L g rb_tree_red gv u :: rest)
        (.node p rb_tree_black (.node x xc tl xv tr) pv ps) := Z_up.2 z2
    have hx2 : Z m2 m0 hdr lm rm (.L p rb_tree_black pv ps :: .L g rb_tree_red gv u :: rest)
        (.node x xc tl xv tr) := Z_up.2 hp2
    obtain ⟨m3, s3, z3⟩ := z2.rotate_right
    refine ⟨m3, ?_⟩
    simp only [fix_case, hred]
    refine ⟨?_, Z_up.2 z3⟩
    simp [reblance_body, h.get_parent, hp.get_parent, hg.get_left, hg.get_right, hu.is_red_ptr,
      hred, hp.get_right, hne, hx1.get_parent, z1.get_parent, s1, s2, hx2.get_parent,
      hp2.get_parent, s3]


theorem ptr_ne_of_sibling_r {m m0 : Mem α} {hdr lm rm : Nat} {ctx : Ctx α} {a : Nat} {c : Bool}
    {l r : Tree α} {v : α} (h : Z m m0 hdr lm rm ctx (.node a c l v r)) :
    r.ptr ≠ 0 → r.ptr ≠ l.ptr := by
  intro h0 e
  have hr : r.ptr ∈ r.addrs := by
    rcases r.ptr_eq_zero_or_mem with e0 | e0
    · exact absurd e0 h0
    · exact e0
  have hl : r.ptr ∈ l.addrs := by
    rw [e] at h0 ⊢
    rcases l.ptr_eq_zero_or_mem with e0 | e0
    · exact absurd e0 h0
    · exact e0
  have hnd := h.nodup_focus
  rw [Tree.addrs_node, List.nodup_append] at hnd
  exact hnd.2.2 hl (by simp [hr])

theorem reblance_body_RL {m m0 : Mem α} {hdr lm rm : Nat} {rest : Ctx α} {x p g : Nat}
    {xc pc gc : Bool} {tl tr pl u : Tree α} {xv pv gv : α}
    (h : Z m m0 hdr lm rm (.R p pc pl pv :: .L g gc gv u :: rest) (.node x xc tl xv tr)) :
    ∃ m', (match fix_case (.node x xc tl xv tr) (.R p pc pl pv) (.L g gc gv u) with
      | .inl t' => reblance_body m x hdr = .ok (m', t'.ptr) ∧ Z m' m0 hdr lm rm rest t'
      | .inr (f', t') =>
        reblance_body m x hdr = .ok (m', t'.ptr) ∧ Z m' m0 hdr lm rm (f' :: rest) t') := by
  have hp := Z_up.1 h
  have hg := Z_up.1 hp
  simp only [Frame.fill_L, Frame.fill_R] at hp hg
  have hu : Z m m0 hdr lm rm (.R g gc (.node p pc pl pv (.node x xc tl xv tr)) gv :: rest) u :=
    Z_up.2 hg
  by_cases hred : u.isRed = true
  · -- case 1
    obtain ⟨m1, s1, z1⟩ := hp.recolor rb_tree_black
    have hg1 := Z_up.1 z1
    simp only [Frame.fill_L] at hg1
    have hu1 : Z m1 m0 hdr lm rm
        (.R g gc (.node p rb_tree_black pl pv (.node x xc tl xv tr)) gv :: rest) u :=
      Z_up.2 hg1
    obtain ⟨m2, s2, z2⟩ := hu1.blacken hred
    have hg2 := Z_up.1 z2
    simp only [Frame.fill_R] at hg2
    have hp2 : Z m2 m0 hdr lm rm (.L g gc gv u.blacken :: rest)
        (.node p rb_tree_black pl pv (.node x xc tl xv tr)) := Z_up.2 hg2
    have hx2 : Z m2 m0 hdr lm rm (.R p rb_tree_black pl pv :: .L g gc gv u.blacken :: rest)
        (.node x xc tl xv tr) := Z_up.2 hp2
    obtain ⟨m3, s3, z3⟩ := hg2.recolor rb_tree_red
    have hp3 : Z m3 m0 hdr lm rm (.L g rb_tree_red gv u.blacken :: rest)
        (.node p rb_tree_black pl pv (.node x xc tl xv tr)) := Z_up.2 z3
    have hx3 : Z m3 m0 hdr lm rm (.R p rb_tree_black pl pv :: .L g rb_tree_red gv u.blacken :: rest)
        (.node x xc tl xv tr) := Z_up.2 hp3
    refine ⟨m3, ?_⟩
    simp only [fix_case, hred, if_true]
    refine ⟨?_, z3⟩
    simp [reblance_body, h.get_parent, hp.get_parent, hg.get_left, hg.get_right, hu.is_red_ptr,
      hred, s1, s2, hx2.get_parent, hp2.get_parent, s3, hx3.get_parent, hp3.get_parent]
  · -- case 2 then case 3
    simp only [Bool.not_eq_true] at hred
    obtain ⟨m1, s1, z1⟩ := hp.rotate_left
    have hp1 : Z m1 m0 hdr lm rm (.L x xc xv tr :: .L g gc gv u :: rest) (.node p pc pl pv tl) :=
      Z_up.2 z1
    obtain ⟨m2, s2, z2⟩ := z1.recolor rb_tree_black
    have hp2 : Z m2 m0 hdr lm rm (.L x rb_tree_black xv tr :: .L g gc gv u :: rest)
        (.node p pc pl pv tl) := Z_up.2 z2
    have hg2 := Z_up.1 z2
    simp only [Frame.fill_L] at hg2
    obtain ⟨m3, s3, z3⟩ := hg2.recolor rb_tree_red
    have hx3 : Z m3 m0 hdr lm rm (.L g rb_tree_red gv u :: rest)
        (.node x rb_tree_black (.node p pc pl pv tl) xv tr) := Z_up.2 z3
    have hp3 : Z m3 m0 hdr lm rm (.L x rb_tree_black xv tr :: .L g rb_tree_red gv u :: rest)
        (.node p pc pl pv tl) := Z_up.2 hx3
    obtain ⟨m4, s4, z4⟩ := z3.rotate_right
    refine ⟨m4, ?_⟩
    simp only [fix_case, hred]
    refine ⟨?_, Z_up.2 z4⟩
    simp [reblance_body, h.get_parent, hp.get_parent, hg.get_left, hg.get_right, hu.is_red_ptr,
      hred, hp.get_right, s1, hp1.get_parent, s2, hp2.get_parent, z2.get_parent, s3,
      hp3.get_parent, hx3.get_parent, s4]

theorem reblance_body_LR {m m0 : Mem α} {hdr lm rm : Nat} {rest : Ctx α} {x p g : Nat}
    {xc pc gc : Bool} {tl tr ps ul : Tree α} {xv pv gv : α}
    (h : Z m m0 hdr lm rm (.L p pc pv ps :: .R g gc ul gv :: rest) (.node x xc tl xv tr)) :
    ∃ m', (match fix_case (.node x xc tl xv tr) (.L p pc pv ps) (.R g gc ul gv) with
      | .inl t' => reblance_body m x hdr = .ok (m', t'.ptr) ∧ Z m' m0 hdr lm rm rest t'
      | .inr (f', t') =>
        reblance_body m x hdr = .ok (m', t'.ptr) ∧ Z m' m0 hdr lm rm (f' :: rest) t') := by
  have hp := Z_up.1 h
  have hg := Z_up.1 hp
  simp only [Frame.fill_L, Frame.fill_R] at hp hg
  have hu : Z m m0 hdr lm rm (.L g gc gv (.node p pc (.node x xc tl xv tr) pv ps) :: rest) ul :=
    Z_up.2 hg
  have hpu : p ≠ ul.ptr := by
    have := ptr_ne_of_sibling_r hg (by simpa using hp.rsub.1)
    simpa using this
  by_cases hred : ul.isRed = true
  · -- case 1
    obtain ⟨m1, s1, z1⟩ := hp.recolor rb_tree_black
    have hg1 := Z_up.1 z1
    simp only [Frame.fill_R] at hg1
    have hu1 : Z m1 m0 hdr lm rm
        (.L g gc gv (.node p rb_tree_black (.node x xc tl xv tr) pv ps) :: rest) ul :=
      Z_up.2 hg1
    obtain ⟨m2, s2, z2⟩ := hu1.blacken hred
    have hg2 := Z_up.1 z2
    simp only [Frame.fill_L] at hg2
    have hp2 : Z m2 m0 hdr lm rm (.R g gc ul.blacken gv :: rest)
        (.node p rb_tree_black (.node x xc tl xv tr) pv ps) := Z_up.2 hg2
    have hx2 : Z m2 m0 hdr lm rm (.L p rb_tree_black pv ps :: .R g gc ul.blacken gv :: rest)
        (.node x xc tl xv tr) := Z_up.2 hp2
    obtain ⟨m3, s3, z3⟩ := hg2.recolor rb_tree_red
    have hp3 : Z m3 m0 hdr lm rm (.R g rb_tree_red ul.blacken gv :: rest)
        (.node p rb_tree_black (.node x xc tl xv tr) pv ps) := Z_up.2 z3
    have hx3 : Z m3 m0 hdr lm rm (.L p rb_tree_black pv ps :: .R g rb_tree_red ul.blacken gv :: rest)
        (.node x xc tl xv tr) := Z_up.2 hp3
    refine ⟨m3, ?_⟩
    simp only [fix_case, hred, if_true]
    refine ⟨?_, z3⟩
    simp [reblance_body, h.get_parent, hp.get_parent, hg.get_left, hpu, hu.is_red_ptr,
      hred, s1, s2, hx2.get_parent, hp2.get_parent, s3, hx3.get_parent, hp3.get_parent]
  · -- mirrored case 2 then case 3
    simp only [Bool.not_eq_true] at hred
    obtain ⟨m1, s1, z1⟩ := hp.rotate_right
    have hp1 : Z m1 m0 hdr lm rm (.R x xc tl xv :: .R g gc ul gv :: rest) (.node p pc tr pv ps) :=
      Z_up.2 z1
    obtain ⟨m2, s2, z2⟩ := z1.recolor rb_tree_black
    have hp2 : Z m2 m0 hdr lm rm (.R x rb_tree_black tl xv :: .R g gc ul gv :: rest)
        (.node p pc tr pv ps) := Z_up.2 z2
    have hg2 := Z_up.1 z2
    simp only [Frame.fill_R] at hg2
    obtain ⟨m3, s3, z3⟩ := hg2.recolor rb_tree_red
    have hx3 : Z m3 m0 hdr lm rm (.R g rb_tree_red ul gv :: rest)
        (.node x rb_tree_black tl xv (.node p pc tr pv ps)) := Z_up.2 z3
    have hp3 : Z m3 m0 hdr lm rm (.R x rb_tree_black tl xv :: .R g rb_tree_red ul gv :: rest)
        (.node p pc tr pv ps) := Z_up.2 hx3
    obtain ⟨m4, s4, z4⟩ := z3.rotate_left
    refine ⟨m4, ?_⟩
    simp only [fix_case, hred]
    refine ⟨?_, Z_up.2 z4⟩
    simp [reblance_body, h.get_parent, hp.get_parent, hg.get_left, hpu, hu.is_red_ptr,
      hred, hp.get_left, s1, hp1.get_parent, s2, hp2.get_parent, z2.get_parent, s3,
      hp3.get_parent, hx3.get_parent, s4]

theorem reblance_body_RR {m m0 : Mem α} {hdr lm rm : Nat} {rest : Ctx α} {x p g : Nat}
    {xc pc gc : Bool} {tl tr pl ul : Tree α} {xv pv gv : α}
    (h : Z m m0 hdr lm rm (.R p pc pl pv :: .R g gc ul gv :: rest) (.node x xc tl xv tr)) :
    ∃ m', (match fix_case (.node x xc tl xv tr) (.R p pc pl pv) (.R g gc ul gv) with
      | .inl t' => reblance_body m x hdr = .ok (m', t'.ptr) ∧ Z m' m0 hdr lm rm rest t'
      | .inr (f', t') =>
        reblance_body m x hdr = .ok (m', t'.ptr) ∧ Z m' m0 hdr lm rm (f' :: rest) t') := by
  have hp := Z_up.1 h
  have hg := Z_up.1 hp
  simp only [Frame.fill_L, Frame.fill_R] at hp hg
  have hu : Z m m0 hdr lm rm (.L g gc gv (.node p pc pl pv (.node x xc tl xv tr)) :: rest) ul :=
    Z_up.2 hg
  have hpu : p ≠ ul.ptr := by
    have := ptr_ne_of_sibling_r hg (by simpa using hp.rsub.1)
    simpa using this
  by_cases hred : ul.isRed = true
  · -- case 1
    obtain ⟨m1, s1, z1⟩ := hp.recolor rb_tree_black
    have hg1 := Z_up.1 z1
    simp only [Frame.fill_R] at hg1
    have hu1 : Z m1 m0 hdr lm rm
        (.L g gc gv (.node p rb_tree_black pl pv (.node x xc tl xv tr)) :: rest) ul :=
      Z_up.2 hg1
    obtain ⟨m2, s2, z2⟩ := hu1.blacken hred
    have hg2 := Z_up.1 z2
    simp only [Frame.fill_L] at hg2
    have hp2 : Z m2 m0 hdr lm rm (.R g gc ul.blacken gv :: rest)
        (.node p rb_tree_black pl pv (.node x xc tl xv tr)) := Z_up.2 hg2
    have hx2 : Z m2 m0 hdr lm rm (.R p rb_tree_black pl pv :: .R g gc ul.blacken gv :: rest)
        (.node x xc tl xv tr) := Z_up.2 hp2
    obtain ⟨m3, s3, z3⟩ := hg2.recolor rb_tree_red
    have hp3 : Z m3 m0 hdr lm rm (.R g rb_tree_red ul.blacken gv :: rest)
        (.node p rb_tree_black pl pv (.node x xc tl xv tr)) := Z_up.2 z3
    have hx3 : Z m3 m0 hdr lm rm (.R p rb_tree_black pl pv :: .R g rb_tree_red ul.blacken gv :: rest)
        (.node x xc tl xv tr) := Z_up.2 hp3
    refine ⟨m3, ?_⟩
    simp only [fix_case, hred, if_true]
    refine ⟨?_, z3⟩
    simp [reblance_body, h.get_parent, hp.get_parent, hg.get_left, hpu, hu.is_red_ptr,
      hred, s1, s2, hx2.get_parent, hp2.get_parent, s3, hx3.get_parent, hp3.get_parent]
  · -- mirrored case 3
    simp only [Bool.not_eq_true] at hred
    have hne : x ≠ pl.ptr := by
      have := ptr_ne_of_sibling_r hp (by simpa using h.rsub.1)
      simpa using this
    obtain ⟨m1, s1, z1⟩ := hp.recolor rb_tree_black
    have hx1 : Z m1 m0 hdr lm rm (.R p rb_tree_black pl pv :: .R g gc ul gv :: rest)
        (.node x xc tl xv tr) := Z_up.2 z1
    have hg1 := Z_up.1 z1
    simp only [Frame.fill_R] at hg1
    obtain ⟨m2, s2, z2⟩ := hg1.recolor rb_tree_red
    have hp2 : Z m2 m0 hdr lm rm (.R g rb_tree_red ul gv :: rest)
        (.node p rb_tree_black pl pv (.node x xc tl xv tr)) := Z_up.2 z2
    have hx2 : Z m2 m0 hdr lm rm (.R p rb_tree_black pl pv :: .R g rb_tree_red ul gv :: rest)
        (.node x xc tl xv tr) := Z_up.2 hp2
    obtain ⟨m3, s3, z3⟩ := z2.rotate_left
    refine ⟨m3, ?_⟩
    simp only [fix_case, hred]
    refine ⟨?_, Z_up.2 z3⟩
    simp [reblance_body, h.get_parent, hp.get_parent, hg.get_left, hpu, hu.is_red_ptr,
      hred, hp.get_left, hne, hx1.get_parent, z1.get_parent, s1, s2, hx2.get_parent,
      hp2.get_parent, s3]

end zfix

/-! ## The repair loop and `rb_tree_reblance` as a whole -/

section zloop
variable {α : Type}

theorem reblance_body_spec {m m0 : Mem α} {hdr lm rm : Nat} {rest : Ctx α} {f1 f2 : Frame α}
    {t : Tree α} (hne : t ≠ .nil) (h : Z m m0 hdr lm rm (f1 :: f2 :: rest) t) :
    ∃ m', (match fix_case t f1 f2 with
      | .inl t' => reblance_body m t.ptr hdr = .ok (m', t'.ptr) ∧ Z m' m0 hdr lm rm rest t'
      | .inr (f', t') =>
        reblance_body m t.ptr hdr = .ok (m', t'.ptr) ∧ Z m' m0 hdr lm rm (f' :: rest) t') := by
  cases t with
  | nil => exact absurd rfl hne
  | node x xc tl xv tr =>
    cases f1 with
    | L p pc pv ps =>
      cases f2 with
      | L g gc gv u => exact reblance_body_LL h
      | R g gc ul gv => exact reblance_body_LR h
    | R p pc pl pv =>
      cases f2 with
      | L g gc gv u => exact reblance_body_RL h
      | R g gc ul gv => exact reblance_body_RR h

theorem fix_case_inl_ne_nil {t : Tree α} {f1 f2 : Frame α} {t' : Tree α}
    (h : fix_case t f1 f2 = .inl t') : t' ≠ .nil := by
  cases t <;> cases f1 <;> cases f2 <;> simp only [fix_case] at h <;> (try split at h) <;>
    simp at h <;> subst h <;> simp

theorem fix_case_inr {t : Tree α} {f1 f2 f' : Frame α} {t' : Tree α} (hne : t ≠ .nil)
    (h : fix_case t f1 f2 = .inr (f', t')) : t' ≠ .nil ∧ f'.color = rb_tree_black := by
  cases t with
  | nil => exact absurd rfl hne
  | node x xc tl xv tr =>
    cases f1 <;> cases f2 <;> simp only [fix_case] at h <;> split at h <;>
      simp at h <;> obtain ⟨h1, h2⟩ := h <;> subst h1 h2 <;> simp

theorem Z.focus_ne_root {m m0 : Mem α} {hdr lm rm : Nat} {f : Frame α} {ctx : Ctx α} {t : Tree α}
    (h : Z m m0 hdr lm rm (f :: ctx) t) (hne : t ≠ .nil) : t.ptr ≠ (plug (f :: ctx) t).ptr := by
  rw [ptr_plug]
  intro e
  exact (h.focus_disjoint (Tree.ptr_mem_addrs hne)).2.1 (e ▸ ctxRoot_mem t.ptr f ctx)

theorem Z.reblance_cond {m m0 : Mem α} {hdr lm rm : Nat} {ctx : Ctx α} {t : Tree α}
    (h : Z m m0 hdr lm rm ctx t) (hne : t ≠ .nil) :
    mystl.reblance_cond m t.ptr hdr =
      .ok (match ctx with
        | [] => false
        | f :: _ => f.color == rb_tree_red) := by
  cases ctx with
  | nil => simp [mystl.reblance_cond, h.get_root]
  | cons f fs =>
    have hr := h.focus_ne_root hne
    have hp := Z_up.1 h
    cases t with
    | nil => exact absurd rfl hne
    | node x xc tl xv tr =>
      cases f with
      | L p pc pv ps =>
        simp only [Frame.fill_L] at hp
        simp only [Tree.ptr_node, plug_cons, Frame.fill_L] at hr
        simp [mystl.reblance_cond, h.get_root, hr, h.get_parent, hp.get_color]
      | R p pc pl pv =>
        simp only [Frame.fill_R] at hp
        simp only [Tree.ptr_node, plug_cons, Frame.fill_R] at hr
        simp [mystl.reblance_cond, h.get_root, hr, h.get_parent, hp.get_color]

theorem LastBlack.tail2 {f1 f2 : Frame α} {rest : Ctx α} (h : LastBlack (f1 :: f2 :: rest)) :
    LastBlack rest := by
  cases rest with
  | nil => trivial
  | cons g gs => exact h

theorem reblance_loop_spec {m0 : Mem α} {hdr lm rm : Nat} :
    ∀ (ctx : Ctx α) (t : Tree α) (m : Mem α) (fuel : Nat), t ≠ .nil →
      Z m m0 hdr lm rm ctx t → LastBlack ctx → ctx.length < fuel →
      ∃ m', reblance_loop fuel m t.ptr hdr = .ok m' ∧
        Z m' m0 hdr lm rm (fixup ctx t).1 (fixup ctx t).2
  | [], t, m, fuel, hne, h, _, hf => by
    obtain ⟨k, rfl⟩ : ∃ k, fuel = k + 1 := ⟨fuel - 1, by omega⟩
    exact ⟨m, by simp [reblance_loop, h.reblance_cond hne], by simpa [fixup] using h⟩
  | [f], t, m, fuel, hne, h, hb, hf => by
    obtain ⟨k, rfl⟩ : ∃ k, fuel = k + 1 := ⟨fuel - 1, by simp at hf; omega⟩
    have hb' : f.color = rb_tree_black := hb
    exact ⟨m, by simp [reblance_loop, h.reblance_cond hne, hb'], by simpa [fixup] using h⟩
  | f1 :: f2 :: rest, t, m, fuel, hne, h, hb, hf => by
    obtain ⟨k, rfl⟩ : ∃ k, fuel = k + 1 := ⟨fuel - 1, by simp at hf; omega⟩
    by_cases hc : f1.color = rb_tree_red
    · obtain ⟨m1, hbody⟩ := reblance_body_spec hne h
      cases hfc : fix_case t f1 f2 with
      | inl t' =>
        rw [hfc] at hbody
        obtain ⟨e1, z1⟩ := hbody
        have hne' := fix_case_inl_ne_nil hfc
        obtain ⟨m2, e2, z2⟩ := reblance_loop_spec rest t' m1 k hne' z1 hb.tail2
          (by simp at hf; omega)
        refine ⟨m2, ?_, ?_⟩
        · simp [reblance_loop, h.reblance_cond hne, hc, e1, e2]
        · simpa [fixup, hc, hfc] using z2
      | inr ft =>
        obtain ⟨f', t'⟩ := ft
        rw [hfc] at hbody
        obtain ⟨e1, z1⟩ := hbody
        obtain ⟨hne', hbl⟩ := fix_case_inr hne hfc
        obtain ⟨j, rfl⟩ : ∃ j, k = j + 1 := ⟨k - 1, by simp at hf; omega⟩
        refine ⟨m1, ?_, ?_⟩
        · simp [reblance_loop, h.reblance_cond hne, hc, e1, z1.reblance_cond hne', hbl]
        · simpa [fixup, hc, hfc] using z1
    · have hc' : f1.color = rb_tree_black := by simpa using hc
      exact ⟨m, by simp [reblance_loop, h.reblance_cond hne, hc'], by simpa [fixup, hc'] using h⟩


theorem fixup_ne_nil : ∀ (ctx : Ctx α) (t : Tree α), t ≠ .nil → (fixup ctx t).2 ≠ .nil
  | [], t, h => by simpa [fixup] using h
  | [f], t, h => by simpa [fixup] using h
  | f1 :: f2 :: rest, t, h => by
    by_cases hc : f1.color = rb_tree_red
    · cases hfc : fix_case t f1 f2 with
      | inl t' =>
        have := fixup_ne_nil rest t' (fix_case_inl_ne_nil hfc)
        simpa [fixup, hc, hfc] using this
      | inr ft =>
        obtain ⟨f', t'⟩ := ft
        simpa [fixup, hc, hfc] using (fix_case_inr h hfc).1
    · have hc' : f1.color = rb_tree_black := by simpa using hc
      simpa [fixup, hc'] using h

theorem rb_tree_reblance_spec {m m0 : Mem α} {hdr lm rm : Nat} {ctx : Ctx α} {t : Tree α}
    (fuel : Nat) (h : Z m m0 hdr lm rm ctx t) (hne : t ≠ .nil) (hb : LastBlack ctx)
    (hf : ctx.length < fuel) :
    ∃ m', rb_tree_reblance fuel m t.ptr hdr = .ok m' ∧ Z m' m0 hdr lm rm [] (reblanced ctx t) := by
  cases t with
  | nil => exact absurd rfl hne
  | node x xc tl xv tr =>
    obtain ⟨m1, s1, z1⟩ := h.recolor rb_tree_red
    have hne1 : (Tree.node x rb_tree_red tl xv tr) ≠ .nil := by simp
    obtain ⟨m2, s2, z2⟩ := reblance_loop_spec ctx _ m1 fuel hne1 z1 hb hf
    have z2' := Z_top.1 z2
    have hne2 := plug_ne_nil (fixup ctx (Tree.node x rb_tree_red tl xv tr)).1 _
      (fixup_ne_nil ctx _ hne1)
    have hroot := z2'.get_root
    simp only [plug_nil] at hroot
    simp only [reblanced, Tree.redden]
    cases hT : plug (fixup ctx (Tree.node x rb_tree_red tl xv tr)).1
        (fixup ctx (Tree.node x rb_tree_red tl xv tr)).2 with
    | nil => exact absurd hT hne2
    | node a c l v r =>
      rw [hT] at z2' hroot
      obtain ⟨m3, s3, z3⟩ := z2'.recolor rb_tree_black
      refine ⟨m3, ?_, z3⟩
      simp only [Tree.ptr_node] at s2 hroot
      simp [rb_tree_reblance, s1, s2, hroot, s3]

end zloop

/-! ## Red-black conditions are restored by the repair -/

section rbabs
variable {α : Type}

@[simp] theorem Tree.isRed_nil : (Tree.nil : Tree α).isRed = false := rfl
@[simp] theorem Tree.isRed_node (a c l v r) :
    (Tree.node a c l v r : Tree α).isRed = (c == rb_tree_red) := rfl
@[simp] theorem Tree.blacken_nil : (Tree.nil : Tree α).blacken = .nil := rfl
@[simp] theorem Tree.blacken_node (a c l v r) :
    (Tree.node a c l v r : Tree α).blacken = .node a rb_tree_black l v r := rfl
@[simp] theorem Tree.redden_node (a c l v r) :
    (Tree.node a c l v r : Tree α).redden = .node a rb_tree_red l v r := rfl
@[simp] theorem Tree.bh_nil : (Tree.nil : Tree α).bh = 0 := rfl
@[simp] theorem Tree.bh_node (a c l v r) :
    (Tree.node a c l v r : Tree α).bh = l.bh + (if c = rb_tree_black then 1 else 0) := rfl
@[simp] theorem Tree.NoRedRed_nil : (Tree.nil : Tree α).NoRedRed := trivial
@[simp] theorem Tree.NoRedRed_node (a c l v r) :
    (Tree.node a c l v r : Tree α).NoRedRed ↔
      (c = rb_tree_red → l.isRed = false ∧ r.isRed = false) ∧ l.NoRedRed ∧ r.NoRedRed := Iff.rfl
@[simp] theorem Tree.Balanced_nil : (Tree.nil : Tree α).Balanced := trivial
@[simp] theorem Tree.Balanced_node (a c l v r) :
    (Tree.node a c l v r : Tree α).Balanced ↔ l.bh = r.bh ∧ l.Balanced ∧ r.Balanced := Iff.rfl

@[simp] theorem Tree.nodes_blacken (t : Tree α) : t.blacken.nodes = t.nodes := by
  cases t <;> rfl

@[simp] theorem Tree.nodes_redden (t : Tree α) : t.redden.nodes = t.nodes := by
  cases t <;> rfl

@[simp] theorem Tree.isRed_blacken (t : Tree α) : t.blacken.isRed = false := by
  cases t <;> simp

theorem Tree.NoRedRed_blacken {t : Tree α} (h : t.NoRedRed) : t.blacken.NoRedRed := by
  cases t with
  | nil => trivial
  | node a c l v r => simp at h ⊢; exact ⟨h.2.1, h.2.2⟩

theorem Tree.Balanced_blacken {t : Tree α} (h : t.Balanced) : t.blacken.Balanced := by
  cases t with
  | nil => trivial
  | node a c l v r => simpa using h

theorem Tree.RootBlack_blacken (t : Tree α) : t.blacken.RootBlack := by
  cases t <;> simp [Tree.RootBlack]

theorem Tree.bh_blacken_of_red {t : Tree α} (h : t.isRed = true) : t.blacken.bh = t.bh + 1 := by
  cases t with
  | nil => simp at h
  | node a c l v r => simp at h; simp [h]

theorem nodes_plug_congr (ctx : Ctx α) {t t' : Tree α} (h : t.nodes = t'.nodes) :
    (plug ctx t).nodes = (plug ctx t').nodes := by
  rw [nodes_plug, nodes_plug, h]

theorem fix_case_nodes_inl {t : Tree α} {f1 f2 : Frame α} {t' : Tree α}
    (h : fix_case t f1 f2 = .inl t') : t'.nodes = (f2.fill (f1.fill t)).nodes := by
  cases t <;> cases f1 <;> cases f2 <;> simp only [fix_case] at h <;> (try split at h) <;>
    simp at h <;> subst h <;> simp

theorem fix_case_nodes_inr {t : Tree α} {f1 f2 f' : Frame α} {t' : Tree α} (hne : t ≠ .nil)
    (h : fix_case t f1 f2 = .inr (f', t')) : (f'.fill t').nodes = (f2.fill (f1.fill t)).nodes := by
  cases t with
  | nil => exact absurd rfl hne
  | node x xc tl xv tr =>
    cases f1 <;> cases f2 <;> simp only [fix_case] at h <;> split at h <;>
      simp at h <;> obtain ⟨h1, h2⟩ := h <;> subst h1 h2 <;> simp

theorem fixup_nodes : ∀ (ctx : Ctx α) (t : Tree α), t ≠ .nil →
    (plug (fixup ctx t).1 (fixup ctx t).2).nodes = (plug ctx t).nodes
  | [], t, _ => by simp [fixup]
  | [f], t, _ => by simp [fixup]
  | f1 :: f2 :: rest, t, hne => by
    by_cases hc : f1.color = rb_tree_red
    · cases hfc : fix_case t f1 f2 with
      | inl t' =>
        have ih := fixup_nodes rest t' (fix_case_inl_ne_nil hfc)
        simp only [fixup, hc, hfc, if_true, plug_cons]
        rw [ih]
        exact nodes_plug_congr rest (fix_case_nodes_inl hfc)
      | inr ft =>
        obtain ⟨f', t'⟩ := ft
        simp only [fixup, hc, hfc, if_true, plug_cons]
        exact nodes_plug_congr rest (fix_case_nodes_inr hne hfc)
    · have hc' : f1.color = rb_tree_black := by simpa using hc
      simp [fixup, hc']

theorem reblanced_nodes (ctx : Ctx α) (t : Tree α) (hne : t ≠ .nil) :
    (reblanced ctx t).nodes = (plug ctx t).nodes := by
  have hne' : t.redden ≠ .nil := by cases t <;> simp_all
  simp only [reblanced, Tree.nodes_blacken, fixup_nodes ctx _ hne']
  exact nodes_plug_congr ctx (Tree.nodes_redden t)

/-! ### Red-black conditions along a path -/

theorem CtxOK.lastBlack : ∀ {ctx : Ctx α} {n : Nat}, CtxOK ctx n → LastBlack ctx
  | [], _, _ => trivial
  | [f], _, h => by
    have h4 := h.2.2.2.1
    cases hc : f.color with
    | true => exact hc
    | false => exact absurd (h4 hc).2 (by simp [HeadBlack])
  | _ :: g :: fs, _, h => show LastBlack (g :: fs) from CtxOK.lastBlack h.2.2.2.2

/-- A valid red-black tree seen from a subtree: the path satisfies `CtxOK`. -/
theorem valid_plug_inv : ∀ (ctx : Ctx α) (t : Tree α),
    (plug ctx t).NoRedRed → (plug ctx t).Balanced → (plug ctx t).RootBlack →
    CtxOK ctx t.bh ∧ t.NoRedRed ∧ t.Balanced ∧ (t.isRed = true → HeadBlack ctx)
  | [], t, h1, h2, h3 => by
    refine ⟨trivial, h1, h2, ?_⟩
    intro hr
    simp [Tree.RootBlack] at h3
    simp [h3] at hr
  | f :: rest, t, h1, h2, h3 => by
    obtain ⟨c1, c2, c3, c4⟩ := valid_plug_inv rest (f.fill t) h1 h2 h3
    cases f with
    | L a c v r =>
      simp only [Frame.fill_L, Tree.NoRedRed_node, Tree.Balanced_node, Tree.bh_node,
        Tree.isRed_node] at c1 c2 c3 c4
      refine ⟨⟨c3.1.symm, c3.2.2, c2.2.2, ?_, c1⟩, c2.2.1, c3.2.1, ?_⟩
      · intro hc
        simp only [Frame.color_L] at hc
        exact ⟨(c2.1 hc).2, c4 (by simp [hc])⟩
      · intro hr
        simp only [HeadBlack, Frame.color_L]
        cases c with
        | true => rfl
        | false => have := (c2.1 rfl).1; simp [hr] at this
    | R a c l v =>
      simp only [Frame.fill_R, Tree.NoRedRed_node, Tree.Balanced_node, Tree.bh_node,
        Tree.isRed_node] at c1 c2 c3 c4
      refine ⟨⟨c3.1, c3.2.1, c2.2.1, ?_, ?_⟩, c2.2.2, c3.2.2, ?_⟩
      · intro hc
        simp only [Frame.color_R] at hc
        exact ⟨(c2.1 hc).1, c4 (by simp [hc])⟩
      · simp only [Frame.sib, Frame.color_R]
        rw [← c3.1]; exact c1
      · intro hr
        simp only [HeadBlack, Frame.color_R]
        cases c with
        | true => rfl
        | false => have := (c2.1 rfl).2; simp [hr] at this

/-- Filling a path with a matching subtree gives a balanced tree without
red-red pairs. -/
theorem plug_valid : ∀ (ctx : Ctx α) (n : Nat) (t : Tree α),
    CtxOK ctx n → t.bh = n → t.Balanced → t.NoRedRed →
    (t.isRed = true → ctx = [] ∨ HeadBlack ctx) →
    (plug ctx t).NoRedRed ∧ (plug ctx t).Balanced
  | [], _, t, _, _, hb, hn, _ => ⟨hn, hb⟩
  | f :: rest, n, t, hc, hbh, hb, hn, hr => by
    obtain ⟨c1, c2, c3, c4, c5⟩ := hc
    have hr' : t.isRed = true → f.color = rb_tree_black := by
      intro h
      rcases hr h with h' | h'
      · simp at h'
      · exact h'
    cases f with
    | L a c v r =>
      simp only [Frame.sib, Frame.color_L] at c1 c2 c3 c4 c5 hr'
      apply plug_valid rest (n + if c = rb_tree_black then 1 else 0) _ c5
      · simp [hbh]
      · simp [hb, c2, hbh, c1]
      · simp only [Frame.fill_L, Tree.NoRedRed_node]
        refine ⟨fun h => ⟨?_, (c4 h).1⟩, hn, c3⟩
        cases ht : t.isRed with
        | false => rfl
        | true => have := hr' ht; simp [h] at this
      · intro h
        right
        simp only [Frame.fill_L, Tree.isRed_node, beq_iff_eq] at h
        exact (c4 h).2
    | R a c l v =>
      simp only [Frame.sib, Frame.color_R] at c1 c2 c3 c4 c5 hr'
      apply plug_valid rest (n + if c = rb_tree_black then 1 else 0) _ c5
      · simp [c1]
      · simp [hb, c2, hbh, c1]
      · simp only [Frame.fill_R, Tree.NoRedRed_node]
        refine ⟨fun h => ⟨(c4 h).1, ?_⟩, c3, hn⟩
        cases ht : t.isRed with
        | false => rfl
        | true => have := hr' ht; simp [h] at this
      · intro h
        right
        simp only [Frame.fill_R, Tree.isRed_node, beq_iff_eq] at h
        exact (c4 h).2


theorem fix_case_valid_inl {t : Tree α} {f1 f2 : Frame α} {rest : Ctx α} {n : Nat} {t' : Tree α}
    (hc : CtxOK (f1 :: f2 :: rest) n) (hred : f1.color = rb_tree_red)
    (ht : t.isRed = true) (hbh : t.bh = n) (hb : t.Balanced) (hn : t.NoRedRed)
    (h : fix_case t f1 f2 = .inl t') :
    CtxOK rest (n + 1) ∧ t'.isRed = true ∧ t'.bh = n + 1 ∧ t'.Balanced ∧ t'.NoRedRed := by
  obtain ⟨a1, a2, a3, a4, b1, b2, b3, b4, b5⟩ := hc
  obtain ⟨a5, a6⟩ := a4 hred
  simp only [HeadBlack] at a6
  simp only [hred, a6] at b5 b1
  cases t with
  | nil => simp at ht
  | node x xc tl xv tr =>
    simp only [Tree.isRed_node, beq_iff_eq] at ht
    subst ht
    cases f1 <;> cases f2 <;> simp only [fix_case] at h <;> split at h <;> simp at h <;>
      subst h <;> simp_all [Frame.sib, Tree.NoRedRed_blacken, Tree.Balanced_blacken,
        Tree.bh_blacken_of_red]

theorem fix_case_valid_inr {t : Tree α} {f1 f2 f' : Frame α} {rest : Ctx α} {n : Nat}
    {t' : Tree α}
    (hc : CtxOK (f1 :: f2 :: rest) n) (hred : f1.color = rb_tree_red)
    (ht : t.isRed = true) (hbh : t.bh = n) (hb : t.Balanced) (hn : t.NoRedRed)
    (h : fix_case t f1 f2 = .inr (f', t')) :
    CtxOK (f' :: rest) n ∧ t'.bh = n ∧ t'.Balanced ∧ t'.NoRedRed ∧ f'.color = rb_tree_black := by
  obtain ⟨a1, a2, a3, a4, b1, b2, b3, b4, b5⟩ := hc
  obtain ⟨a5, a6⟩ := a4 hred
  simp only [HeadBlack] at a6
  simp only [hred, a6] at b5 b1
  cases t with
  | nil => simp at ht
  | node x xc tl xv tr =>
    simp only [Tree.isRed_node, beq_iff_eq] at ht
    subst ht
    cases f1 <;> cases f2 <;> simp only [fix_case] at h <;> split at h <;> simp at h <;>
      obtain ⟨h1, h2⟩ := h <;> subst h1 h2 <;> simp_all [Frame.sib, CtxOK]

theorem fixup_valid : ∀ (ctx : Ctx α) (n : Nat) (t : Tree α),
    CtxOK ctx n → t.isRed = true → t.bh = n → t.Balanced → t.NoRedRed →
    ∃ n', CtxOK (fixup ctx t).1 n' ∧ (fixup ctx t).2.bh = n' ∧ (fixup ctx t).2.Balanced ∧
      (fixup ctx t).2.NoRedRed ∧
      ((fixup ctx t).2.isRed = true → (fixup ctx t).1 = [] ∨ HeadBlack (fixup ctx t).1)
  | [], n, t, hc, _, hbh, hb, hn => ⟨n, hc, hbh, hb, hn, fun _ => Or.inl rfl⟩
  | [f], n, t, hc, _, hbh, hb, hn => by
    refine ⟨n, hc, hbh, hb, hn, fun _ => Or.inr ?_⟩
    exact hc.lastBlack
  | f1 :: f2 :: rest, n, t, hc, ht, hbh, hb, hn => by
    by_cases hcol : f1.color = rb_tree_red
    · cases hfc : fix_case t f1 f2 with
      | inl t' =>
        obtain ⟨v1, v2, v3, v4, v5⟩ := fix_case_valid_inl hc hcol ht hbh hb hn hfc
        have ih := fixup_valid rest (n + 1) t' v1 v2 v3 v4 v5
        simpa [fixup, hcol, hfc] using ih
      | inr ft =>
        obtain ⟨f', t'⟩ := ft
        obtain ⟨v1, v2, v3, v4, v5⟩ := fix_case_valid_inr hc hcol ht hbh hb hn hfc
        refine ⟨n, ?_⟩
        simp only [fixup, hcol, hfc, if_true]
        exact ⟨v1, v2, v3, v4, fun _ => Or.inr v5⟩
    · have hc' : f1.color = rb_tree_black := by simpa using hcol
      refine ⟨n, ?_⟩
      simp only [fixup, hc', Bool.true_eq_false, if_false]
      exact ⟨hc, hbh, hb, hn, fun _ => Or.inr hc'⟩

/-- Repairing a fresh red leaf placed in a hole of a valid red-black tree gives
a valid red-black tree. -/
theorem reblanced_valid (ctx : Ctx α) (p : Nat) (c : Bool) (v : α)
    (h1 : (plug ctx .nil).NoRedRed) (h2 : (plug ctx .nil).Balanced)
    (h3 : (plug ctx .nil).RootBlack) :
    (reblanced ctx (.node p c .nil v .nil)).NoRedRed ∧
      (reblanced ctx (.node p c .nil v .nil)).Balanced ∧
      (reblanced ctx (.node p c .nil v .nil)).RootBlack := by
  obtain ⟨c1, -, -, -⟩ := valid_plug_inv ctx .nil h1 h2 h3
  obtain ⟨n', w1, w2, w3, w4, w5⟩ := fixup_valid ctx 0 (.node p rb_tree_red .nil v .nil)
    (by simpa using c1) (by simp) (by simp) (by simp) (by simp)
  obtain ⟨r1, r2⟩ := plug_valid _ n' _ w1 w2 w3 w4 w5
  exact ⟨Tree.NoRedRed_blacken r1, Tree.Balanced_blacken r2, Tree.RootBlack_blacken _⟩

end rbabs

/-! ## Linking a new leaf -/

section zlink
variable {α κ : Type}

theorem RepCtx_congr_hdr {m m' : Mem α} {hdr lm rm lm' rm' : Nat} {ctx : Ctx α} {h : Nat}
    (hh : m' hdr = some (rb_tree_node.mk rb_tree_red (ctxRoot h ctx) lm' rm' none))
    (hc : ∀ a, a ∈ ctxAddrs ctx → m' a = m a)
    (hr : RepCtx m hdr lm rm ctx h) : RepCtx m' hdr lm' rm' ctx h := by
  induction ctx generalizing h with
  | nil => exact hh
  | cons f fs ih =>
    cases f with
    | L a c v r =>
      obtain ⟨h0, ha, hs, hrest⟩ := hr
      refine ⟨h0, ?_, Rep_congr (fun b hb => hc b ?_) hs, ih hh (fun b hb => hc b ?_) hrest⟩
      · rw [hc a (by simp [ctxAddrs])]; exact ha
      · simp [ctxAddrs, hb]
      · simp only [ctxAddrs, List.mem_append] at hb ⊢
        rcases hb with hb | hb <;> simp [hb]
    | R a c l v =>
      obtain ⟨h0, ha, hs, hrest⟩ := hr
      refine ⟨h0, ?_, Rep_congr (fun b hb => hc b ?_) hs, ih hh (fun b hb => hc b ?_) hrest⟩
      · rw [hc a (by simp [ctxAddrs])]; exact ha
      · simp [ctxAddrs, hb]
      · simp only [ctxAddrs, List.mem_append] at hb ⊢
        rcases hb with hb | hb <;> simp [hb]

/-- New value of `leftmost()` after linking a node at the end of path `ctx`. -/
theorem nodup_insert_middle {B A : List Nat} {hdr p : Nat} (h : (hdr :: (B ++ A)).Nodup)
    (hp : p ≠ hdr) (hpB : p ∉ B) (hpA : p ∉ A) : (hdr :: (B ++ p :: A)).Nodup := by
  rw [List.nodup_cons] at h ⊢
  refine ⟨?_, ?_⟩
  · simp only [List.mem_append, List.mem_cons, not_or] at h ⊢
    exact ⟨h.1.1, Ne.symm hp, h.1.2⟩
  · rw [List.nodup_middle, List.nodup_cons]
    exact ⟨by simp [hpB, hpA], h.2⟩

theorem link_node_nil {m m0 : Mem α} {hdr lm rm p : Nat} (par0 : Nat) (junk : Bool) (v : α)
    (h : Z m m0 hdr lm rm [] .nil) (hp0 : p ≠ 0) (hph : p ≠ hdr) :
    ∃ m', link_node (upd m p (rb_tree_node.mk junk par0 0 0 (some v))) hdr hdr p true = .ok m' ∧
      Z m' m0 hdr p p [] (.node p junk .nil v .nil) := by
  have hh := h.header
  simp only [plug_nil, Tree.ptr_nil] at hh
  have r1 : rd (upd m p (rb_tree_node.mk junk par0 0 0 (some v))) p = .ok _ := rd_upd_same m _ hp0
  obtain ⟨m1, e1⟩ : ∃ m1, m1 = upd (upd m p (rb_tree_node.mk junk par0 0 0 (some v))) p
    (rb_tree_node.mk junk hdr 0 0 (some v)) := ⟨_, rfl⟩
  have s1 : set_parent (upd m p (rb_tree_node.mk junk par0 0 0 (some v))) p hdr = .ok m1 := by
    rw [e1]; exact set_parent_ok r1 _
  have r2 : rd m1 hdr = .ok (rb_tree_node.mk rb_tree_red 0 lm rm none) := by
    apply rd_ok h.hdr_ne
    rw [e1, upd_ne _ _ (Ne.symm hph), upd_ne _ _ (Ne.symm hph), hh]
  obtain ⟨m2, e2⟩ : ∃ m2, m2 = upd m1 hdr (rb_tree_node.mk rb_tree_red p lm rm none) := ⟨_, rfl⟩
  have s2 : set_parent m1 hdr p = .ok m2 := by rw [e2]; exact set_parent_ok r2 _
  have r3 : rd m2 hdr = .ok (rb_tree_node.mk rb_tree_red p lm rm none) := by
    rw [e2]; exact rd_upd_same _ _ h.hdr_ne
  obtain ⟨m3, e3⟩ : ∃ m3, m3 = upd m2 hdr (rb_tree_node.mk rb_tree_red p p rm none) := ⟨_, rfl⟩
  have s3 : set_left m2 hdr p = .ok m3 := by rw [e3]; exact set_left_ok r3 _
  have r4 : rd m3 hdr = .ok (rb_tree_node.mk rb_tree_red p p rm none) := by
    rw [e3]; exact rd_upd_same _ _ h.hdr_ne
  obtain ⟨m4, e4⟩ : ∃ m4, m4 = upd m3 hdr (rb_tree_node.mk rb_tree_red p p p none) := ⟨_, rfl⟩
  have s4 : set_right m3 hdr p = .ok m4 := by rw [e4]; exact set_right_ok r4 _
  refine ⟨m4, by simp [link_node, s1, s2, s3, s4], h.hdr_ne, ?_, ?_, ?_, ?_⟩
  · simp [Ne.symm hph]
  · simp [RepCtx, e4]
  · refine ⟨hp0, ?_, trivial, trivial⟩
    rw [e4, upd_ne _ _ hph, e3, upd_ne _ _ hph, e2, upd_ne _ _ hph, e1]
    simp
  · intro z hz1 hz2
    have hzp : z ≠ p := by simpa using hz2
    rw [e4, upd_ne _ _ hz1, e3, upd_ne _ _ hz1, e2, upd_ne _ _ hz1, e1, upd_ne _ _ hzp,
      upd_ne _ _ hzp]
    exact h.frame z hz1 (by simp)

theorem link_node_L {m m0 : Mem α} {hdr lm rm p a : Nat} {c : Bool} {v' : α}
    {r : Tree α} {fs : Ctx α} (par0 : Nat) (junk : Bool) (v : α)
    (h : Z m m0 hdr lm rm (.L a c v' r :: fs) .nil) (hp0 : p ≠ 0) (hph : p ≠ hdr)
    (hpt : p ∉ (plug (.L a c v' r :: fs) (.nil : Tree α)).addrs) :
    ∃ m', link_node (upd m p (rb_tree_node.mk junk par0 0 0 (some v))) hdr a p true = .ok m' ∧
      Z m' m0 hdr (if lm = a then p else lm) rm (.L a c v' r :: fs) (.node p junk .nil v .nil) := by
  have hh := h.header
  have hpa := Z_up.1 h
  simp only [Frame.fill_L] at hpa
  obtain ⟨a1, a2, -, a4, a5⟩ := hpa.focus_not_mem
  have a0 := hpa.rsub.1
  have hpt' := hpt
  simp only [mem_addrs_plug, ctxBeforeA_L, ctxAfterA_L, Tree.addrs_nil, List.mem_append,
    List.mem_cons, List.not_mem_nil, false_or, not_or] at hpt'
  have hpa' : p ≠ a := hpt'.2.1.1
  have r1 : rd (upd m p (rb_tree_node.mk junk par0 0 0 (some v))) p = .ok _ := rd_upd_same m _ hp0
  obtain ⟨m1, e1⟩ : ∃ m1, m1 = upd (upd m p (rb_tree_node.mk junk par0 0 0 (some v))) p
    (rb_tree_node.mk junk a 0 0 (some v)) := ⟨_, rfl⟩
  have s1 : set_parent (upd m p (rb_tree_node.mk junk par0 0 0 (some v))) p a = .ok m1 := by
    rw [e1]; exact set_parent_ok r1 _
  have f1 : ∀ z, z ≠ p → m1 z = m z := by
    intro z hz; rw [e1, upd_ne _ _ hz, upd_ne _ _ hz]
  have r2 : rd m1 a = .ok (rb_tree_node.mk c (ctxPtr hdr fs) 0 r.ptr (some v')) := by
    apply rd_ok a0
    rw [f1 a (Ne.symm hpa')]; exact hpa.rsub.2.1
  obtain ⟨m2, e2⟩ : ∃ m2, m2 = upd m1 a (rb_tree_node.mk c (ctxPtr hdr fs) p r.ptr (some v')) :=
    ⟨_, rfl⟩
  have s2 : set_left m1 a p = .ok m2 := by rw [e2]; exact set_left_ok r2 _
  have r3 : rd m2 hdr = .ok (rb_tree_node.mk rb_tree_red
      (plug (.L a c v' r :: fs) (.nil : Tree α)).ptr lm rm none) := by
    apply rd_ok h.hdr_ne
    rw [e2, upd_ne _ _ (Ne.symm a1), f1 hdr (Ne.symm hph), hh]
  obtain ⟨m3, e3⟩ : ∃ m3, m3 = upd m2 hdr (rb_tree_node.mk rb_tree_red
      (plug (.L a c v' r :: fs) (.nil : Tree α)).ptr (if lm = a then p else lm) rm none) := ⟨_, rfl⟩
  have s3 : (do
      let lm' ← get_left m2 hdr
      if lm' = a then set_left m2 hdr p else pure m2) = .ok m3 := by
    simp only [get_left_ok r3, ok_bind]
    by_cases hl : lm = a
    · simp only [hl, if_true] at e3 ⊢
      rw [e3]; exact set_left_ok r3 _
    · simp only [hl, if_false] at e3 ⊢
      rw [e3]
      simp only [pure_eq_ok, Except.ok.injEq]
      funext z
      by_cases hz : z = hdr
      · subst hz
        simp only [rd, h.hdr_ne, if_false] at r3
        cases hm : m2 z with
        | none => simp [hm] at r3
        | some n => simp [hm] at r3; simp [r3]
      · rw [upd_ne _ _ hz]
  have f3 : ∀ z, z ≠ p → z ≠ a → z ≠ hdr → m3 z = m z := by
    intro z h1 h2 h3
    rw [e3, upd_ne _ _ h3, e2, upd_ne _ _ h2, f1 z h1]
  refine ⟨m3, ?_, h.hdr_ne, ?_, ?_, ?_, ?_⟩
  · simp only [link_node, s1, ok_bind, a1, if_false, if_true, s2]
    exact s3
  · have := h.nodup
    rw [addrs_plug] at this ⊢
    simp only [Tree.addrs_nil, List.append_nil, Tree.addrs_node, List.nil_append] at this ⊢
    rw [List.append_assoc]
    exact nodup_insert_middle this hph (by simpa using hpt'.1)
      (by have := hpt'.2; simp; tauto)
  · refine ⟨a0, ?_, ?_, ?_⟩
    · rw [e3, upd_ne _ _ a1, e2]; simp
    · refine Rep_congr ?_ h.rctx.2.2.1
      intro z hz
      exact f3 z (fun e => hpt'.2.1.2 (e ▸ hz)) (fun e => a4 (e ▸ hz))
        (fun e => (hpa.focus_disjoint (z := z) (by simp [hz])).1 e)
    · refine RepCtx_congr_hdr ?_ ?_ h.rctx.2.2.2
      · rw [e3, ptr_plug]; simp [ctxRoot]
      · intro z hz
        have hz' : z ∈ ctxBeforeA fs ∨ z ∈ ctxAfterA fs := by simpa [ctxAddrs] using hz
        have d := hpa.hdr_not_mem
        refine f3 z ?_ ?_ ?_
        · rintro rfl; rcases hz' with hz' | hz'
          · exact hpt'.1 hz'
          · exact hpt'.2.2 hz'
        · rintro rfl; rcases hz' with hz' | hz'
          · exact a2 hz'
          · exact a5 hz'
        · rintro rfl; rcases hz' with hz' | hz'
          · exact d.1 hz'
          · exact d.2.2 hz'
  · refine ⟨hp0, ?_, trivial, trivial⟩
    rw [e3, upd_ne _ _ hph, e2, upd_ne _ _ hpa', e1]
    simp
  · intro z hz1 hz2
    have hz3 := hz2
    simp only [mem_addrs_plug, ctxBeforeA_L, ctxAfterA_L, Tree.addrs_node, Tree.addrs_nil,
      List.mem_append, List.mem_cons, List.not_mem_nil, false_or, not_or, List.nil_append,
      or_false] at hz3
    rw [f3 z hz3.2.1 hz3.2.2.1.1 hz1]
    apply h.frame z hz1
    simp only [mem_addrs_plug, ctxBeforeA_L, ctxAfterA_L, Tree.addrs_nil,
      List.mem_append, List.mem_cons, List.not_mem_nil, false_or, not_or]
    exact ⟨hz3.1, hz3.2.2⟩

theorem link_node_R {m m0 : Mem α} {hdr lm rm p a : Nat} {c : Bool} {v' : α}
    {l : Tree α} {fs : Ctx α} (par0 : Nat) (junk : Bool) (v : α)
    (h : Z m m0 hdr lm rm (.R a c l v' :: fs) .nil) (hp0 : p ≠ 0) (hph : p ≠ hdr)
    (hpt : p ∉ (plug (.R a c l v' :: fs) (.nil : Tree α)).addrs) :
    ∃ m', link_node (upd m p (rb_tree_node.mk junk par0 0 0 (some v))) hdr a p false = .ok m' ∧
      Z m' m0 hdr lm (if rm = a then p else rm) (.R a c l v' :: fs) (.node p junk .nil v .nil) := by
  have hh := h.header
  have hpa := Z_up.1 h
  simp only [Frame.fill_R] at hpa
  obtain ⟨a1, a2, a4, -, a5⟩ := hpa.focus_not_mem
  have a0 := hpa.rsub.1
  have hpt' := hpt
  simp only [mem_addrs_plug, ctxBeforeA_R, ctxAfterA_R, Tree.addrs_nil, List.mem_append,
    List.mem_cons, List.not_mem_nil, false_or, or_false, not_or, List.mem_singleton] at hpt'
  have hpa' : p ≠ a := hpt'.1.2.2
  have r1 : rd (upd m p (rb_tree_node.mk junk par0 0 0 (some v))) p = .ok _ := rd_upd_same m _ hp0
  obtain ⟨m1, e1⟩ : ∃ m1, m1 = upd (upd m p (rb_tree_node.mk junk par0 0 0 (some v))) p
    (rb_tree_node.mk junk a 0 0 (some v)) := ⟨_, rfl⟩
  have s1 : set_parent (upd m p (rb_tree_node.mk junk par0 0 0 (some v))) p a = .ok m1 := by
    rw [e1]; exact set_parent_ok r1 _
  have f1 : ∀ z, z ≠ p → m1 z = m z := by
    intro z hz; rw [e1, upd_ne _ _ hz, upd_ne _ _ hz]
  have r2 : rd m1 a = .ok (rb_tree_node.mk c (ctxPtr hdr fs) l.ptr 0 (some v')) := by
    apply rd_ok a0
    rw [f1 a (Ne.symm hpa')]; exact hpa.rsub.2.1
  obtain ⟨m2, e2⟩ : ∃ m2, m2 = upd m1 a (rb_tree_node.mk c (ctxPtr hdr fs) l.ptr p (some v')) :=
    ⟨_, rfl⟩
  have s2 : set_right m1 a p = .ok m2 := by rw [e2]; exact set_right_ok r2 _
  have r3 : rd m2 hdr = .ok (rb_tree_node.mk rb_tree_red
      (plug (.R a c l v' :: fs) (.nil : Tree α)).ptr lm rm none) := by
    apply rd_ok h.hdr_ne
    rw [e2, upd_ne _ _ (Ne.symm a1), f1 hdr (Ne.symm hph), hh]
  obtain ⟨m3, e3⟩ : ∃ m3, m3 = upd m2 hdr (rb_tree_node.mk rb_tree_red
      (plug (.R a c l v' :: fs) (.nil : Tree α)).ptr lm (if rm = a then p else rm) none) := ⟨_, rfl⟩
  have s3 : (do
      let rm' ← get_right m2 hdr
      if rm' = a then set_right m2 hdr p else pure m2) = .ok m3 := by
    simp only [get_right_ok r3, ok_bind]
    by_cases hl : rm = a
    · simp only [hl, if_true] at e3 ⊢
      rw [e3]; exact set_right_ok r3 _
    · simp only [hl, if_false] at e3 ⊢
      rw [e3]
      simp only [pure_eq_ok, Except.ok.injEq]
      funext z
      by_cases hz : z = hdr
      · subst hz
        simp only [rd, h.hdr_ne, if_false] at r3
        cases hm : m2 z with
        | none => simp [hm] at r3
        | some n => simp [hm] at r3; simp [r3]
      · rw [upd_ne _ _ hz]
  have f3 : ∀ z, z ≠ p → z ≠ a → z ≠ hdr → m3 z = m z := by
    intro z h1 h2 h3
    rw [e3, upd_ne _ _ h3, e2, upd_ne _ _ h2, f1 z h1]
  refine ⟨m3, ?_, h.hdr_ne, ?_, ?_, ?_, ?_⟩
  · simp only [link_node, s1, ok_bind, a1, if_false, Bool.false_eq_true, s2]
    exact s3
  · have := h.nodup
    rw [addrs_plug] at this ⊢
    simp only [Tree.addrs_nil, List.append_nil, Tree.addrs_node, List.nil_append] at this ⊢
    rw [List.append_assoc]
    exact nodup_insert_middle this hph (by have := hpt'.1; simp; tauto) hpt'.2
  · refine ⟨a0, ?_, ?_, ?_⟩
    · rw [e3, upd_ne _ _ a1, e2]; simp
    · refine Rep_congr ?_ h.rctx.2.2.1
      intro z hz
      exact f3 z (fun e => hpt'.1.2.1 (e ▸ hz)) (fun e => a4 (e ▸ hz))
        (fun e => (hpa.focus_disjoint (z := z) (by simp [hz])).1 e)
    · refine RepCtx_congr_hdr ?_ ?_ h.rctx.2.2.2
      · rw [e3, ptr_plug]; simp [ctxRoot]
      · intro z hz
        have hz' : z ∈ ctxBeforeA fs ∨ z ∈ ctxAfterA fs := by simpa [ctxAddrs] using hz
        have d := hpa.hdr_not_mem
        refine f3 z ?_ ?_ ?_
        · rintro rfl; rcases hz' with hz' | hz'
          · exact hpt'.1.1 hz'
          · exact hpt'.2 hz'
        · rintro rfl; rcases hz' with hz' | hz'
          · exact a2 hz'
          · exact a5 hz'
        · rintro rfl; rcases hz' with hz' | hz'
          · exact d.1 hz'
          · exact d.2.2 hz'
  · refine ⟨hp0, ?_, trivial, trivial⟩
    rw [e3, upd_ne _ _ hph, e2, upd_ne _ _ hpa', e1]
    simp
  · intro z hz1 hz2
    have hz3 := hz2
    simp only [mem_addrs_plug, ctxBeforeA_R, ctxAfterA_R, Tree.addrs_node, Tree.addrs_nil,
      List.mem_append, List.mem_cons, List.not_mem_nil, false_or, not_or, List.nil_append,
      or_false, List.mem_singleton] at hz3
    rw [f3 z hz3.2.1 hz3.1.2.2 hz1]
    apply h.frame z hz1
    simp only [mem_addrs_plug, ctxBeforeA_R, ctxAfterA_R, Tree.addrs_nil,
      List.mem_append, List.mem_cons, List.not_mem_nil, false_or, or_false, not_or,
      List.mem_singleton]
    exact ⟨hz3.1, hz3.2.2⟩

end zlink

/-! ## The insertion descent -/

section zdesc
variable {α κ : Type}

theorem Z.get_key {m m0 : Mem α} {hdr lm rm : Nat} {ctx : Ctx α} {a : Nat} {c : Bool}
    {l r : Tree α} {v : α} (T : Traits α κ) (h : Z m m0 hdr lm rm ctx (.node a c l v r)) :
    mystl.get_key T m a = .ok (T.KeyOfValue v) := by
  simp [mystl.get_key, get_value, h.rd_focus]

theorem plug_descend (T : Traits α κ) (key : κ) (t : Tree α) (ctx : Ctx α) :
    plug (descend T key t ctx) .nil = plug ctx t := by
  induction t generalizing ctx with
  | nil => rfl
  | node a c l v r ihl ihr =>
    simp only [descend]
    split
    · rw [ihl]; rfl
    · rw [ihr]; rfl

theorem length_descend (T : Traits α κ) (key : κ) (t : Tree α) (ctx : Ctx α) :
    (descend T key t ctx).length ≤ ctx.length + t.height := by
  induction t generalizing ctx with
  | nil => simp [descend]
  | node a c l v r ihl ihr =>
    simp only [descend, Tree.height]
    split
    · have := ihl (.L a c v r :: ctx); simp at this; omega
    · have := ihr (.R a c l v :: ctx); simp at this; omega

theorem Tree.height_le_size (t : Tree α) : t.height ≤ t.size := by
  induction t with
  | nil => simp [Tree.height]
  | node a c l v r ihl ihr => simp [Tree.height]; omega

@[simp] theorem headIsLeft_nil : headIsLeft ([] : Ctx α) = true := rfl
@[simp] theorem headIsLeft_L (a c v) (r : Tree α) (fs : Ctx α) :
    headIsLeft (.L a c v r :: fs) = true := rfl
@[simp] theorem headIsLeft_R (a c) (l : Tree α) (v) (fs : Ctx α) :
    headIsLeft (.R a c l v :: fs) = false := rfl

theorem insert_pos_loop_spec (T : Traits α κ) (key : κ) {m m0 : Mem α} {hdr lm rm : Nat} :
    ∀ (t : Tree α) (ctx : Ctx α) (fuel : Nat), t.height < fuel → Z m m0 hdr lm rm ctx t →
      insert_pos_loop T key fuel m t.ptr (ctxPtr hdr ctx) (headIsLeft ctx) =
        .ok (ctxPtr hdr (descend T key t ctx), headIsLeft (descend T key t ctx)) ∧
      Z m m0 hdr lm rm (descend T key t ctx) .nil := by
  intro t
  induction t with
  | nil =>
    intro ctx fuel hf h
    obtain ⟨k, rfl⟩ : ∃ k, fuel = k + 1 := ⟨fuel - 1, by omega⟩
    exact ⟨by simp [insert_pos_loop, descend], h⟩
  | node a c l v r ihl ihr =>
    intro ctx fuel hf h
    obtain ⟨k, rfl⟩ : ∃ k, fuel = k + 1 := ⟨fuel - 1, by omega⟩
    simp only [Tree.height] at hf
    have hl1 : l.height ≤ max l.height r.height := Nat.le_max_left _ _
    have hr1 : r.height ≤ max l.height r.height := Nat.le_max_right _ _
    have a0 := h.rsub.1
    by_cases hc : T.key_compare key (T.KeyOfValue v) = true
    · have hl : Z m m0 hdr lm rm (.L a c v r :: ctx) l := Z_up.2 h
      obtain ⟨e, z⟩ := ihl (.L a c v r :: ctx) k (by omega) hl
      simp only [ctxPtr_cons, Frame.addr_L, headIsLeft_L] at e
      simp only [descend, hc, if_true]
      refine ⟨?_, z⟩
      simp [insert_pos_loop, a0, h.get_key T, hc, h.get_left, e]
    · have hr : Z m m0 hdr lm rm (.R a c l v :: ctx) r := Z_up.2 h
      obtain ⟨e, z⟩ := ihr (.R a c l v :: ctx) k (by omega) hr
      simp only [ctxPtr_cons, Frame.addr_R, headIsLeft_R] at e
      simp only [descend, hc, if_false]
      refine ⟨?_, z⟩
      simp [insert_pos_loop, a0, h.get_key T, hc, h.get_right, e]

/-! ### Order facts of the descent -/

theorem StrictWeakOrder.asymm {lt : κ → κ → Bool} (h : StrictWeakOrder lt) {a b : κ}
    (hab : lt a b = true) : lt b a = false := by
  cases hba : lt b a with
  | false => rfl
  | true => have := h.trans a b a hab hba; simp [h.irrefl] at this

theorem toList_plug (ctx : Ctx α) (t : Tree α) :
    (plug ctx t).toList =
      (ctxBefore ctx).map Prod.snd ++ t.toList ++ (ctxAfter ctx).map Prod.snd := by
  simp [Tree.toList, nodes_plug]

/-- Along the insertion descent every payload left of the final position has a
key that `key` is not less than, and every payload right of it has a key that
`key` is less than. -/
theorem descend_sides (T : Traits α κ) (hT : StrictWeakOrder T.key_compare) (key : κ) :
    ∀ (t : Tree α) (ctx : Ctx α), (plug ctx t).Ordered T →
      (∀ e ∈ ctxBefore ctx, T.key_compare key (T.KeyOfValue e.2) = false) →
      (∀ e ∈ ctxAfter ctx, T.key_compare key (T.KeyOfValue e.2) = true) →
      (∀ e ∈ ctxBefore (descend T key t ctx), T.key_compare key (T.KeyOfValue e.2) = false) ∧
      (∀ e ∈ ctxAfter (descend T key t ctx), T.key_compare key (T.KeyOfValue e.2) = true) := by
  intro t
  induction t with
  | nil => intro ctx _ hb ha; exact ⟨hb, ha⟩
  | node a c l v r ihl ihr =>
    intro ctx ho hb ha
    have ho' := ho
    simp only [Tree.Ordered, toList_plug, Tree.toList_node, List.pairwise_append,
      List.pairwise_cons, List.mem_append, List.mem_cons, List.mem_map] at ho'
    simp only [descend]
    split
    · rename_i hc
      apply ihl (.L a c v r :: ctx) ho hb
      intro e he
      simp only [ctxAfter, List.mem_append, List.mem_cons] at he
      rcases he with (rfl | he) | he
      · exact hc
      · have h1 : T.key_compare (T.KeyOfValue e.2) (T.KeyOfValue v) = false :=
          ho'.1.2.1.2.1.1 e.2 (by simp [Tree.toList]; exact ⟨e.1, he⟩)
        cases h2 : T.key_compare key (T.KeyOfValue e.2) with
        | true => rfl
        | false => have := hT.neg_trans _ _ _ h2 h1; simp [hc] at this
      · exact ha e he
    · rename_i hc
      simp only [Bool.not_eq_true] at hc
      apply ihr (.R a c l v :: ctx) ho _ ha
      intro e he
      simp only [ctxBefore, List.mem_append, List.mem_cons, List.mem_singleton,
        List.not_mem_nil, or_false] at he
      rcases he with he | he | rfl
      · exact hb e he
      · have h1 : T.key_compare (T.KeyOfValue v) (T.KeyOfValue e.2) = false :=
          ho'.1.2.1.2.2 e.2 (by simp [Tree.toList]; exact ⟨e.1, he⟩) v (Or.inl rfl)
        exact hT.neg_trans _ _ _ hc h1
      · exact hc

end zdesc

/-! ## `insert_value_at` on a well-formed tree -/

section zins
variable {α κ : Type}

theorem head_ins_L (B A : List Nat) (a p hdr : Nat) (hnd : (B ++ a :: A).Nodup) :
    (if (B ++ a :: A).head?.getD hdr = a then p else (B ++ a :: A).head?.getD hdr) =
      (B ++ p :: a :: A).head?.getD hdr := by
  cases B with
  | nil => simp
  | cons b B' =>
    have hb : b ≠ a := by
      intro e; subst e
      simp at hnd
    simp [hb]

theorem head_ins_R (B A : List Nat) (a p hdr : Nat) :
    (B ++ a :: A).head?.getD hdr = (B ++ a :: p :: A).head?.getD hdr := by
  cases B <;> simp

theorem getLast?_mid (B A : List Nat) (a : Nat) :
    (B ++ a :: A).getLast? = (A.reverse ++ a :: B.reverse).head? := by
  rw [List.getLast?_eq_head?_reverse]
  simp only [List.reverse_append, List.reverse_cons, List.append_assoc, List.singleton_append]

theorem getLast?_mid2 (B A : List Nat) (a p : Nat) :
    (B ++ a :: p :: A).getLast? = (A.reverse ++ p :: a :: B.reverse).head? := by
  rw [List.getLast?_eq_head?_reverse]
  simp only [List.reverse_append, List.reverse_cons, List.append_assoc, List.singleton_append,
    List.cons_append, List.nil_append]

theorem last_ins_R (B A : List Nat) (a p hdr : Nat) (hnd : (B ++ a :: A).Nodup) :
    (if (B ++ a :: A).getLast?.getD hdr = a then p else (B ++ a :: A).getLast?.getD hdr) =
      (B ++ a :: p :: A).getLast?.getD hdr := by
  have hnd' : (A.reverse ++ a :: B.reverse).Nodup := by
    have := List.nodup_reverse.2 hnd
    simpa only [List.reverse_append, List.reverse_cons, List.append_assoc,
      List.singleton_append] using this
  have h := head_ins_L A.reverse B.reverse a p hdr hnd'
  rw [getLast?_mid, getLast?_mid2]
  exact h

theorem last_ins_L (B A : List Nat) (a p hdr : Nat) :
    (B ++ a :: A).getLast?.getD hdr = (B ++ p :: a :: A).getLast?.getD hdr := by
  have h := head_ins_R A.reverse B.reverse a p hdr
  rw [getLast?_mid, getLast?_mid2]
  exact h

/-- Linking a fresh node into the null link at the end of a path keeps the
representation, with `leftmost()` and `rightmost()` exact again. -/
theorem link_node_spec {m m0 : Mem α} {hdr p : Nat} {ctx : Ctx α} (par0 : Nat) (junk : Bool)
    (v : α)
    (h : Z m m0 hdr ((plug ctx (.nil : Tree α)).first hdr) ((plug ctx (.nil : Tree α)).last hdr)
      ctx .nil)
    (hp0 : p ≠ 0) (hph : p ≠ hdr) (hpt : p ∉ (plug ctx (.nil : Tree α)).addrs) :
    ∃ m', link_node (upd m p (rb_tree_node.mk junk par0 0 0 (some v))) hdr (ctxPtr hdr ctx) p
        (headIsLeft ctx) = .ok m' ∧
      Z m' m0 hdr ((plug ctx (.node p junk .nil v .nil)).first hdr)
        ((plug ctx (.node p junk .nil v .nil)).last hdr) ctx (.node p junk .nil v .nil) := by
  have hnd := List.Nodup.of_cons h.nodup
  cases ctx with
  | nil =>
    obtain ⟨m', e, z⟩ := link_node_nil par0 junk v h hp0 hph
    refine ⟨m', by simpa using e, ?_⟩
    simpa [Tree.first, Tree.last] using z
  | cons f fs =>
    cases f with
    | L a c v' r =>
      obtain ⟨m', e, z⟩ := link_node_L par0 junk v h hp0 hph hpt
      refine ⟨m', by simpa using e, ?_⟩
      have e1 := head_ins_L (ctxBeforeA fs) (r.addrs ++ ctxAfterA fs) a p hdr
        (by simpa [addrs_plug] using hnd)
      have e2 := last_ins_L (ctxBeforeA fs) (r.addrs ++ ctxAfterA fs) a p hdr
      simp only [Tree.first, Tree.last, addrs_plug, ctxBeforeA_L, ctxAfterA_L, Tree.addrs_nil,
        Tree.addrs_node, List.append_nil, List.nil_append, List.append_assoc,
        List.cons_append] at z ⊢
      rw [e1, e2] at z
      exact z
    | R a c l v' =>
      obtain ⟨m', e, z⟩ := link_node_R par0 junk v h hp0 hph hpt
      refine ⟨m', by simpa using e, ?_⟩
      have e1 := head_ins_R (ctxBeforeA fs ++ l.addrs) (ctxAfterA fs) a p hdr
      have e2 := last_ins_R (ctxBeforeA fs ++ l.addrs) (ctxAfterA fs) a p hdr
        (by simpa [addrs_plug] using hnd)
      simp only [Tree.first, Tree.last, addrs_plug, ctxBeforeA_R, ctxAfterA_R, Tree.addrs_nil,
        Tree.addrs_node, List.append_nil, List.nil_append, List.append_assoc,
        List.cons_append, List.singleton_append] at z ⊢
      simp only [List.append_assoc] at e1 e2
      rw [e1, e2] at z
      exact z


theorem Z.toSelf {m m0 : Mem α} {hdr lm rm : Nat} {ctx : Ctx α} {t : Tree α}
    (h : Z m m0 hdr lm rm ctx t) : Z m m hdr lm rm ctx t :=
  ⟨h.hdr_ne, h.nodup, h.rctx, h.rsub, fun _ _ _ => rfl⟩

theorem length_le_ctx (ctx : Ctx α) :
    ctx.length ≤ (ctxBefore ctx).length + (ctxAfter ctx).length := by
  induction ctx with
  | nil => simp
  | cons f fs ih => cases f <;> simp [ctxBefore, ctxAfter] <;> omega

theorem lastBlack_of_rootBlack : ∀ (ctx : Ctx α) (t : Tree α),
    (plug ctx t).RootBlack → ctx ≠ [] → LastBlack ctx
  | [], _, _, h => absurd rfl h
  | [f], t, h, _ => by
    cases f <;> simpa [Tree.RootBlack, LastBlack] using h
  | f :: g :: gs, t, h, _ => lastBlack_of_rootBlack (g :: gs) (f.fill t) h (by simp)

theorem addrs_reblanced (ctx : Ctx α) (t : Tree α) (hne : t ≠ .nil) :
    (reblanced ctx t).addrs = (plug ctx t).addrs := by
  simp only [Tree.addrs, reblanced_nodes ctx t hne]

theorem size_reblanced (ctx : Ctx α) (t : Tree α) (hne : t ≠ .nil) :
    (reblanced ctx t).size = (plug ctx t).size := by
  rw [← Tree.length_nodes, ← Tree.length_nodes, reblanced_nodes ctx t hne]

theorem WF.hdr_live {s : rb_tree α} {t : Tree α} (h : WF s t) : s.mem s.header ≠ none := by
  rw [h.z.header]; simp

/-- Effect of `insert_value_at` at the null link at the end of path `ctx`. -/
theorem insert_value_at_spec (T : Traits α κ) {s : rb_tree α} {t : Tree α} (hwf : WF s t)
    (hrb : t.RootBlack) (ctx : Ctx α) (hctx : plug ctx .nil = t) (v : α) (p : Nat) (junk : Bool)
    (hp0 : p ≠ 0) (hfresh : s.mem p = none) (fuel : Nat) (hf : t.size < fuel)
    (hcnt : s.node_count + 1 < 2 ^ T.size_bits) :
    ∃ s', s.insert_value_at T fuel (ctxPtr s.header ctx) v (headIsLeft ctx) p junk = .ok (s', p) ∧
      WF s' (reblanced ctx (.node p junk .nil v .nil)) ∧ s'.header = s.header ∧
      ∀ a, a ≠ s.header → a ≠ p → a ∉ t.addrs → s'.mem a = s.mem a := by
  have z0 := hwf.z
  have hph : p ≠ s.header := fun e => hwf.hdr_live (e ▸ hfresh)
  have hpt : p ∉ t.addrs := fun hm => Rep_live z0.rsub p hm hfresh
  have z1 : Z s.mem s.mem s.header ((plug ctx (.nil : Tree α)).first s.header)
      ((plug ctx (.nil : Tree α)).last s.header) ctx .nil := by
    rw [hctx]; exact Z_top.2 (by rw [hctx]; exact z0)
  obtain ⟨m1, e1, z2⟩ := link_node_spec 0 junk v z1 hp0 hph
    (by rw [hctx]; exact hpt)
  have hlen : ctx.length < fuel := by
    have h1 := length_le_ctx ctx
    have h2 := size_plug ctx (.nil : Tree α)
    rw [hctx] at h2
    simp at h2
    omega
  have hlast : LastBlack ctx := by
    cases ctx with
    | nil => trivial
    | cons f fs => exact lastBlack_of_rootBlack _ .nil (by rw [hctx]; exact hrb) (by simp)
  obtain ⟨m2, e2, z3⟩ := rb_tree_reblance_spec fuel z2 (by simp) hlast hlen
  have ea := addrs_reblanced ctx (.node p junk .nil v .nil) (by simp)
  refine ⟨{ s with mem := m2, node_count := (s.node_count + 1) % 2 ^ T.size_bits }, ?_, ⟨?_, ?_⟩,
    rfl, ?_⟩
  · simp only [rb_tree.insert_value_at, rb_tree.insert_node_at, create_node]
    simp only [Tree.ptr_node] at e2
    simp [e1, e2]
  · have z4 := z3.toSelf
    simp only [Tree.first, Tree.last, ea] at z4 ⊢
    exact z4
  · show (s.node_count + 1) % 2 ^ T.size_bits = _
    rw [Nat.mod_eq_of_lt hcnt, hwf.count,
      size_reblanced ctx _ (by simp : Tree.node p junk .nil v .nil ≠ .nil), size_plug]
    have h2 := size_plug ctx (.nil : Tree α)
    rw [hctx] at h2
    simp at h2 ⊢
    omega
  · intro a h1 h2 h3
    apply z3.frame a h1
    simp only [plug_nil, ea, mem_addrs_plug, Tree.addrs_node, Tree.addrs_nil, List.nil_append,
      List.mem_cons, List.not_mem_nil, or_false, not_or]
    have h4 : a ∉ (plug ctx (.nil : Tree α)).addrs := by rw [hctx]; exact h3
    simp only [mem_addrs_plug, Tree.addrs_nil, List.not_mem_nil, false_or, not_or] at h4
    exact ⟨h4.1, h2, h4.2⟩

end zins

/-! ## `insert_multi` -/

section zmulti
variable {α κ : Type}

theorem nodes_ins_path (T : Traits α κ) (v : α) (t : Tree α) :
    t.nodes = ctxBefore (ins_path T v t) ++ ctxAfter (ins_path T v t) := by
  have := congrArg Tree.nodes (plug_descend T (T.KeyOfValue v) t [])
  simp only [nodes_plug, Tree.nodes_nil, List.append_nil, plug_nil] at this
  exact this.symm

theorem nodes_ins_tree (T : Traits α κ) (v : α) (p : Nat) (junk : Bool) (t : Tree α) :
    (ins_tree T v p junk t).nodes =
      ctxBefore (ins_path T v t) ++ (p, v) :: ctxAfter (ins_path T v t) := by
  simp [ins_tree, reblanced_nodes, nodes_plug]

theorem ins_path_sides (T : Traits α κ) (hT : StrictWeakOrder T.key_compare) (v : α)
    (t : Tree α) (ho : t.Ordered T) :
    (∀ e ∈ ctxBefore (ins_path T v t),
        T.key_compare (T.KeyOfValue v) (T.KeyOfValue e.2) = false) ∧
      (∀ e ∈ ctxAfter (ins_path T v t),
        T.key_compare (T.KeyOfValue v) (T.KeyOfValue e.2) = true) :=
  descend_sides T hT (T.KeyOfValue v) t [] (by simpa using ho) (by simp [ctxBefore])
    (by simp [ctxAfter])

theorem ordered_ins_tree (T : Traits α κ) (hT : StrictWeakOrder T.key_compare) (v : α) (p : Nat)
    (junk : Bool) (t : Tree α) (ho : t.Ordered T) : (ins_tree T v p junk t).Ordered T := by
  obtain ⟨hb, ha⟩ := ins_path_sides T hT v t ho
  have ho' := ho
  simp only [Tree.Ordered, Tree.toList, nodes_ins_path T v t, List.map_append,
    List.pairwise_append, List.mem_map] at ho'
  simp only [Tree.Ordered, Tree.toList, nodes_ins_tree, List.map_append, List.map_cons,
    List.pairwise_append, List.pairwise_cons, List.mem_map, List.mem_cons]
  refine ⟨ho'.1, ⟨?_, ho'.2.1⟩, ?_⟩
  · rintro a ⟨e, he, rfl⟩
    exact hT.asymm (ha e he)
  · rintro a ⟨e, he, rfl⟩ b hb'
    rcases hb' with rfl | hb'
    · exact hb e he
    · exact ho'.2.2 _ ⟨e, he, rfl⟩ b hb'

theorem rb_ins_tree (T : Traits α κ) (hT : StrictWeakOrder T.key_compare) (v : α) (p : Nat)
    (junk : Bool) (t : Tree α) (h : t.RB T) : (ins_tree T v p junk t).RB T := by
  have e := plug_descend T (T.KeyOfValue v) t []
  simp only [plug_nil] at e
  obtain ⟨r1, r2, r3⟩ := reblanced_valid (ins_path T v t) p junk v
    (by rw [ins_path, e]; exact h.no_red_red) (by rw [ins_path, e]; exact h.balanced)
    (by rw [ins_path, e]; exact h.root_black)
  exact ⟨ordered_ins_tree T hT v p junk t h.ordered, r3, r1, r2⟩

theorem WF.root_ptr {s : rb_tree α} {t : Tree α} (h : WF s t) :
    get_parent s.mem s.header = .ok t.ptr := by
  simpa using h.z.get_root

theorem get_insert_multi_pos_spec (T : Traits α κ) {s : rb_tree α} {t : Tree α} (hwf : WF s t)
    (key : κ) (fuel : Nat) (hf : t.size < fuel) :
    s.get_insert_multi_pos T fuel key =
      .ok (ctxPtr s.header (descend T key t []), headIsLeft (descend T key t [])) := by
  have h := insert_pos_loop_spec T key t [] fuel
    (Nat.lt_of_le_of_lt t.height_le_size hf) hwf.z
  simp only [ctxPtr_nil, headIsLeft_nil] at h
  simp [rb_tree.get_insert_multi_pos, hwf.root_ptr, h.1]

/-- Effect of `insert_multi` on a well-formed red-black tree within capacity. -/
theorem insert_multi_spec (T : Traits α κ) {s : rb_tree α} {t : Tree α} (hwf : WF s t)
    (hrb : t.RootBlack) (v : α) (p : Nat) (junk : Bool)
    (hp0 : p ≠ 0) (hfresh : s.mem p = none) (fuel : Nat) (hf : t.size < fuel)
    (hcnt : s.node_count < T.max_size) :
    ∃ s', s.insert_multi T fuel v p junk = .ok (s', p) ∧ WF s' (ins_tree T v p junk t) ∧
      s'.header = s.header ∧
      ∀ a, a ≠ s.header → a ≠ p → a ∉ t.addrs → s'.mem a = s.mem a := by
  have hm : ¬ s.node_count > T.max_size - 1 := by omega
  have hc2 : s.node_count + 1 < 2 ^ T.size_bits := by
    simp only [Traits.max_size] at hcnt; omega
  have e := plug_descend T (T.KeyOfValue v) t []
  simp only [plug_nil] at e
  obtain ⟨s', e1, w1, w2, w3⟩ := insert_value_at_spec T hwf hrb (ins_path T v t) e v p junk hp0
    hfresh fuel hf hc2
  refine ⟨s', ?_, w1, w2, w3⟩
  simp only [rb_tree.insert_multi, hm, if_false, get_insert_multi_pos_spec T hwf _ fuel hf,
    ok_bind]
  exact e1

end zmulti

/-! ## Iterator steps -/

section ziter
variable {α κ : Type}

theorem Tree.ptr_ne_zero_of_Z {m m0 : Mem α} {hdr lm rm : Nat} {ctx : Ctx α} {t : Tree α}
    (h : Z m m0 hdr lm rm ctx t) (hne : t ≠ .nil) : t.ptr ≠ 0 :=
  Rep_ptr_ne_zero h.rsub hne

theorem getLastD_append_cons (A B : List Nat) (x d : Nat) :
    (A ++ x :: B).getLast?.getD d = (x :: B).getLast?.getD d := by
  simp [List.getLast?_append, List.getLast?_cons]

theorem minimum_spec {m m0 : Mem α} {hdr lm rm : Nat} (d : Nat) :
    ∀ (t : Tree α) (ctx : Ctx α) (fuel : Nat), t ≠ .nil → t.height ≤ fuel →
      Z m m0 hdr lm rm ctx t → minimum fuel m t.ptr = .ok (t.addrs.head?.getD d) := by
  intro t
  induction t with
  | nil => intro _ _ h; exact absurd rfl h
  | node x c l v r ihl _ =>
    intro ctx fuel _ hf h
    simp only [Tree.height] at hf
    obtain ⟨k, rfl⟩ : ∃ k, fuel = k + 1 := ⟨fuel - 1, by omega⟩
    have hl1 : l.height ≤ max l.height r.height := Nat.le_max_left _ _
    have hl : Z m m0 hdr lm rm (.L x c v r :: ctx) l := Z_up.2 h
    cases l with
    | nil => simp [minimum, h.get_left]
    | node y cy ll vy lr =>
      have := ihl (.L x c v r :: ctx) k (by simp) (by omega) hl
      simp only [Tree.ptr_node] at this
      simp [minimum, h.get_left, hl.rsub.1, this]

theorem maximum_spec {m m0 : Mem α} {hdr lm rm : Nat} (d : Nat) :
    ∀ (t : Tree α) (ctx : Ctx α) (fuel : Nat), t ≠ .nil → t.height ≤ fuel →
      Z m m0 hdr lm rm ctx t → maximum fuel m t.ptr = .ok (t.addrs.getLast?.getD d) := by
  intro t
  induction t with
  | nil => intro _ _ h; exact absurd rfl h
  | node x c l v r _ ihr =>
    intro ctx fuel _ hf h
    simp only [Tree.height] at hf
    obtain ⟨k, rfl⟩ : ∃ k, fuel = k + 1 := ⟨fuel - 1, by omega⟩
    have hr1 : r.height ≤ max l.height r.height := Nat.le_max_right _ _
    have hr : Z m m0 hdr lm rm (.R x c l v :: ctx) r := Z_up.2 h
    cases r with
    | nil => simp [maximum, h.get_right]
    | node y cy rl vy rr =>
      have := ihr (.R x c l v :: ctx) k (by simp) (by omega) hr
      simp only [Tree.ptr_node] at this
      simp only [maximum, h.get_right, Tree.ptr_node, ok_bind, hr.rsub.1, if_false, this]
      simp only [Tree.addrs_node, getLastD_append_cons]
      rw [← List.cons_append, getLastD_append_cons]

/-- Climbing from a subtree while it is a left child ends at the last node
before it in order. -/
theorem decrement_up_spec {m m0 : Mem α} {hdr lm rm : Nat} (d : Nat) :
    ∀ (ctx : Ctx α) (t : Tree α) (fuel : Nat), t ≠ .nil → ctxBeforeA ctx ≠ [] →
      ctx.length ≤ fuel → Z m m0 hdr lm rm ctx t →
      decrement_up fuel m t.ptr (ctxPtr hdr ctx) = .ok ((ctxBeforeA ctx).getLast?.getD d) := by
  intro ctx
  induction ctx with
  | nil => intro _ _ _ hb; simp at hb
  | cons f fs ih =>
    intro t fuel hne hb hf h
    simp only [List.length_cons] at hf
    obtain ⟨k, rfl⟩ : ∃ k, fuel = k + 1 := ⟨fuel - 1, by omega⟩
    have hp := Z_up.1 h
    have t0 := Tree.ptr_ne_zero_of_Z h hne
    cases f with
    | L a c v r =>
      simp only [Frame.fill_L] at hp
      have := ih (.node a c t v r) k (by simp) (by simpa using hb) (by omega) hp
      simp only [Tree.ptr_node] at this
      simp [decrement_up, hp.get_left, hp.get_parent, this]
    | R a c l v =>
      simp only [Frame.fill_R] at hp
      have hne' : t.ptr ≠ l.ptr := by
        have := ptr_ne_of_sibling_r hp (by simpa using t0)
        simpa using this
      simp [decrement_up, hp.get_left, hne']

theorem Z.is_header {m m0 : Mem α} {hdr lm rm : Nat} {ctx : Ctx α} {x : Nat}
    {c : Bool} {l r : Tree α} {v : α}
    (h : Z m m0 hdr lm rm ctx (.node x c l v r)) (hroot : c = rb_tree_red → ctx ≠ []) :
    mystl.is_header m x = .ok false := by
  by_cases hc : c = rb_tree_red
  · cases ctx with
    | nil => exact absurd rfl (hroot hc)
    | cons f fs =>
      have hp := Z_up.1 h
      have hx := h.focus_disjoint (z := x) (by simp)
      have hne : ctxPtr hdr fs ≠ x := by
        rcases ctxPtr_mem hdr fs with e | e
        · rw [e]; exact Ne.symm hx.1
        · intro e'; apply hx.2.1; rw [← e']
          simp only [ctxAddrs, List.mem_append] at e ⊢
          cases f <;> simp <;> tauto
      cases f with
      | L a ca va ra =>
        simp only [Frame.fill_L] at hp
        simp [mystl.is_header, h.get_color, hc, h.get_parent, hp.get_parent, hne]
      | R a ca la va =>
        simp only [Frame.fill_R] at hp
        simp [mystl.is_header, h.get_color, hc, h.get_parent, hp.get_parent, hne]
  · simp [mystl.is_header, h.get_color, hc]

/-- Step `decrement` at a node that is not the first in order. -/
theorem decrement_spec {m m0 : Mem α} {hdr lm rm : Nat} (d : Nat) {ctx : Ctx α} {x : Nat}
    {c : Bool} {l r : Tree α} {v : α} (fuel : Nat)
    (h : Z m m0 hdr lm rm ctx (.node x c l v r)) (hroot : c = rb_tree_red → ctx ≠ [])
    (hb : ctxBeforeA ctx ++ l.addrs ≠ []) (hf : ctx.length + l.height ≤ fuel) :
    decrement fuel m x = .ok ((ctxBeforeA ctx ++ l.addrs).getLast?.getD d) := by
  have hl : Z m m0 hdr lm rm (.L x c v r :: ctx) l := Z_up.2 h
  cases l with
  | nil =>
    simp only [Tree.addrs_nil, List.append_nil] at hb ⊢
    have := decrement_up_spec d ctx (.node x c .nil v r) fuel (by simp) hb (by omega) h
    simp only [Tree.ptr_node] at this
    simp [decrement, h.is_header hroot, h.get_left, h.get_parent, this]
  | node y cy ll vy lr =>
    have := maximum_spec d (.node y cy ll vy lr) (.L x c v r :: ctx) fuel (by simp) (by omega) hl
    simp only [Tree.ptr_node] at this
    simp only [decrement, h.is_header hroot, ok_bind, Bool.false_eq_true, if_false, h.get_left,
      Tree.ptr_node, hl.rsub.1, this]
    simp only [Tree.addrs_node, ← List.append_assoc, getLastD_append_cons]


theorem hdr_ne_ptr {m m0 : Mem α} {hdr lm rm : Nat} {ctx : Ctx α} {t : Tree α}
    (h : Z m m0 hdr lm rm ctx t) : hdr ≠ t.ptr := by
  rcases t.ptr_eq_zero_or_mem with e | e
  · rw [e]; exact h.hdr_ne
  · exact fun e' => h.hdr_not_mem.2.1 (e' ▸ e)

theorem increment_climb_spec {m m0 : Mem α} {hdr lm rm : Nat} :
    ∀ (ctx : Ctx α) (t : Tree α) (fuel : Nat), t ≠ .nil → ctx.length + 2 ≤ fuel →
      Z m m0 hdr lm rm ctx t →
      (increment_up fuel m t.ptr (ctxPtr hdr ctx) >>= increment_finish m) =
        .ok ((ctxAfterA ctx).head?.getD hdr) := by
  intro ctx
  induction ctx with
  | nil =>
    intro t fuel hne hf h
    obtain ⟨k, rfl⟩ : ∃ k, fuel = k + 2 := ⟨fuel - 2, by simp at hf; omega⟩
    cases t with
    | nil => exact absurd rfl hne
    | node x c l v r =>
      have hr : Z m m0 hdr lm rm [.R x c l v] r := Z_up.2 h
      have hhr := hdr_ne_ptr hr
      have hroot := h.get_root
      simp only [plug_nil, Tree.ptr_node] at hroot
      by_cases e : x = rm
      · subst e
        simp [increment_up, get_right_ok h.rd_header, hroot, h.get_right, hhr, increment_finish]
      · simp [increment_up, get_right_ok h.rd_header, e, increment_finish, h.get_right,
          Ne.symm hhr]
  | cons f fs ih =>
    intro t fuel hne hf h
    simp only [List.length_cons] at hf
    obtain ⟨k, rfl⟩ : ∃ k, fuel = k + 1 := ⟨fuel - 1, by omega⟩
    have hp := Z_up.1 h
    have t0 := Tree.ptr_ne_zero_of_Z h hne
    cases f with
    | L a c v r =>
      simp only [Frame.fill_L] at hp
      have hne' : t.ptr ≠ r.ptr := by
        have := ptr_ne_of_sibling hp (by simpa using t0)
        simpa using this
      cases t with
      | nil => exact absurd rfl hne
      | node x cx tl xv tr =>
        have htr : Z m m0 hdr lm rm (.R x cx tl xv :: .L a c v r :: fs) tr := Z_up.2 h
        have hatr : tr.ptr ≠ a := by
          rcases tr.ptr_eq_zero_or_mem with e | e
          · rw [e]; exact Ne.symm hp.rsub.1
          · have := (htr.focus_disjoint e).2.1
            intro e'; apply this; rw [e']; simp [ctxAddrs]
        simp only [Tree.ptr_node] at hne'
        simp [increment_up, hp.get_right, hne', increment_finish, h.get_right, hatr]
    | R a c l v =>
      simp only [Frame.fill_R] at hp
      have := ih (.node a c l v t) k (by simp) (by omega) hp
      simp only [Tree.ptr_node] at this
      simp [increment_up, hp.get_right, hp.get_parent, this]

/-- Step `increment` at a node: the next node in order, or the header after the
last one. -/
theorem increment_spec {m m0 : Mem α} {hdr lm rm : Nat} {ctx : Ctx α} {x : Nat}
    {c : Bool} {l r : Tree α} {v : α} (fuel : Nat)
    (h : Z m m0 hdr lm rm ctx (.node x c l v r)) (hf : ctx.length + r.height + 2 ≤ fuel) :
    increment fuel m x = .ok ((r.addrs ++ ctxAfterA ctx).head?.getD hdr) := by
  have hr : Z m m0 hdr lm rm (.R x c l v :: ctx) r := Z_up.2 h
  cases r with
  | nil =>
    have := increment_climb_spec ctx (.node x c l v .nil) fuel (by simp) (by omega) h
    simp only [Tree.ptr_node] at this
    simp [increment, h.get_right, h.get_parent, this]
  | node y cy rl vy rr =>
    have := minimum_spec hdr (.node y cy rl vy rr) (.R x c l v :: ctx) fuel (by simp) (by omega) hr
    simp only [Tree.ptr_node] at this
    simp only [increment, h.get_right, Tree.ptr_node, ok_bind, hr.rsub.1, if_false, this]
    simp

end ziter

/-! ## Walking the tree from `begin()` to `end()` -/

section zwalk
variable {α κ : Type}

theorem Z.get_value {m m0 : Mem α} {hdr lm rm : Nat} {ctx : Ctx α} {a : Nat} {c : Bool}
    {l r : Tree α} {v : α} (h : Z m m0 hdr lm rm ctx (.node a c l v r)) :
    mystl.get_value m a = .ok v := by
  simp [mystl.get_value, h.rd_focus]

theorem walk_spec {m m0 : Mem α} {hdr lm rm : Nat} (fuel : Nat) :
    ∀ (t : Tree α) (ctx : Ctx α) (k : Nat), ctx.length + t.height + 2 ≤ fuel →
      Z m m0 hdr lm rm ctx t →
      walk (t.size + k) fuel m ((t.addrs ++ ctxAfterA ctx).head?.getD hdr) hdr =
        (do
          let rest ← walk k fuel m ((ctxAfterA ctx).head?.getD hdr) hdr
          pure (t.toList ++ rest)) := by
  intro t
  induction t with
  | nil =>
    intro ctx k _ _
    cases hw : walk k fuel m ((ctxAfterA ctx).head?.getD hdr) hdr <;> simp [hw]
  | node x c l v r ihl ihr =>
    intro ctx k hf h
    simp only [Tree.height] at hf
    have hl1 : l.height ≤ max l.height r.height := Nat.le_max_left _ _
    have hr1 : r.height ≤ max l.height r.height := Nat.le_max_right _ _
    have hl : Z m m0 hdr lm rm (.L x c v r :: ctx) l := Z_up.2 h
    have hr : Z m m0 hdr lm rm (.R x c l v :: ctx) r := Z_up.2 h
    have e1 := ihl (.L x c v r :: ctx) (1 + r.size + k) (by simp; omega) hl
    have e2 := ihr (.R x c l v :: ctx) k (by simp; omega) hr
    have hx := (h.focus_not_mem).1
    have hinc := increment_spec fuel h (by omega)
    have es : (Tree.node x c l v r).size + k = l.size + (1 + r.size + k) := by
      simp only [Tree.size_node]; omega
    have es2 : 1 + r.size + k = (r.size + k) + 1 := by omega
    rw [es]
    simp only [Tree.addrs_node, List.append_assoc, List.cons_append, ctxAfterA_L,
      ctxAfterA_R] at e1 e2 ⊢
    rw [e1]
    simp only [List.head?_cons, Option.getD_some]
    rw [es2]
    simp only [walk, hx, if_false, h.get_value, ok_bind, hinc, e2]
    cases hw : walk k fuel m ((ctxAfterA ctx).head?.getD hdr) hdr <;> simp [hw]

theorem WF.begin_eq {s : rb_tree α} {t : Tree α} (h : WF s t) :
    s.begin = .ok (t.first s.header) := by
  simp [rb_tree.begin, get_left_ok h.z.rd_header]

/-- Walking from `begin()` to `end()` yields the payloads in order. -/
theorem to_list_spec {s : rb_tree α} {t : Tree α} (h : WF s t) (fuel : Nat)
    (hf : t.size + 2 ≤ fuel) : s.to_list fuel = .ok t.toList := by
  have hh := t.height_le_size
  have e := walk_spec fuel t [] (fuel - t.size) (by simp; omega) h.z
  have e0 : t.size + (fuel - t.size) = fuel := by omega
  obtain ⟨j, hj⟩ : ∃ j, fuel - t.size = j + 1 := ⟨fuel - t.size - 1, by omega⟩
  rw [e0] at e
  simp only [ctxAfterA_nil, List.append_nil, List.head?_nil, Option.getD_none, hj] at e
  simp only [rb_tree.to_list, h.begin_eq, ok_bind, rb_tree.end_, Tree.first]
  rw [e]
  simp [walk]

end zwalk

/-! ## `insert_unique` and `emplace_unique` -/

section zuniq
variable {α κ : Type}

theorem Rep_get_value {m : Mem α} {par : Nat} {t : Tree α} (hr : Rep m par t) {a : Nat} {v : α}
    (h : (a, v) ∈ t.nodes) : get_value m a = .ok v := by
  induction t generalizing par with
  | nil => simp at h
  | node b c l w r ihl ihr =>
    obtain ⟨h0, hb, hl, hrr⟩ := hr
    simp only [Tree.nodes_node, List.mem_append, List.mem_cons, Prod.mk.injEq] at h
    rcases h with h | ⟨rfl, rfl⟩ | h
    · exact ihl hl h
    · simp [get_value, rd_ok h0 hb]
    · exact ihr hrr h

theorem getLast?_map_fst (B : List (Nat × α)) :
    (B.map Prod.fst).getLast? = B.getLast?.map Prod.fst := by
  induction B with
  | nil => rfl
  | cons b B ih =>
    cases B with
    | nil => rfl
    | cons c C => simpa [List.getLast?_cons_cons] using ih

theorem get_insert_unique_pos_spec (T : Traits α κ) {s : rb_tree α} {t : Tree α} (hwf : WF s t)
    (hrb : t.RootBlack) (key : κ) (fuel : Nat) (hf : t.size < fuel) :
    s.get_insert_unique_pos T fuel key =
      .ok ((ctxPtr s.header (descend T key t []), headIsLeft (descend T key t [])),
        pred_ok T key (ctxBefore (descend T key t []))) := by
  have hh := t.height_le_size
  obtain ⟨e, z⟩ := insert_pos_loop_spec T key t [] fuel (by omega) hwf.z
  simp only [ctxPtr_nil, headIsLeft_nil] at e
  have hp := plug_descend T key t []
  simp only [plug_nil] at hp
  have hlen := length_descend T key t []
  simp only [List.length_nil, Nat.zero_add] at hlen
  have hfirst : s.begin = .ok ((ctxBeforeA (descend T key t []) ++
      ctxAfterA (descend T key t [])).head?.getD s.header) := by
    have ht := congrArg Tree.addrs hp
    rw [addrs_plug] at ht
    rw [hwf.begin_eq, Tree.first, ← ht]; simp
  have hnd : (ctxBeforeA (descend T key t []) ++ ctxAfterA (descend T key t [])).Nodup := by
    have := List.Nodup.of_cons z.nodup_parts
    simpa using this
  have hsub : ∀ e ∈ ctxBefore (descend T key t []), e ∈ t.nodes := by
    intro e he
    rw [← hp, nodes_plug]; simp [he]
  simp only [rb_tree.get_insert_unique_pos, hwf.root_ptr, ok_bind, e]
  cases hd : descend T key t [] with
  | nil => simp [pred_ok, ctxBefore]
  | cons f fs =>
    rw [hd] at z hfirst hnd hsub hlen
    have hpa := Z_up.1 z
    cases f with
    | L a c v r =>
      simp only [Frame.fill_L] at hpa
      have ha := hpa.focus_not_mem.1
      simp only [ctxBeforeA_L, ctxAfterA_L] at hfirst hnd
      by_cases hB : ctxBeforeA fs = []
      · have hB' : ctxBefore fs = [] := by
          have := map_fst_ctxBefore fs
          rw [hB] at this
          simpa using this
        simp [hfirst, hB, ha, pred_ok, ctxBefore, hB']
      · have hne : a ≠ (ctxBeforeA fs ++ (a :: r.addrs ++ ctxAfterA fs)).head?.getD s.header := by
          cases hBB : ctxBeforeA fs with
          | nil => exact absurd hBB hB
          | cons b B' =>
            rw [hBB] at hnd
            simp only [List.cons_append, List.head?_cons, Option.getD_some]
            intro e'
            subst e'
            simp at hnd
        have hroot : c = rb_tree_red → fs ≠ [] := by
          intro hc hfs
          subst hfs
          rw [hd] at hp
          simp only [plug_cons, plug_nil, Frame.fill_L] at hp
          rw [← hp] at hrb
          simp [Tree.RootBlack, hc] at hrb
        have hdec := decrement_spec s.header fuel hpa hroot (by simpa using hB)
          (by simp [Tree.height] at hlen ⊢; omega)
        simp only [Tree.addrs_nil, List.append_nil] at hdec
        -- the predecessor and its payload
        have hBne : ctxBefore fs ≠ [] := by
          intro h0
          apply hB
          rw [← map_fst_ctxBefore, h0]; rfl
        obtain ⟨e0, he0⟩ : ∃ e0, (ctxBefore fs).getLast? = some e0 := by
          cases hl : (ctxBefore fs).getLast? with
          | none => exact absurd (List.getLast?_eq_none_iff.1 hl) hBne
          | some e0 => exact ⟨e0, rfl⟩
        have hj : (ctxBeforeA fs).getLast?.getD s.header = e0.1 := by
          rw [← map_fst_ctxBefore, getLast?_map_fst, he0]; rfl
        have hmem : e0 ∈ t.nodes := hsub e0 (by
          simp only [ctxBefore]
          exact List.mem_of_mem_getLast? he0)
        have hval := Rep_get_value hwf.z.rsub (a := e0.1) (v := e0.2) hmem
        rw [hj] at hdec
        have hne2 : ¬ a = ((ctxBeforeA fs).head?.or (some a)).getD s.header := by
          simpa using hne
        simp only [hfirst, ha, if_false, Bool.true_and, if_true, ok_bind, pure_eq_ok]
        simp [hne2, hdec, get_key, hval, pred_ok, ctxBefore, he0]
        cases T.key_compare (T.KeyOfValue e0.2) key <;> simp [ha]
    | R a c l v =>
      simp only [Frame.fill_R] at hpa
      have hk := hpa.get_key T
      simp [hk, pred_ok, ctxBefore, List.getLast?_append, List.getLast?_cons]
      cases T.key_compare (T.KeyOfValue v) key <;> simp


/-- Memory that agrees with a well-formed tree's memory on the header and the
nodes holds the same tree. -/
theorem WF_congr {s s' : rb_tree α} {t : Tree α} (h : WF s t) (hh : s'.header = s.header)
    (hc : s'.node_count = s.node_count)
    (hm : ∀ a, a = s.header ∨ a ∈ t.addrs → s'.mem a = s.mem a) : WF s' t := by
  have z := h.z
  refine ⟨⟨by rw [hh]; exact z.hdr_ne, by rw [hh]; exact z.nodup, ?_, ?_, fun _ _ _ => rfl⟩,
    by rw [hc]; exact h.count⟩
  · rw [hh]
    have := z.rctx
    simp only [RepCtx] at this ⊢
    rw [hm _ (Or.inl rfl)]; exact this
  · rw [hh]
    exact Rep_congr (fun a ha => hm a (Or.inr ha)) z.rsub

theorem insert_unique_spec_new (T : Traits α κ) {s : rb_tree α} {t : Tree α} (hwf : WF s t)
    (hrb : t.RootBlack) (v : α) (p : Nat) (junk : Bool)
    (hp0 : p ≠ 0) (hfresh : s.mem p = none) (fuel : Nat) (hf : t.size < fuel)
    (hcnt : s.node_count < T.max_size)
    (hok : pred_ok T (T.KeyOfValue v) (ctxBefore (ins_path T v t)) = true) :
    ∃ s', s.insert_unique T fuel v p junk = .ok (s', (p, true)) ∧
      s.emplace_unique T fuel v p junk = .ok (s', (p, true)) ∧
      WF s' (ins_tree T v p junk t) ∧ s'.header = s.header ∧
      ∀ a, a ≠ s.header → a ≠ p → a ∉ t.addrs → s'.mem a = s.mem a := by
  have hm : ¬ s.node_count > T.max_size - 1 := by omega
  have hc2 : s.node_count + 1 < 2 ^ T.size_bits := by
    simp only [Traits.max_size] at hcnt; omega
  have e := plug_descend T (T.KeyOfValue v) t []
  simp only [plug_nil] at e
  obtain ⟨s', e1, w1, w2, w3⟩ := insert_value_at_spec T hwf hrb (ins_path T v t) e v p junk hp0
    hfresh fuel hf hc2
  have hph : p ≠ s.header := fun e => hwf.hdr_live (e ▸ hfresh)
  have hpt : p ∉ t.addrs := fun hm => Rep_live hwf.z.rsub p hm hfresh
  have hwf1 : WF ({ s with mem := create_node s.mem p junk v } : rb_tree α) t := by
    refine WF_congr hwf rfl rfl ?_
    intro a ha
    apply upd_ne
    rcases ha with rfl | ha
    · exact Ne.symm hph
    · exact fun e => hpt (e ▸ ha)
  have hk : get_key T (create_node s.mem p junk v) p = .ok (T.KeyOfValue v) := by
    simp [get_key, get_value, create_node, rd_upd_same _ _ hp0]
  simp only [ins_path] at hok
  refine ⟨s', ?_, ?_, w1, w2, w3⟩
  · simp only [rb_tree.insert_unique, hm, if_false,
      get_insert_unique_pos_spec T hwf hrb _ fuel hf, ok_bind, hok, if_true]
    simp only [ins_path] at e1
    simp [e1]
  · simp only [rb_tree.emplace_unique, hm, if_false, hk, ok_bind,
      get_insert_unique_pos_spec T hwf1 hrb _ fuel hf, hok, if_true]
    simp only [rb_tree.insert_value_at, ins_path] at e1
    simp [e1]

theorem free_create {m : Mem α} {p : Nat} {junk : Bool} {v : α} (h : m p = none) :
    free (create_node m p junk v) p = m := by
  funext a
  by_cases e : a = p
  · subst e; simp [h]
  · rw [free_ne _ e, create_node, upd_ne _ _ e]

theorem insert_unique_spec_dup (T : Traits α κ) {s : rb_tree α} {t : Tree α} (hwf : WF s t)
    (hrb : t.RootBlack) (v : α) (p : Nat) (junk : Bool)
    (hp0 : p ≠ 0) (hfresh : s.mem p = none) (fuel : Nat) (hf : t.size < fuel)
    (hcnt : s.node_count < T.max_size)
    (hok : pred_ok T (T.KeyOfValue v) (ctxBefore (ins_path T v t)) = false) :
    s.insert_unique T fuel v p junk = .ok (s, (ctxPtr s.header (ins_path T v t), false)) ∧
      s.emplace_unique T fuel v p junk = .ok (s, (ctxPtr s.header (ins_path T v t), false)) := by
  have hm : ¬ s.node_count > T.max_size - 1 := by omega
  have hph : p ≠ s.header := fun e => hwf.hdr_live (e ▸ hfresh)
  have hpt : p ∉ t.addrs := fun hm => Rep_live hwf.z.rsub p hm hfresh
  have hwf1 : WF ({ s with mem := create_node s.mem p junk v } : rb_tree α) t := by
    refine WF_congr hwf rfl rfl ?_
    intro a ha
    apply upd_ne
    rcases ha with rfl | ha
    · exact Ne.symm hph
    · exact fun e => hpt (e ▸ ha)
  have hk : get_key T (create_node s.mem p junk v) p = .ok (T.KeyOfValue v) := by
    simp [get_key, get_value, create_node, rd_upd_same _ _ hp0]
  have hrd : rd (create_node s.mem p junk v) p = .ok _ := rd_upd_same _ _ hp0
  simp only [ins_path] at hok ⊢
  refine ⟨?_, ?_⟩
  · simp [rb_tree.insert_unique, hm, get_insert_unique_pos_spec T hwf hrb _ fuel hf, hok]
  · simp [rb_tree.emplace_unique, hm, hk, get_insert_unique_pos_spec T hwf1 hrb _ fuel hf, hok,
      destroy_node, hrd, free_create hfresh]

/-- The duplicate test passes exactly when no stored key is equivalent to the
new key. -/
theorem pred_ok_iff (T : Traits α κ) (hT : StrictWeakOrder T.key_compare) (v : α) (t : Tree α)
    (ho : t.Ordered T) :
    pred_ok T (T.KeyOfValue v) (ctxBefore (ins_path T v t)) = true ↔
      ∀ e ∈ t.toList, ¬ equiv T.key_compare (T.KeyOfValue e) (T.KeyOfValue v) := by
  obtain ⟨hb, ha⟩ := ins_path_sides T hT v t ho
  have ho' := ho
  simp only [Tree.Ordered, Tree.toList, nodes_ins_path T v t, List.map_append,
    List.pairwise_append, List.mem_map] at ho'
  have hmem : ∀ e, e ∈ t.toList ↔ (∃ x ∈ ctxBefore (ins_path T v t), x.2 = e) ∨
      (∃ x ∈ ctxAfter (ins_path T v t), x.2 = e) := by
    intro e
    simp only [Tree.toList, nodes_ins_path T v t, List.map_append, List.mem_append, List.mem_map]
  cases hl : (ctxBefore (ins_path T v t)).getLast? with
  | none =>
    have hB := List.getLast?_eq_none_iff.1 hl
    simp only [pred_ok, hl, true_iff]
    intro e he
    rw [hmem, hB] at he
    rcases he with ⟨x, hx, _⟩ | ⟨x, hx, rfl⟩
    · simp at hx
    · intro heq
      have := ha x hx
      rw [heq.2] at this; simp at this
  | some e0 =>
    have hmem0 := List.mem_of_mem_getLast? hl
    simp only [pred_ok, hl]
    constructor
    · intro hlt e he
      rw [hmem] at he
      rcases he with ⟨x, hx, rfl⟩ | ⟨x, hx, rfl⟩
      · intro heq
        -- x ≤ e0 < v
        have hxe : T.key_compare (T.KeyOfValue e0.2) (T.KeyOfValue x.2) = false := by
          obtain ⟨pre, hpre⟩ : ∃ pre, ctxBefore (ins_path T v t) = pre ++ [e0] := by
            have := List.getLast?_eq_some_iff.1 hl
            exact this
          rw [hpre] at hx ho'
          simp only [List.mem_append, List.mem_singleton] at hx
          rcases hx with hx | rfl
          · have hp := ho'.1
            simp only [List.map_append, List.pairwise_append, List.map_cons, List.map_nil,
              List.mem_map, List.mem_singleton] at hp
            exact hp.2.2 _ ⟨x, hx, rfl⟩ _ rfl
          · exact hT.irrefl _
        have := hT.neg_trans _ _ _ hxe heq.1
        rw [hlt] at this; simp at this
      · intro heq
        have := ha x hx
        rw [heq.2] at this; simp at this
    · intro hall
      cases hc : T.key_compare (T.KeyOfValue e0.2) (T.KeyOfValue v) with
      | true => rfl
      | false =>
        exact absurd ⟨hc, hb e0 hmem0⟩ (hall e0.2 ((hmem _).2 (Or.inl ⟨e0, hmem0, rfl⟩)))

end zuniq

/-! ## `lower_bound`, `upper_bound` and `find` -/

section zfind
variable {α κ : Type}

theorem lower_loop_spec (T : Traits α κ) (key : κ) {m m0 : Mem α} {hdr lm rm : Nat} :
    ∀ (t : Tree α) (ctx : Ctx α) (fuel : Nat) (y : Nat), t.height < fuel →
      Z m m0 hdr lm rm ctx t → lower_loop T key fuel m t.ptr y = .ok (lbound T key t y) := by
  intro t
  induction t with
  | nil =>
    intro ctx fuel y hf _
    obtain ⟨k, rfl⟩ : ∃ k, fuel = k + 1 := ⟨fuel - 1, by omega⟩
    simp [lower_loop, lbound]
  | node a c l v r ihl ihr =>
    intro ctx fuel y hf h
    obtain ⟨k, rfl⟩ : ∃ k, fuel = k + 1 := ⟨fuel - 1, by omega⟩
    simp only [Tree.height] at hf
    have hl1 : l.height ≤ max l.height r.height := Nat.le_max_left _ _
    have hr1 : r.height ≤ max l.height r.height := Nat.le_max_right _ _
    have a0 := h.rsub.1
    have hl : Z m m0 hdr lm rm (.L a c v r :: ctx) l := Z_up.2 h
    have hr : Z m m0 hdr lm rm (.R a c l v :: ctx) r := Z_up.2 h
    cases hc : T.key_compare (T.KeyOfValue v) key with
    | false =>
      simp [lower_loop, lbound, a0, h.get_key T, hc, h.get_left, ihl _ k a (by omega) hl]
    | true =>
      simp [lower_loop, lbound, a0, h.get_key T, hc, h.get_right, ihr _ k y (by omega) hr]

theorem upper_loop_spec (T : Traits α κ) (key : κ) {m m0 : Mem α} {hdr lm rm : Nat} :
    ∀ (t : Tree α) (ctx : Ctx α) (fuel : Nat) (y : Nat), t.height < fuel →
      Z m m0 hdr lm rm ctx t → upper_loop T key fuel m t.ptr y = .ok (ubound T key t y) := by
  intro t
  induction t with
  | nil =>
    intro ctx fuel y hf _
    obtain ⟨k, rfl⟩ : ∃ k, fuel = k + 1 := ⟨fuel - 1, by omega⟩
    simp [upper_loop, ubound]
  | node a c l v r ihl ihr =>
    intro ctx fuel y hf h
    obtain ⟨k, rfl⟩ : ∃ k, fuel = k + 1 := ⟨fuel - 1, by omega⟩
    simp only [Tree.height] at hf
    have hl1 : l.height ≤ max l.height r.height := Nat.le_max_left _ _
    have hr1 : r.height ≤ max l.height r.height := Nat.le_max_right _ _
    have a0 := h.rsub.1
    have hl : Z m m0 hdr lm rm (.L a c v r :: ctx) l := Z_up.2 h
    have hr : Z m m0 hdr lm rm (.R a c l v :: ctx) r := Z_up.2 h
    cases hc : T.key_compare key (T.KeyOfValue v) with
    | true =>
      simp [upper_loop, ubound, a0, h.get_key T, hc, h.get_left, ihl _ k a (by omega) hl]
    | false =>
      simp [upper_loop, ubound, a0, h.get_key T, hc, h.get_right, ihr _ k y (by omega) hr]

theorem Ordered_node (T : Traits α κ) {a : Nat} {c : Bool} {l r : Tree α} {v : α}
    (h : (Tree.node a c l v r).Ordered T) :
    l.Ordered T ∧ r.Ordered T ∧
      (∀ e ∈ l.nodes, T.key_compare (T.KeyOfValue v) (T.KeyOfValue e.2) = false) ∧
      (∀ e ∈ r.nodes, T.key_compare (T.KeyOfValue e.2) (T.KeyOfValue v) = false) := by
  simp only [Tree.Ordered, Tree.toList_node, List.pairwise_append, List.pairwise_cons,
    List.mem_cons] at h
  refine ⟨h.1, h.2.1.2, ?_, ?_⟩
  · intro e he
    exact h.2.2 e.2 (by simp [Tree.toList]; exact ⟨e.1, he⟩) v (Or.inl rfl)
  · intro e he
    exact h.2.1.1 e.2 (by simp [Tree.toList]; exact ⟨e.1, he⟩)

/-- The `lower_bound` descent finds the first node in order whose key is not
less than `key`. -/
theorem lbound_eq (T : Traits α κ) (hT : StrictWeakOrder T.key_compare) (key : κ) :
    ∀ (t : Tree α) (y : Nat), t.Ordered T →
      lbound T key t y =
        first_addr (fun e => !T.key_compare (T.KeyOfValue e.2) key) t.nodes y := by
  intro t
  induction t with
  | nil => intro y _; rfl
  | node a c l v r ihl ihr =>
    intro y ho
    obtain ⟨ol, or', hl, hr⟩ := Ordered_node T ho
    simp only [lbound, first_addr, Tree.nodes_node, List.find?_append, List.find?_cons]
    cases hc : T.key_compare (T.KeyOfValue v) key with
    | false =>
      simp only [Bool.not_false, if_true]
      rw [ihl a ol, first_addr]
      cases l.nodes.find? (fun e => !T.key_compare (T.KeyOfValue e.2) key) <;> simp
    | true =>
      have hnone : l.nodes.find? (fun e => !T.key_compare (T.KeyOfValue e.2) key) = none := by
        rw [List.find?_eq_none]
        intro e he
        have h1 := hl e he
        cases h2 : T.key_compare (T.KeyOfValue e.2) key with
        | true => simp
        | false => have := hT.neg_trans _ _ _ h1 h2; rw [hc] at this; simp at this
      simp only [Bool.not_true, Bool.false_eq_true, if_false, hnone, Option.none_or]
      rw [ihr y or', first_addr]

/-- The `upper_bound` descent finds the first node in order whose key is
greater than `key`. -/
theorem ubound_eq (T : Traits α κ) (hT : StrictWeakOrder T.key_compare) (key : κ) :
    ∀ (t : Tree α) (y : Nat), t.Ordered T →
      ubound T key t y = first_addr (fun e => T.key_compare key (T.KeyOfValue e.2)) t.nodes y := by
  intro t
  induction t with
  | nil => intro y _; rfl
  | node a c l v r ihl ihr =>
    intro y ho
    obtain ⟨ol, or', hl, hr⟩ := Ordered_node T ho
    simp only [ubound, first_addr, Tree.nodes_node, List.find?_append, List.find?_cons]
    cases hc : T.key_compare key (T.KeyOfValue v) with
    | true =>
      simp only [if_true]
      rw [ihl a ol, first_addr]
      cases l.nodes.find? (fun e => T.key_compare key (T.KeyOfValue e.2)) <;> simp
    | false =>
      have hnone : l.nodes.find? (fun e => T.key_compare key (T.KeyOfValue e.2)) = none := by
        rw [List.find?_eq_none]
        intro e he
        have h1 := hl e he
        have := hT.neg_trans _ _ _ hc h1
        simp [this]
      simp only [Bool.false_eq_true, if_false, hnone, Option.none_or]
      rw [ihr y or', first_addr]

theorem lower_bound_spec (T : Traits α κ) (hT : StrictWeakOrder T.key_compare) {s : rb_tree α}
    {t : Tree α} (hwf : WF s t) (ho : t.Ordered T) (key : κ) (fuel : Nat) (hf : t.size < fuel) :
    s.lower_bound T fuel key =
      .ok (first_addr (fun e => !T.key_compare (T.KeyOfValue e.2) key) t.nodes s.header) := by
  have hh := t.height_le_size
  simp [rb_tree.lower_bound, hwf.root_ptr, lower_loop_spec T key t [] fuel s.header (by omega) hwf.z,
    lbound_eq T hT key t s.header ho]

theorem upper_bound_spec (T : Traits α κ) (hT : StrictWeakOrder T.key_compare) {s : rb_tree α}
    {t : Tree α} (hwf : WF s t) (ho : t.Ordered T) (key : κ) (fuel : Nat) (hf : t.size < fuel) :
    s.upper_bound T fuel key =
      .ok (first_addr (fun e => T.key_compare key (T.KeyOfValue e.2)) t.nodes s.header) := by
  have hh := t.height_le_size
  simp [rb_tree.upper_bound, hwf.root_ptr, upper_loop_spec T key t [] fuel s.header (by omega) hwf.z,
    ubound_eq T hT key t s.header ho]

/-- In an ordered list, the first element not less than `key` decides the first
element equivalent to `key`. -/
theorem find_equiv_list (T : Traits α κ) (hT : StrictWeakOrder T.key_compare) (key : κ) :
    ∀ (L : List (Nat × α)),
      L.Pairwise (fun a b => T.key_compare (T.KeyOfValue b.2) (T.KeyOfValue a.2) = false) →
      L.find? (equivb T key) =
        (match L.find? (fun e => !T.key_compare (T.KeyOfValue e.2) key) with
          | none => none
          | some e => if T.key_compare key (T.KeyOfValue e.2) then none else some e) := by
  intro L
  induction L with
  | nil => intro _; rfl
  | cons e L ih =>
    intro hp
    rw [List.pairwise_cons] at hp
    simp only [List.find?_cons, equivb]
    cases h1 : T.key_compare (T.KeyOfValue e.2) key with
    | true =>
      simp only [Bool.not_true, Bool.false_and]
      have := ih hp.2
      simp only [equivb] at this
      exact this
    | false =>
      simp only [Bool.not_false, Bool.true_and]
      cases h2 : T.key_compare key (T.KeyOfValue e.2) with
      | false => simp
      | true =>
        simp only [Bool.not_true, if_true]
        rw [List.find?_eq_none]
        intro x hx
        have h3 := hp.1 x hx
        have h4 : T.key_compare key (T.KeyOfValue x.2) = true := by
          cases h5 : T.key_compare key (T.KeyOfValue x.2) with
          | true => rfl
          | false => have := hT.neg_trans _ _ _ h5 h3; rw [h2] at this; simp at this
        simp [equivb, h4]

theorem Ordered_nodes (T : Traits α κ) {t : Tree α} (ho : t.Ordered T) :
    t.nodes.Pairwise (fun a b => T.key_compare (T.KeyOfValue b.2) (T.KeyOfValue a.2) = false) := by
  simp only [Tree.Ordered, Tree.toList, List.pairwise_map] at ho
  exact ho

theorem find_spec (T : Traits α κ) (hT : StrictWeakOrder T.key_compare) {s : rb_tree α}
    {t : Tree α} (hwf : WF s t) (ho : t.Ordered T) (key : κ) (fuel : Nat) (hf : t.size < fuel) :
    s.find T fuel key = .ok (first_addr (equivb T key) t.nodes s.header) := by
  have hh := t.height_le_size
  have hl := lower_loop_spec T key t [] fuel s.header (by omega) hwf.z
  rw [lbound_eq T hT key t s.header ho] at hl
  have he := find_equiv_list T hT key t.nodes (Ordered_nodes T ho)
  simp only [rb_tree.find, hwf.root_ptr, ok_bind, hl, rb_tree.end_, first_addr, he]
  cases hfd : t.nodes.find? (fun e => !T.key_compare (T.KeyOfValue e.2) key) with
  | none => simp
  | some e =>
    have hmem := List.mem_of_find?_eq_some hfd
    have hne : e.1 ≠ s.header := by
      intro e'
      apply hwf.z.hdr_not_mem.2.1
      rw [← e']
      simp only [Tree.addrs, List.mem_map]
      exact ⟨e, hmem, rfl⟩
    have hv := Rep_get_value hwf.z.rsub (a := e.1) (v := e.2) hmem
    simp only [Option.map_some', Option.getD_some, hne, if_false, get_key, hv, ok_bind]
    cases T.key_compare key (T.KeyOfValue e.2) <;> simp

end zfind

/-! ## Helpers for the end-to-end statements -/

section zhelpers
variable {α κ : Type}

theorem natT_swo : StrictWeakOrder natT.key_compare := by
  refine ⟨?_, ?_, ?_⟩
  · intro a; simp [natT]
  · intro a b c h1 h2; simp [natT] at *; omega
  · intro a b c h1 h2; simp [natT] at *; omega

theorem WF_init (m : Mem α) (h : Nat) (h0 : h ≠ 0) : WF (rb_tree_init m h) .nil := by
  refine ⟨⟨h0, by simp, ?_, trivial, fun _ _ _ => rfl⟩, rfl⟩
  simp [RepCtx, rb_tree_init, Tree.first, Tree.last]

theorem RB_nil (T : Traits α κ) : (Tree.nil : Tree α).RB T :=
  ⟨by simp [Tree.Ordered], rfl, trivial, trivial⟩

theorem three_WF : WF three_tree three_abs := by
  refine ⟨⟨by decide, by decide, ?_, ⟨by decide, by decide, ⟨by decide, by decide, trivial, trivial⟩,
    ⟨by decide, by decide, trivial, trivial⟩⟩, fun _ _ _ => rfl⟩, rfl⟩
  simp only [RepCtx]
  decide

theorem three_RB : three_abs.RB natT := by
  refine ⟨?_, rfl, ?_, ?_⟩
  · simp [Tree.Ordered, three_abs, natT]
  · simp [three_abs]
  · simp [three_abs]

theorem three_strict : three_abs.StrictOrdered natT := by
  simp [Tree.StrictOrdered, three_abs, natT]

/-- The two outcomes of `first_addr`: the default when nothing satisfies `p`,
else the address of the first element that does. -/
theorem first_addr_cases (p : Nat × α → Bool) (L : List (Nat × α)) (d : Nat) :
    (first_addr p L d = d ∧ ∀ e ∈ L, p e = false) ∨
      (∃ pre w post, L = pre ++ (first_addr p L d, w) :: post ∧
        p (first_addr p L d, w) = true ∧ ∀ e ∈ pre, p e = false) := by
  cases h : L.find? p with
  | none =>
    left
    refine ⟨by simp [first_addr, h], ?_⟩
    intro e he
    have := List.find?_eq_none.1 h e he
    simpa using this
  | some b =>
    right
    obtain ⟨hb, as, bs, e1, e2⟩ := List.find?_eq_some.1 h
    have hfa : first_addr p L d = b.1 := by simp [first_addr, h]
    rw [hfa]
    refine ⟨as, b.2, bs, e1, hb, ?_⟩
    intro e he
    simpa using e2 e he

theorem WF.not_header {s : rb_tree α} {t : Tree α} (h : WF s t) {a : Nat} {w : α}
    (hm : (a, w) ∈ t.nodes) : a ≠ s.header := by
  intro e
  apply h.z.hdr_not_mem.2.1
  rw [← e]
  simp only [Tree.addrs, List.mem_map]
  exact ⟨(a, w), hm, rfl⟩

theorem WF.root_color {s : rb_tree α} {t : Tree α} (h : WF s t) (hb : t.RootBlack) :
    s.root_color = .ok rb_tree_black := by
  cases t with
  | nil => simp [rb_tree.root_color, h.root_ptr]
  | node a c l v r =>
    have h0 : a ≠ 0 := h.z.rsub.1
    have hc : c = rb_tree_black := by
      simp only [Tree.RootBlack, Tree.isRed] at hb
      cases c <;> simp_all
    simp [rb_tree.root_color, h.root_ptr, h0, h.z.get_color, hc]

theorem StrictOrdered.ordered (T : Traits α κ) (hT : StrictWeakOrder T.key_compare) {t : Tree α}
    (h : t.StrictOrdered T) : t.Ordered T := by
  simp only [Tree.StrictOrdered, Tree.Ordered] at *
  exact h.imp (fun hab => hT.asymm hab)

theorem equivb_iff (T : Traits α κ) (key : κ) (e : Nat × α) :
    equivb T key e = true ↔ equiv T.key_compare (T.KeyOfValue e.2) key := by
  simp [equivb, equiv]

/-- A stored element equivalent to `key` makes `find` return an element, the
first equivalent one. -/
theorem find_hit (T : Traits α κ) (hT : StrictWeakOrder T.key_compare) {s : rb_tree α}
    {t : Tree α} (hwf : WF s t) (ho : t.Ordered T) (key : κ) (fuel : Nat) (hf : t.size < fuel)
    (hex : ∃ e ∈ t.toList, equiv T.key_compare (T.KeyOfValue e) key) :
    ∃ it w, s.find T fuel key = .ok it ∧ it ≠ s.end_ ∧ get_value s.mem it = .ok w ∧
      equiv T.key_compare (T.KeyOfValue w) key := by
  rw [find_spec T hT hwf ho key fuel hf]
  rcases first_addr_cases (equivb T key) t.nodes s.header with ⟨_, h2⟩ | ⟨pre, w, post, e1, e2, _⟩
  · exfalso
    obtain ⟨e, he, hq⟩ := hex
    simp only [Tree.toList, List.mem_map] at he
    obtain ⟨x, hx, rfl⟩ := he
    have := h2 x hx
    rw [(equivb_iff T key x).2 hq] at this
    simp at this
  · have hm : (first_addr (equivb T key) t.nodes s.header, w) ∈ t.nodes := by
      generalize first_addr (equivb T key) t.nodes s.header = a at e1 ⊢
      rw [e1]; simp
    exact ⟨_, w, rfl, hwf.not_header hm, Rep_get_value hwf.z.rsub hm, (equivb_iff T key _).1 e2⟩

end zhelpers

/-! ## Sequences of `insert_unique` -/

section zseq
variable {α κ : Type}

theorem toList_ins_tree (T : Traits α κ) (v : α) (p : Nat) (junk : Bool) (t : Tree α) :
    ∃ l1 l2, t.toList = l1 ++ l2 ∧ (ins_tree T v p junk t).toList = l1 ++ v :: l2 :=
  ⟨(ctxBefore (ins_path T v t)).map Prod.snd, (ctxAfter (ins_path T v t)).map Prod.snd,
    by simp [Tree.toList, nodes_ins_path T v t], by simp [Tree.toList, nodes_ins_tree]⟩

theorem size_ins_tree (T : Traits α κ) (v : α) (p : Nat) (junk : Bool) (t : Tree α) :
    (ins_tree T v p junk t).size = t.size + 1 := by
  rw [← Tree.length_nodes, ← Tree.length_nodes, nodes_ins_tree, nodes_ins_path T v t]
  simp only [List.length_append, List.length_cons]
  omega

theorem mem_ins_tree (T : Traits α κ) (v : α) (p : Nat) (junk : Bool) (t : Tree α) (w : α) :
    w ∈ (ins_tree T v p junk t).toList ↔ w = v ∨ w ∈ t.toList := by
  obtain ⟨l1, l2, e1, e2⟩ := toList_ins_tree T v p junk t
  rw [e1, e2]
  simp only [List.mem_append, List.mem_cons]
  tauto

/-- Inserting a key that passes the duplicate test keeps the in-order keys
strictly increasing. -/
theorem strict_ins_tree (T : Traits α κ) (hT : StrictWeakOrder T.key_compare) (v : α) (p : Nat)
    (junk : Bool) (t : Tree α) (hs : t.StrictOrdered T)
    (hok : pred_ok T (T.KeyOfValue v) (ctxBefore (ins_path T v t)) = true) :
    (ins_tree T v p junk t).StrictOrdered T := by
  have ho := StrictOrdered.ordered T hT hs
  obtain ⟨hb, ha⟩ := ins_path_sides T hT v t ho
  have hne := (pred_ok_iff T hT v t ho).1 hok
  have hs' := hs
  simp only [Tree.StrictOrdered, Tree.toList, nodes_ins_path T v t, List.map_append,
    List.pairwise_append, List.mem_map] at hs'
  simp only [Tree.StrictOrdered, Tree.toList, nodes_ins_tree, List.map_append, List.map_cons,
    List.pairwise_append, List.pairwise_cons, List.mem_map, List.mem_cons]
  refine ⟨hs'.1, ⟨?_, hs'.2.1⟩, ?_⟩
  · rintro a ⟨e, he, rfl⟩
    exact ha e he
  · rintro a ⟨e, he, rfl⟩ b hb'
    rcases hb' with hbv | hb'
    · rw [hbv]
      have hmem : e.2 ∈ t.toList := by
        simp only [Tree.toList, nodes_ins_path T v t, List.map_append, List.mem_append,
          List.mem_map]
        exact Or.inl ⟨e, he, rfl⟩
      have h1 := hne e.2 hmem
      have h2 := hb e he
      cases h3 : T.key_compare (T.KeyOfValue e.2) (T.KeyOfValue v) with
      | true => rfl
      | false => exact absurd ⟨h3, h2⟩ h1
    · exact hs'.2.2 _ ⟨e, he, rfl⟩ b hb'

/-- Running `insert_unique` over a list of values with fresh, distinct node
addresses: every call returns, and the final tree is a red-black tree with
strictly increasing keys holding the old elements and, up to equivalence, the
new ones. -/
theorem insert_unique_all_spec (T : Traits α κ) (hT : StrictWeakOrder T.key_compare)
    (fuel : Nat) :
    ∀ (ops : List (α × Nat × Bool)) (s : rb_tree α) (t : Tree α), WF s t → t.RB T →
      t.StrictOrdered T → (ops.map (fun x => x.2.1)).Nodup →
      (∀ x ∈ ops, x.2.1 ≠ 0 ∧ s.mem x.2.1 = none) → t.size + ops.length < fuel →
      t.size + ops.length ≤ T.max_size →
      ∃ s' t', insert_unique_all T fuel ops s = .ok s' ∧ WF s' t' ∧ t'.RB T ∧
        t'.StrictOrdered T ∧ s'.header = s.header ∧ t'.size ≤ t.size + ops.length ∧
        (∀ w ∈ t'.toList, w ∈ t.toList ∨ ∃ x ∈ ops, w = x.1) ∧
        (∀ w ∈ t.toList, w ∈ t'.toList) ∧
        (∀ x ∈ ops, ∃ w ∈ t'.toList,
          equiv T.key_compare (T.KeyOfValue w) (T.KeyOfValue x.1)) := by
  intro ops
  induction ops with
  | nil =>
    intro s t hwf hrb hs _ _ _ _
    exact ⟨s, t, rfl, hwf, hrb, hs, rfl, by simp, fun w hw => Or.inl hw, fun w hw => hw,
      by simp⟩
  | cons x rest ih =>
    intro s t hwf hrb hs hnd hfr hf hc
    obtain ⟨v, p, junk⟩ := x
    simp only [List.map_cons, List.nodup_cons, List.mem_map, not_exists, not_and] at hnd
    simp only [List.length_cons] at hf hc
    have hl : ((v, p, junk) :: rest).length = rest.length + 1 := rfl
    obtain ⟨hp0, hfresh⟩ := hfr (v, p, junk) (List.mem_cons_self _ _)
    have hcnt : s.node_count < T.max_size := by rw [hwf.count]; omega
    have ho := StrictOrdered.ordered T hT hs
    cases hok : pred_ok T (T.KeyOfValue v) (ctxBefore (ins_path T v t)) with
    | true =>
      obtain ⟨s1, e1, _, w1, w2, w3⟩ := insert_unique_spec_new T hwf hrb.root_black v p junk hp0
        hfresh fuel (by omega) hcnt hok
      have hfr1 : ∀ y ∈ rest, y.2.1 ≠ 0 ∧ s1.mem y.2.1 = none := by
        intro y hy
        obtain ⟨hy0, hyf⟩ := hfr y (List.mem_cons_of_mem _ hy)
        refine ⟨hy0, ?_⟩
        rw [w3 _ (fun e => hwf.hdr_live (e ▸ hyf)) (fun e => hnd.1 y hy e)
          (fun hm => Rep_live hwf.z.rsub _ hm hyf)]
        exact hyf
      have hsz := size_ins_tree T v p junk t
      obtain ⟨s', t', r1, r2, r3, r4, r5, r6, r7, r8, r9⟩ := ih s1 (ins_tree T v p junk t) w1
        (rb_ins_tree T hT v p junk t hrb) (strict_ins_tree T hT v p junk t hs hok) hnd.2 hfr1
        (by omega) (by omega)
      refine ⟨s', t', ?_, r2, r3, r4, by rw [r5, w2], by omega, ?_, ?_, ?_⟩
      · simp only [insert_unique_all, e1, ok_bind]
        exact r1
      · intro w hw
        rcases r7 w hw with h | ⟨y, hy, rfl⟩
        · rcases (mem_ins_tree T v p junk t w).1 h with rfl | h
          · exact Or.inr ⟨_, List.mem_cons_self _ _, rfl⟩
          · exact Or.inl h
        · exact Or.inr ⟨y, List.mem_cons_of_mem _ hy, rfl⟩
      · intro w hw
        exact r8 w ((mem_ins_tree T v p junk t w).2 (Or.inr hw))
      · intro y hy
        rcases List.mem_cons.1 hy with rfl | hy
        · exact ⟨v, r8 v ((mem_ins_tree T v p junk t v).2 (Or.inl rfl)),
            hT.irrefl _, hT.irrefl _⟩
        · exact r9 y hy
    | false =>
      have e1 := (insert_unique_spec_dup T hwf hrb.root_black v p junk hp0 hfresh fuel (by omega)
        hcnt hok).1
      have hfr1 : ∀ y ∈ rest, y.2.1 ≠ 0 ∧ s.mem y.2.1 = none :=
        fun y hy => hfr y (List.mem_cons_of_mem _ hy)
      obtain ⟨s', t', r1, r2, r3, r4, r5, r6, r7, r8, r9⟩ := ih s t hwf hrb hs hnd.2 hfr1
        (by omega) (by omega)
      have hex : ∃ e ∈ t.toList, equiv T.key_compare (T.KeyOfValue e) (T.KeyOfValue v) := by
        by_contra hcon
        have := (pred_ok_iff T hT v t ho).2 (fun e he hq => hcon ⟨e, he, hq⟩)
        rw [hok] at this
        simp at this
      refine ⟨s', t', ?_, r2, r3, r4, r5, by omega, ?_, r8, ?_⟩
      · simp only [insert_unique_all, e1, ok_bind]
        exact r1
      · intro w hw
        rcases r7 w hw with h | ⟨y, hy, rfl⟩
        · exact Or.inl h
        · exact Or.inr ⟨y, List.mem_cons_of_mem _ hy, rfl⟩
      · intro y hy
        rcases List.mem_cons.1 hy with rfl | hy
        · obtain ⟨e, he, hq⟩ := hex
          exact ⟨e, r8 e he, hq⟩
        · exact r9 y hy

end zseq

/-! ## Height of a red-black tree -/

section zheight
variable {α κ : Type}

/-- A balanced tree without red-red pairs is at most twice as high as its black
height, plus one when its root is red. -/
theorem Tree.height_le_bh (t : Tree α) (h1 : t.NoRedRed) (h2 : t.Balanced) :
    t.height ≤ 2 * t.bh + (if t.isRed then 1 else 0) := by
  induction t with
  | nil => simp [Tree.height]
  | node a c l v r ihl ihr =>
    rw [Tree.NoRedRed_node] at h1
    rw [Tree.Balanced_node] at h2
    have il := ihl h1.2.1 h2.2.1
    have ir := ihr h1.2.2 h2.2.2
    have hb := h2.1
    simp only [Tree.height, Tree.bh_node, Tree.isRed_node]
    cases c with
    | true =>
      simp only [if_true, beq_iff_eq, Bool.true_eq_false, if_false]
      have hl : l.height ≤ 2 * l.bh + 1 := by split at il <;> omega
      have hr : r.height ≤ 2 * r.bh + 1 := by split at ir <;> omega
      have := Nat.max_le.2 ⟨hl, (by omega : r.height ≤ 2 * l.bh + 1)⟩
      omega
    | false =>
      obtain ⟨rl, rr⟩ := h1.1 rfl
      simp only [rl, rr, Bool.false_eq_true, if_false, Nat.add_zero] at il ir
      simp only [Bool.false_eq_true, if_false, beq_self_eq_true, if_true, Nat.add_zero]
      have := Nat.max_le.2 ⟨il, (by omega : r.height ≤ 2 * l.bh)⟩
      omega

/-- A balanced tree of black height `b` has at least `2 ^ b - 1` nodes. -/
theorem Tree.pow_bh_le_size (t : Tree α) (h2 : t.Balanced) : 2 ^ t.bh ≤ t.size + 1 := by
  induction t with
  | nil => simp [Tree.bh, Tree.size]
  | node a c l v r ihl ihr =>
    rw [Tree.Balanced_node] at h2
    have il := ihl h2.2.1
    have ir := ihr h2.2.2
    rw [← h2.1] at ir
    simp only [Tree.bh_node, Tree.size_node]
    cases c with
    | true =>
      simp only [if_true, Nat.pow_succ]
      omega
    | false =>
      simp only [Bool.false_eq_true, if_false, Nat.add_zero]
      omega

/-- Height bound of a red-black tree with a black root. -/
theorem Tree.RB.height_bound (T : Traits α κ) {t : Tree α} (h : t.RB T) :
    2 ^ ((t.height + 1) / 2) ≤ t.size + 1 := by
  have h1 := t.height_le_bh h.no_red_red h.balanced
  have h2 := t.pow_bh_le_size h.balanced
  have hb : t.isRed = false := h.root_black
  simp only [hb, Bool.false_eq_true, if_false, Nat.add_zero] at h1
  have h3 : (t.height + 1) / 2 ≤ t.bh := by omega
  exact Nat.le_trans (Nat.pow_le_pow_right (by decide) h3) h2

/-- The heap walk `node_height` computes the height of the represented tree. -/
theorem node_height_spec {m : Mem α} :
    ∀ (t : Tree α) (par fuel : Nat), Rep m par t → t.height < fuel →
      node_height fuel m t.ptr = .ok t.height := by
  intro t
  induction t with
  | nil =>
    intro par fuel _ hf
    obtain ⟨k, rfl⟩ : ∃ k, fuel = k + 1 := ⟨fuel - 1, by omega⟩
    simp [node_height, Tree.height]
  | node a c l v r ihl ihr =>
    intro par fuel hr hf
    obtain ⟨k, rfl⟩ : ∃ k, fuel = k + 1 := ⟨fuel - 1, by omega⟩
    obtain ⟨h0, hm, hl, hrr⟩ := hr
    simp only [Tree.height] at hf
    have e1 := Nat.le_max_left l.height r.height
    have e2 := Nat.le_max_right l.height r.height
    have hrd := rd_ok h0 hm
    simp only [node_height, Tree.ptr_node, h0, if_false, get_left_ok hrd, get_right_ok hrd,
      ok_bind, ihl a k hl (by omega), ihr a k hrr (by omega), Tree.height]
    rfl

theorem WF.height_eq {s : rb_tree α} {t : Tree α} (h : WF s t) (fuel : Nat)
    (hf : t.height < fuel) : s.height fuel = .ok t.height := by
  simp only [rb_tree.height, h.root_ptr, ok_bind]
  exact node_height_spec t _ fuel h.z.rsub hf

end zheight

/-! ## Teardown: `erase_since` and `clear` -/

section zclear
variable {α κ : Type}

/-- Effect of `erase_since` on a represented subtree: every node of it is
destroyed and nothing else changes. -/
theorem erase_since_spec :
    ∀ (t : Tree α) (m : Mem α) (par fuel : Nat), Rep m par t → t.addrs.Nodup →
      t.height < fuel →
      ∃ m', erase_since fuel m t.ptr = .ok m' ∧ (∀ a ∈ t.addrs, m' a = none) ∧
        ∀ a, a ∉ t.addrs → m' a = m a := by
  intro t
  induction t with
  | nil =>
    intro m par fuel _ _ hf
    obtain ⟨k, rfl⟩ : ∃ k, fuel = k + 1 := ⟨fuel - 1, by omega⟩
    exact ⟨m, by simp [erase_since], by simp, fun _ _ => rfl⟩
  | node x c l v r ihl ihr =>
    intro m par fuel hr hnd hf
    obtain ⟨k, rfl⟩ : ∃ k, fuel = k + 1 := ⟨fuel - 1, by omega⟩
    obtain ⟨h0, hm, hl, hrr⟩ := hr
    simp only [Tree.height] at hf
    have e1 := Nat.le_max_left l.height r.height
    have e2 := Nat.le_max_right l.height r.height
    simp only [Tree.addrs_node, List.nodup_append, List.nodup_cons] at hnd
    obtain ⟨ndl, ⟨xr, ndr⟩, hdis⟩ := hnd
    have xl : x ∉ l.addrs := fun h => hdis h (List.mem_cons_self _ _)
    have hlr : ∀ a ∈ l.addrs, a ∉ r.addrs :=
      fun a ha har => hdis ha (List.mem_cons_of_mem _ har)
    obtain ⟨m1, s1, f1, k1⟩ := ihr m x k hrr ndr (by omega)
    have hm1 : m1 x = some (rb_tree_node.mk c par l.ptr r.ptr (some v)) := by
      rw [k1 x xr]; exact hm
    have hrd1 := rd_ok h0 hm1
    have hl2 : Rep (free m1 x) x l := by
      refine Rep_congr ?_ hl
      intro a ha
      rw [free_ne _ (fun e => xl (by rw [← e]; exact ha)), k1 a (hlr a ha)]
    obtain ⟨m3, s3, f3, k3⟩ := ihl (free m1 x) x k hl2 ndl (by omega)
    refine ⟨m3, ?_, ?_, ?_⟩
    · simp only [erase_since, Tree.ptr_node, h0, if_false, get_right_ok (rd_ok h0 hm), ok_bind,
        s1, get_left_ok hrd1, destroy_node, hrd1, s3]
    · intro a ha
      simp only [Tree.addrs_node, List.mem_append, List.mem_cons] at ha
      by_cases hal : a ∈ l.addrs
      · exact f3 a hal
      · rw [k3 a hal]
        rcases ha with ha | rfl | ha
        · exact absurd ha hal
        · simp
        · rw [free_ne _ (fun e => xr (by rw [← e]; exact ha))]
          exact f1 a ha
    · intro a ha
      simp only [Tree.addrs_node, List.mem_append, List.mem_cons, not_or] at ha
      rw [k3 a ha.1, free_ne _ ha.2.1, k1 a ha.2.2]

/-- Effect of `clear()`: it returns, every node is destroyed, the header is
reset, and what is left is the well-formed empty tree. -/
theorem clear_spec {s : rb_tree α} {t : Tree α} (hwf : WF s t) (fuel : Nat)
    (hf : t.height < fuel) :
    ∃ s', s.clear fuel = .ok s' ∧ WF s' .nil ∧ s'.header = s.header ∧
      (∀ a ∈ t.addrs, s'.mem a = none) ∧
      ∀ a, a ≠ s.header → a ∉ t.addrs → s'.mem a = s.mem a := by
  have z := hwf.z
  by_cases hc : s.node_count > 0
  · have hnd := List.Nodup.of_cons z.nodup
    simp only [plug_nil] at hnd
    obtain ⟨m1, s1, f1, k1⟩ := erase_since_spec t s.mem s.header fuel z.rsub hnd hf
    have hh := z.header
    simp only [plug_nil] at hh
    have hnm := z.hdr_not_mem.2.1
    have h1 := (k1 _ hnm).trans hh
    have r1 := rd_ok z.hdr_ne h1
    obtain ⟨m2, e2⟩ : ∃ m2, m2 = upd m1 s.header
      (rb_tree_node.mk rb_tree_red t.ptr s.header (t.last s.header) none) := ⟨_, rfl⟩
    have s2 : set_left m1 s.header s.header = .ok m2 := by rw [set_left_ok r1, e2]
    have r2 : rd m2 s.header =
        .ok (rb_tree_node.mk rb_tree_red t.ptr s.header (t.last s.header) none) := by
      rw [e2]; exact rd_upd_same _ _ z.hdr_ne
    obtain ⟨m3, e3⟩ : ∃ m3, m3 = upd m2 s.header
      (rb_tree_node.mk rb_tree_red 0 s.header (t.last s.header) none) := ⟨_, rfl⟩
    have s3 : set_parent m2 s.header 0 = .ok m3 := by rw [set_parent_ok r2, e3]
    have r3 : rd m3 s.header =
        .ok (rb_tree_node.mk rb_tree_red 0 s.header (t.last s.header) none) := by
      rw [e3]; exact rd_upd_same _ _ z.hdr_ne
    obtain ⟨m4, e4⟩ : ∃ m4, m4 = upd m3 s.header
      (rb_tree_node.mk rb_tree_red 0 s.header s.header none) := ⟨_, rfl⟩
    have s4 : set_right m3 s.header s.header = .ok m4 := by rw [set_right_ok r3, e4]
    have hne : ∀ a, a ≠ s.header → m4 a = m1 a := by
      intro a ha
      rw [e4, upd_ne _ _ ha, e3, upd_ne _ _ ha, e2, upd_ne _ _ ha]
    refine ⟨{ s with mem := m4, node_count := 0 }, ?_, ?_, rfl, ?_, ?_⟩
    · simp only [rb_tree.clear, hc, if_true, hwf.root_ptr, ok_bind, s1, s2, s3, s4]
      rfl
    · refine ⟨⟨z.hdr_ne, by simp, ?_, trivial, fun _ _ _ => rfl⟩, rfl⟩
      simp only [RepCtx, Tree.first, Tree.last, Tree.addrs_nil, List.head?_nil,
        List.getLast?_nil, Option.getD_none, Tree.ptr_nil, e4, upd_same]
    · intro a ha
      have hah : a ≠ s.header := fun e => hnm (by rw [← e]; exact ha)
      show m4 a = none
      rw [hne a hah]
      exact f1 a ha
    · intro a hah ha
      show m4 a = s.mem a
      rw [hne a hah]
      exact k1 a ha
  · have hs : t.size = 0 := by rw [← hwf.count]; omega
    have ht : t = .nil := by
      cases t with
      | nil => rfl
      | node a c l v r => simp only [Tree.size_node] at hs; omega
    subst ht
    exact ⟨s, by simp [rb_tree.clear, hc], hwf, rfl, by simp, fun _ _ _ => rfl⟩

end zclear

/-! ## No statement after the length check raises an exception -/

section znothrow
variable {α κ X Y : Type}

@[simp] theorem not_throws_ok (a : X) : ¬ throws (Except.ok a : Except Fault X) := by
  simp [throws]

@[simp] theorem not_throws_pure (a : X) : ¬ throws (pure a : Except Fault X) := by
  simp [throws, pure, Except.pure]

theorem not_throws_bind {x : Except Fault X} {f : X → Except Fault Y} (hx : ¬ throws x)
    (hf : ∀ a, ¬ throws (f a)) : ¬ throws (x >>= f) := by
  cases x with
  | ok a => exact hf a
  | error e =>
    intro h
    apply hx
    simpa [throws, bind, Except.bind] using h

@[simp] theorem not_throws_rd (m : Mem α) (p : Nat) : ¬ throws (rd m p) := by
  unfold rd
  split
  · simp [throws]
  · split <;> simp [throws]

@[simp] theorem not_throws_get_parent (m : Mem α) (p : Nat) : ¬ throws (get_parent m p) := by
  have h := not_throws_rd m p
  unfold get_parent
  cases hr : rd m p <;> simp_all [throws]

@[simp] theorem not_throws_get_left (m : Mem α) (p : Nat) : ¬ throws (get_left m p) := by
  have h := not_throws_rd m p
  unfold get_left
  cases hr : rd m p <;> simp_all [throws]

@[simp] theorem not_throws_get_right (m : Mem α) (p : Nat) : ¬ throws (get_right m p) := by
  have h := not_throws_rd m p
  unfold get_right
  cases hr : rd m p <;> simp_all [throws]

@[simp] theorem not_throws_get_color (m : Mem α) (p : Nat) : ¬ throws (get_color m p) := by
  have h := not_throws_rd m p
  unfold get_color
  cases hr : rd m p <;> simp_all [throws]

@[simp] theorem not_throws_get_value (m : Mem α) (p : Nat) : ¬ throws (get_value m p) := by
  have h := not_throws_rd m p
  unfold get_value
  cases hr : rd m p with
  | error e => simp_all [throws]
  | ok n => cases hv : n.value_field <;> simp [throws, hv]

@[simp] theorem not_throws_set_parent (m : Mem α) (p v : Nat) : ¬ throws (set_parent m p v) := by
  have h := not_throws_rd m p
  unfold set_parent
  cases hr : rd m p <;> simp_all [throws]

@[simp] theorem not_throws_set_left (m : Mem α) (p v : Nat) : ¬ throws (set_left m p v) := by
  have h := not_throws_rd m p
  unfold set_left
  cases hr : rd m p <;> simp_all [throws]

@[simp] theorem not_throws_set_right (m : Mem α) (p v : Nat) : ¬ throws (set_right m p v) := by
  have h := not_throws_rd m p
  unfold set_right
  cases hr : rd m p <;> simp_all [throws]

@[simp] theorem not_throws_set_color (m : Mem α) (p : Nat) (c : Bool) :
    ¬ throws (set_color m p c) := by
  have h := not_throws_rd m p
  unfold set_color
  cases hr : rd m p <;> simp_all [throws]

@[simp] theorem not_throws_destroy_node (m : Mem α) (p : Nat) : ¬ throws (destroy_node m p) := by
  have h := not_throws_rd m p
  unfold destroy_node
  cases hr : rd m p <;> simp_all [throws]

@[simp] theorem not_throws_get_key (T : Traits α κ) (m : Mem α) (p : Nat) :
    ¬ throws (get_key T m p) := by
  have h := not_throws_get_value m p
  unfold get_key
  cases hr : get_value m p <;> simp_all [throws]

@[simp] theorem not_throws_fuel : ¬ throws (Except.error Fault.out_of_fuel : Except Fault X) := by
  simp [throws]

@[simp] theorem not_throws_minimum (fuel : Nat) (m : Mem α) (x : Nat) :
    ¬ throws (minimum fuel m x) := by
  induction fuel generalizing x with
  | zero => simp [minimum]
  | succ k ih =>
    unfold minimum
    repeat' first | with_reducible refine not_throws_bind ?_ (fun _ => ?_) | split | exact ih _ | simp

@[simp] theorem not_throws_maximum (fuel : Nat) (m : Mem α) (x : Nat) :
    ¬ throws (maximum fuel m x) := by
  induction fuel generalizing x with
  | zero => simp [maximum]
  | succ k ih =>
    unfold maximum
    repeat' first | with_reducible refine not_throws_bind ?_ (fun _ => ?_) | split | exact ih _ | simp

@[simp] theorem not_throws_decrement_up (fuel : Nat) (m : Mem α) (x y : Nat) :
    ¬ throws (decrement_up fuel m x y) := by
  induction fuel generalizing x y with
  | zero => simp [decrement_up]
  | succ k ih =>
    unfold decrement_up
    repeat' first | with_reducible refine not_throws_bind ?_ (fun _ => ?_) | split | exact ih _ _ | simp

@[simp] theorem not_throws_is_header (m : Mem α) (x : Nat) : ¬ throws (is_header m x) := by
  unfold is_header
  repeat' first | with_reducible refine not_throws_bind ?_ (fun _ => ?_) | split | simp

@[simp] theorem not_throws_decrement (fuel : Nat) (m : Mem α) (x : Nat) :
    ¬ throws (decrement fuel m x) := by
  unfold decrement
  repeat' first | with_reducible refine not_throws_bind ?_ (fun _ => ?_) | split | simp

@[simp] theorem not_throws_set_parent_opt (m : Mem α) (p v : Nat) :
    ¬ throws (set_parent_opt m p v) := by
  unfold set_parent_opt
  split <;> simp

@[simp] theorem not_throws_replace_child_l (m : Mem α) (x y hdr : Nat) :
    ¬ throws (replace_child_l m x y hdr) := by
  unfold replace_child_l
  repeat' first | with_reducible refine not_throws_bind ?_ (fun _ => ?_) | split | simp

@[simp] theorem not_throws_replace_child_r (m : Mem α) (x y hdr : Nat) :
    ¬ throws (replace_child_r m x y hdr) := by
  unfold replace_child_r
  repeat' first | with_reducible refine not_throws_bind ?_ (fun _ => ?_) | split | simp

@[simp] theorem not_throws_rotate_left (m : Mem α) (x hdr : Nat) :
    ¬ throws (rb_tree_rotate_left m x hdr) := by
  unfold rb_tree_rotate_left
  repeat' first | with_reducible refine not_throws_bind ?_ (fun _ => ?_) | split | simp

@[simp] theorem not_throws_rotate_right (m : Mem α) (x hdr : Nat) :
    ¬ throws (rb_tree_rotate_right m x hdr) := by
  unfold rb_tree_rotate_right
  repeat' first | with_reducible refine not_throws_bind ?_ (fun _ => ?_) | split | simp

@[simp] theorem not_throws_reblance_cond (m : Mem α) (x hdr : Nat) :
    ¬ throws (reblance_cond m x hdr) := by
  unfold reblance_cond
  repeat' first | with_reducible refine not_throws_bind ?_ (fun _ => ?_) | split | simp

@[simp] theorem not_throws_is_red_ptr (m : Mem α) (y : Nat) : ¬ throws (is_red_ptr m y) := by
  unfold is_red_ptr
  repeat' first | with_reducible refine not_throws_bind ?_ (fun _ => ?_) | split | simp

@[simp] theorem not_throws_reblance_body (m : Mem α) (x hdr : Nat) :
    ¬ throws (reblance_body m x hdr) := by
  unfold reblance_body
  repeat' first | with_reducible refine not_throws_bind ?_ (fun _ => ?_) | split | simp

@[simp] theorem not_throws_reblance_loop (fuel : Nat) (m : Mem α) (x hdr : Nat) :
    ¬ throws (reblance_loop fuel m x hdr) := by
  induction fuel generalizing m x with
  | zero => simp [reblance_loop]
  | succ k ih =>
    unfold reblance_loop
    repeat' first | with_reducible refine not_throws_bind ?_ (fun _ => ?_) | split | exact ih _ _ | simp

@[simp] theorem not_throws_reblance (fuel : Nat) (m : Mem α) (x hdr : Nat) :
    ¬ throws (rb_tree_reblance fuel m x hdr) := by
  unfold rb_tree_reblance
  repeat' first | with_reducible refine not_throws_bind ?_ (fun _ => ?_) | split | simp

end znothrow

/-! ## The length check of the single-element insertions -/

section zlength
variable {α κ X : Type}

@[simp] theorem not_throws_begin (s : rb_tree α) : ¬ throws s.begin := by
  unfold rb_tree.begin
  simp

@[simp] theorem not_throws_insert_pos_loop (T : Traits α κ) (key : κ) (fuel : Nat) (m : Mem α)
    (x y : Nat) (b : Bool) : ¬ throws (insert_pos_loop T key fuel m x y b) := by
  induction fuel generalizing x y b with
  | zero => simp [insert_pos_loop]
  | succ k ih =>
    unfold insert_pos_loop
    repeat' first | with_reducible refine not_throws_bind ?_ (fun _ => ?_) | split | exact ih _ _ _ | simp

@[simp] theorem not_throws_get_insert_multi_pos (T : Traits α κ) (fuel : Nat) (s : rb_tree α)
    (key : κ) : ¬ throws (s.get_insert_multi_pos T fuel key) := by
  unfold rb_tree.get_insert_multi_pos
  repeat' first | with_reducible refine not_throws_bind ?_ (fun _ => ?_) | split | simp

@[simp] theorem not_throws_get_insert_unique_pos (T : Traits α κ) (fuel : Nat)
    (s : rb_tree α) (key : κ) : ¬ throws (s.get_insert_unique_pos T fuel key) := by
  unfold rb_tree.get_insert_unique_pos
  repeat' first | with_reducible refine not_throws_bind ?_ (fun _ => ?_) | split | simp

@[simp] theorem not_throws_link_node (m : Mem α) (hdr x node : Nat) (b : Bool) :
    ¬ throws (link_node m hdr x node b) := by
  unfold link_node
  repeat' first | with_reducible refine not_throws_bind ?_ (fun _ => ?_) | split | simp

@[simp] theorem not_throws_insert_node_at (T : Traits α κ) (fuel : Nat) (s : rb_tree α)
    (x node : Nat) (b : Bool) : ¬ throws (s.insert_node_at T fuel x node b) := by
  unfold rb_tree.insert_node_at
  repeat' first | with_reducible refine not_throws_bind ?_ (fun _ => ?_) | split | simp

@[simp] theorem not_throws_insert_value_at (T : Traits α κ) (fuel : Nat) (s : rb_tree α)
    (x : Nat) (v : α) (b : Bool) (p : Nat) (junk : Bool) :
    ¬ throws (s.insert_value_at T fuel x v b p junk) := by
  unfold rb_tree.insert_value_at
  simp

@[simp] theorem not_throws_hint_place (m : Mem α) (bnp np : Nat) :
    ¬ throws (hint_place m bnp np) := by
  unfold hint_place
  repeat' first | with_reducible refine not_throws_bind ?_ (fun _ => ?_) | split | simp

@[simp] theorem not_throws_insert_multi_at_pos (T : Traits α κ) (fuel : Nat) (s : rb_tree α)
    (key : κ) (node : Nat) : ¬ throws (s.insert_multi_at_pos T fuel key node) := by
  unfold rb_tree.insert_multi_at_pos
  repeat' first | with_reducible refine not_throws_bind ?_ (fun _ => ?_) | split | simp

@[simp] theorem not_throws_insert_unique_at_pos (T : Traits α κ) (fuel : Nat) (s : rb_tree α)
    (key : κ) (node : Nat) : ¬ throws (s.insert_unique_at_pos T fuel key node) := by
  unfold rb_tree.insert_unique_at_pos
  repeat' first | with_reducible refine not_throws_bind ?_ (fun _ => ?_) | split | simp

@[simp] theorem not_throws_insert_multi_use_hint (T : Traits α κ) (fuel : Nat) (s : rb_tree α)
    (hint : Nat) (key : κ) (node : Nat) :
    ¬ throws (s.insert_multi_use_hint T fuel hint key node) := by
  unfold rb_tree.insert_multi_use_hint
  repeat' first | with_reducible refine not_throws_bind ?_ (fun _ => ?_) | split | simp

@[simp] theorem not_throws_insert_unique_use_hint (T : Traits α κ) (fuel : Nat) (s : rb_tree α)
    (hint : Nat) (key : κ) (node : Nat) :
    ¬ throws (s.insert_unique_use_hint T fuel hint key node) := by
  unfold rb_tree.insert_unique_use_hint
  repeat' first | with_reducible refine not_throws_bind ?_ (fun _ => ?_) | split | simp

/-- A function that opens with the length check and raises no exception after
it meets `LengthChecked`, provided `node_count` is a value of `size_type`. -/
theorem length_checked_of_guard (T : Traits α κ) (s : rb_tree α) (hw : 0 < T.size_bits)
    (hn : s.node_count ≤ T.max_size) (body : Except Fault (rb_tree α × X))
    (hb : ¬ throws body) :
    LengthChecked T s (if s.node_count > T.max_size - 1 then .error .length_error else body) := by
  have hp : 2 ≤ 2 ^ T.size_bits := by
    calc 2 = 2 ^ 1 := rfl
      _ ≤ 2 ^ T.size_bits := Nat.pow_le_pow_right (by decide) hw
  have hg : s.node_count > T.max_size - 1 ↔ s.node_count = T.max_size := by
    simp only [Traits.max_size] at hn ⊢
    omega
  simp only [throws, not_or] at hb
  unfold LengthChecked insertion_call
  simp only [rb_tree.size]
  by_cases hc : s.node_count > T.max_size - 1
  · have he := hg.1 hc
    rw [if_pos hc, if_pos hc]
    refine ⟨⟨fun _ => he, fun _ => rfl⟩, by simp, ⟨fun _ => he, fun _ => ⟨_, _, rfl⟩⟩, ?_⟩
    intro e s' h
    injection h with h1 h2
    exact ⟨h1.symm, h2.symm⟩
  · have hne : ¬ s.node_count = T.max_size := fun h => hc (hg.2 h)
    rw [if_neg hc, if_neg hc]
    refine ⟨⟨fun h => absurd h hb.1, fun h => absurd h hne⟩, hb.2, ⟨?_, fun h => absurd h hne⟩, ?_⟩
    · rintro ⟨e, s', h⟩
      cases body <;> simp at h
    · intro e s' h
      cases body <;> simp at h

end zlength

/-! ## Runs of equivalent keys under `insert_multi` -/

section zmultiseq
variable {α κ β : Type}

/-- Two splits of one list at the boundary of the same predicate coincide. -/
theorem append_split_unique (P : β → Prop) :
    ∀ (l1 l3 : List β) {l2 l4 : List β}, l1 ++ l2 = l3 ++ l4 → (∀ e ∈ l1, P e) →
      (∀ e ∈ l2, ¬ P e) → (∀ e ∈ l3, P e) → (∀ e ∈ l4, ¬ P e) → l1 = l3 ∧ l2 = l4 := by
  intro l1
  induction l1 with
  | nil =>
    intro l3 l2 l4 h _ h2 h3 _
    cases l3 with
    | nil => exact ⟨rfl, by simpa using h⟩
    | cons b l3 =>
      exfalso
      simp only [List.nil_append, List.cons_append] at h
      exact h2 b (by rw [h]; simp) (h3 b (by simp))
  | cons a l1 ih =>
    intro l3 l2 l4 h h1 h2 h3 h4
    cases l3 with
    | nil =>
      exfalso
      simp only [List.nil_append, List.cons_append] at h
      exact h4 a (by rw [← h]; simp) (h1 a (by simp))
    | cons b l3 =>
      simp only [List.cons_append, List.cons.injEq] at h
      obtain ⟨rfl, h⟩ := h
      obtain ⟨e1, e2⟩ := ih l3 h (fun e he => h1 e (by simp [he])) h2
        (fun e he => h3 e (by simp [he])) h4
      exact ⟨by rw [e1], e2⟩

/-- An ordered sequence splits at any key into the elements below it, the
elements equivalent to it, and the elements above it. -/
theorem ordered_split (T : Traits α κ) (hT : StrictWeakOrder T.key_compare) (k : κ) :
    ∀ (L : List (Nat × α)),
      L.Pairwise (fun a b => T.key_compare (T.KeyOfValue b.2) (T.KeyOfValue a.2) = false) →
      ∃ A B C, L = A ++ B ++ C ∧
        (∀ e ∈ A, T.key_compare (T.KeyOfValue e.2) k = true) ∧
        (∀ e ∈ B, equiv T.key_compare (T.KeyOfValue e.2) k) ∧
        (∀ e ∈ C, T.key_compare k (T.KeyOfValue e.2) = true) := by
  intro L
  induction L with
  | nil => intro _; exact ⟨[], [], [], rfl, by simp, by simp, by simp⟩
  | cons e L ih =>
    intro hp
    rw [List.pairwise_cons] at hp
    obtain ⟨A, B, C, rfl, hA, hB, hC⟩ := ih hp.2
    cases h1 : T.key_compare (T.KeyOfValue e.2) k with
    | true =>
      refine ⟨e :: A, B, C, by simp, ?_, hB, hC⟩
      intro x hx
      rcases List.mem_cons.1 hx with rfl | hx
      · exact h1
      · exact hA x hx
    | false =>
      have hA0 : A = [] := by
        cases A with
        | nil => rfl
        | cons a A =>
          exfalso
          have ha := hA a (by simp)
          have hea := hp.1 a (by simp)
          have := hT.neg_trans _ _ _ hea h1
          rw [ha] at this
          cases this
      subst hA0
      cases h2 : T.key_compare k (T.KeyOfValue e.2) with
      | false =>
        refine ⟨[], e :: B, C, by simp, by simp, ?_, hC⟩
        intro x hx
        rcases List.mem_cons.1 hx with rfl | hx
        · exact ⟨h1, h2⟩
        · exact hB x hx
      | true =>
        have hB0 : B = [] := by
          cases B with
          | nil => rfl
          | cons b B =>
            exfalso
            have hb := (hB b (by simp)).2
            have heb := hp.1 b (by simp)
            have := hT.neg_trans _ _ _ hb heb
            rw [h2] at this
            cases this
        subst hB0
        refine ⟨[], [], e :: C, by simp, by simp, by simp, ?_⟩
        intro x hx
        rcases List.mem_cons.1 hx with rfl | hx
        · exact h2
        · exact hC x hx

/-- Where `insert_multi` puts a value whose key is equivalent to `k`: at the end
of the run of elements equivalent to `k`. -/
theorem nodes_ins_tree_equiv (T : Traits α κ) (hT : StrictWeakOrder T.key_compare) (k : κ)
    (v : α) (p : Nat) (junk : Bool) (t : Tree α) (ho : t.Ordered T)
    (hv : equiv T.key_compare (T.KeyOfValue v) k) {A B C : List (Nat × α)}
    (hn : t.nodes = A ++ B ++ C)
    (hA : ∀ e ∈ A, T.key_compare (T.KeyOfValue e.2) k = true)
    (hB : ∀ e ∈ B, equiv T.key_compare (T.KeyOfValue e.2) k)
    (hC : ∀ e ∈ C, T.key_compare k (T.KeyOfValue e.2) = true) :
    (ins_tree T v p junk t).nodes = A ++ (B ++ [(p, v)]) ++ C := by
  obtain ⟨hb, ha⟩ := ins_path_sides T hT v t ho
  have hsplit := nodes_ins_path T v t
  rw [hn] at hsplit
  have hAB : ∀ e ∈ A ++ B, T.key_compare (T.KeyOfValue v) (T.KeyOfValue e.2) = false := by
    intro e he
    have hke : T.key_compare k (T.KeyOfValue e.2) = false := by
      rcases List.mem_append.1 he with h | h
      · exact hT.asymm (hA e h)
      · exact (hB e h).2
    exact hT.neg_trans _ _ _ hv.1 hke
  have hC' : ∀ e ∈ C, ¬ T.key_compare (T.KeyOfValue v) (T.KeyOfValue e.2) = false := by
    intro e he hf
    have := hT.neg_trans _ _ _ hv.2 hf
    rw [hC e he] at this
    cases this
  obtain ⟨e1, e2⟩ := append_split_unique
    (fun e : Nat × α => T.key_compare (T.KeyOfValue v) (T.KeyOfValue e.2) = false)
    (A ++ B) (ctxBefore (ins_path T v t)) hsplit hAB hC' hb
    (fun e he hf => by have hf' := (ha e he).symm.trans hf; cases hf')
  rw [nodes_ins_tree, ← e1, ← e2]
  simp

/-- Running `insert_multi` over values whose keys are all equivalent to `k`
appends them, in order, to the run of elements equivalent to `k`. -/
theorem insert_multi_all_spec (T : Traits α κ) (hT : StrictWeakOrder T.key_compare)
    (fuel : Nat) (k : κ) :
    ∀ (ops : List (α × Nat × Bool)) (s : rb_tree α) (t : Tree α) (A B C : List (Nat × α)),
      WF s t → t.RB T → t.nodes = A ++ B ++ C →
      (∀ e ∈ A, T.key_compare (T.KeyOfValue e.2) k = true) →
      (∀ e ∈ B, equiv T.key_compare (T.KeyOfValue e.2) k) →
      (∀ e ∈ C, T.key_compare k (T.KeyOfValue e.2) = true) →
      (∀ x ∈ ops, equiv T.key_compare (T.KeyOfValue x.1) k) →
      (ops.map (fun x => x.2.1)).Nodup →
      (∀ x ∈ ops, x.2.1 ≠ 0 ∧ s.mem x.2.1 = none) → t.size + ops.length < fuel →
      t.size + ops.length ≤ T.max_size →
      ∃ s' t', insert_multi_all T fuel ops s = .ok s' ∧ WF s' t' ∧ t'.RB T ∧
        t'.nodes = A ++ (B ++ ops.map (fun x => (x.2.1, x.1))) ++ C ∧
        s'.header = s.header := by
  intro ops
  induction ops with
  | nil =>
    intro s t A B C hwf hrb hn _ _ _ _ _ _ _ _
    exact ⟨s, t, rfl, hwf, hrb, by simpa using hn, rfl⟩
  | cons x rest ih =>
    intro s t A B C hwf hrb hn hA hB hC hk hnd hfr hf hc
    obtain ⟨v, p, junk⟩ := x
    simp only [List.map_cons, List.nodup_cons, List.mem_map, not_exists, not_and] at hnd
    simp only [List.length_cons] at hf hc
    obtain ⟨hp0, hfresh⟩ := hfr (v, p, junk) (List.mem_cons_self _ _)
    have hcnt : s.node_count < T.max_size := by rw [hwf.count]; omega
    obtain ⟨s1, e1, w1, w2, w3⟩ := insert_multi_spec T hwf hrb.root_black v p junk hp0 hfresh
      fuel (by omega) hcnt
    have hfr1 : ∀ y ∈ rest, y.2.1 ≠ 0 ∧ s1.mem y.2.1 = none := by
      intro y hy
      obtain ⟨hy0, hyf⟩ := hfr y (List.mem_cons_of_mem _ hy)
      refine ⟨hy0, ?_⟩
      rw [w3 _ (fun e => hwf.hdr_live (e ▸ hyf)) (fun e => hnd.1 y hy e)
        (fun hm => Rep_live hwf.z.rsub _ hm hyf)]
      exact hyf
    have hsz := size_ins_tree T v p junk t
    have hn1 := nodes_ins_tree_equiv T hT k v p junk t hrb.ordered
      (hk (v, p, junk) (List.mem_cons_self _ _)) hn hA hB hC
    have hB1 : ∀ e ∈ B ++ [(p, v)], equiv T.key_compare (T.KeyOfValue e.2) k := by
      intro e he
      rcases List.mem_append.1 he with h | h
      · exact hB e h
      · simp only [List.mem_singleton] at h
        subst h
        exact hk (v, p, junk) (List.mem_cons_self _ _)
    obtain ⟨s', t', r1, r2, r3, r4, r5⟩ := ih s1 (ins_tree T v p junk t) A (B ++ [(p, v)]) C w1
      (rb_ins_tree T hT v p junk t hrb) hn1 hA hB1 hC
      (fun y hy => hk y (List.mem_cons_of_mem _ hy)) hnd.2 hfr1 (by omega) (by omega)
    refine ⟨s', t', ?_, r2, r3, ?_, by rw [r5, w2]⟩
    · simp only [insert_multi_all, e1, ok_bind]
      exact r1
    · rw [r4]
      simp

end zmultiseq

/-! ## Iterating over a segment of the tree -/

section zsegment
variable {α κ : Type}

/-- Step `++it` from the node at address `a`: the next address in order, or the
header after the last node. -/
theorem increment_at {m m0 : Mem α} {hdr lm rm : Nat} (fuel : Nat) :
    ∀ (t : Tree α) (ctx : Ctx α), Z m m0 hdr lm rm ctx t → ctx.length + t.height + 2 ≤ fuel →
      ∀ (pre : List Nat) (a : Nat) (post : List Nat), t.addrs = pre ++ a :: post →
        increment fuel m a = .ok ((post ++ ctxAfterA ctx).head?.getD hdr) := by
  intro t
  induction t with
  | nil => intro ctx _ _ pre a post h; simp at h
  | node x c l v r ihl ihr =>
    intro ctx h hf pre a post ht
    simp only [Tree.height] at hf
    have hl1 : l.height ≤ max l.height r.height := Nat.le_max_left _ _
    have hr1 : r.height ≤ max l.height r.height := Nat.le_max_right _ _
    have hl : Z m m0 hdr lm rm (.L x c v r :: ctx) l := Z_up.2 h
    have hr : Z m m0 hdr lm rm (.R x c l v :: ctx) r := Z_up.2 h
    simp only [Tree.addrs_node] at ht
    rcases List.append_eq_append_iff.1 ht with ⟨a', e1, e2⟩ | ⟨c', e1, e2⟩
    · rcases List.cons_eq_append_iff.1 e2 with ⟨rfl, e3⟩ | ⟨a'', rfl, e3⟩
      · simp only [List.cons.injEq] at e3
        obtain ⟨rfl, rfl⟩ := e3
        exact increment_spec fuel h (by omega)
      · have := ihr (.R x c l v :: ctx) hr (by simp; omega) a'' a post e3
        simpa using this
    · rcases List.cons_eq_append_iff.1 e2 with ⟨rfl, e3⟩ | ⟨c'', rfl, e3⟩
      · simp only [List.cons.injEq] at e3
        obtain ⟨rfl, rfl⟩ := e3
        exact increment_spec fuel h (by omega)
      · have := ihl (.L x c v r :: ctx) hl (by simp; omega) pre a c'' e1
        rw [this, e3]
        simp

theorem WF.next_addr {s : rb_tree α} {t : Tree α} (hwf : WF s t) (fuel : Nat)
    (hf : t.size + 2 ≤ fuel) {pre post : List (Nat × α)} {a : Nat} {w : α}
    (hn : t.nodes = pre ++ (a, w) :: post) :
    increment fuel s.mem a = .ok ((post.map Prod.fst).head?.getD s.header) := by
  have hh := t.height_le_size
  have ha : t.addrs = pre.map Prod.fst ++ a :: post.map Prod.fst := by
    simp [Tree.addrs, hn]
  have := mystl.increment_at fuel t [] hwf.z (by simp; omega) _ a _ ha
  simpa using this

/-- Walking from the first node of a segment of the in-order sequence to the
first node after it yields the payloads of the segment. -/
theorem walk_segment {s : rb_tree α} {t : Tree α} (hwf : WF s t) (fuel : Nat)
    (hf : t.size + 2 ≤ fuel) :
    ∀ (Y X Z : List (Nat × α)) (n : Nat), t.nodes = X ++ Y ++ Z → Y.length < n →
      walk n fuel s.mem (((Y ++ Z).map Prod.fst).head?.getD s.header)
        ((Z.map Prod.fst).head?.getD s.header) = .ok (Y.map Prod.snd) ∧
      distance n fuel s.mem (((Y ++ Z).map Prod.fst).head?.getD s.header)
        ((Z.map Prod.fst).head?.getD s.header) = .ok Y.length := by
  intro Y
  induction Y with
  | nil =>
    intro X Z n _ hn
    obtain ⟨j, rfl⟩ : ∃ j, n = j + 1 := ⟨n - 1, by simp at hn; omega⟩
    simp [walk, distance]
  | cons y Y ih =>
    intro X Z n hx hn
    obtain ⟨a, w⟩ := y
    simp only [List.length_cons] at hn
    obtain ⟨j, rfl⟩ : ∃ j, n = j + 1 := ⟨n - 1, by omega⟩
    have hx' : t.nodes = (X ++ [(a, w)]) ++ Y ++ Z := by simp [hx]
    have hx2 : t.nodes = X ++ (a, w) :: (Y ++ Z) := by simp [hx]
    obtain ⟨i1, i2⟩ := ih (X ++ [(a, w)]) Z j hx' (by omega)
    have hinc := hwf.next_addr fuel hf hx2
    have hm : (a, w) ∈ t.nodes := by rw [hx2]; simp
    have hv := Rep_get_value hwf.z.rsub hm
    have hnd := hwf.z.nodup
    simp only [plug_nil, Tree.addrs, hx2, List.map_append, List.map_cons, List.nodup_cons,
      List.nodup_append, List.mem_append, List.mem_cons, List.mem_map, not_or] at hnd
    have hne : a ≠ (Z.map Prod.fst).head?.getD s.header := by
      cases Z with
      | nil =>
        simp only [List.map_nil, List.head?_nil, Option.getD_none]
        exact fun e => hnd.1.2.1 e.symm
      | cons z Z =>
        simp only [List.map_cons, List.head?_cons, Option.getD_some]
        intro e
        have h3 := hnd.2.2.1.1
        exact h3.2 ⟨z, by simp, e.symm⟩
    simp only [List.cons_append, List.map_cons, List.head?_cons, Option.getD_some, walk,
      distance, hne, if_false, hv, ok_bind, hinc, i1, i2, List.length_cons]
    exact ⟨rfl, rfl⟩

/-- On a list that fails `p` throughout a prefix and satisfies it from there
on, `first_addr` is the address right after the prefix. -/
theorem first_addr_split (p : Nat × α → Bool) (A R : List (Nat × α)) (d : Nat)
    (hA : ∀ e ∈ A, p e = false) (hR : ∀ e ∈ R, p e = true) :
    first_addr p (A ++ R) d = (R.map Prod.fst).head?.getD d := by
  induction A with
  | nil =>
    cases R with
    | nil => rfl
    | cons r R => simp [first_addr, hR r (by simp)]
  | cons a A ih =>
    have := ih (fun e he => hA e (by simp [he]))
    simp only [first_addr, List.cons_append, List.find?_cons, hA a (by simp)] at this ⊢
    exact this

end zsegment

/-! ## Copying: `clone_type` and `__copy` -/

section zcopy
variable {α κ : Type}

theorem upd_upd (m : Mem α) (p : Nat) (a b : rb_tree_node α) :
    upd (upd m p a) p b = upd m p b := by
  funext x
  by_cases h : x = p <;> simp [upd, h]

theorem clone_type_spec {m : Mem α} {x p : Nat} {c : Bool} {par l r : Nat} {v : α}
    (hx0 : x ≠ 0) (hx : m x = some (rb_tree_node.mk c par l r (some v))) (hp0 : p ≠ 0)
    (hpx : x ≠ p) (junk : Bool) :
    clone_type m x p junk = .ok (upd m p (rb_tree_node.mk c 0 0 0 (some v))) := by
  have r0 := rd_ok hx0 hx
  have r1 : rd (upd m p (rb_tree_node.mk junk 0 0 0 (some v))) x =
      .ok (rb_tree_node.mk c par l r (some v)) := by
    rw [rd_upd_ne _ _ hpx]; exact r0
  have r2 : rd (upd m p (rb_tree_node.mk junk 0 0 0 (some v))) p =
      .ok (rb_tree_node.mk junk 0 0 0 (some v)) := rd_upd_same _ _ hp0
  simp only [clone_type, mystl.get_value, r0, ok_bind, create_node, get_color_ok r1,
    set_color_ok r2, upd_upd, set_left_ok (rd_upd_same _ _ hp0),
    set_right_ok (rd_upd_same _ _ hp0)]

theorem Tree.copy_snd (alloc : Nat → Nat) (t : Tree α) (n : Nat) :
    (t.copy alloc n).2 = n + t.size := by
  induction t generalizing n with
  | nil => rfl
  | node a c l v r ihl ihr =>
    simp only [Tree.copy, ihl, ihr, Tree.size_node]
    omega

theorem Tree.copy_addrs (alloc : Nat → Nat) (t : Tree α) (n : Nat) :
    ∀ a ∈ (t.copy alloc n).1.addrs, ∃ i, n ≤ i ∧ i < n + t.size ∧ a = alloc i := by
  induction t generalizing n with
  | nil => simp [Tree.copy]
  | node a c l v r ihl ihr =>
    intro b hb
    simp only [Tree.copy, Tree.addrs_node, List.mem_append, List.mem_cons, Tree.copy_snd] at hb
    simp only [Tree.size_node]
    rcases hb with hb | rfl | hb
    · obtain ⟨i, h1, h2, h3⟩ := ihl _ b hb
      exact ⟨i, by omega, by omega, h3⟩
    · exact ⟨n, by omega, by omega, rfl⟩
    · obtain ⟨i, h1, h2, h3⟩ := ihr _ b hb
      exact ⟨i, by omega, by omega, h3⟩

theorem Tree.strip_copy (alloc : Nat → Nat) (t : Tree α) (n : Nat) :
    (t.copy alloc n).1.strip = t.strip := by
  induction t generalizing n with
  | nil => rfl
  | node a c l v r ihl ihr => simp only [Tree.copy, Tree.strip, ihl, ihr]

theorem Tree.copy_ptr_node (alloc : Nat → Nat) (a : Nat) (c : Bool) (l : Tree α) (v : α)
    (r : Tree α) (n : Nat) : ((Tree.node a c l v r).copy alloc n).1.ptr = alloc n := rfl

/-- Effect of `__copy` and of its loop down the left spine on a represented
source subtree `t`, with fresh, distinct addresses for `t.size` allocations
from index `n` on: the copy `t.copy alloc n` is built below `p`, and nothing
but the allocated nodes (and, for the loop, the left link of `p`) changes. -/
theorem copy_spec (alloc : Nat → Nat) (junk : Nat → Bool) :
    ∀ (t : Tree α) (m : Mem α) (par p n fuel : Nat), Rep m par t → t.height < fuel →
      (∀ i, n ≤ i → i < n + t.size → alloc i ≠ 0 ∧ m (alloc i) = none) →
      (∀ i j, n ≤ i → i < j → j < n + t.size → alloc i ≠ alloc j) →
      (t ≠ .nil → ∃ m', __copy alloc junk fuel m t.ptr p n = .ok (m', alloc n, n + t.size) ∧
        Rep m' p (t.copy alloc n).1 ∧
        ∀ a, (∀ i, n ≤ i → i < n + t.size → a ≠ alloc i) → m' a = m a) ∧
      (∀ rec, p ≠ 0 → p ∉ t.addrs → m p = some rec → rec.left = 0 →
        ∃ m', copy_left alloc junk fuel m t.ptr p n = .ok (m', n + t.size) ∧
          m' p = some { rec with left := (t.copy alloc n).1.ptr } ∧
          Rep m' p (t.copy alloc n).1 ∧
          ∀ a, a ≠ p → (∀ i, n ≤ i → i < n + t.size → a ≠ alloc i) → m' a = m a) := by
  intro t
  induction t with
  | nil =>
    intro m par p n fuel _ hf _ _
    obtain ⟨k, rfl⟩ : ∃ k, fuel = k + 1 := ⟨fuel - 1, by omega⟩
    refine ⟨fun h => absurd rfl h, ?_⟩
    intro rec _ _ hp hl
    refine ⟨m, by simp [copy_left], ?_, trivial, fun _ _ _ => rfl⟩
    rw [hp]
    cases rec
    simp only [Tree.copy, Tree.ptr_nil] at hl ⊢
    subst hl
    rfl
  | node x c l v r ihl ihr =>
    intro m par p n fuel hrep hf hfr hinj
    obtain ⟨k, rfl⟩ : ∃ k, fuel = k + 1 := ⟨fuel - 1, by omega⟩
    obtain ⟨hx0, hm, hl, hr⟩ := hrep
    simp only [Tree.height] at hf
    have hl1 : l.height ≤ max l.height r.height := Nat.le_max_left _ _
    have hr1 : r.height ≤ max l.height r.height := Nat.le_max_right _ _
    simp only [Tree.size_node] at hfr hinj
    obtain ⟨hy0, hyd⟩ := hfr n (Nat.le_refl _) (by omega)
    have hxy : x ≠ alloc n := fun e => by rw [e, hyd] at hm; cases hm
    -- source addresses are live, allocated ones are not
    have hsrc : ∀ a, m a ≠ none → ∀ i, n ≤ i → i < n + (l.size + 1 + r.size) → a ≠ alloc i :=
      fun a ha i h1 h2 e => ha (e ▸ (hfr i h1 h2).2)
    have hinj' : ∀ i j, n ≤ i → i < n + (l.size + 1 + r.size) → n ≤ j →
        j < n + (l.size + 1 + r.size) → i ≠ j → alloc i ≠ alloc j := by
      intro i j h1 h2 h3 h4 hne
      rcases Nat.lt_or_gt_of_ne hne with h | h
      · exact hinj i j h1 h h4
      · exact fun e => hinj j i h3 h h2 e.symm
    have hxl : ∀ a ∈ l.addrs, m a ≠ none := Rep_live hl
    have hxr : ∀ a ∈ r.addrs, m a ≠ none := Rep_live hr
    have hmx : m x ≠ none := by rw [hm]; simp
    have e2 : (r.copy alloc (n + 1)).2 = n + 1 + r.size := Tree.copy_snd _ _ _
    have tail : ∀ (m1 : Mem α) (q : Nat),
        m1 (alloc n) = some (rb_tree_node.mk c q 0 0 (some v)) →
        (∀ a, (a = x ∨ a ∈ l.addrs ∨ a ∈ r.addrs) → m1 a = m a) →
        (∀ i, n + 1 ≤ i → i < n + (l.size + 1 + r.size) → m1 (alloc i) = none) →
        ∃ m2 m3, ((r = .nil ∧ m2 = m1) ∨ (r.ptr ≠ 0 ∧ ∃ m2a,
            __copy alloc junk k m1 r.ptr (alloc n) (n + 1) =
              .ok (m2a, alloc (n + 1), n + 1 + r.size) ∧
            (r.copy alloc (n + 1)).1.ptr = alloc (n + 1) ∧
            set_right m2a (alloc n) (alloc (n + 1)) = .ok m2)) ∧
          get_right m1 x = .ok r.ptr ∧ get_left m2 x = .ok l.ptr ∧
          copy_left alloc junk k m2 l.ptr (alloc n) (n + 1 + r.size) =
            .ok (m3, n + (l.size + 1 + r.size)) ∧
          m3 (alloc n) = some (rb_tree_node.mk c q (l.copy alloc (n + 1 + r.size)).1.ptr
            (r.copy alloc (n + 1)).1.ptr (some v)) ∧
          Rep m3 (alloc n) (l.copy alloc (n + 1 + r.size)).1 ∧
          Rep m3 (alloc n) (r.copy alloc (n + 1)).1 ∧
          ∀ a, a ≠ alloc n → (∀ i, n + 1 ≤ i → i < n + (l.size + 1 + r.size) → a ≠ alloc i) →
            m3 a = m1 a := by
      intro m1 q h1y hsame hdead
      have hlive : ∀ a, (a = x ∨ a ∈ l.addrs ∨ a ∈ r.addrs) → m a ≠ none := by
        rintro a (rfl | ha | ha)
        · exact hmx
        · exact hxl a ha
        · exact hxr a ha
      have hr1' : Rep m1 x r := Rep_congr (fun a ha => hsame a (Or.inr (Or.inr ha))) hr
      have hm1x : m1 x = some (rb_tree_node.mk c par l.ptr r.ptr (some v)) := by
        rw [hsame x (Or.inl rfl)]; exact hm
      -- the right subtree
      obtain ⟨m2, hR, h2y, hrep2, hfr2⟩ : ∃ m2, ((r = .nil ∧ m2 = m1) ∨ (r.ptr ≠ 0 ∧ ∃ m2a,
            __copy alloc junk k m1 r.ptr (alloc n) (n + 1) =
              .ok (m2a, alloc (n + 1), n + 1 + r.size) ∧
            (r.copy alloc (n + 1)).1.ptr = alloc (n + 1) ∧
            set_right m2a (alloc n) (alloc (n + 1)) = .ok m2)) ∧
          m2 (alloc n) = some (rb_tree_node.mk c q 0 (r.copy alloc (n + 1)).1.ptr (some v)) ∧
          Rep m2 (alloc n) (r.copy alloc (n + 1)).1 ∧
          ∀ a, a ≠ alloc n → (∀ i, n + 1 ≤ i → i < n + 1 + r.size → a ≠ alloc i) →
            m2 a = m1 a := by
        by_cases hrn : r = .nil
        · subst hrn
          exact ⟨m1, Or.inl ⟨rfl, rfl⟩, h1y, trivial, fun _ _ _ => rfl⟩
        · obtain ⟨m2a, c1, c2, c3⟩ := (ihr m1 x (alloc n) (n + 1) k hr1' (by omega)
            (fun i h1 h2 => ⟨(hfr i (by omega) (by omega)).1, hdead i h1 (by omega)⟩)
            (fun i j h1 h2 h3 => hinj i j (by omega) h2 (by omega))).1 hrn
          have hpr : (r.copy alloc (n + 1)).1.ptr = alloc (n + 1) := by
            cases r with
            | nil => exact absurd rfl hrn
            | node _ _ _ _ _ => rfl
          have h2a : m2a (alloc n) = some (rb_tree_node.mk c q 0 0 (some v)) := by
            rw [c3 _ (fun i h1 h2 => hinj' n i (Nat.le_refl _) (by omega) (by omega) (by omega)
              (by omega))]
            exact h1y
          refine ⟨_, Or.inr ⟨Rep_ptr_ne_zero hr1' hrn, m2a, c1, hpr,
            set_right_ok (rd_ok hy0 h2a) _⟩, ?_, ?_, ?_⟩
          · rw [upd_same, hpr]
          · refine Rep_congr ?_ c2
            intro a ha
            obtain ⟨i, i1, i2, rfl⟩ := Tree.copy_addrs alloc r (n + 1) a ha
            exact upd_ne _ _ (hinj' i n (by omega) (by omega) (Nat.le_refl _) (by omega)
              (by omega))
          · intro a ha hi
            rw [upd_ne _ _ ha]
            exact c3 a hi
      -- the left spine
      have hm2src : ∀ a, (a = x ∨ a ∈ l.addrs ∨ a ∈ r.addrs) → m2 a = m a := by
        intro a ha
        have hal := hlive a ha
        rw [hfr2 a (fun e => hal (e ▸ hyd))
          (fun i h1 h2 => hsrc a hal i (by omega) (by omega))]
        exact hsame a ha
      have hl2 : Rep m2 x l := Rep_congr (fun a ha => hm2src a (Or.inr (Or.inl ha))) hl
      have hm2x : m2 x = some (rb_tree_node.mk c par l.ptr r.ptr (some v)) := by
        rw [hm2src x (Or.inl rfl)]; exact hm
      obtain ⟨m3, d1, d2, d3, d4⟩ := (ihl m2 x (alloc n) (n + 1 + r.size) k hl2 (by omega)
        (fun i h1 h2 => ⟨(hfr i (by omega) (by omega)).1, by
          rw [hfr2 _ (hinj' i n (by omega) (by omega) (Nat.le_refl _) (by omega) (by omega))
            (fun j j1 j2 => hinj' i j (by omega) (by omega) (by omega) (by omega) (by omega))]
          exact hdead i (by omega) (by omega)⟩)
        (fun i j h1 h2 h3 => hinj i j (by omega) h2 (by omega))).2 _ hy0
        (fun h => hxl _ h hyd) h2y rfl
      refine ⟨m2, m3, hR, get_right_ok (rd_ok hx0 hm1x), get_left_ok (rd_ok hx0 hm2x), ?_, d2,
        d3, ?_, ?_⟩
      · rw [d1]
        have : n + 1 + r.size + l.size = n + (l.size + 1 + r.size) := by omega
        rw [this]
      · refine Rep_congr ?_ hrep2
        intro a ha
        obtain ⟨i, i1, i2, rfl⟩ := Tree.copy_addrs alloc r (n + 1) a ha
        exact d4 _ (hinj' i n (by omega) (by omega) (Nat.le_refl _) (by omega) (by omega))
          (fun j j1 j2 => hinj' i j (by omega) (by omega) (by omega) (by omega) (by omega))
      · intro a ha hi
        rw [d4 a ha (fun i h1 h2 => hi i (by omega) (by omega)),
          hfr2 a ha (fun i h1 h2 => hi i h1 (by omega))]
    have hclone := clone_type_spec hx0 hm hy0 hxy (junk n)
    have hcp : ((Tree.node x c l v r).copy alloc n).1 =
        .node (alloc n) c (l.copy alloc (n + 1 + r.size)).1 v (r.copy alloc (n + 1)).1 := by
      simp only [Tree.copy, e2]
    constructor
    · intro _
      obtain ⟨m1, em1⟩ : ∃ m1, m1 = upd m (alloc n) (rb_tree_node.mk c p 0 0 (some v)) :=
        ⟨_, rfl⟩
      have sp : set_parent (upd m (alloc n) (rb_tree_node.mk c 0 0 0 (some v))) (alloc n) p =
          .ok m1 := by
        rw [set_parent_ok (rd_upd_same _ _ hy0), upd_upd, em1]
      obtain ⟨m2, m3, hR, t1, t2, t3, t4, t5, t6, t7⟩ := tail m1 p (by rw [em1, upd_same])
        (fun a ha => by
          rw [em1, upd_ne]
          rintro rfl
          rcases ha with ha | ha | ha
          · exact hxy ha.symm
          · exact hxl _ ha hyd
          · exact hxr _ ha hyd)
        (fun i h1 h2 => by
          rw [em1, upd_ne _ _ (hinj' i n (by omega) (by omega) (Nat.le_refl _) (by omega)
            (by omega))]
          exact (hfr i (by omega) h2).2)
      refine ⟨m3, ?_, ?_, ?_⟩
      · simp only [__copy, Tree.ptr_node, hclone, ok_bind, sp, t1]
        rcases hR with ⟨rfl, rfl⟩ | ⟨hr0, m2a, c1, c2, c3⟩
        · simp only [Tree.ptr_nil, if_true, pure_eq_ok, ok_bind, t2, Tree.size] at t3 ⊢
          simp only [t3, ok_bind, Tree.size_node, Tree.size]
        · simp only [hr0, if_false, c1, ok_bind, c3, pure_eq_ok, t2, t3, Tree.size_node]
      · rw [hcp]
        exact ⟨hy0, t4, t5, t6⟩
      · intro a ha
        rw [t7 a (ha n (Nat.le_refl _) (by simp only [Tree.size_node]; omega))
          (fun i h1 h2 => ha i (by omega) (by simp only [Tree.size_node]; omega)), em1,
          upd_ne _ _ (ha n (Nat.le_refl _) (by simp only [Tree.size_node]; omega))]
    · intro rec hp0 hpn hmp hl0
      simp only [Tree.addrs_node, List.mem_append, List.mem_cons, not_or] at hpn
      have hpy : p ≠ alloc n := fun e => by rw [e, hyd] at hmp; cases hmp
      obtain ⟨m1, em1⟩ : ∃ m1, m1 = upd (upd (upd m (alloc n)
          (rb_tree_node.mk c 0 0 0 (some v))) p { rec with left := alloc n }) (alloc n)
          (rb_tree_node.mk c p 0 0 (some v)) := ⟨_, rfl⟩
      have sl : set_left (upd m (alloc n) (rb_tree_node.mk c 0 0 0 (some v))) p (alloc n) =
          .ok (upd (upd m (alloc n) (rb_tree_node.mk c 0 0 0 (some v))) p
            { rec with left := alloc n }) := by
        rw [set_left_ok (n := rec)]
        rw [rd_upd_ne _ _ hpy]
        exact rd_ok hp0 hmp
      have sp : set_parent (upd (upd m (alloc n) (rb_tree_node.mk c 0 0 0 (some v))) p
          { rec with left := alloc n }) (alloc n) p = .ok m1 := by
        rw [set_parent_ok (n := rb_tree_node.mk c 0 0 0 (some v)), em1]
        rw [rd_upd_ne _ _ (Ne.symm hpy)]
        exact rd_upd_same _ _ hy0
      obtain ⟨m2, m3, hR, t1, t2, t3, t4, t5, t6, t7⟩ := tail m1 p (by rw [em1, upd_same])
        (fun a ha => by
          have h1 : a ≠ alloc n := by
            rintro rfl
            rcases ha with ha | ha | ha
            · exact hxy ha.symm
            · exact hxl _ ha hyd
            · exact hxr _ ha hyd
          have h2 : a ≠ p := by
            rintro rfl
            rcases ha with ha | ha | ha
            · exact hpn.2.1 ha
            · exact hpn.1 ha
            · exact hpn.2.2 ha
          rw [em1, upd_ne _ _ h1, upd_ne _ _ h2, upd_ne _ _ h1])
        (fun i h1 h2 => by
          have h3 := hinj' i n (by omega) (by omega) (Nat.le_refl _) (by omega) (by omega)
          have h4 : alloc i ≠ p := fun e => by
            rw [← e, (hfr i (by omega) h2).2] at hmp; cases hmp
          rw [em1, upd_ne _ _ h3, upd_ne _ _ h4, upd_ne _ _ h3]
          exact (hfr i (by omega) h2).2)
      have hpa : ∀ i, n ≤ i → i < n + (l.size + 1 + r.size) → p ≠ alloc i :=
        fun i h1 h2 e => by rw [e, (hfr i h1 h2).2] at hmp; cases hmp
      refine ⟨m3, ?_, ?_, ?_, ?_⟩
      · simp only [copy_left, Tree.ptr_node, hx0, if_false, hclone, ok_bind, sl, sp, t1]
        rcases hR with ⟨rfl, rfl⟩ | ⟨hr0, m2a, c1, c2, c3⟩
        · simp only [Tree.ptr_nil, if_true, pure_eq_ok, ok_bind, t2, Tree.size] at t3 ⊢
          simp only [t3, Tree.size_node, Tree.size]
        · simp only [hr0, if_false, c1, ok_bind, c3, pure_eq_ok, t2, t3, Tree.size_node]
      · rw [t7 p hpy (fun i h1 h2 => hpa i (by omega) h2), em1, upd_ne _ _ hpy, upd_same, hcp]
        rfl
      · rw [hcp]
        exact ⟨hy0, t4, t5, t6⟩
      · intro a hap ha
        have han := ha n (Nat.le_refl _) (by simp only [Tree.size_node]; omega)
        rw [t7 a han (fun i h1 h2 => ha i (by omega) (by simp only [Tree.size_node]; omega)),
          em1, upd_ne _ _ han, upd_ne _ _ hap, upd_ne _ _ han]

end zcopy

/-! ## Copy construction and copy assignment -/

section zcopytree
variable {α κ : Type}

theorem Tree.size_copy (alloc : Nat → Nat) (t : Tree α) (n : Nat) :
    (t.copy alloc n).1.size = t.size := by
  induction t generalizing n with
  | nil => rfl
  | node a c l v r ihl ihr => simp only [Tree.copy, Tree.size_node, ihl, ihr]

theorem Tree.copy_eq_nil (alloc : Nat → Nat) (t : Tree α) (n : Nat) :
    (t.copy alloc n).1 = .nil ↔ t = .nil := by
  cases t <;> simp [Tree.copy]

theorem Tree.copy_nodup (alloc : Nat → Nat) (t : Tree α) (n : Nat)
    (hinj : ∀ i j, n ≤ i → i < j → j < n + t.size → alloc i ≠ alloc j) :
    (t.copy alloc n).1.addrs.Nodup := by
  induction t generalizing n with
  | nil => simp [Tree.copy]
  | node a c l v r ihl ihr =>
    simp only [Tree.size_node] at hinj
    have hinj' : ∀ i j, n ≤ i → i < n + (l.size + 1 + r.size) → n ≤ j →
        j < n + (l.size + 1 + r.size) → i ≠ j → alloc i ≠ alloc j := by
      intro i j h1 h2 h3 h4 hne
      rcases Nat.lt_or_gt_of_ne hne with h | h
      · exact hinj i j h1 h h4
      · exact fun e => hinj j i h3 h h2 e.symm
    simp only [Tree.copy, Tree.copy_snd, Tree.addrs_node, List.nodup_append, List.nodup_cons]
    refine ⟨ihl _ (fun i j h1 h2 h3 => hinj i j (by omega) h2 (by omega)),
      ⟨?_, ihr _ (fun i j h1 h2 h3 => hinj i j (by omega) h2 (by omega))⟩, ?_⟩
    · intro hm
      obtain ⟨i, i1, i2, e⟩ := Tree.copy_addrs alloc r (n + 1) _ hm
      exact hinj' n i (Nat.le_refl _) (by omega) (by omega) (by omega) (by omega) e
    · intro x hx hy
      obtain ⟨i, i1, i2, rfl⟩ := Tree.copy_addrs alloc l _ _ hx
      rcases List.mem_cons.1 hy with e | hy
      · exact hinj' i n (by omega) (by omega) (Nat.le_refl _) (by omega) (by omega) e
      · obtain ⟨j, j1, j2, e⟩ := Tree.copy_addrs alloc r _ _ hy
        exact hinj' i j (by omega) (by omega) (by omega) (by omega) (by omega) e

/-- Effect of the copying half of the copy constructor and of copy assignment,
run for an initialised, empty header `h` on a heap that holds the non-empty
source tree `t` below the header `oh`. -/
theorem copy_into_spec (alloc : Nat → Nat) (junk : Nat → Bool) (m : Mem α) {t : Tree α}
    (h oh : Nat) {olm orm : Nat} (fuel : Nat) (hne : t ≠ .nil) (hf : t.height < fuel)
    (hoh0 : oh ≠ 0)
    (hoh : m oh = some (rb_tree_node.mk rb_tree_red t.ptr olm orm none))
    (hrep : Rep m oh t) (h0 : h ≠ 0)
    (hh : m h = some (rb_tree_node.mk rb_tree_red 0 h h none))
    (hfr : ∀ i, i < t.size → alloc i ≠ 0 ∧ m (alloc i) = none)
    (hinj : ∀ i j, i < j → j < t.size → alloc i ≠ alloc j) :
    ∃ m', copy_into alloc junk fuel m h oh = .ok m' ∧
      Z m' m' h ((t.copy alloc 0).1.first h) ((t.copy alloc 0).1.last h) []
        (t.copy alloc 0).1 ∧
      ∀ a, a ≠ h → (∀ i, i < t.size → a ≠ alloc i) → m' a = m a := by
  obtain ⟨t', et'⟩ : ∃ t', t' = (t.copy alloc 0).1 := ⟨_, rfl⟩
  have hne' : t' ≠ .nil := by rw [et']; exact fun e => hne ((Tree.copy_eq_nil _ _ _).1 e)
  have hht : t'.height = t.height := by
    have hs : ∀ (u : Tree α), u.strip.height = u.height := by
      intro u
      induction u with
      | nil => rfl
      | node a c l v r ihl ihr => simp only [Tree.strip, Tree.height, ihl, ihr]
    rw [← hs t', ← hs t, et', Tree.strip_copy]
  obtain ⟨m1, c1, c2, c3⟩ := (copy_spec alloc junk t m oh h 0 fuel hrep hf
    (fun i _ h2 => hfr i (by omega)) (fun i j _ h2 h3 => hinj i j h2 (by omega))).1 hne
  simp only [Nat.zero_add] at c1 c3
  rw [← et'] at c2
  have haddr : ∀ a ∈ t'.addrs, ∃ i, i < t.size ∧ a = alloc i := by
    intro a ha
    rw [et'] at ha
    obtain ⟨i, _, i2, e⟩ := Tree.copy_addrs alloc t 0 a ha
    exact ⟨i, by omega, e⟩
  have hha : ∀ i, i < t.size → h ≠ alloc i := fun i hi e => by
    rw [e, (hfr i hi).2] at hh; cases hh
  have hnm : h ∉ t'.addrs := fun hm => by
    obtain ⟨i, hi, e⟩ := haddr h hm
    exact hha i hi e
  have hnd : (h :: t'.addrs).Nodup := by
    rw [List.nodup_cons]
    refine ⟨hnm, ?_⟩
    rw [et']
    exact Tree.copy_nodup alloc t 0 (fun i j _ h2 h3 => hinj i j h2 (by omega))
  have hptr : t'.ptr = alloc 0 := by
    rw [et']
    cases t with
    | nil => exact absurd rfl hne
    | node _ _ _ _ _ => rfl
  have h1h : m1 h = some (rb_tree_node.mk rb_tree_red 0 h h none) := by
    rw [c3 h (fun i _ hi => hha i hi)]; exact hh
  obtain ⟨m2, e2⟩ : ∃ m2, m2 = upd m1 h (rb_tree_node.mk rb_tree_red t'.ptr h h none) :=
    ⟨_, rfl⟩
  have s2 : set_parent m1 h (alloc 0) = .ok m2 := by
    rw [set_parent_ok (rd_ok h0 h1h), e2, hptr]
  have z2 : Z m2 m2 h h h [] t' := by
    refine ⟨h0, hnd, ?_, ?_, fun _ _ _ => rfl⟩
    · simp only [RepCtx, e2, upd_same]
    · refine Rep_congr ?_ c2
      intro a ha
      rw [e2, upd_ne _ _ (fun e => hnm (by rw [← e]; exact ha))]
  have mn := minimum_spec h t' [] fuel hne' (by omega) z2
  obtain ⟨m3, e3⟩ : ∃ m3, m3 = upd m2 h
      (rb_tree_node.mk rb_tree_red t'.ptr (t'.first h) h none) := ⟨_, rfl⟩
  have s3 : set_left m2 h (t'.addrs.head?.getD h) = .ok m3 := by
    rw [set_left_ok z2.rd_header, e3]
    rfl
  have z3 : Z m3 m3 h (t'.first h) h [] t' := by
    refine ⟨h0, hnd, ?_, ?_, fun _ _ _ => rfl⟩
    · simp only [RepCtx, e3, upd_same]
    · refine Rep_congr ?_ z2.rsub
      intro a ha
      rw [e3, upd_ne _ _ (fun e => hnm (by rw [← e]; exact ha))]
  have mx := maximum_spec h t' [] fuel hne' (by omega) z3
  obtain ⟨m4, e4⟩ : ∃ m4, m4 = upd m3 h
      (rb_tree_node.mk rb_tree_red t'.ptr (t'.first h) (t'.last h) none) := ⟨_, rfl⟩
  have s4 : set_right m3 h (t'.addrs.getLast?.getD h) = .ok m4 := by
    rw [set_right_ok z3.rd_header, e4]
    rfl
  have z4 : Z m4 m4 h (t'.first h) (t'.last h) [] t' := by
    refine ⟨h0, hnd, ?_, ?_, fun _ _ _ => rfl⟩
    · simp only [RepCtx, e4, upd_same]
    · refine Rep_congr ?_ z3.rsub
      intro a ha
      rw [e4, upd_ne _ _ (fun e => hnm (by rw [← e]; exact ha))]
  refine ⟨m4, ?_, et' ▸ z4, ?_⟩
  · have g2 := z2.get_root
    have g3 := z3.get_root
    simp only [plug_nil] at g2 g3
    simp only [copy_into, get_parent_ok (rd_ok hoh0 hoh), ok_bind, c1, s2, g2, mn, s3, g3, mx,
      s4]
  · intro a ha hi
    rw [e4, upd_ne _ _ ha, e3, upd_ne _ _ ha, e2, upd_ne _ _ ha]
    exact c3 a (fun i _ h2 => hi i h2)

theorem size_zero_nil {t : Tree α} (h : t.size = 0) : t = .nil := by
  cases t with
  | nil => rfl
  | node a c l v r => simp only [Tree.size_node] at h; omega

/-- Effect of the copy constructor on a heap holding the well-formed tree `A`. -/
theorem copy_construct_spec (alloc : Nat → Nat) (junk : Nat → Bool) {A : rb_tree α}
    {t : Tree α} (hwf : WF A t) (fuel : Nat) (hf : t.height < fuel) (h : Nat) (h0 : h ≠ 0)
    (hh : A.mem h = none)
    (hfr : ∀ i, i < t.size → alloc i ≠ 0 ∧ alloc i ≠ h ∧ A.mem (alloc i) = none)
    (hinj : ∀ i j, i < j → j < t.size → alloc i ≠ alloc j) :
    ∃ B, A.copy_construct alloc junk fuel h = .ok B ∧ WF B (t.copy alloc 0).1 ∧
      B.header = h ∧ ∀ a, a ≠ h → (∀ i, i < t.size → a ≠ alloc i) → B.mem a = A.mem a := by
  have z := hwf.z
  have hah : A.header ≠ h := fun e => hwf.hdr_live (e ▸ hh)
  by_cases hc : A.node_count = 0
  · have ht : t = .nil := size_zero_nil (by rw [← hwf.count]; exact hc)
    subst ht
    refine ⟨{ rb_tree_init A.mem h with node_count := A.node_count }, ?_, ?_, rfl, ?_⟩
    · simp [rb_tree.copy_construct, hc]
    · refine ⟨⟨h0, by simp [Tree.copy], ?_, trivial, fun _ _ _ => rfl⟩, hc⟩
      simp [RepCtx, rb_tree_init, Tree.copy, Tree.first, Tree.last]
    · intro a ha _
      simp only [rb_tree_init]
      exact upd_ne _ _ ha
  · have hne : t ≠ .nil := by
      rintro rfl
      exact hc hwf.count
    have hhd := z.header
    simp only [plug_nil] at hhd
    obtain ⟨m', e, z', fr⟩ := copy_into_spec alloc junk
      (upd A.mem h (rb_tree_node.mk rb_tree_red 0 h h none)) h A.header
      fuel hne hf z.hdr_ne (by rw [upd_ne _ _ hah]; exact hhd)
      (Rep_congr (fun a ha => upd_ne _ _ (fun e => Rep_live z.rsub a ha (e ▸ hh))) z.rsub) h0
      (upd_same _ _ _)
      (fun i hi => ⟨(hfr i hi).1, by rw [upd_ne _ _ (hfr i hi).2.1]; exact (hfr i hi).2.2⟩)
      hinj
    refine ⟨{ mem := m', header := h, node_count := A.node_count }, ?_, ⟨z', ?_⟩, rfl, ?_⟩
    · simp only [rb_tree.copy_construct, hc, if_false, rb_tree_init, e, ok_bind]
      rfl
    · show A.node_count = _
      rw [Tree.size_copy, hwf.count]
    · intro a ha hi
      show m' a = A.mem a
      rw [fr a ha hi, upd_ne _ _ ha]

/-- Effect of copy assignment `s = rhs` for two well-formed trees in one heap
that share no node; the allocator may hand out blocks that are free or that
`clear()` releases. -/
theorem copy_assign_spec (alloc : Nat → Nat) (junk : Nat → Bool) {s rhs : rb_tree α}
    {ts t : Tree α} (hs : WF s ts) (hr : WF rhs t) (hmem : rhs.mem = s.mem)
    (hne : s.header ≠ rhs.header) (hd1 : ∀ a ∈ t.addrs, a ∉ ts.addrs)
    (hd2 : s.header ∉ t.addrs) (hd3 : rhs.header ∉ ts.addrs) (fuel : Nat)
    (hf : t.height < fuel) (hfs : ts.height < fuel)
    (hfr : ∀ i, i < t.size → alloc i ≠ 0 ∧ (s.mem (alloc i) = none ∨ alloc i ∈ ts.addrs))
    (hinj : ∀ i j, i < j → j < t.size → alloc i ≠ alloc j) :
    ∃ B, s.copy_assign alloc junk fuel rhs = .ok B ∧ WF B (t.copy alloc 0).1 ∧
      B.header = s.header ∧ ∀ a, a = rhs.header ∨ a ∈ t.addrs → B.mem a = rhs.mem a := by
  obtain ⟨s1, e1, w1, h1, fr1, k1⟩ := clear_spec hs fuel hfs
  have zr := hr.z
  have hsrc : ∀ a, a = rhs.header ∨ a ∈ t.addrs → s1.mem a = rhs.mem a := by
    intro a ha
    rw [hmem]
    rcases ha with rfl | ha
    · exact k1 _ (Ne.symm hne) hd3
    · exact k1 a (fun e => hd2 (e ▸ ha)) (hd1 a ha)
  by_cases hc : rhs.node_count = 0
  · have ht : t = .nil := size_zero_nil (by rw [← hr.count]; exact hc)
    subst ht
    refine ⟨{ s1 with node_count := rhs.node_count }, ?_, ?_, h1, hsrc⟩
    · simp [rb_tree.copy_assign, hne, e1, hc]
    · exact ⟨w1.z, hc⟩
  · have hne' : t ≠ .nil := by
      rintro rfl
      exact hc hr.count
    have hhd := zr.header
    simp only [plug_nil] at hhd
    have hh1 := w1.z.header
    simp only [plug_nil, Tree.ptr_nil, Tree.first, Tree.last, Tree.addrs_nil, List.head?_nil,
      List.getLast?_nil, Option.getD_none] at hh1
    obtain ⟨m', e, z', fr⟩ := copy_into_spec alloc junk s1.mem s1.header
      rhs.header fuel hne' hf zr.hdr_ne
      (by rw [hsrc _ (Or.inl rfl)]; exact hhd)
      (Rep_congr (fun a ha => hsrc a (Or.inr ha)) zr.rsub) w1.z.hdr_ne hh1
      (fun i hi => ⟨(hfr i hi).1, by
        by_cases hm : alloc i ∈ ts.addrs
        · exact fr1 _ hm
        · have hfree := (hfr i hi).2.resolve_right hm
          rw [k1 _ (fun e => hs.hdr_live (e ▸ hfree)) hm]
          exact hfree⟩)
      hinj
    refine ⟨{ s1 with mem := m', node_count := rhs.node_count }, ?_, ⟨z', ?_⟩, h1, ?_⟩
    · simp only [rb_tree.copy_assign, hne, if_false, e1, ok_bind, hc, e]
      rfl
    · show rhs.node_count = _
      rw [Tree.size_copy, hr.count]
    · intro a ha
      show m' a = rhs.mem a
      have hal : s.mem a ≠ none := by
        rw [← hmem]
        rcases ha with rfl | ha
        · exact hr.hdr_live
        · exact Rep_live zr.rsub a ha
      have hnts : a ∉ ts.addrs := by
        rcases ha with rfl | ha
        · exact hd3
        · exact hd1 a ha
      rw [fr a ?_ (fun i hi e => by
        rcases (hfr i hi).2 with hfree | hin
        · exact hal (e ▸ hfree)
        · exact hnts (e ▸ hin))]
      · exact hsrc a ha
      · rw [h1]
        rcases ha with rfl | ha
        · exact Ne.symm hne
        · exact fun e => hd2 (e ▸ ha)

end zcopytree

/-! ## Statements about insertion and erasure -/

section claims
variable {α κ : Type}

/-- C1: on a well-formed tree that satisfies the red-black invariants (BST
order under a strict weak order, black root, no red node with a red child, equal
black count on every path), with a fresh node address and the size below
`max_size`, both `insert_multi` and `insert_unique` return, and the tree they
leave is again well formed and satisfies all four invariants. -/
theorem insert_preserves_red_black (T : Traits α κ) (hT : StrictWeakOrder T.key_compare)
    {s : rb_tree α} {t : Tree α} (hwf : WF s t) (hrb : t.RB T) (v : α) (p : Nat) (junk : Bool)
    (hp0 : p ≠ 0) (hfresh : s.mem p = none) (fuel : Nat) (hf : t.size < fuel)
    (hcnt : s.node_count < T.max_size) :
    (∃ s' it t', s.insert_multi T fuel v p junk = .ok (s', it) ∧ WF s' t' ∧ t'.RB T) ∧
      (∃ s' r t', s.insert_unique T fuel v p junk = .ok (s', r) ∧ WF s' t' ∧ t'.RB T) := by
  constructor
  · obtain ⟨s', e, w, _⟩ := insert_multi_spec T hwf hrb.root_black v p junk hp0 hfresh fuel hf hcnt
    exact ⟨s', p, _, e, w, rb_ins_tree T hT v p junk t hrb⟩
  · cases hok : pred_ok T (T.KeyOfValue v) (ctxBefore (ins_path T v t)) with
    | true =>
      obtain ⟨s', e, _, w, _⟩ := insert_unique_spec_new T hwf hrb.root_black v p junk hp0 hfresh
        fuel hf hcnt hok
      exact ⟨s', _, _, e, w, rb_ins_tree T hT v p junk t hrb⟩
    | false =>
      exact ⟨s, _, t, (insert_unique_spec_dup T hwf hrb.root_black v p junk hp0 hfresh fuel hf
        hcnt hok).1, hwf, hrb⟩

theorem insert_preserves_red_black_witness :
    (∃ s' it t', three_tree.insert_multi natT 10 5 5 rb_tree_black = .ok (s', it) ∧ WF s' t' ∧
        t'.RB natT) ∧
      (∃ s' r t', three_tree.insert_unique natT 10 5 5 rb_tree_black = .ok (s', r) ∧ WF s' t' ∧
        t'.RB natT) :=
  insert_preserves_red_black natT natT_swo three_WF three_RB 5 5 rb_tree_black (by decide)
    (by decide) 10 (by decide) (by decide)

/-- C2: erasing the right leaf (key 3, address 4) of the well-formed red-black
tree 2(1, 3) returns, but the root keeps its right link to the destroyed node and
has its left link cleared, so the memory holds no tree any more and walking
from `begin()` reads the destroyed node. -/
theorem erase_right_leaf_breaks_links :
    WF three_tree three_abs ∧ three_abs.RB natT ∧ three_tree.find natT 10 3 = .ok 4 ∧
      ∃ s' nx, three_tree.erase natT 10 4 = .ok (s', nx) ∧
        s'.mem 2 = some (rb_tree_node.mk rb_tree_black 1 0 4 (some 2)) ∧
        s'.mem 4 = none ∧ s'.size = 2 ∧
        s'.to_list 10 = .error .wild_access ∧ ∀ t, ¬ WF s' t := by
  refine ⟨three_WF, three_RB, by decide, ?_⟩
  have h1 : (three_tree.erase natT 10 4).map
      (fun r => (r.1.header, r.1.mem 1, r.1.mem 2, r.1.mem 4, r.1.size)) =
      .ok (1, some (rb_tree_node.mk rb_tree_red 2 3 2 none),
        some (rb_tree_node.mk rb_tree_black 1 0 4 (some 2)), none, 2) := by decide
  have h2 : (three_tree.erase natT 10 4 >>= fun r => r.1.to_list 10) =
      .error .wild_access := by decide
  cases h : three_tree.erase natT 10 4 with
  | error e => rw [h] at h1; cases h1
  | ok r =>
    rw [h] at h1 h2
    simp only [Except.map, Except.ok.injEq, Prod.mk.injEq] at h1
    obtain ⟨a1, a2, a3, a4, a5⟩ := h1
    refine ⟨r.1, r.2, rfl, a3, a4, a5, h2, ?_⟩
    intro t hwf
    have hc := hwf.z.rctx
    have hs := hwf.z.rsub
    simp only [RepCtx, a1, a2, Option.some.injEq, rb_tree_node.mk.injEq] at hc
    cases t with
    | nil => simp [Tree.ptr] at hc
    | node a c l v r' =>
      simp only [Tree.ptr] at hc
      obtain ⟨_, ha, _, _⟩ := hc
      subst ha
      obtain ⟨_, hm, _, hr⟩ := hs
      rw [a3] at hm
      simp only [Option.some.injEq, rb_tree_node.mk.injEq] at hm
      cases r' with
      | nil => simp [Tree.ptr] at hm
      | node b c2 l2 v2 r2 =>
        simp only [Tree.ptr] at hm
        obtain ⟨_, _, _, hb, _⟩ := hm
        subst hb
        obtain ⟨_, hm4, _, _⟩ := hr
        rw [a4] at hm4
        cases hm4

/-- C3: in Scenario B (keys 50, 30, 70, 20, 40, 60, 80 inserted, then
`erase(find(30))`), the tree before the call iterates as 20 .. 80 and `find(30)`
is the node at address 3, but `erase` does not return: it dereferences a null
pointer while looking for the successor of the two-child node. -/
theorem erase_scenario_B_null_deref :
    (scenario_A >>= fun s => s.to_list 20) = .ok [20, 30, 40, 50, 60, 70, 80] ∧
      (scenario_A >>= fun s => s.find natT 20 30) = .ok 3 ∧
      (scenario_A >>= fun s => (s.erase natT 20 3).map (fun r => r.2)) = .error .null_deref ∧
      (scenario_A >>= fun s => (rb_tree_rebalance_for_erase 20 s.mem 3 s.header).map
        (fun r => r.2)) = .error .null_deref := by
  refine ⟨by decide, by decide, by decide, by decide⟩

end claims

section claims_lookup
variable {α κ : Type}

/-- C4: `insert_unique` run over any finite list of values into the empty tree
(fresh distinct node addresses, enough room below `max_size`) returns every
time, and iterating the result from `begin()` to `end()` yields keys in strictly
increasing order; each yielded element is one of the inserted values, each
inserted value has an equivalent key among the yielded ones, and the root is
black. -/
theorem insert_unique_sequence_sorted (T : Traits α κ) (hT : StrictWeakOrder T.key_compare)
    (m : Mem α) (h : Nat) (h0 : h ≠ 0) (ops : List (α × Nat × Bool))
    (hnd : (ops.map (fun x => x.2.1)).Nodup)
    (hfr : ∀ x ∈ ops, x.2.1 ≠ 0 ∧ x.2.1 ≠ h ∧ m x.2.1 = none)
    (fuel : Nat) (hf : ops.length + 2 ≤ fuel) (hc : ops.length ≤ T.max_size) :
    ∃ s' l, insert_unique_all T fuel ops (rb_tree_init m h) = .ok s' ∧
      s'.to_list fuel = .ok l ∧
      l.Pairwise (fun a b => T.key_compare (T.KeyOfValue a) (T.KeyOfValue b) = true) ∧
      (∀ w ∈ l, ∃ x ∈ ops, w = x.1) ∧
      (∀ x ∈ ops, ∃ w ∈ l, equiv T.key_compare (T.KeyOfValue w) (T.KeyOfValue x.1)) ∧
      s'.root_color = .ok rb_tree_black := by
  have hfr' : ∀ x ∈ ops, x.2.1 ≠ 0 ∧ (rb_tree_init m h).mem x.2.1 = none := by
    intro x hx
    obtain ⟨a, b, c⟩ := hfr x hx
    exact ⟨a, by simp only [rb_tree_init]; rw [upd_ne _ _ b]; exact c⟩
  obtain ⟨s', t', r1, r2, r3, r4, _, r6, r7, _, r9⟩ := insert_unique_all_spec T hT fuel ops
    (rb_tree_init m h) .nil (WF_init m h h0) (RB_nil T) (by simp [Tree.StrictOrdered]) hnd hfr'
    (by simp only [Tree.size]; omega) (by simp only [Tree.size]; omega)
  simp only [Tree.size, Nat.zero_add] at r6
  refine ⟨s', t'.toList, r1, to_list_spec r2 fuel (by omega), r4, ?_, r9,
    r2.root_color r3.root_black⟩
  intro w hw
  rcases r7 w hw with h' | h'
  · simp at h'
  · exact h'

theorem insert_unique_sequence_sorted_witness :
    (∃ s' l, insert_unique_all natT 20 (ops_from 2 [50, 30, 70, 20, 40, 60, 80])
        (rb_tree_init (fun _ => none) 1) = .ok s' ∧
      s'.to_list 20 = .ok l ∧
      l.Pairwise (fun a b => natT.key_compare (natT.KeyOfValue a) (natT.KeyOfValue b) = true) ∧
      (∀ w ∈ l, ∃ x ∈ ops_from 2 [50, 30, 70, 20, 40, 60, 80], w = x.1) ∧
      (∀ x ∈ ops_from 2 [50, 30, 70, 20, 40, 60, 80], ∃ w ∈ l,
        equiv natT.key_compare (natT.KeyOfValue w) (natT.KeyOfValue x.1)) ∧
      s'.root_color = .ok rb_tree_black) ∧
    (scenario_A >>= fun s => s.to_list 20) = .ok [20, 30, 40, 50, 60, 70, 80] ∧
    (scenario_A >>= fun s => s.root_color) = .ok rb_tree_black :=
  ⟨insert_unique_sequence_sorted natT natT_swo (fun _ => none) 1 (by decide)
    (ops_from 2 [50, 30, 70, 20, 40, 60, 80]) (by decide) (by decide) 20 (by decide) (by decide),
    by decide, by decide⟩

/-- C5: on a well-formed red-black tree, after `insert_unique(v)` and after
`insert_multi(v)` the call `find(key_of(v))` returns an iterator that is not
`end()` and designates an element whose key is equivalent to `key_of(v)`. -/
theorem find_after_insert (T : Traits α κ) (hT : StrictWeakOrder T.key_compare)
    {s : rb_tree α} {t : Tree α} (hwf : WF s t) (hrb : t.RB T) (v : α) (p : Nat) (junk : Bool)
    (hp0 : p ≠ 0) (hfresh : s.mem p = none) (fuel : Nat) (hf : t.size + 1 < fuel)
    (hcnt : s.node_count < T.max_size) :
    (∃ s' r it w, s.insert_unique T fuel v p junk = .ok (s', r) ∧
        s'.find T fuel (T.KeyOfValue v) = .ok it ∧ it ≠ s'.end_ ∧
        get_value s'.mem it = .ok w ∧
        equiv T.key_compare (T.KeyOfValue w) (T.KeyOfValue v)) ∧
      (∃ s' r it w, s.insert_multi T fuel v p junk = .ok (s', r) ∧
        s'.find T fuel (T.KeyOfValue v) = .ok it ∧ it ≠ s'.end_ ∧
        get_value s'.mem it = .ok w ∧
        equiv T.key_compare (T.KeyOfValue w) (T.KeyOfValue v)) := by
  have hnew : ∀ s', WF s' (ins_tree T v p junk t) →
      ∃ it w, s'.find T fuel (T.KeyOfValue v) = .ok it ∧ it ≠ s'.end_ ∧
        get_value s'.mem it = .ok w ∧
        equiv T.key_compare (T.KeyOfValue w) (T.KeyOfValue v) := by
    intro s' w1
    exact find_hit T hT w1 (ordered_ins_tree T hT v p junk t hrb.ordered) _ fuel
      (by rw [size_ins_tree]; exact hf)
      ⟨v, (mem_ins_tree T v p junk t v).2 (Or.inl rfl), hT.irrefl _, hT.irrefl _⟩
  constructor
  · cases hok : pred_ok T (T.KeyOfValue v) (ctxBefore (ins_path T v t)) with
    | true =>
      obtain ⟨s', e, _, w1, _⟩ := insert_unique_spec_new T hwf hrb.root_black v p junk hp0 hfresh
        fuel (by omega) hcnt hok
      obtain ⟨it, w, f1, f2, f3, f4⟩ := hnew s' w1
      exact ⟨s', _, it, w, e, f1, f2, f3, f4⟩
    | false =>
      have e := (insert_unique_spec_dup T hwf hrb.root_black v p junk hp0 hfresh fuel (by omega)
        hcnt hok).1
      have hex : ∃ e ∈ t.toList, equiv T.key_compare (T.KeyOfValue e) (T.KeyOfValue v) := by
        by_contra hcon
        have := (pred_ok_iff T hT v t hrb.ordered).2 (fun e he hq => hcon ⟨e, he, hq⟩)
        rw [hok] at this
        simp at this
      obtain ⟨it, w, f1, f2, f3, f4⟩ := find_hit T hT hwf hrb.ordered _ fuel (by omega) hex
      exact ⟨s, _, it, w, e, f1, f2, f3, f4⟩
  · obtain ⟨s', e, w1, _⟩ := insert_multi_spec T hwf hrb.root_black v p junk hp0 hfresh fuel
      (by omega) hcnt
    obtain ⟨it, w, f1, f2, f3, f4⟩ := hnew s' w1
    exact ⟨s', _, it, w, e, f1, f2, f3, f4⟩

theorem find_after_insert_witness :
    (∃ s' r it w, three_tree.insert_unique natT 10 5 5 rb_tree_black = .ok (s', r) ∧
        s'.find natT 10 (natT.KeyOfValue 5) = .ok it ∧ it ≠ s'.end_ ∧
        get_value s'.mem it = .ok w ∧
        equiv natT.key_compare (natT.KeyOfValue w) (natT.KeyOfValue 5)) ∧
      (∃ s' r it w, three_tree.insert_multi natT 10 5 5 rb_tree_black = .ok (s', r) ∧
        s'.find natT 10 (natT.KeyOfValue 5) = .ok it ∧ it ≠ s'.end_ ∧
        get_value s'.mem it = .ok w ∧
        equiv natT.key_compare (natT.KeyOfValue w) (natT.KeyOfValue 5)) :=
  find_after_insert natT natT_swo three_WF three_RB 5 5 rb_tree_black (by decide) (by decide) 10
    (by decide) (by decide)

/-- C6: on the well-formed red-black tree 2(1, 3), `find(3)` gives the node at
address 4 and `erase` of it returns, but the following `find(3)` does not return
`end()`: it follows the root's stale right link and reads the destroyed node. -/
theorem find_after_erase_reads_destroyed_node :
    WF three_tree three_abs ∧ three_abs.RB natT ∧ three_abs.StrictOrdered natT ∧
      three_tree.find natT 10 3 = .ok 4 ∧
      (three_tree.erase natT 10 4).map (fun r => (r.1.mem 4, r.2)) = .ok (none, 1) ∧
      (three_tree.erase natT 10 4 >>= fun r => r.1.find natT 10 3) = .error .wild_access :=
  ⟨three_WF, three_RB, three_strict, by decide, by decide, by decide⟩

end claims_lookup

section claims_bounds
variable {α κ : Type}

/-- C7: on a well-formed tree in BST order under a strict weak order, `find(k)`
returns; the result is `end()` exactly when no stored element has a key
equivalent to `k`, and otherwise it is the first node of the in-order sequence
whose key is equivalent to `k`. -/
theorem find_first_equivalent (T : Traits α κ) (hT : StrictWeakOrder T.key_compare)
    {s : rb_tree α} {t : Tree α} (hwf : WF s t) (ho : t.Ordered T) (key : κ) (fuel : Nat)
    (hf : t.size < fuel) :
    ∃ it, s.find T fuel key = .ok it ∧
      (it = s.end_ ↔ ∀ e ∈ t.toList, ¬ equiv T.key_compare (T.KeyOfValue e) key) ∧
      (it ≠ s.end_ → ∃ pre w post, t.nodes = pre ++ (it, w) :: post ∧
        get_value s.mem it = .ok w ∧ equiv T.key_compare (T.KeyOfValue w) key ∧
        ∀ e ∈ pre, ¬ equiv T.key_compare (T.KeyOfValue e.2) key) := by
  refine ⟨_, find_spec T hT hwf ho key fuel hf, ?_⟩
  rcases first_addr_cases (equivb T key) t.nodes s.header with ⟨h1, h2⟩ | ⟨pre, w, post, e1, e2, e3⟩
  · refine ⟨⟨fun _ => ?_, fun _ => h1⟩, fun hne => absurd h1 hne⟩
    intro e he hq
    simp only [Tree.toList, List.mem_map] at he
    obtain ⟨x, hx, rfl⟩ := he
    have := h2 x hx
    rw [(equivb_iff T key x).2 hq] at this
    simp at this
  · generalize first_addr (equivb T key) t.nodes s.header = a at e1 e2
    have hm : (a, w) ∈ t.nodes := by rw [e1]; simp
    have hne : a ≠ s.end_ := hwf.not_header hm
    refine ⟨⟨fun h => absurd h hne, fun h => ?_⟩, fun _ => ⟨pre, w, post, e1,
      Rep_get_value hwf.z.rsub hm, (equivb_iff T key _).1 e2, ?_⟩⟩
    · exfalso
      refine h w ?_ ((equivb_iff T key (a, w)).1 e2)
      simp only [Tree.toList, List.mem_map]
      exact ⟨(a, w), hm, rfl⟩
    · intro e he hq
      have := e3 e he
      rw [(equivb_iff T key e).2 hq] at this
      simp at this

theorem find_first_equivalent_witness :
    (∃ it, three_tree.find natT 10 3 = .ok it ∧
      (it = three_tree.end_ ↔
        ∀ e ∈ three_abs.toList, ¬ equiv natT.key_compare (natT.KeyOfValue e) 3) ∧
      (it ≠ three_tree.end_ → ∃ pre w post, three_abs.nodes = pre ++ (it, w) :: post ∧
        get_value three_tree.mem it = .ok w ∧ equiv natT.key_compare (natT.KeyOfValue w) 3 ∧
        ∀ e ∈ pre, ¬ equiv natT.key_compare (natT.KeyOfValue e.2) 3)) ∧
    three_tree.find natT 10 3 = .ok 4 ∧ three_tree.find natT 10 7 = .ok three_tree.end_ :=
  ⟨find_first_equivalent natT natT_swo three_WF three_RB.ordered 3 10 (by decide), by decide,
    by decide⟩

/-- C8: on a well-formed tree in BST order, `lower_bound(k)` returns the first
node of the in-order sequence whose key is not less than `k`, and
`upper_bound(k)` the first one whose key is greater than `k`; each returns
`end()` when the tree has no such element. -/
theorem lower_upper_bound_first (T : Traits α κ) (hT : StrictWeakOrder T.key_compare)
    {s : rb_tree α} {t : Tree α} (hwf : WF s t) (ho : t.Ordered T) (key : κ) (fuel : Nat)
    (hf : t.size < fuel) :
    (∃ it, s.lower_bound T fuel key = .ok it ∧
      ((it = s.end_ ∧ ∀ e ∈ t.nodes, T.key_compare (T.KeyOfValue e.2) key = true) ∨
        (∃ pre w post, t.nodes = pre ++ (it, w) :: post ∧ get_value s.mem it = .ok w ∧
          T.key_compare (T.KeyOfValue w) key = false ∧
          ∀ e ∈ pre, T.key_compare (T.KeyOfValue e.2) key = true))) ∧
      (∃ it, s.upper_bound T fuel key = .ok it ∧
        ((it = s.end_ ∧ ∀ e ∈ t.nodes, T.key_compare key (T.KeyOfValue e.2) = false) ∨
          (∃ pre w post, t.nodes = pre ++ (it, w) :: post ∧ get_value s.mem it = .ok w ∧
            T.key_compare key (T.KeyOfValue w) = true ∧
            ∀ e ∈ pre, T.key_compare key (T.KeyOfValue e.2) = false))) := by
  constructor
  · refine ⟨_, lower_bound_spec T hT hwf ho key fuel hf, ?_⟩
    rcases first_addr_cases (fun e => !T.key_compare (T.KeyOfValue e.2) key) t.nodes s.header with
      ⟨h1, h2⟩ | ⟨pre, w, post, e1, e2, e3⟩
    · exact Or.inl ⟨h1, fun e he => by simpa using h2 e he⟩
    · generalize first_addr (fun e => !T.key_compare (T.KeyOfValue e.2) key) t.nodes s.header = a
        at e1 e2
      have hm : (a, w) ∈ t.nodes := by rw [e1]; simp
      exact Or.inr ⟨pre, w, post, e1, Rep_get_value hwf.z.rsub hm, by simpa using e2,
        fun e he => by simpa using e3 e he⟩
  · refine ⟨_, upper_bound_spec T hT hwf ho key fuel hf, ?_⟩
    rcases first_addr_cases (fun e => T.key_compare key (T.KeyOfValue e.2)) t.nodes s.header with
      ⟨h1, h2⟩ | ⟨pre, w, post, e1, e2, e3⟩
    · exact Or.inl ⟨h1, h2⟩
    · generalize first_addr (fun e => T.key_compare key (T.KeyOfValue e.2)) t.nodes s.header = a
        at e1 e2
      have hm : (a, w) ∈ t.nodes := by rw [e1]; simp
      exact Or.inr ⟨pre, w, post, e1, Rep_get_value hwf.z.rsub hm, e2, e3⟩

theorem lower_upper_bound_first_witness :
    ((∃ it, three_tree.lower_bound natT 10 2 = .ok it ∧
      ((it = three_tree.end_ ∧
          ∀ e ∈ three_abs.nodes, natT.key_compare (natT.KeyOfValue e.2) 2 = true) ∨
        (∃ pre w post, three_abs.nodes = pre ++ (it, w) :: post ∧
          get_value three_tree.mem it = .ok w ∧
          natT.key_compare (natT.KeyOfValue w) 2 = false ∧
          ∀ e ∈ pre, natT.key_compare (natT.KeyOfValue e.2) 2 = true))) ∧
      (∃ it, three_tree.upper_bound natT 10 2 = .ok it ∧
        ((it = three_tree.end_ ∧
            ∀ e ∈ three_abs.nodes, natT.key_compare 2 (natT.KeyOfValue e.2) = false) ∨
          (∃ pre w post, three_abs.nodes = pre ++ (it, w) :: post ∧
            get_value three_tree.mem it = .ok w ∧
            natT.key_compare 2 (natT.KeyOfValue w) = true ∧
            ∀ e ∈ pre, natT.key_compare 2 (natT.KeyOfValue e.2) = false)))) ∧
    three_tree.lower_bound natT 10 2 = .ok 2 ∧ three_tree.upper_bound natT 10 2 = .ok 4 ∧
    three_tree.upper_bound natT 10 3 = .ok three_tree.end_ :=
  ⟨lower_upper_bound_first natT natT_swo three_WF three_RB.ordered 2 10 (by decide), by decide,
    by decide, by decide⟩

/-- C9: on a well-formed red-black tree, `insert_unique(v)` returns, and its
flag is true exactly when the tree held no element with a key equivalent to
`key_of(v)`; when the flag is true, `size()` has grown by one, the returned
iterator is the newly allocated node, that node holds `v`, and iteration yields
the old sequence with `v` put in. -/
theorem insert_unique_flag (T : Traits α κ) (hT : StrictWeakOrder T.key_compare)
    {s : rb_tree α} {t : Tree α} (hwf : WF s t) (hrb : t.RB T) (v : α) (p : Nat) (junk : Bool)
    (hp0 : p ≠ 0) (hfresh : s.mem p = none) (fuel : Nat) (hf : t.size + 3 ≤ fuel)
    (hcnt : s.node_count < T.max_size) :
    ∃ s' it b, s.insert_unique T fuel v p junk = .ok (s', (it, b)) ∧
      (b = true ↔ ∀ e ∈ t.toList, ¬ equiv T.key_compare (T.KeyOfValue e) (T.KeyOfValue v)) ∧
      (b = true → s'.size = s.size + 1 ∧ it = p ∧ it ≠ s'.end_ ∧ get_value s'.mem it = .ok v ∧
        ∃ l1 l2, s.to_list fuel = .ok (l1 ++ l2) ∧ s'.to_list fuel = .ok (l1 ++ v :: l2)) := by
  have hiff := pred_ok_iff T hT v t hrb.ordered
  cases hok : pred_ok T (T.KeyOfValue v) (ctxBefore (ins_path T v t)) with
  | true =>
    obtain ⟨s', e, _, w1, _⟩ := insert_unique_spec_new T hwf hrb.root_black v p junk hp0 hfresh
      fuel (by omega) hcnt hok
    have hsz := size_ins_tree T v p junk t
    have hm : (p, v) ∈ (ins_tree T v p junk t).nodes := by rw [nodes_ins_tree]; simp
    obtain ⟨l1, l2, q1, q2⟩ := toList_ins_tree T v p junk t
    refine ⟨s', p, true, e, ⟨fun _ => hiff.1 hok, fun _ => rfl⟩, fun _ => ⟨?_, rfl,
      w1.not_header hm, Rep_get_value w1.z.rsub hm, l1, l2, ?_, ?_⟩⟩
    · simp only [rb_tree.size, w1.count, hwf.count, hsz]
    · rw [to_list_spec hwf fuel (by omega), q1]
    · rw [to_list_spec w1 fuel (by omega), q2]
  | false =>
    have e := (insert_unique_spec_dup T hwf hrb.root_black v p junk hp0 hfresh fuel (by omega)
      hcnt hok).1
    refine ⟨s, _, false, e, ⟨fun h => (by cases h), fun h => ?_⟩, fun h => (by cases h)⟩
    have := hiff.2 h
    rw [hok] at this
    exact this

theorem insert_unique_flag_witness :
    (∃ s' it b, three_tree.insert_unique natT 10 5 5 rb_tree_black = .ok (s', (it, b)) ∧
      (b = true ↔ ∀ e ∈ three_abs.toList,
        ¬ equiv natT.key_compare (natT.KeyOfValue e) (natT.KeyOfValue 5)) ∧
      (b = true → s'.size = three_tree.size + 1 ∧ it = 5 ∧ it ≠ s'.end_ ∧
        get_value s'.mem it = .ok 5 ∧
        ∃ l1 l2, three_tree.to_list 10 = .ok (l1 ++ l2) ∧
          s'.to_list 10 = .ok (l1 ++ 5 :: l2))) ∧
    (three_tree.insert_unique natT 10 5 5 rb_tree_black).map (fun r => (r.1.size, r.2)) =
      .ok (4, (5, true)) ∧
    (three_tree.insert_unique natT 10 3 5 rb_tree_black).map (fun r => (r.1.size, r.2)) =
      .ok (3, (4, false)) :=
  ⟨insert_unique_flag natT natT_swo three_WF three_RB 5 5 rb_tree_black (by decide) (by decide)
    10 (by decide) (by decide), by decide, by decide⟩

/-- C10: on a well-formed red-black tree with `size()` below `max_size`, if an
element with a key equivalent to `key_of(v)` is stored, `insert_unique(v)` and
`emplace_unique(v)` return the flag false and the very state they were called
on; and (with room for two nodes) a second `insert_unique(v)` after a first one
returns false and leaves the state, hence `size()`, as the first call left
it. -/
theorem insert_unique_duplicate_unchanged (T : Traits α κ)
    (hT : StrictWeakOrder T.key_compare) {s : rb_tree α} {t : Tree α} (hwf : WF s t)
    (hrb : t.RB T) (v : α) (p : Nat) (junk : Bool) (hp0 : p ≠ 0) (hfresh : s.mem p = none)
    (fuel : Nat) (hf : t.size + 1 < fuel) (hcnt : s.node_count < T.max_size) :
    ((∃ e ∈ t.toList, equiv T.key_compare (T.KeyOfValue e) (T.KeyOfValue v)) →
      ∃ it, s.insert_unique T fuel v p junk = .ok (s, (it, false)) ∧
        s.emplace_unique T fuel v p junk = .ok (s, (it, false))) ∧
    (∀ (q : Nat) (junk2 : Bool), q ≠ 0 → q ≠ p → s.mem q = none →
      s.node_count + 1 < T.max_size →
      ∃ s1 r1 it2, s.insert_unique T fuel v p junk = .ok (s1, r1) ∧
        s1.insert_unique T fuel v q junk2 = .ok (s1, (it2, false)) ∧
        s1.emplace_unique T fuel v q junk2 = .ok (s1, (it2, false))) := by
  have hdup : ∀ (s0 : rb_tree α) (t0 : Tree α), WF s0 t0 → t0.RB T → t0.size < fuel →
      s0.node_count < T.max_size → ∀ (q : Nat) (j : Bool), q ≠ 0 → s0.mem q = none →
      (∃ e ∈ t0.toList, equiv T.key_compare (T.KeyOfValue e) (T.KeyOfValue v)) →
      ∃ it, s0.insert_unique T fuel v q j = .ok (s0, (it, false)) ∧
        s0.emplace_unique T fuel v q j = .ok (s0, (it, false)) := by
    intro s0 t0 w0 rb0 hf0 hc0 q j hq0 hqf hex
    cases hok : pred_ok T (T.KeyOfValue v) (ctxBefore (ins_path T v t0)) with
    | true =>
      obtain ⟨e, he, hq⟩ := hex
      exact absurd hq ((pred_ok_iff T hT v t0 rb0.ordered).1 hok e he)
    | false =>
      exact ⟨_, insert_unique_spec_dup T w0 rb0.root_black v q j hq0 hqf fuel hf0 hc0 hok⟩
  refine ⟨hdup s t hwf hrb (by omega) (by omega) p junk hp0 hfresh, ?_⟩
  intro q junk2 hq0 hqp hqf hcnt2
  cases hok : pred_ok T (T.KeyOfValue v) (ctxBefore (ins_path T v t)) with
  | true =>
    obtain ⟨s1, e, _, w1, _, w3⟩ := insert_unique_spec_new T hwf hrb.root_black v p junk hp0
      hfresh fuel (by omega) (by omega) hok
    have hsz := size_ins_tree T v p junk t
    have hqf1 : s1.mem q = none := by
      rw [w3 q (fun e => hwf.hdr_live (e ▸ hqf)) hqp (fun hm => Rep_live hwf.z.rsub _ hm hqf)]
      exact hqf
    obtain ⟨it, h1, h2⟩ := hdup s1 _ w1 (rb_ins_tree T hT v p junk t hrb) (by omega)
      (by rw [w1.count, hsz, ← hwf.count]; exact hcnt2) q junk2 hq0 hqf1
      ⟨v, (mem_ins_tree T v p junk t v).2 (Or.inl rfl), hT.irrefl _, hT.irrefl _⟩
    exact ⟨s1, _, it, e, h1, h2⟩
  | false =>
    have e := (insert_unique_spec_dup T hwf hrb.root_black v p junk hp0 hfresh fuel (by omega)
      (by omega) hok).1
    have hex : ∃ e ∈ t.toList, equiv T.key_compare (T.KeyOfValue e) (T.KeyOfValue v) := by
      by_contra hcon
      have := (pred_ok_iff T hT v t hrb.ordered).2 (fun e he hq => hcon ⟨e, he, hq⟩)
      rw [hok] at this
      simp at this
    obtain ⟨it, h1, h2⟩ := hdup s t hwf hrb (by omega) (by omega) q junk2 hq0 hqf hex
    exact ⟨s, _, it, e, h1, h2⟩

theorem insert_unique_duplicate_unchanged_witness :
    (∃ it, three_tree.insert_unique natT 10 3 5 rb_tree_black = .ok (three_tree, (it, false)) ∧
      three_tree.emplace_unique natT 10 3 5 rb_tree_black = .ok (three_tree, (it, false))) ∧
    (∃ s1 r1 it2, three_tree.insert_unique natT 10 7 5 rb_tree_black = .ok (s1, r1) ∧
      s1.insert_unique natT 10 7 6 rb_tree_red = .ok (s1, (it2, false)) ∧
      s1.emplace_unique natT 10 7 6 rb_tree_red = .ok (s1, (it2, false))) :=
  ⟨(insert_unique_duplicate_unchanged natT natT_swo three_WF three_RB 3 5 rb_tree_black
      (by decide) (by decide) 10 (by decide) (by decide)).1
      ⟨3, by decide, by decide, by decide⟩,
    (insert_unique_duplicate_unchanged natT natT_swo three_WF three_RB 7 5 rb_tree_black
      (by decide) (by decide) 10 (by decide) (by decide)).2 6 rb_tree_red (by decide) (by decide)
      (by decide) (by decide)⟩

end claims_bounds

/-! ## Statements about duplicates, `erase_unique` and `map::at` -/

section claims_dup
variable {α κ : Type}

/-- C11: on the well-formed tree 2(1, 3), `insert_unique(2)` fails (flag false)
but the iterator it returns is the node at address 4, which holds 3, a key
greater than 2; the element with key 2 is at address 2, where `find(2)` points. -/
theorem insert_unique_failed_returns_parent :
    WF three_tree three_abs ∧ three_abs.RB natT ∧
      (three_tree.insert_unique natT 10 2 5 rb_tree_red).map (fun r => r.2) = .ok (4, false) ∧
      get_value three_tree.mem 4 = .ok 3 ∧ natT.key_compare 2 3 = true ∧
      three_tree.find natT 10 2 = .ok 2 ∧ get_value three_tree.mem 2 = .ok 2 ∧
      (three_tree.get_insert_unique_pos natT 10 2) = .ok ((4, true), false) :=
  ⟨three_WF, three_RB, by decide, by decide, by decide, by decide, by decide, by decide⟩

/-- C13 (as stated, refuted): in the multimap built from 2 ↦ 20, 1 ↦ 10, 3 ↦ 30,
`insert_multi` of 2 ↦ 99 meets the equal key 2 at the root and goes right: the
new element follows the stored 2 ↦ 20 in iteration order. -/
theorem insert_multi_equal_goes_right :
    (multi_123 >>= fun s => s.get_insert_multi_pos pairT 20 2) = .ok (4, true) ∧
      (multi_123 >>= fun s => get_value s.mem 4) = .ok (3, 30) ∧
      (multi_123 >>= fun s => s.insert_multi pairT 20 (2, 99) 5 rb_tree_red >>=
        fun r => r.1.to_list 20) = .ok [(1, 10), (2, 20), (2, 99), (3, 30)] ∧
      ¬ ∃ l1 l2, (multi_123 >>= fun s => s.insert_multi pairT 20 (2, 99) 5 rb_tree_red >>=
        fun r => r.1.to_list 20) = .ok (l1 ++ (2, 99) :: l2) ∧ (2, 20) ∈ l2 := by
  have h : (multi_123 >>= fun s => s.insert_multi pairT 20 (2, 99) 5 rb_tree_red >>=
      fun r => r.1.to_list 20) = .ok [(1, 10), (2, 20), (2, 99), (3, 30)] := by decide
  refine ⟨by decide, by decide, h, ?_⟩
  rintro ⟨l1, l2, e, hm⟩
  rw [h] at e
  simp only [Except.ok.injEq] at e
  have hl : l2 = [(3, 30)] := by
    match l1, e with
    | [], e => simp at e
    | [_], e => simp at e
    | [_, _], e =>
      simp only [List.cons_append, List.nil_append, List.cons.injEq] at e
      exact e.2.2.2.symm
    | [_, _, _], e => simp at e
    | _ :: _ :: _ :: _ :: l, e =>
      have := congrArg List.length e
      simp at this
  rw [hl] at hm
  simp at hm

/-- C13 (amended): on a well-formed red-black multi-key tree within capacity,
`insert_multi(v)` returns, and iteration afterwards is the old sequence with `v`
put in after every element whose key is not greater than `key_of(v)` (so after
all equivalent ones) and before every element with a greater key. -/
theorem insert_multi_after_equivalents (T : Traits α κ) (hT : StrictWeakOrder T.key_compare)
    {s : rb_tree α} {t : Tree α} (hwf : WF s t) (hrb : t.RB T) (v : α) (p : Nat) (junk : Bool)
    (hp0 : p ≠ 0) (hfresh : s.mem p = none) (fuel : Nat) (hf : t.size + 3 ≤ fuel)
    (hcnt : s.node_count < T.max_size) :
    ∃ s' l1 l2, s.insert_multi T fuel v p junk = .ok (s', p) ∧
      s.to_list fuel = .ok (l1 ++ l2) ∧ s'.to_list fuel = .ok (l1 ++ v :: l2) ∧
      (∀ e ∈ l1, T.key_compare (T.KeyOfValue v) (T.KeyOfValue e) = false) ∧
      (∀ e ∈ l2, T.key_compare (T.KeyOfValue v) (T.KeyOfValue e) = true) := by
  obtain ⟨s', e, w, _⟩ := insert_multi_spec T hwf hrb.root_black v p junk hp0 hfresh fuel
    (by omega) hcnt
  obtain ⟨hb, ha⟩ := ins_path_sides T hT v t hrb.ordered
  have hsz := size_ins_tree T v p junk t
  refine ⟨s', (ctxBefore (ins_path T v t)).map Prod.snd,
    (ctxAfter (ins_path T v t)).map Prod.snd, e, ?_, ?_, ?_, ?_⟩
  · rw [to_list_spec hwf fuel (by omega)]
    simp [Tree.toList, nodes_ins_path T v t]
  · rw [to_list_spec w fuel (by omega)]
    simp [Tree.toList, nodes_ins_tree]
  · intro e he
    simp only [List.mem_map] at he
    obtain ⟨x, hx, rfl⟩ := he
    exact hb x hx
  · intro e he
    simp only [List.mem_map] at he
    obtain ⟨x, hx, rfl⟩ := he
    exact ha x hx

theorem insert_multi_after_equivalents_witness :
    ∃ s' l1 l2, three_tree.insert_multi natT 10 2 5 rb_tree_red = .ok (s', 5) ∧
      three_tree.to_list 10 = .ok (l1 ++ l2) ∧ s'.to_list 10 = .ok (l1 ++ 2 :: l2) ∧
      (∀ e ∈ l1, natT.key_compare (natT.KeyOfValue 2) (natT.KeyOfValue e) = false) ∧
      (∀ e ∈ l2, natT.key_compare (natT.KeyOfValue 2) (natT.KeyOfValue e) = true) :=
  insert_multi_after_equivalents natT natT_swo three_WF three_RB 2 5 rb_tree_red (by decide)
    (by decide) 10 (by decide) (by decide)

/-- C15: on the well-formed tree 2(1, 3), which holds no key 7, `find(7)` is
`end()` and `erase_unique(7)` removes nothing (size and iteration are as before)
yet returns 1. -/
theorem erase_unique_absent_returns_one :
    WF three_tree three_abs ∧ three_abs.RB natT ∧
      three_tree.find natT 10 7 = .ok three_tree.end_ ∧
      (three_tree.erase_unique natT 10 7).map (fun r => (r.2, r.1.size)) = .ok (1, 3) ∧
      (three_tree.erase_unique natT 10 7 >>= fun r => r.1.to_list 10) = .ok [1, 2, 3] :=
  ⟨three_WF, three_RB, by decide, by decide, by decide⟩

/-- C16: in the map holding 1 ↦ 10 and 3 ↦ 30 there is no key 2 (`find(2)` is
`end()`), yet `at(2)` does not signal out-of-range: `lower_bound(2)` is the
element 3 ↦ 30, the test `key_comp()(it->first, key)` is false for it, and
`at(2)` returns 30.  Only a key above every stored key is rejected. -/
theorem map_at_absent_key_returns_next :
    (map_13 >>= fun s => s.to_list 20) = .ok [(1, 10), (3, 30)] ∧
      (map_13 >>= fun s => (s.find pairT 20 2).map (fun it => decide (it = s.end_))) =
        .ok true ∧
      (map_13 >>= fun s => map_at pairT 20 s 2) = .ok 30 ∧
      (map_13 >>= fun s => map_at pairT 20 s 0) = .ok 10 ∧
      (map_13 >>= fun s => map_at pairT 20 s 3) = .ok 30 ∧
      (map_13 >>= fun s => map_at pairT 20 s 4) = .error .out_of_range :=
  ⟨by decide, by decide, by decide, by decide, by decide, by decide⟩

end claims_dup

/-! ## Statements about height, teardown and copies -/

section claims_shape
variable {α κ : Type}

/-- C14: for a tree built from the empty tree by any finite sequence of
`insert_unique` calls (fresh distinct node addresses, room below `max_size`),
every call returns and the height `h` of the result, counted in nodes on the
longest path from the root down, satisfies `2 ^ ceil(h / 2) <= size() + 1`. -/
theorem insert_unique_height_bound (T : Traits α κ) (hT : StrictWeakOrder T.key_compare)
    (m : Mem α) (h : Nat) (h0 : h ≠ 0) (ops : List (α × Nat × Bool))
    (hnd : (ops.map (fun x => x.2.1)).Nodup)
    (hfr : ∀ x ∈ ops, x.2.1 ≠ 0 ∧ x.2.1 ≠ h ∧ m x.2.1 = none)
    (fuel : Nat) (hf : ops.length + 2 ≤ fuel) (hc : ops.length ≤ T.max_size) :
    ∃ s' ht, insert_unique_all T fuel ops (rb_tree_init m h) = .ok s' ∧
      s'.height fuel = .ok ht ∧ 2 ^ ((ht + 1) / 2) ≤ s'.size + 1 := by
  have hfr' : ∀ x ∈ ops, x.2.1 ≠ 0 ∧ (rb_tree_init m h).mem x.2.1 = none := by
    intro x hx
    obtain ⟨a, b, c⟩ := hfr x hx
    exact ⟨a, by simp only [rb_tree_init]; rw [upd_ne _ _ b]; exact c⟩
  obtain ⟨s', t', r1, r2, r3, _, _, r6, _⟩ := insert_unique_all_spec T hT fuel ops
    (rb_tree_init m h) .nil (WF_init m h h0) (RB_nil T) (by simp [Tree.StrictOrdered]) hnd hfr'
    (by simp only [Tree.size]; omega) (by simp only [Tree.size]; omega)
  simp only [Tree.size, Nat.zero_add] at r6
  have hh := t'.height_le_size
  refine ⟨s', t'.height, r1, r2.height_eq fuel (by omega), ?_⟩
  rw [rb_tree.size, r2.count]
  exact r3.height_bound T

theorem insert_unique_height_bound_witness :
    (∃ s' ht, insert_unique_all natT 40
        (ops_from 2 [1, 2, 3, 4, 5, 6, 7, 8, 9, 10, 11, 12, 13, 14, 15])
        (rb_tree_init (fun _ => none) 1) = .ok s' ∧
      s'.height 40 = .ok ht ∧ 2 ^ ((ht + 1) / 2) ≤ s'.size + 1) ∧
    (insert_unique_all natT 40 (ops_from 2 [1, 2, 3, 4, 5, 6, 7, 8, 9, 10, 11, 12, 13, 14, 15])
        (rb_tree_init (fun _ => none) 1) >>= fun s => s.height 40) = .ok 6 :=
  ⟨insert_unique_height_bound natT natT_swo (fun _ => none) 1 (by decide)
    (ops_from 2 [1, 2, 3, 4, 5, 6, 7, 8, 9, 10, 11, 12, 13, 14, 15]) (by decide) (by decide) 40
    (by decide) (by decide), by decide⟩

/-- C19: on a well-formed tree, `clear()` and `erase(begin(), end())` both
return and leave the same state, the empty tree: `size()` is 0, the root link is
null, `leftmost()` and `rightmost()` are the header, `begin()` equals `end()`,
and every node the tree had is destroyed. -/
theorem clear_leaves_empty_tree (T : Traits α κ) {s : rb_tree α} {t : Tree α} (hwf : WF s t)
    (fuel : Nat) (hf : t.height < fuel) :
    ∃ s' b, s.clear fuel = .ok s' ∧ s.begin = .ok b ∧
      s.erase_range T fuel b s.end_ = .ok s' ∧ WF s' .nil ∧ s'.size = 0 ∧
      get_parent s'.mem s'.header = .ok 0 ∧ get_left s'.mem s'.header = .ok s'.header ∧
      get_right s'.mem s'.header = .ok s'.header ∧ s'.begin = .ok s'.end_ ∧
      ∀ a ∈ t.addrs, s'.mem a = none := by
  obtain ⟨s', e, w, _, fr, _⟩ := clear_spec hwf fuel hf
  have hd := w.z.rd_header
  simp only [plug_nil, Tree.ptr_nil, Tree.first, Tree.last, Tree.addrs_nil, List.head?_nil,
    List.getLast?_nil, Option.getD_none] at hd
  refine ⟨s', t.first s.header, e, hwf.begin_eq, ?_, w, w.count, get_parent_ok hd,
    get_left_ok hd, get_right_ok hd, ?_, fr⟩
  · simp [rb_tree.erase_range, hwf.begin_eq, rb_tree.end_, e]
  · simp [rb_tree.begin, get_left_ok hd, rb_tree.end_]

theorem clear_leaves_empty_tree_witness :
    (∃ s' b, three_tree.clear 10 = .ok s' ∧ three_tree.begin = .ok b ∧
      three_tree.erase_range natT 10 b three_tree.end_ = .ok s' ∧ WF s' .nil ∧ s'.size = 0 ∧
      get_parent s'.mem s'.header = .ok 0 ∧ get_left s'.mem s'.header = .ok s'.header ∧
      get_right s'.mem s'.header = .ok s'.header ∧ s'.begin = .ok s'.end_ ∧
      ∀ a ∈ three_abs.addrs, s'.mem a = none) ∧
    (three_tree.clear 10).map (fun r => (r.size, r.mem 1)) =
      .ok (0, some (rb_tree_node.mk rb_tree_red 0 1 1 none)) ∧
    (three_tree.clear 10).map (fun r => (r.mem 2, r.mem 3, r.mem 4)) = .ok (none, none, none) :=
  ⟨clear_leaves_empty_tree natT three_WF 10 (by decide), by decide, by decide⟩

end claims_shape

/-! ## Statements about the length check -/

section claims_length
variable {α κ : Type}

/-- C20: for every tree object whose `node_count` is a value of `size_type`
(at least one bit wide), each single-element insertion, `insert_unique`,
`insert_multi`, `emplace_unique`, `emplace_multi` and the hinted
`emplace_unique_use_hint` and `emplace_multi_use_hint` (to which the hinted
`insert_unique` and `insert_multi` forward), signals `length_error` exactly when
`size()` equals `max_size()`, signals no other exception, and leaves the tree as
it was passed in when it throws (`LengthChecked`). -/
theorem insertions_length_checked (T : Traits α κ) (s : rb_tree α) (hw : 0 < T.size_bits)
    (hn : s.node_count ≤ T.max_size) (fuel : Nat) (v : α) (p : Nat) (junk : Bool)
    (hint : Nat) :
    LengthChecked T s (s.insert_unique T fuel v p junk) ∧
      LengthChecked T s (s.insert_multi T fuel v p junk) ∧
      LengthChecked T s (s.emplace_unique T fuel v p junk) ∧
      LengthChecked T s (s.emplace_multi T fuel v p junk) ∧
      LengthChecked T s (s.emplace_unique_use_hint T fuel hint v p junk) ∧
      LengthChecked T s (s.emplace_multi_use_hint T fuel hint v p junk) := by
  refine ⟨?_, ?_, ?_, ?_, ?_, ?_⟩
  · unfold rb_tree.insert_unique
    refine length_checked_of_guard T s hw hn _ ?_
    repeat' first | with_reducible refine not_throws_bind ?_ (fun _ => ?_) | split | simp
  · unfold rb_tree.insert_multi
    refine length_checked_of_guard T s hw hn _ ?_
    repeat' first | with_reducible refine not_throws_bind ?_ (fun _ => ?_) | split | simp
  · unfold rb_tree.emplace_unique
    refine length_checked_of_guard T s hw hn _ ?_
    repeat' first | with_reducible refine not_throws_bind ?_ (fun _ => ?_) | split | simp
  · unfold rb_tree.emplace_multi
    refine length_checked_of_guard T s hw hn _ ?_
    repeat' first | with_reducible refine not_throws_bind ?_ (fun _ => ?_) | split | simp
  · unfold rb_tree.emplace_unique_use_hint
    refine length_checked_of_guard T s hw hn _ ?_
    repeat' first | with_reducible refine not_throws_bind ?_ (fun _ => ?_) | split | simp
  · unfold rb_tree.emplace_multi_use_hint
    refine length_checked_of_guard T s hw hn _ ?_
    repeat' first | with_reducible refine not_throws_bind ?_ (fun _ => ?_) | split | simp

theorem insertions_length_checked_witness :
    (LengthChecked smallT three_tree (three_tree.insert_unique smallT 10 5 5 rb_tree_red) ∧
      LengthChecked smallT three_tree (three_tree.insert_multi smallT 10 5 5 rb_tree_red) ∧
      LengthChecked smallT three_tree (three_tree.emplace_unique smallT 10 5 5 rb_tree_red) ∧
      LengthChecked smallT three_tree (three_tree.emplace_multi smallT 10 5 5 rb_tree_red) ∧
      LengthChecked smallT three_tree
        (three_tree.emplace_unique_use_hint smallT 10 4 5 5 rb_tree_red) ∧
      LengthChecked smallT three_tree
        (three_tree.emplace_multi_use_hint smallT 10 4 5 5 rb_tree_red)) ∧
    three_tree.size = smallT.max_size ∧
    (three_tree.insert_unique smallT 10 5 5 rb_tree_red).map (fun r => r.2) =
      .error .length_error ∧
    (three_tree.emplace_multi_use_hint smallT 10 4 5 5 rb_tree_red).map (fun r => r.2) =
      .error .length_error ∧
    (three_tree.insert_unique natT 10 5 5 rb_tree_red).map (fun r => r.2) = .ok (5, true) ∧
    (three_tree.emplace_multi_use_hint natT 10 4 5 5 rb_tree_red).map (fun r => r.2) = .ok 5 :=
  ⟨insertions_length_checked smallT three_tree (by decide) (by decide) 10 5 5 rb_tree_red 4,
    by decide, by decide, by decide, by decide, by decide⟩

end claims_length

/-! ## Statements about runs of equal keys -/

section claims_multi
variable {α κ : Type}

/-- C12: on a well-formed red-black tree that holds no element equivalent to
`k`, `n` calls of `insert_multi` with values whose keys are equivalent to `k`
(fresh distinct node addresses, room below `max_size`) all return; iteration
afterwards is the old sequence with the `n` new values, in insertion order, as
one block, and no other element is equivalent to `k`; `equal_range_multi(k)` is
`(lower_bound(k), upper_bound(k))`, iterating from its first to its second
component yields exactly that block, and `count_multi(k)` is `n`. -/
theorem insert_multi_same_key_block (T : Traits α κ) (hT : StrictWeakOrder T.key_compare)
    {s : rb_tree α} {t : Tree α} (hwf : WF s t) (hrb : t.RB T) (k : κ)
    (hno : ∀ e ∈ t.toList, ¬ equiv T.key_compare (T.KeyOfValue e) k)
    (ops : List (α × Nat × Bool))
    (hk : ∀ x ∈ ops, equiv T.key_compare (T.KeyOfValue x.1) k)
    (hnd : (ops.map (fun x => x.2.1)).Nodup)
    (hfr : ∀ x ∈ ops, x.2.1 ≠ 0 ∧ s.mem x.2.1 = none)
    (fuel : Nat) (hf : t.size + ops.length + 2 ≤ fuel)
    (hc : t.size + ops.length ≤ T.max_size) :
    ∃ s' l1 l2 lo hi, insert_multi_all T fuel ops s = .ok s' ∧
      s.to_list fuel = .ok (l1 ++ l2) ∧
      s'.to_list fuel = .ok (l1 ++ ops.map (fun x => x.1) ++ l2) ∧
      (∀ e ∈ l1 ++ l2, ¬ equiv T.key_compare (T.KeyOfValue e) k) ∧
      s'.lower_bound T fuel k = .ok lo ∧ s'.upper_bound T fuel k = .ok hi ∧
      s'.equal_range_multi T fuel k = .ok (lo, hi) ∧
      walk fuel fuel s'.mem lo hi = .ok (ops.map (fun x => x.1)) ∧
      s'.count_multi T fuel k = .ok ops.length := by
  obtain ⟨A, B, C, hn, hA, hB, hC⟩ := ordered_split T hT k t.nodes (Ordered_nodes T hrb.ordered)
  have hB0 : B = [] := by
    cases B with
    | nil => rfl
    | cons b B =>
      exfalso
      refine hno b.2 ?_ (hB b (by simp))
      simp [Tree.toList, hn]
  subst hB0
  obtain ⟨s', t', r1, r2, r3, r4, _⟩ := insert_multi_all_spec T hT fuel k ops s t A [] C hwf hrb
    hn hA hB hC hk hnd hfr (by omega) hc
  simp only [List.nil_append, List.append_nil] at r4 hn
  have hsz : t'.size = t.size + ops.length := by
    rw [← Tree.length_nodes, ← Tree.length_nodes, r4, hn]
    simp only [List.length_append, List.length_map]
    omega
  have hlt : ∀ e ∈ ops.map (fun x => (x.2.1, x.1)) ++ C,
      (fun e : Nat × α => !T.key_compare (T.KeyOfValue e.2) k) e = true := by
    intro e he
    rcases List.mem_append.1 he with h | h
    · simp only [List.mem_map] at h
      obtain ⟨x, hx, rfl⟩ := h
      simp [(hk x hx).1]
    · simp [hT.asymm (hC e h)]
  have hle : ∀ e ∈ A ++ ops.map (fun x => (x.2.1, x.1)),
      (fun e : Nat × α => T.key_compare k (T.KeyOfValue e.2)) e = false := by
    intro e he
    rcases List.mem_append.1 he with h | h
    · exact hT.asymm (hA e h)
    · simp only [List.mem_map] at h
      obtain ⟨x, hx, rfl⟩ := h
      exact (hk x hx).2
  have elo := lower_bound_spec T hT r2 r3.ordered k fuel (by omega)
  have ehi := upper_bound_spec T hT r2 r3.ordered k fuel (by omega)
  rw [r4, List.append_assoc, first_addr_split _ A _ _ (fun e he => by simp [hA e he]) hlt]
    at elo
  rw [r4, first_addr_split _ _ C _ hle hC] at ehi
  obtain ⟨w1, w2⟩ := walk_segment r2 fuel (by omega) (ops.map (fun x => (x.2.1, x.1))) A C fuel
    r4 (by simp only [List.length_map]; omega)
  simp only [List.map_map, List.length_map] at w1 w2
  have hmap : (Prod.snd ∘ fun x : α × Nat × Bool => (x.2.1, x.1)) = fun x => x.1 := rfl
  rw [hmap] at w1
  have hpow : ops.length < 2 ^ T.size_bits := by
    have : 0 < 2 ^ T.size_bits := Nat.two_pow_pos _
    simp only [Traits.max_size] at hc
    omega
  refine ⟨s', A.map Prod.snd, C.map Prod.snd, _, _, r1, ?_, ?_, ?_, elo, ehi, ?_, w1, ?_⟩
  · rw [to_list_spec hwf fuel (by omega)]
    simp [Tree.toList, hn]
  · rw [to_list_spec r2 fuel (by omega)]
    simp [Tree.toList, r4]
  · intro e he
    refine hno e ?_
    simpa [Tree.toList, hn] using he
  · simp only [rb_tree.equal_range_multi, elo, ehi, ok_bind, pure_eq_ok]
  · simp only [rb_tree.count_multi, rb_tree.equal_range_multi, elo, ehi, ok_bind, pure_eq_ok, w2,
      Nat.mod_eq_of_lt hpow]

theorem insert_multi_same_key_block_witness :
    (∃ s' l1 l2 lo hi,
      insert_multi_all natT 10 [(5, 5, rb_tree_red), (5, 6, rb_tree_red), (5, 7, rb_tree_red)]
        three_tree = .ok s' ∧
      three_tree.to_list 10 = .ok (l1 ++ l2) ∧
      s'.to_list 10 = .ok (l1 ++
        [(5, 5, rb_tree_red), (5, 6, rb_tree_red), (5, 7, rb_tree_red)].map (fun x => x.1) ++
        l2) ∧
      (∀ e ∈ l1 ++ l2, ¬ equiv natT.key_compare (natT.KeyOfValue e) 5) ∧
      s'.lower_bound natT 10 5 = .ok lo ∧ s'.upper_bound natT 10 5 = .ok hi ∧
      s'.equal_range_multi natT 10 5 = .ok (lo, hi) ∧
      walk 10 10 s'.mem lo hi =
        .ok ([(5, 5, rb_tree_red), (5, 6, rb_tree_red), (5, 7, rb_tree_red)].map
          (fun x => x.1)) ∧
      s'.count_multi natT 10 5 =
        .ok [(5, 5, rb_tree_red), (5, 6, rb_tree_red), (5, 7, rb_tree_red)].length) ∧
    (scenario_D >>= fun s => s.to_list 20) = .ok [1, 3, 5, 5, 5] ∧
    (scenario_D >>= fun s => s.equal_range_multi natT 20 5 >>= fun r =>
      walk 20 20 s.mem r.1 r.2) = .ok [5, 5, 5] ∧
    (scenario_D >>= fun s => s.count_multi natT 20 5) = .ok 3 :=
  ⟨insert_multi_same_key_block natT natT_swo three_WF three_RB 5
    (by simp [equiv, three_abs, natT])
    [(5, 5, rb_tree_red), (5, 6, rb_tree_red), (5, 7, rb_tree_red)] (by simp [equiv, natT])
    (by decide) (by decide) 10 (by decide) (by decide), by decide, by decide, by decide⟩

end claims_multi

/-! ## Statements about copies -/

section claims_copy
variable {α κ : Type}

theorem two_trees_three {a : Nat} (h : a = 1 ∨ a ∈ three_abs.addrs) :
    two_trees_mem a = three_mem a := by
  have h5 : a ≠ 5 := by rintro rfl; revert h; decide
  have h6 : a ≠ 6 := by rintro rfl; revert h; decide
  simp [two_trees_mem, h5, h6]

theorem three_shared_WF : WF three_shared three_abs :=
  WF_congr three_WF rfl rfl (fun _ h => two_trees_three h)

theorem nine_WF : WF nine_tree nine_abs := by
  refine ⟨⟨by decide, by decide, ?_, ⟨by decide, by decide, trivial, trivial⟩,
    fun _ _ _ => rfl⟩, rfl⟩
  simp only [RepCtx]
  decide

/-- C17: for a well-formed tree `A` and fresh, distinct addresses for the new
header and nodes, the copy constructor returns a tree `B` that is well formed
(consistent parent links, `leftmost()` and `rightmost()` its first and last
node, which are `minimum(root())` and `maximum(root())`), holds a tree of
exactly the shape, colours and payloads of `A`, has `size()` equal to
`A.size()`, shares no node with `A` and leaves `A` as it was; copy assignment
to another well-formed tree `s` of the same heap that shares no node with `A`
gives the same, whatever distinct blocks the allocator hands out among those
that are free and those that `clear()` releases from `s`; assigning `A` to
itself returns `A` as it is. -/
theorem copy_same_shape (alloc : Nat → Nat) (junk : Nat → Bool) {A : rb_tree α} {t : Tree α}
    (hwf : WF A t) (fuel : Nat) (hf : t.height < fuel) (h : Nat) (h0 : h ≠ 0)
    (hh : A.mem h = none)
    (hfr : ∀ i, i < t.size → alloc i ≠ 0 ∧ alloc i ≠ h ∧ A.mem (alloc i) = none)
    (hinj : ∀ i j, i < j → j < t.size → alloc i ≠ alloc j) :
    (∃ B t', A.copy_construct alloc junk fuel h = .ok B ∧ WF B t' ∧ t'.strip = t.strip ∧
      B.size = A.size ∧ get_left B.mem B.header = .ok (t'.first B.header) ∧
      get_right B.mem B.header = .ok (t'.last B.header) ∧
      (t' ≠ .nil → minimum fuel B.mem t'.ptr = .ok (t'.first B.header) ∧
        maximum fuel B.mem t'.ptr = .ok (t'.last B.header)) ∧
      WF { A with mem := B.mem } t ∧ ∀ a ∈ t'.addrs, a ∉ t.addrs) ∧
    (∀ (s : rb_tree α) (ts : Tree α) (alloc2 : Nat → Nat), WF s ts → s.mem = A.mem →
      s.header ≠ A.header →
      (∀ a ∈ t.addrs, a ∉ ts.addrs) → s.header ∉ t.addrs → A.header ∉ ts.addrs →
      ts.height < fuel →
      (∀ i, i < t.size → alloc2 i ≠ 0 ∧ (A.mem (alloc2 i) = none ∨ alloc2 i ∈ ts.addrs)) →
      (∀ i j, i < j → j < t.size → alloc2 i ≠ alloc2 j) →
      ∃ B t', s.copy_assign alloc2 junk fuel A = .ok B ∧ WF B t' ∧ t'.strip = t.strip ∧
        B.size = A.size ∧ B.header = s.header ∧
        get_left B.mem B.header = .ok (t'.first B.header) ∧
        get_right B.mem B.header = .ok (t'.last B.header) ∧
        (t' ≠ .nil → minimum fuel B.mem t'.ptr = .ok (t'.first B.header) ∧
          maximum fuel B.mem t'.ptr = .ok (t'.last B.header)) ∧
        WF { A with mem := B.mem } t ∧ ∀ a ∈ t'.addrs, a ∉ t.addrs) ∧
    A.copy_assign alloc junk fuel A = .ok A := by
  have hht : ∀ (al : Nat → Nat), ((t.copy al 0).1).height = t.height := by
    intro al
    have hs : ∀ (u : Tree α), u.strip.height = u.height := by
      intro u
      induction u with
      | nil => rfl
      | node a c l v r ihl ihr => simp only [Tree.strip, Tree.height, ihl, ihr]
    rw [← hs, ← hs t, Tree.strip_copy]
  refine ⟨?_, ?_, by simp [rb_tree.copy_assign]⟩
  · have hdead : ∀ a ∈ ((t.copy alloc 0).1).addrs, a ∉ t.addrs := by
      intro a ha hm
      obtain ⟨i, _, i2, rfl⟩ := Tree.copy_addrs alloc t 0 a ha
      exact Rep_live hwf.z.rsub _ hm (hfr i (by omega)).2.2
    obtain ⟨B, e, w, hB, fr⟩ := copy_construct_spec alloc junk hwf fuel hf h h0 hh hfr hinj
    have hd := w.z.rd_header
    simp only [plug_nil] at hd
    refine ⟨B, _, e, w, Tree.strip_copy alloc t 0, ?_, get_left_ok hd, get_right_ok hd, ?_, ?_,
      hdead⟩
    · rw [rb_tree.size, rb_tree.size, w.count, hwf.count, Tree.size_copy]
    · intro hne
      have := hht alloc
      exact ⟨minimum_spec _ _ [] fuel hne (by omega) w.z,
        maximum_spec _ _ [] fuel hne (by omega) w.z⟩
    · refine WF_congr hwf rfl rfl ?_
      intro a ha
      have hal : A.mem a ≠ none := by
        rcases ha with rfl | ha
        · exact hwf.hdr_live
        · exact Rep_live hwf.z.rsub a ha
      exact fr a (fun e => hal (e ▸ hh)) (fun i hi e => hal (e ▸ (hfr i hi).2.2))
  · intro s ts alloc2 hs hmem hne hd1 hd2 hd3 hfs hfr2 hinj2
    have hdead : ∀ a ∈ ((t.copy alloc2 0).1).addrs, a ∉ t.addrs := by
      intro a ha hm
      obtain ⟨i, _, i2, rfl⟩ := Tree.copy_addrs alloc2 t 0 a ha
      rcases (hfr2 i (by omega)).2 with hfree | hin
      · exact Rep_live hwf.z.rsub _ hm hfree
      · exact hd1 _ hm hin
    obtain ⟨B, e, w, hB, fr⟩ := copy_assign_spec alloc2 junk hs hwf hmem.symm hne hd1 hd2 hd3
      fuel hf hfs (fun i hi => ⟨(hfr2 i hi).1, by rw [hmem]; exact (hfr2 i hi).2⟩) hinj2
    have hd := w.z.rd_header
    simp only [plug_nil] at hd
    refine ⟨B, _, e, w, Tree.strip_copy alloc2 t 0, ?_, hB, get_left_ok hd, get_right_ok hd, ?_,
      WF_congr hwf rfl rfl fr, hdead⟩
    · rw [rb_tree.size, rb_tree.size, w.count, hwf.count, Tree.size_copy]
    · intro hne'
      have := hht alloc2
      exact ⟨minimum_spec _ _ [] fuel hne' (by omega) w.z,
        maximum_spec _ _ [] fuel hne' (by omega) w.z⟩

theorem copy_same_shape_witness :
    ((∃ B t', three_shared.copy_construct (fun n => 11 + n) (fun _ => rb_tree_red) 10 10 =
        .ok B ∧ WF B t' ∧ t'.strip = three_abs.strip ∧
      B.size = three_shared.size ∧ get_left B.mem B.header = .ok (t'.first B.header) ∧
      get_right B.mem B.header = .ok (t'.last B.header) ∧
      (t' ≠ .nil → minimum 10 B.mem t'.ptr = .ok (t'.first B.header) ∧
        maximum 10 B.mem t'.ptr = .ok (t'.last B.header)) ∧
      WF { three_shared with mem := B.mem } three_abs ∧
      ∀ a ∈ t'.addrs, a ∉ three_abs.addrs) ∧
    (∃ B t', nine_tree.copy_assign reuse_alloc (fun _ => rb_tree_red) 10 three_shared =
        .ok B ∧ WF B t' ∧ t'.strip = three_abs.strip ∧
      B.size = three_shared.size ∧ B.header = nine_tree.header ∧
      get_left B.mem B.header = .ok (t'.first B.header) ∧
      get_right B.mem B.header = .ok (t'.last B.header) ∧
      (t' ≠ .nil → minimum 10 B.mem t'.ptr = .ok (t'.first B.header) ∧
        maximum 10 B.mem t'.ptr = .ok (t'.last B.header)) ∧
      WF { three_shared with mem := B.mem } three_abs ∧
      ∀ a ∈ t'.addrs, a ∉ three_abs.addrs) ∧
    three_shared.copy_assign (fun n => 11 + n) (fun _ => rb_tree_red) 10 three_shared =
      .ok three_shared) ∧
    WF nine_tree nine_abs ∧ nine_tree.to_list 10 = .ok [9] ∧
    two_trees_built.map (fun s => (s.header, s.node_count)) = .ok (5, 1) ∧
    two_trees_built.map (fun s => node_fields s.mem 1) = .ok (node_fields two_trees_mem 1) ∧
    two_trees_built.map (fun s => node_fields s.mem 2) = .ok (node_fields two_trees_mem 2) ∧
    two_trees_built.map (fun s => node_fields s.mem 3) = .ok (node_fields two_trees_mem 3) ∧
    two_trees_built.map (fun s => node_fields s.mem 4) = .ok (node_fields two_trees_mem 4) ∧
    two_trees_built.map (fun s => node_fields s.mem 5) = .ok (node_fields two_trees_mem 5) ∧
    two_trees_built.map (fun s => node_fields s.mem 6) = .ok (node_fields two_trees_mem 6) ∧
    two_trees_built.map
        (fun s => (get_value s.mem 2, get_value s.mem 3, get_value s.mem 4, get_value s.mem 6)) =
      .ok (get_value two_trees_mem 2, get_value two_trees_mem 3, get_value two_trees_mem 4,
        get_value two_trees_mem 6) ∧
    (three_copy >>= fun B => B.to_list 10) = .ok [1, 2, 3] ∧
    three_copy.map (fun B => (B.size, B.mem 10, B.mem 11)) =
      .ok (3, some (rb_tree_node.mk rb_tree_red 11 13 12 none),
        some (rb_tree_node.mk rb_tree_black 10 13 12 (some 2))) ∧
    three_copy.map (fun B => (B.mem 12, B.mem 13)) =
      .ok (some (rb_tree_node.mk rb_tree_red 11 0 0 (some 3)),
        some (rb_tree_node.mk rb_tree_red 11 0 0 (some 1))) ∧
    (nine_tree.copy_assign reuse_alloc (fun _ => rb_tree_red) 10 three_shared >>=
      fun B => B.to_list 10) = .ok [1, 2, 3] ∧
    (nine_tree.copy_assign reuse_alloc (fun _ => rb_tree_red) 10 three_shared).map
      (fun B => (B.header, B.size, B.mem 5, B.mem 6)) =
      .ok (5, 3, some (rb_tree_node.mk rb_tree_red 6 12 11 none),
        some (rb_tree_node.mk rb_tree_black 5 12 11 (some 2))) ∧
    (nine_tree.copy_assign reuse_alloc (fun _ => rb_tree_red) 10 three_shared).map
      (fun B => (B.mem 11, B.mem 12)) =
      .ok (some (rb_tree_node.mk rb_tree_red 6 0 0 (some 3)),
        some (rb_tree_node.mk rb_tree_red 6 0 0 (some 1))) := by
  have hc := copy_same_shape (fun n => 11 + n) (fun _ => rb_tree_red) three_shared_WF 10
    (by decide) 10 (by decide) (by decide) (by decide)
    (by intro i j h1 h2; show 11 + i ≠ 11 + j; omega)
  refine ⟨⟨hc.1, hc.2.1 nine_tree nine_abs reuse_alloc nine_WF rfl (by decide) (by decide)
    (by decide) (by decide) (by decide) (by decide) ?_, hc.2.2⟩, nine_WF, by decide, by decide,
    by decide, by decide, by decide, by decide, by decide, by decide, by decide, by decide!,
    by decide!, by decide!, by decide!, by decide!, by decide!⟩
  intro i j h1 h2
  have h3 : j < 3 := h2
  simp only [reuse_alloc]
  split <;> split <;> omega

/-- C18: the well-formed tree 2(1, 3) is copy-constructed into a tree `B` with
its own header and nodes, and the original still iterates as 1, 2, 3; but
`erase` of the element 2 (found at address 11) from `B` does not return: the
node has two children and the successor search dereferences a null pointer.
Erasing the leaf 1 from `B` returns and leaves the original as it was. -/
theorem copy_then_erase_null_deref :
    WF three_tree three_abs ∧ three_abs.RB natT ∧
      (three_copy >>= fun B => B.to_list 10) = .ok [1, 2, 3] ∧
      (three_copy >>= fun B =>
        (⟨B.mem, three_tree.header, three_tree.node_count⟩ : rb_tree Nat).to_list 10) =
        .ok [1, 2, 3] ∧
      (three_copy >>= fun B => B.find natT 10 2) = .ok 11 ∧
      (three_copy >>= fun B => (B.erase natT 10 11).map (fun r => r.2)) =
        .error .null_deref ∧
      (three_copy >>= fun B => erase_key 10 B 1 >>= fun B' =>
        (⟨B'.mem, three_tree.header, three_tree.node_count⟩ : rb_tree Nat).to_list 10) =
        .ok [1, 2, 3] :=
  ⟨three_WF, three_RB, by decide!, by decide!, by decide!, by decide!, by decide!⟩

end claims_copy


/-! ## The `uninitialized_*` algorithms -/

section uninit

variable {β : Type}

theorem construct_range_spec (ok : Nat → Bool) :
    ∀ (pre post : List β) (cur : Nat) (r : Raw β),
      (∀ i, i < pre.length → ok (cur + i) = true) →
      (post ≠ [] → ok (cur + pre.length) = false) →
      ∃ r', construct_range ok (pre ++ post) cur r = (r', cur + pre.length, !post.isEmpty) ∧
        r'.destroyed = r.destroyed ∧
        ∀ a, r'.cells a = if cur ≤ a ∧ a < cur + pre.length then pre[a - cur]? else r.cells a := by
  intro pre
  induction pre with
  | nil =>
    intro post cur r _ hbad
    cases post with
    | nil =>
      exact ⟨r, by simp [construct_range], rfl,
        fun a => by rw [if_neg (by simp only [List.length_nil]; omega)]⟩
    | cons v rest =>
      have hb : ok cur = false := by simpa using hbad (by simp)
      exact ⟨r, by simp [construct_range, hb], rfl,
        fun a => by rw [if_neg (by simp only [List.length_nil]; omega)]⟩
  | cons v pre ih =>
    intro post cur r hok hbad
    have h0 : ok cur = true := by simpa using hok 0 (by simp)
    obtain ⟨r', h1, h2, h3⟩ := ih post (cur + 1) (construct r cur v)
      (fun i hi => by
        have := hok (i + 1) (by simpa using hi)
        rwa [show cur + 1 + i = cur + (i + 1) by omega])
      (fun hp => by
        have := hbad hp
        rwa [show cur + 1 + pre.length = cur + (v :: pre).length by simp; omega])
    refine ⟨r', ?_, ?_, ?_⟩
    · have e : cur + (v :: pre).length = cur + 1 + pre.length := by simp; omega
      show construct_range ok (v :: (pre ++ post)) cur r = _
      simp only [construct_range, h0, if_true]
      rw [e]
      exact h1
    · rw [h2]; rfl
    · intro a
      rw [h3 a]
      by_cases hac : a = cur
      · subst hac
        simp [construct]
      · by_cases hin : cur + 1 ≤ a ∧ a < cur + 1 + pre.length
        · have hin' : cur ≤ a ∧ a < cur + (v :: pre).length := by
            simp only [List.length_cons]; omega
          rw [if_pos hin, if_pos hin']
          obtain ⟨j, hj⟩ : ∃ j, a = cur + 1 + j := ⟨a - (cur + 1), by omega⟩
          subst hj
          rw [show cur + 1 + j - (cur + 1) = j by omega, show cur + 1 + j - cur = j + 1 by omega]
          simp
        · have hin' : ¬ (cur ≤ a ∧ a < cur + (v :: pre).length) := by
            simp only [List.length_cons]; omega
          rw [if_neg hin, if_neg hin']
          simp [construct, hac]

theorem construct_n_spec (ok : Nat → Bool) (src : Nat → β) :
    ∀ (k n i cur : Nat) (r : Raw β), k ≤ n →
      (∀ j, j < k → ok (cur + j) = true) →
      (k < n → ok (cur + k) = false) →
      ∃ r', construct_n ok src n i cur r = (r', cur + k, decide (k < n)) ∧
        r'.destroyed = r.destroyed ∧
        ∀ a, r'.cells a =
          if cur ≤ a ∧ a < cur + k then some (src (i + (a - cur))) else r.cells a := by
  intro k
  induction k with
  | zero =>
    intro n i cur r _ _ hbad
    cases n with
    | zero => exact ⟨r, by simp [construct_n], rfl, fun a => by rw [if_neg (by omega)]⟩
    | succ n =>
      have hb : ok cur = false := by simpa using hbad (by omega)
      exact ⟨r, by simp [construct_n, hb], rfl, fun a => by rw [if_neg (by omega)]⟩
  | succ k ih =>
    intro n i cur r hkn hok hbad
    obtain ⟨n, rfl⟩ : ∃ n', n = n' + 1 := ⟨n - 1, by omega⟩
    have h0 : ok cur = true := by simpa using hok 0 (by omega)
    obtain ⟨r', h1, h2, h3⟩ := ih n (i + 1) (cur + 1) (construct r cur (src i)) (by omega)
      (fun j hj => by
        have := hok (j + 1) (by omega)
        rwa [show cur + 1 + j = cur + (j + 1) by omega])
      (fun hp => by
        have := hbad (by omega)
        rwa [show cur + 1 + k = cur + (k + 1) by omega])
    refine ⟨r', ?_, ?_, ?_⟩
    · have e : cur + (k + 1) = cur + 1 + k := by omega
      have e2 : decide (k + 1 < n + 1) = decide (k < n) := by simp
      simp only [construct_n, h0, if_true, h1, e, e2]
    · rw [h2]; rfl
    · intro a
      rw [h3 a]
      by_cases hac : a = cur
      · subst hac
        simp [construct]
      · by_cases hin : cur + 1 ≤ a ∧ a < cur + 1 + k
        · have hin' : cur ≤ a ∧ a < cur + (k + 1) := by omega
          rw [if_pos hin, if_pos hin']
          congr 2
          omega
        · have hin' : ¬ (cur ≤ a ∧ a < cur + (k + 1)) := by omega
          rw [if_neg hin, if_neg hin']
          simp [construct, hac]

theorem fill_range_spec (ok : Nat → Bool) (value : β) :
    ∀ (k fuel cur last : Nat) (r : Raw β), cur + k ≤ last → k < fuel →
      (∀ j, j < k → ok (cur + j) = true) →
      (cur + k < last → ok (cur + k) = false) →
      ∃ r', fill_range ok value fuel cur last r = .ok (r', cur + k, decide (cur + k < last)) ∧
        r'.destroyed = r.destroyed ∧
        ∀ a, r'.cells a = if cur ≤ a ∧ a < cur + k then some value else r.cells a := by
  intro k
  induction k with
  | zero =>
    intro fuel cur last r hle hf _ hbad
    obtain ⟨fuel, rfl⟩ : ∃ f, fuel = f + 1 := ⟨fuel - 1, by omega⟩
    by_cases hc : cur = last
    · subst hc
      exact ⟨r, by simp [fill_range], rfl, fun a => by rw [if_neg (by omega)]⟩
    · have hb : ok cur = false := by simpa using hbad (by omega)
      have hlt : cur < last := by omega
      exact ⟨r, by simp [fill_range, hc, hb, hlt], rfl, fun a => by rw [if_neg (by omega)]⟩
  | succ k ih =>
    intro fuel cur last r hle hf hok hbad
    obtain ⟨fuel, rfl⟩ : ∃ f, fuel = f + 1 := ⟨fuel - 1, by omega⟩
    have hc : cur ≠ last := by omega
    have h0 : ok cur = true := by simpa using hok 0 (by omega)
    obtain ⟨r', h1, h2, h3⟩ := ih fuel (cur + 1) last (construct r cur value) (by omega)
      (by omega)
      (fun j hj => by
        have := hok (j + 1) (by omega)
        rwa [show cur + 1 + j = cur + (j + 1) by omega])
      (fun hp => by
        have := hbad (by omega)
        rwa [show cur + 1 + k = cur + (k + 1) by omega])
    refine ⟨r', ?_, ?_, ?_⟩
    · have e : cur + (k + 1) = cur + 1 + k := by omega
      simp only [fill_range, ne_eq, hc, not_false_eq_true, if_true, h0, h1, e]
    · rw [h2]; rfl
    · intro a
      rw [h3 a]
      by_cases hac : a = cur
      · subst hac
        simp [construct]
      · by_cases hin : cur + 1 ≤ a ∧ a < cur + 1 + k
        · have hin' : cur ≤ a ∧ a < cur + (k + 1) := by omega
          rw [if_pos hin, if_pos hin']
        · have hin' : ¬ (cur ≤ a ∧ a < cur + (k + 1)) := by omega
          rw [if_neg hin, if_neg hin']
          simp [construct, hac]

theorem destroy_cat_spec :
    ∀ (k fuel first : Nat) (r : Raw β), first ≠ 0 → k < fuel →
      ∃ r', destroy_cat fuel first (first + k) r = .ok r' ∧
        r'.destroyed = r.destroyed ++ List.range' first k ∧
        ∀ a, r'.cells a = if first ≤ a ∧ a < first + k then none else r.cells a := by
  intro k
  induction k with
  | zero =>
    intro fuel first r _ hf
    obtain ⟨fuel, rfl⟩ : ∃ f, fuel = f + 1 := ⟨fuel - 1, by omega⟩
    exact ⟨r, by simp [destroy_cat], by simp, fun a => by rw [if_neg (by omega)]⟩
  | succ k ih =>
    intro fuel first r h0 hf
    obtain ⟨fuel, rfl⟩ : ∃ f, fuel = f + 1 := ⟨fuel - 1, by omega⟩
    obtain ⟨r', h1, h2, h3⟩ := ih fuel (first + 1) (destroy r first) (by omega) (by omega)
    refine ⟨r', ?_, ?_, ?_⟩
    · have e : first + (k + 1) = first + 1 + k := by omega
      have hne : first ≠ first + 1 + k := by omega
      simp only [destroy_cat, e, ne_eq, hne, not_false_eq_true, if_true, h1]
    · rw [h2]
      simp [destroy, h0, List.range'_succ]
    · intro a
      rw [h3 a]
      by_cases hac : a = first
      · subst hac
        simp [destroy, h0]
      · by_cases hin : first + 1 ≤ a ∧ a < first + 1 + k
        · have hin' : first ≤ a ∧ a < first + (k + 1) := by omega
          rw [if_pos hin, if_pos hin']
        · have hin' : ¬ (first ≤ a ∧ a < first + (k + 1)) := by omega
          rw [if_neg hin, if_neg hin']
          simp [destroy, h0, hac]

theorem destroy_down_spec :
    ∀ (k fuel result : Nat) (r : Raw β), k < fuel →
      ∃ r', destroy_down fuel result (result + k) r = .ok (r', result) ∧
        r'.destroyed = r.destroyed ++ (List.range' (result + 1) k).reverse ∧
        ∀ a, r'.cells a = if result < a ∧ a ≤ result + k then none else r.cells a := by
  intro k
  induction k with
  | zero =>
    intro fuel result r hf
    obtain ⟨fuel, rfl⟩ : ∃ f, fuel = f + 1 := ⟨fuel - 1, by omega⟩
    exact ⟨r, by simp [destroy_down], by simp, fun a => by rw [if_neg (by omega)]⟩
  | succ k ih =>
    intro fuel result r hf
    obtain ⟨fuel, rfl⟩ : ∃ f, fuel = f + 1 := ⟨fuel - 1, by omega⟩
    obtain ⟨r', h1, h2, h3⟩ := ih fuel result (destroy r (result + (k + 1))) (by omega)
    have hnz : result + (k + 1) ≠ 0 := by omega
    refine ⟨r', ?_, ?_, ?_⟩
    · have hne : result ≠ result + (k + 1) := by omega
      have e : result + (k + 1) - 1 = result + k := by omega
      simp only [destroy_down, ne_eq, hne, not_false_eq_true, if_true, e, h1]
    · rw [h2]
      simp [destroy, hnz, List.range'_concat]
      omega
    · intro a
      rw [h3 a]
      by_cases hac : a = result + (k + 1)
      · subst hac
        simp [destroy]
      · by_cases hin : result < a ∧ a ≤ result + k
        · have hin' : result < a ∧ a ≤ result + (k + 1) := by omega
          rw [if_pos hin, if_pos hin']
        · have hin' : ¬ (result < a ∧ a ≤ result + (k + 1)) := by omega
          rw [if_neg hin, if_neg hin']
          simp [destroy, hnz, hac]

end uninit

section claims_uninit

variable {β : Type}

theorem algobase_copy_eq (src : List β) :
    ∀ (cur : Nat) (r : Raw β),
      algobase_copy src cur r =
        ((construct_range (fun _ => true) src cur r).1,
          (construct_range (fun _ => true) src cur r).2.1) := by
  induction src with
  | nil => intro cur r; rfl
  | cons v rest ih => intro cur r; simp [algobase_copy, construct_range, ih]

theorem algobase_copy_n_eq (src : Nat → β) :
    ∀ (n i cur : Nat) (r : Raw β),
      algobase_copy_n src n i cur r =
        ((construct_n (fun _ => true) src n i cur r).1,
          (construct_n (fun _ => true) src n i cur r).2.1) := by
  intro n
  induction n with
  | zero => intro i cur r; rfl
  | succ n ih => intro i cur r; simp [algobase_copy_n, construct_n, ih]

/-- C22 (fails on the code): `unchecked_uninit_copy` and `unchecked_uninit_copy_n`
with three elements to construct at positions 1, 2, 3, the construction at
position 3 (element 2) failing.  The handler walks down from `cur`: it runs the
destructor on position 3, which was never constructed, and on position 2, and
stops before position 1, whose object stays live. -/
theorem uninitialized_copy_rollback_wrong_positions :
    (unchecked_uninit_copy (fun p => p != 3) 10 [10, 20, 30] 1 (raw_storage Nat)).map
        (fun x => (x.1.destroyed, x.1.cells 1, x.1.cells 2, x.1.cells 3)) =
      .ok ([3, 2], some 10, none, none) ∧
    (unchecked_uninit_copy_n (fun p => p != 3) 10 (fun i => 10 * (i + 1)) 3 1
        (raw_storage Nat)).map
        (fun x => (x.1.destroyed, x.1.cells 1, x.1.cells 2, x.1.cells 3)) =
      .ok ([3, 2], some 10, none, none) := by
  constructor <;> decide

/-- C23 (fails on the code): with the construction of element 2 failing,
`unchecked_uninit_copy`, `unchecked_uninit_copy_n`, `unchecked_uninit_fill` and
`unchecked_uninit_move` return normally (their handlers have no `throw;`), while
`unchecked_uninit_fill_n` and `unchecked_uninit_move_n` pass the failure on. -/
theorem uninitialized_failure_not_passed_on :
    (unchecked_uninit_copy (fun p => p != 3) 10 [10, 20, 30] 1 (raw_storage Nat)).map Prod.snd =
      .ok (.returned 1) ∧
    (unchecked_uninit_copy_n (fun p => p != 3) 10 (fun i => 10 * (i + 1)) 3 1
        (raw_storage Nat)).map Prod.snd = .ok (.returned 1) ∧
    (unchecked_uninit_fill (fun p => p != 3) 10 1 4 7 (raw_storage Nat)).map Prod.snd =
      .ok (.returned ()) ∧
    (unchecked_uninit_move (fun p => p != 3) 10 [10, 20, 30] 1 (raw_storage Nat)).map Prod.snd =
      .ok (.returned 3) ∧
    (unchecked_uninit_fill_n (fun p => p != 3) 10 1 3 7 (raw_storage Nat)).map Prod.snd =
      .ok .rethrown ∧
    (unchecked_uninit_move_n (fun p => p != 3) 10 (fun i => 10 * (i + 1)) 3 1
        (raw_storage Nat)).map Prod.snd = .ok .rethrown := by
  refine ⟨?_, ?_, ?_, ?_, ?_, ?_⟩ <;> decide

/-- C24: for `unchecked_uninit_fill`, `unchecked_uninit_fill_n`,
`unchecked_uninit_move` and `unchecked_uninit_move_n` (the per-element paths),
when the constructions of elements `0 .. k-1` return and that of element `k < n`
throws, the handler runs the destructor on exactly the positions
`first, .., first + k - 1`, each once and in this order, these positions are raw
memory again, and no other position is touched. -/
theorem fill_move_rollback_exact (ok : Nat → Bool) (fuel first n k : Nat) (value : β)
    (src : List β) (srcf : Nat → β) (r : Raw β)
    (h0 : first ≠ 0) (hk : k < n) (hlen : src.length = n) (hf : k < fuel)
    (hok : ∀ i, i < k → ok (first + i) = true) (hbad : ok (first + k) = false) :
    (∃ r', unchecked_uninit_fill ok fuel first (first + n) value r = .ok (r', .returned ()) ∧
      r'.destroyed = r.destroyed ++ List.range' first k ∧
      ∀ a, r'.cells a = if first ≤ a ∧ a < first + k then none else r.cells a) ∧
    (∃ r', unchecked_uninit_fill_n ok fuel first n value r = .ok (r', .rethrown) ∧
      r'.destroyed = r.destroyed ++ List.range' first k ∧
      ∀ a, r'.cells a = if first ≤ a ∧ a < first + k then none else r.cells a) ∧
    (∃ r', unchecked_uninit_move ok fuel src first r = .ok (r', .returned (first + k)) ∧
      r'.destroyed = r.destroyed ++ List.range' first k ∧
      ∀ a, r'.cells a = if first ≤ a ∧ a < first + k then none else r.cells a) ∧
    (∃ r', unchecked_uninit_move_n ok fuel srcf n first r = .ok (r', .rethrown) ∧
      r'.destroyed = r.destroyed ++ List.range' first k ∧
      ∀ a, r'.cells a = if first ≤ a ∧ a < first + k then none else r.cells a) := by
  have cells_eq : ∀ (r1 r2 : Raw β) (f : Nat → Option β),
      (∀ a, r1.cells a = if first ≤ a ∧ a < first + k then f a else r.cells a) →
      (∀ a, r2.cells a = if first ≤ a ∧ a < first + k then none else r1.cells a) →
      ∀ a, r2.cells a = if first ≤ a ∧ a < first + k then none else r.cells a := by
    intro r1 r2 f h1 h2 a
    rw [h2 a]
    by_cases hin : first ≤ a ∧ a < first + k
    · rw [if_pos hin, if_pos hin]
    · rw [if_neg hin, if_neg hin, h1 a, if_neg hin]
  refine ⟨?_, ?_, ?_, ?_⟩
  · obtain ⟨r1, e1, d1, c1⟩ := fill_range_spec ok value k fuel first (first + n) r (by omega) hf
      hok (fun _ => hbad)
    obtain ⟨r2, e2, d2, c2⟩ := destroy_cat_spec k fuel first r1 h0 hf
    have hlt : decide (first + k < first + n) = true := by simpa using hk
    refine ⟨r2, ?_, by rw [d2, d1], cells_eq r1 r2 _ c1 c2⟩
    simp only [unchecked_uninit_fill, e1, hlt, bind, Except.bind, if_true, e2, pure, Except.pure]
  · obtain ⟨r1, e1, d1, c1⟩ := construct_n_spec ok (fun _ => value) k n 0 first r (by omega)
      hok (fun _ => hbad)
    obtain ⟨r2, e2, d2, c2⟩ := destroy_cat_spec k fuel first r1 h0 hf
    have hlt : decide (k < n) = true := by simpa using hk
    refine ⟨r2, ?_, by rw [d2, d1], cells_eq r1 r2 _ c1 c2⟩
    simp only [unchecked_uninit_fill_n, e1, hlt, bind, Except.bind, e2, pure, Except.pure]
  · obtain ⟨v, post, hsplit, hpre⟩ : ∃ v post, src = src.take k ++ v :: post ∧
        (src.take k).length = k := by
      have hkl : k < src.length := by omega
      cases hd : src.drop k with
      | nil =>
        have := congrArg List.length hd
        simp at this
        omega
      | cons v post =>
        refine ⟨v, post, ?_, by simp; omega⟩
        rw [← hd, List.take_append_drop]
    obtain ⟨r1, e1, d1, c1⟩ := construct_range_spec ok (src.take k) (v :: post) first r
      (fun i hi => hok i (by omega)) (fun _ => by rw [hpre]; exact hbad)
    rw [← hsplit, hpre] at e1
    rw [hpre] at c1
    obtain ⟨r2, e2, d2, c2⟩ := destroy_cat_spec k fuel first r1 h0 hf
    refine ⟨r2, ?_, by rw [d2, d1], cells_eq r1 r2 _ c1 c2⟩
    simp only [unchecked_uninit_move, e1, List.isEmpty_cons, Bool.not_false, bind, Except.bind,
      e2, pure, Except.pure]
  · obtain ⟨r1, e1, d1, c1⟩ := construct_n_spec ok srcf k n 0 first r (by omega)
      hok (fun _ => hbad)
    obtain ⟨r2, e2, d2, c2⟩ := destroy_cat_spec k fuel first r1 h0 hf
    have hlt : decide (k < n) = true := by simpa using hk
    refine ⟨r2, ?_, by rw [d2, d1], cells_eq r1 r2 _ c1 c2⟩
    simp only [unchecked_uninit_move_n, e1, hlt, bind, Except.bind, e2, pure, Except.pure]

theorem fill_move_rollback_exact_witness :
    (∃ r', unchecked_uninit_fill (fun p => p != 3) 10 1 (1 + 3) 7 (raw_storage Nat) =
        .ok (r', .returned ()) ∧
      r'.destroyed = (raw_storage Nat).destroyed ++ List.range' 1 2 ∧
      ∀ a, r'.cells a = if 1 ≤ a ∧ a < 1 + 2 then none else (raw_storage Nat).cells a) ∧
    (∃ r', unchecked_uninit_fill_n (fun p => p != 3) 10 1 3 7 (raw_storage Nat) =
        .ok (r', .rethrown) ∧
      r'.destroyed = (raw_storage Nat).destroyed ++ List.range' 1 2 ∧
      ∀ a, r'.cells a = if 1 ≤ a ∧ a < 1 + 2 then none else (raw_storage Nat).cells a) ∧
    (∃ r', unchecked_uninit_move (fun p => p != 3) 10 [10, 20, 30] 1 (raw_storage Nat) =
        .ok (r', .returned (1 + 2)) ∧
      r'.destroyed = (raw_storage Nat).destroyed ++ List.range' 1 2 ∧
      ∀ a, r'.cells a = if 1 ≤ a ∧ a < 1 + 2 then none else (raw_storage Nat).cells a) ∧
    (∃ r', unchecked_uninit_move_n (fun p => p != 3) 10 (fun i => 10 * (i + 1)) 3 1
        (raw_storage Nat) = .ok (r', .rethrown) ∧
      r'.destroyed = (raw_storage Nat).destroyed ++ List.range' 1 2 ∧
      ∀ a, r'.cells a = if 1 ≤ a ∧ a < 1 + 2 then none else (raw_storage Nat).cells a) :=
  fill_move_rollback_exact (fun p => p != 3) 10 1 3 2 7 [10, 20, 30] (fun i => 10 * (i + 1))
    (raw_storage Nat) (by decide) (by decide) (by decide) (by decide) (by decide) (by decide)

/-- C29: when the constructions at the `n` destination positions all return,
`uninitialized_copy` on a source range of `n` elements and `uninitialized_copy_n`
with count `n` (on either dispatch path) leave a copy of source element `i` at
position `result + i` for every `i < n`, leave every other position as it was,
run no destructor, and return `result + n`. -/
theorem uninitialized_copy_success (trivially_copy_assignable : Bool) (ok : Nat → Bool)
    (fuel : Nat) (src : List β) (first : Nat → β) (n result : Nat) (r : Raw β)
    (hlen : src.length = n) (hsrc : ∀ i, i < n → src[i]? = some (first i))
    (hok : ∀ i, i < n → ok (result + i) = true) :
    (∃ r', uninitialized_copy trivially_copy_assignable ok fuel src result r =
        .ok (r', .returned (result + n)) ∧
      (∀ i, i < n → r'.cells (result + i) = some (first i)) ∧
      (∀ a, a < result ∨ result + n ≤ a → r'.cells a = r.cells a) ∧
      r'.destroyed = r.destroyed) ∧
    (∃ r', uninitialized_copy_n trivially_copy_assignable ok fuel first n result r =
        .ok (r', .returned (result + n)) ∧
      (∀ i, i < n → r'.cells (result + i) = some (first i)) ∧
      (∀ a, a < result ∨ result + n ≤ a → r'.cells a = r.cells a) ∧
      r'.destroyed = r.destroyed) := by
  have range_ok : ∀ (okk : Nat → Bool), (∀ i, i < n → okk (result + i) = true) →
      ∃ r', construct_range okk src result r = (r', result + n, false) ∧
        (∀ i, i < n → r'.cells (result + i) = some (first i)) ∧
        (∀ a, a < result ∨ result + n ≤ a → r'.cells a = r.cells a) ∧
        r'.destroyed = r.destroyed := by
    intro okk hokk
    obtain ⟨r1, e1, d1, c1⟩ := construct_range_spec okk src [] result r
      (fun i hi => hokk i (by omega)) (fun h => absurd rfl h)
    rw [List.append_nil, hlen] at e1
    rw [hlen] at c1
    refine ⟨r1, by simpa using e1, ?_, ?_, d1⟩
    · intro i hi
      rw [c1, if_pos (by omega), show result + i - result = i by omega, hsrc i hi]
    · intro a ha
      rw [c1, if_neg (by omega)]
  have n_ok : ∀ (okk : Nat → Bool), (∀ i, i < n → okk (result + i) = true) →
      ∃ r', construct_n okk first n 0 result r = (r', result + n, false) ∧
        (∀ i, i < n → r'.cells (result + i) = some (first i)) ∧
        (∀ a, a < result ∨ result + n ≤ a → r'.cells a = r.cells a) ∧
        r'.destroyed = r.destroyed := by
    intro okk hokk
    obtain ⟨r1, e1, d1, c1⟩ := construct_n_spec okk first n n 0 result r (le_refl n)
      hokk (fun h => absurd h (lt_irrefl n))
    refine ⟨r1, by simpa using e1, ?_, ?_, d1⟩
    · intro i hi
      rw [c1, if_pos (by omega), show result + i - result = i by omega, Nat.zero_add]
    · intro a ha
      rw [c1, if_neg (by omega)]
  constructor
  · cases trivially_copy_assignable with
    | true =>
      obtain ⟨r1, e1, h⟩ := range_ok (fun _ => true) (fun _ _ => rfl)
      exact ⟨r1, by simp [uninitialized_copy, algobase_copy_eq, e1], h⟩
    | false =>
      obtain ⟨r1, e1, h⟩ := range_ok ok hok
      exact ⟨r1, by simp [uninitialized_copy, unchecked_uninit_copy, e1], h⟩
  · cases trivially_copy_assignable with
    | true =>
      obtain ⟨r1, e1, h⟩ := n_ok (fun _ => true) (fun _ _ => rfl)
      exact ⟨r1, by simp [uninitialized_copy_n, algobase_copy_n_eq, e1], h⟩
    | false =>
      obtain ⟨r1, e1, h⟩ := n_ok ok hok
      exact ⟨r1, by simp [uninitialized_copy_n, unchecked_uninit_copy_n, e1], h⟩

theorem uninitialized_copy_success_witness :
    (∃ r', uninitialized_copy false (fun _ => true) 0 [10, 20, 30] 1 (raw_storage Nat) =
        .ok (r', .returned (1 + 3)) ∧
      (∀ i, i < 3 → r'.cells (1 + i) = some (10 * (i + 1))) ∧
      (∀ a, a < 1 ∨ 1 + 3 ≤ a → r'.cells a = (raw_storage Nat).cells a) ∧
      r'.destroyed = (raw_storage Nat).destroyed) ∧
    (∃ r', uninitialized_copy_n false (fun _ => true) 0 (fun i => 10 * (i + 1)) 3 1
        (raw_storage Nat) = .ok (r', .returned (1 + 3)) ∧
      (∀ i, i < 3 → r'.cells (1 + i) = some (10 * (i + 1))) ∧
      (∀ a, a < 1 ∨ 1 + 3 ≤ a → r'.cells a = (raw_storage Nat).cells a) ∧
      r'.destroyed = (raw_storage Nat).destroyed) :=
  uninitialized_copy_success false (fun _ => true) 0 [10, 20, 30] (fun i => 10 * (i + 1)) 3 1
    (raw_storage Nat) (by decide) (by decide) (fun _ _ => rfl)

end claims_uninit

/-! ## Iteration, counting and rotations -/

section claims_iter

variable {α κ : Type}

theorem increments_spec {s : rb_tree α} {t : Tree α} (hwf : WF s t) (fuel : Nat)
    (hf : t.size + 2 ≤ fuel) :
    ∀ (i : Nat) (pre post : List (Nat × α)), t.nodes = pre ++ post → i ≤ post.length →
      increments fuel s.mem i ((post.map Prod.fst).head?.getD s.header) =
        .ok (((post.drop i).map Prod.fst).head?.getD s.header) := by
  intro i
  induction i with
  | zero => intro pre post _ _; rfl
  | succ i ih =>
    intro pre post hn hi
    cases post with
    | nil => simp at hi
    | cons e post =>
      obtain ⟨a, w⟩ := e
      have h1 := hwf.next_addr fuel hf hn
      have h2 := ih (pre ++ [(a, w)]) post (by simp [hn]) (by simpa using hi)
      simp only [List.map_cons, List.head?_cons, Option.getD_some, increments, h1, ok_bind,
        List.drop_succ_cons]
      exact h2

/-- C27: in a well-formed tree, `begin()` followed by `i` increments is the
`i`-th node in order (and reading it gives the `i`-th payload), for every
`i < size()`; these nodes are pairwise different and none is the header; after
`size()` increments the iterator is `end()`, the header. -/
theorem iteration_visits_in_order {s : rb_tree α} {t : Tree α} (hwf : WF s t) (fuel : Nat)
    (hf : t.size + 2 ≤ fuel) :
    ∃ b, s.begin = .ok b ∧
      (∀ i a v, t.nodes[i]? = some (a, v) →
        increments fuel s.mem i b = .ok a ∧ get_value s.mem a = .ok v ∧ a ≠ s.end_) ∧
      increments fuel s.mem s.size b = .ok s.end_ ∧
      (t.nodes.map Prod.fst).Nodup ∧ t.nodes.length = s.size ∧
      s.to_list fuel = .ok (t.nodes.map Prod.snd) := by
  have hb : t.first s.header = ((t.nodes.map Prod.fst).head?.getD s.header) := rfl
  refine ⟨t.first s.header, hwf.begin_eq, ?_, ?_, ?_, ?_, ?_⟩
  · intro i a v hi
    have hlt : i < t.nodes.length := by
      by_contra hc
      rw [List.getElem?_eq_none (by omega)] at hi
      cases hi
    have hm : (a, v) ∈ t.nodes := List.getElem?_mem hi
    refine ⟨?_, Rep_get_value hwf.z.rsub hm, hwf.not_header hm⟩
    rw [hb, increments_spec hwf fuel hf i [] t.nodes rfl (by omega)]
    simp [List.head?_drop, hi]
  · rw [hb, increments_spec hwf fuel hf s.size [] t.nodes rfl
      (by rw [rb_tree.size, hwf.count, Tree.length_nodes])]
    rw [List.drop_of_length_le (by rw [rb_tree.size, hwf.count, Tree.length_nodes])]
    rfl
  · have := hwf.z.nodup
    simp only [plug] at this
    exact List.Nodup.of_cons this
  · rw [rb_tree.size, hwf.count, Tree.length_nodes]
  · exact to_list_spec hwf fuel hf

theorem iteration_visits_in_order_witness :
    ∃ b, three_tree.begin = .ok b ∧
      (∀ i a v, three_abs.nodes[i]? = some (a, v) →
        increments 5 three_tree.mem i b = .ok a ∧ get_value three_tree.mem a = .ok v ∧
          a ≠ three_tree.end_) ∧
      increments 5 three_tree.mem three_tree.size b = .ok three_tree.end_ ∧
      (three_abs.nodes.map Prod.fst).Nodup ∧ three_abs.nodes.length = three_tree.size ∧
      three_tree.to_list 5 = .ok (three_abs.nodes.map Prod.snd) :=
  iteration_visits_in_order three_WF 5 (by decide)

/-- C28 (fails on the code): the multimap holding 1 ↦ 10 and 1 ↦ 20 stores two
elements with key 1 (`count_multi`, which `multiset::count` uses, gives 2), but
`multimap::count(1)` is `count_unique(1)` and returns 1. -/
theorem multimap_count_at_most_one :
    (multi_11 >>= fun s => s.to_list 20) = .ok [(1, 10), (1, 20)] ∧
      (multi_11 >>= fun s => multimap_count pairT 20 s 1) = .ok 1 ∧
      (multi_11 >>= fun s => s.count_multi pairT 20 1) = .ok 2 :=
  ⟨by decide, by decide, by decide⟩

theorem bind_ok_inv {A B : Type} {x : Except Fault A} {f : A → Except Fault B} {b : B}
    (h : (x >>= f) = .ok b) : ∃ a, x = .ok a ∧ f a = .ok b := by
  cases x with
  | error e => cases h
  | ok a => exact ⟨a, rfl, h⟩

theorem upd_keeps_color {m : Mem α} {p : Nat} {n : rb_tree_node α} (n' : rb_tree_node α)
    (hr : rd m p = .ok n) (hc : n'.color = n.color) (a : Nat) :
    get_color (upd m p n') a = get_color m a := by
  have hp0 : p ≠ 0 := by
    intro e
    simp [rd, e] at hr
  by_cases hap : a = p
  · subst hap
    simp [get_color, rd_upd_same _ _ hp0, hr, hc]
  · simp [get_color, rd_upd_ne _ _ hap]

theorem set_parent_color {m m' : Mem α} {p v : Nat} (h : set_parent m p v = .ok m') (a : Nat) :
    get_color m' a = get_color m a := by
  unfold set_parent at h
  cases hr : rd m p with
  | error e => rw [hr] at h; cases h
  | ok n =>
    rw [hr] at h
    injection h with h
    subst h
    refine upd_keeps_color _ hr ?_ a
    rfl

theorem set_left_color {m m' : Mem α} {p v : Nat} (h : set_left m p v = .ok m') (a : Nat) :
    get_color m' a = get_color m a := by
  unfold set_left at h
  cases hr : rd m p with
  | error e => rw [hr] at h; cases h
  | ok n =>
    rw [hr] at h
    injection h with h
    subst h
    refine upd_keeps_color _ hr ?_ a
    rfl

theorem set_right_color {m m' : Mem α} {p v : Nat} (h : set_right m p v = .ok m') (a : Nat) :
    get_color m' a = get_color m a := by
  unfold set_right at h
  cases hr : rd m p with
  | error e => rw [hr] at h; cases h
  | ok n =>
    rw [hr] at h
    injection h with h
    subst h
    refine upd_keeps_color _ hr ?_ a
    rfl

theorem set_parent_opt_color {m m' : Mem α} {p v : Nat} (h : set_parent_opt m p v = .ok m')
    (a : Nat) : get_color m' a = get_color m a := by
  unfold set_parent_opt at h
  split at h
  · injection h with h
    subst h
    rfl
  · exact set_parent_color h a

theorem replace_child_l_color {m m' : Mem α} {x y hdr : Nat}
    (h : replace_child_l m x y hdr = .ok m') (a : Nat) : get_color m' a = get_color m a := by
  unfold replace_child_l at h
  obtain ⟨root, _, h⟩ := bind_ok_inv h
  split at h
  · exact set_parent_color h a
  · obtain ⟨xp, _, h⟩ := bind_ok_inv h
    obtain ⟨xpl, _, h⟩ := bind_ok_inv h
    split at h
    · exact set_left_color h a
    · exact set_right_color h a

theorem replace_child_r_color {m m' : Mem α} {x y hdr : Nat}
    (h : replace_child_r m x y hdr = .ok m') (a : Nat) : get_color m' a = get_color m a := by
  unfold replace_child_r at h
  obtain ⟨root, _, h⟩ := bind_ok_inv h
  split at h
  · exact set_parent_color h a
  · obtain ⟨xp, _, h⟩ := bind_ok_inv h
    obtain ⟨xpr, _, h⟩ := bind_ok_inv h
    split at h
    · exact set_right_color h a
    · exact set_left_color h a

theorem rotate_left_color {m m' : Mem α} {x hdr : Nat}
    (h : rb_tree_rotate_left m x hdr = .ok m') (a : Nat) : get_color m' a = get_color m a := by
  unfold rb_tree_rotate_left at h
  obtain ⟨y, _, h⟩ := bind_ok_inv h
  obtain ⟨yl, _, h⟩ := bind_ok_inv h
  obtain ⟨m1, e1, h⟩ := bind_ok_inv h
  obtain ⟨yl2, _, h⟩ := bind_ok_inv h
  obtain ⟨m2, e2, h⟩ := bind_ok_inv h
  obtain ⟨xp, _, h⟩ := bind_ok_inv h
  obtain ⟨m3, e3, h⟩ := bind_ok_inv h
  obtain ⟨m4, e4, h⟩ := bind_ok_inv h
  obtain ⟨m5, e5, h⟩ := bind_ok_inv h
  rw [set_parent_color h, set_left_color e5, replace_child_l_color e4, set_parent_color e3,
    set_parent_opt_color e2, set_right_color e1]

theorem rotate_right_color {m m' : Mem α} {x hdr : Nat}
    (h : rb_tree_rotate_right m x hdr = .ok m') (a : Nat) : get_color m' a = get_color m a := by
  unfold rb_tree_rotate_right at h
  obtain ⟨y, _, h⟩ := bind_ok_inv h
  obtain ⟨yr, _, h⟩ := bind_ok_inv h
  obtain ⟨m1, e1, h⟩ := bind_ok_inv h
  obtain ⟨yr2, _, h⟩ := bind_ok_inv h
  obtain ⟨m2, e2, h⟩ := bind_ok_inv h
  obtain ⟨xp, _, h⟩ := bind_ok_inv h
  obtain ⟨m3, e3, h⟩ := bind_ok_inv h
  obtain ⟨m4, e4, h⟩ := bind_ok_inv h
  obtain ⟨m5, e5, h⟩ := bind_ok_inv h
  rw [set_parent_color h, set_right_color e5, replace_child_r_color e4, set_parent_color e3,
    set_parent_opt_color e2, set_left_color e1]

/-- A rotation result seen from the whole tree: the memory `m'` holds the tree
`plug ctx t'`, which has the nodes of `plug ctx t` in the same order, and the new
root is the focus of `t'` exactly when the path is empty. -/
theorem WF_of_rotated {s : rb_tree α} {ctx : Ctx α} {t : Tree α} (t' : Tree α) {m' : Mem α}
    (hwf : WF s (plug ctx t)) (hn : t'.nodes = t.nodes)
    (hx : t.ptr ∈ t.addrs) (hy : t'.ptr ∈ t.addrs)
    (z' : Z m' s.mem s.header ((plug ctx t).first s.header) ((plug ctx t).last s.header) ctx t') :
    WF { s with mem := m' } (plug ctx t') ∧ (plug ctx t').nodes = (plug ctx t).nodes ∧
      ∃ r0 r1, s.root = .ok r0 ∧ rb_tree.root { s with mem := m' } = .ok r1 ∧
        (r1 = t'.ptr ↔ r0 = t.ptr) ∧ (r0 ≠ t.ptr → r1 = r0) := by
  have hnn : (plug ctx t').nodes = (plug ctx t).nodes := by simp [nodes_plug, hn]
  have hfirst : (plug ctx t').first s.header = (plug ctx t).first s.header := by
    simp [Tree.first, Tree.addrs, hnn]
  have hlast : (plug ctx t').last s.header = (plug ctx t).last s.header := by
    simp [Tree.last, Tree.addrs, hnn]
  have zt := (Z_top.1 z').toSelf
  have hz := Z_top.2 hwf.z
  refine ⟨⟨?_, ?_⟩, hnn, ?_⟩
  · show Z m' m' s.header ((plug ctx t').first s.header) ((plug ctx t').last s.header) []
      (plug ctx t')
    rw [hfirst, hlast]
    exact zt
  · show s.node_count = (plug ctx t').size
    rw [hwf.count, ← Tree.length_nodes, ← Tree.length_nodes, hnn]
  · refine ⟨(plug ctx t).ptr, (plug ctx t').ptr, hwf.root_ptr, ?_, ?_, ?_⟩
    · simpa using zt.get_root
    · rw [ptr_plug, ptr_plug]
      cases ctx with
      | nil => simp [ctxRoot]
      | cons f fs =>
        have hm := ctxRoot_mem t.ptr f fs
        have d1 := (hz.focus_disjoint hx).2.1
        have d2 := (hz.focus_disjoint hy).2.1
        simp only [ctxRoot] at hm ⊢
        constructor
        · intro e
          exact absurd (e ▸ hm) d2
        · intro e
          exact absurd (e ▸ hm) d1
    · rw [ptr_plug, ptr_plug]
      cases ctx with
      | nil => intro h; exact absurd rfl h
      | cons f fs => intro _; rfl

/-- C30: in a well-formed tree, `rb_tree_rotate_left(x, root)` on a node `x`
with right child `y` returns; the tree is well formed again (every parent link
agrees with the child links, header caches included) with `y` above `x` and the
subtree between them moved over; the in-order node sequence is unchanged; no
colour field changes; and `root` becomes `y` exactly when `x` was the root (it is
unchanged otherwise).  The mirrored statement holds for `rb_tree_rotate_right`
on a node with a left child. -/
theorem rotations_preserve_structure {s : rb_tree α} (ctx : Ctx α) (x y : Nat) (cx cy : Bool)
    (a b c : Tree α) (vx vy : α) :
    (WF s (plug ctx (.node x cx a vx (.node y cy b vy c))) →
      ∃ m', rb_tree_rotate_left s.mem x s.header = .ok m' ∧
        WF { s with mem := m' } (plug ctx (.node y cy (.node x cx a vx b) vy c)) ∧
        (plug ctx (.node y cy (.node x cx a vx b) vy c)).nodes =
          (plug ctx (.node x cx a vx (.node y cy b vy c))).nodes ∧
        (∀ p, get_color m' p = get_color s.mem p) ∧
        ∃ r0 r1, s.root = .ok r0 ∧ rb_tree.root { s with mem := m' } = .ok r1 ∧
          (r1 = y ↔ r0 = x) ∧ (r0 ≠ x → r1 = r0)) ∧
    (WF s (plug ctx (.node x cx (.node y cy a vy b) vx c)) →
      ∃ m', rb_tree_rotate_right s.mem x s.header = .ok m' ∧
        WF { s with mem := m' } (plug ctx (.node y cy a vy (.node x cx b vx c))) ∧
        (plug ctx (.node y cy a vy (.node x cx b vx c))).nodes =
          (plug ctx (.node x cx (.node y cy a vy b) vx c)).nodes ∧
        (∀ p, get_color m' p = get_color s.mem p) ∧
        ∃ r0 r1, s.root = .ok r0 ∧ rb_tree.root { s with mem := m' } = .ok r1 ∧
          (r1 = y ↔ r0 = x) ∧ (r0 ≠ x → r1 = r0)) := by
  constructor
  · intro hwf
    obtain ⟨m', e, z'⟩ := (Z_top.2 hwf.z).rotate_left
    obtain ⟨w1, w2, w3⟩ := WF_of_rotated (.node y cy (.node x cx a vx b) vy c) hwf
      (by simp [Tree.nodes]) (by simp [Tree.addrs, Tree.nodes, Tree.ptr])
      (by simp [Tree.addrs, Tree.nodes, Tree.ptr]) z'
    exact ⟨m', e, w1, w2, rotate_left_color e, w3⟩
  · intro hwf
    obtain ⟨m', e, z'⟩ := (Z_top.2 hwf.z).rotate_right
    obtain ⟨w1, w2, w3⟩ := WF_of_rotated (.node y cy a vy (.node x cx b vx c)) hwf
      (by simp [Tree.nodes]) (by simp [Tree.addrs, Tree.nodes, Tree.ptr])
      (by simp [Tree.addrs, Tree.nodes, Tree.ptr]) z'
    exact ⟨m', e, w1, w2, rotate_right_color e, w3⟩

theorem rotations_preserve_structure_witness :
    (∃ m', rb_tree_rotate_left three_tree.mem 2 three_tree.header = .ok m' ∧
      WF { three_tree with mem := m' }
        (plug [] (.node 4 rb_tree_red (.node 2 rb_tree_black (.node 3 rb_tree_red .nil 1 .nil)
          2 .nil) 3 .nil)) ∧
      (plug [] (.node 4 rb_tree_red (.node 2 rb_tree_black (.node 3 rb_tree_red .nil 1 .nil)
          2 .nil) 3 .nil)).nodes =
        (plug [] (.node 2 rb_tree_black (.node 3 rb_tree_red .nil 1 .nil) 2
          (.node 4 rb_tree_red .nil 3 .nil))).nodes ∧
      (∀ p, get_color m' p = get_color three_tree.mem p) ∧
      ∃ r0 r1, three_tree.root = .ok r0 ∧ rb_tree.root { three_tree with mem := m' } = .ok r1 ∧
        (r1 = 4 ↔ r0 = 2) ∧ (r0 ≠ 2 → r1 = r0)) ∧
    (∃ m', rb_tree_rotate_right three_tree.mem 2 three_tree.header = .ok m' ∧
      WF { three_tree with mem := m' }
        (plug [] (.node 3 rb_tree_red .nil 1 (.node 2 rb_tree_black .nil 2
          (.node 4 rb_tree_red .nil 3 .nil)))) ∧
      (plug [] (.node 3 rb_tree_red .nil 1 (.node 2 rb_tree_black .nil 2
          (.node 4 rb_tree_red .nil 3 .nil)))).nodes =
        (plug [] (.node 2 rb_tree_black (.node 3 rb_tree_red .nil 1 .nil) 2
          (.node 4 rb_tree_red .nil 3 .nil))).nodes ∧
      (∀ p, get_color m' p = get_color three_tree.mem p) ∧
      ∃ r0 r1, three_tree.root = .ok r0 ∧ rb_tree.root { three_tree with mem := m' } = .ok r1 ∧
        (r1 = 3 ↔ r0 = 2) ∧ (r0 ≠ 2 → r1 = r0)) :=
  ⟨(rotations_preserve_structure [] 2 4 rb_tree_black rb_tree_red
      (.node 3 rb_tree_red .nil 1 .nil) .nil .nil 2 3).1 three_WF,
    (rotations_preserve_structure [] 2 3 rb_tree_black rb_tree_red
      .nil .nil (.node 4 rb_tree_red .nil 3 .nil) 2 1).2 three_WF⟩

end claims_iter

/-! ## The hinted insertions -/

section hinted

variable {α κ : Type}

theorem focus_exists : ∀ (t : Tree α) (ctx0 : Ctx α) (a : Nat), a ∈ t.addrs →
    ∃ ctx c l v r, plug ctx (.node a c l v r) = plug ctx0 t := by
  intro t
  induction t with
  | nil => intro ctx0 a h; simp at h
  | node b c l v r ihl ihr =>
    intro ctx0 a h
    simp only [Tree.addrs_node, List.mem_append, List.mem_cons] at h
    rcases h with h | h | h
    · exact ihl (.L b c v r :: ctx0) a h
    · subst h; exact ⟨ctx0, c, l, v, r, rfl⟩
    · exact ihr (.R b c l v :: ctx0) a h

theorem addrs_ne_nil {t : Tree α} (h : t ≠ .nil) : t.addrs ≠ [] := by
  intro e
  exact h (size_zero_nil (by rw [← Tree.length_addrs, e]; rfl))

theorem left_spine (hdr : Nat) : ∀ (t : Tree α) (ctx0 : Ctx α), t ≠ .nil →
    ∃ ctx, plug ctx .nil = plug ctx0 t ∧ ctxPtr hdr ctx = t.first hdr ∧
      headIsLeft ctx = true ∧ ctxBefore ctx = ctxBefore ctx0 ∧
      ctxAfter ctx = t.nodes ++ ctxAfter ctx0 := by
  intro t
  induction t with
  | nil => intro _ h; exact absurd rfl h
  | node b c l v r ihl _ =>
    intro ctx0 _
    by_cases hl : l = .nil
    · subst hl
      exact ⟨.L b c v r :: ctx0, rfl, by simp [Tree.first, Frame.addr], rfl, rfl,
        by simp [ctxAfter]⟩
    · obtain ⟨ctx, e1, e2, e3, e4, e5⟩ := ihl (.L b c v r :: ctx0) hl
      refine ⟨ctx, e1, ?_, e3, by rw [e4]; rfl, by rw [e5]; simp [ctxAfter]⟩
      rw [e2]
      cases hn : l.addrs with
      | nil => exact absurd hn (addrs_ne_nil hl)
      | cons x xs => simp [Tree.first, hn]

theorem right_spine (hdr : Nat) : ∀ (t : Tree α) (ctx0 : Ctx α), t ≠ .nil →
    ∃ ctx, plug ctx .nil = plug ctx0 t ∧ ctxPtr hdr ctx = t.last hdr ∧
      headIsLeft ctx = false ∧ ctxBefore ctx = ctxBefore ctx0 ++ t.nodes ∧
      ctxAfter ctx = ctxAfter ctx0 := by
  intro t
  induction t with
  | nil => intro _ h; exact absurd rfl h
  | node b c l v r _ ihr =>
    intro ctx0 _
    by_cases hr : r = .nil
    · subst hr
      exact ⟨.R b c l v :: ctx0, rfl, by simp [Tree.last, Frame.addr], rfl,
        by simp [ctxBefore], rfl⟩
    · obtain ⟨ctx, e1, e2, e3, e4, e5⟩ := ihr (.R b c l v :: ctx0) hr
      refine ⟨ctx, e1, ?_, e3, by rw [e4]; simp [ctxBefore], by rw [e5]; rfl⟩
      rw [e2]
      cases hn : r.addrs with
      | nil => exact absurd hn (addrs_ne_nil hr)
      | cons x xs =>
        simp only [Tree.last, Tree.addrs_node, hn]
        rw [show l.addrs ++ b :: x :: xs = (l.addrs ++ [b]) ++ x :: xs by simp,
          List.getLast?_append_of_ne_nil _ (by simp)]

/-- What the memory of a well-formed tree holds at a node address: readable
links and payload, and a null link there is a place of the abstract tree. -/
theorem slot_of_null {s : rb_tree α} {t : Tree α} (hwf : WF s t) {a : Nat} (ha : a ∈ t.addrs) :
    (get_right s.mem a = .ok 0 →
      ∃ ctx, plug ctx .nil = t ∧ ctxPtr s.header ctx = a ∧ headIsLeft ctx = false) ∧
    (get_left s.mem a = .ok 0 →
      ∃ ctx, plug ctx .nil = t ∧ ctxPtr s.header ctx = a ∧ headIsLeft ctx = true) ∧
    (∃ l r, get_left s.mem a = .ok l ∧ get_right s.mem a = .ok r) ∧
    ∃ v, get_value s.mem a = .ok v := by
  obtain ⟨ctx, c, l, v, r, e⟩ := focus_exists t [] a ha
  simp only [plug_nil] at e
  subst e
  have z := Z_top.2 hwf.z
  have hrd := z.rd_focus
  refine ⟨?_, ?_, ⟨l.ptr, r.ptr, get_left_ok hrd, get_right_ok hrd⟩, ⟨v, z.get_value⟩⟩
  · intro h
    rw [get_right_ok hrd] at h
    injection h with h
    have hr : r = .nil := (Rep_ptr_eq_zero_iff z.rsub.2.2.2).1 h
    subst hr
    exact ⟨.R a c l v :: ctx, rfl, rfl, rfl⟩
  · intro h
    rw [get_left_ok hrd] at h
    injection h with h
    have hl : l = .nil := (Rep_ptr_eq_zero_iff z.rsub.2.2.1).1 h
    subst hl
    exact ⟨.L a c v r :: ctx, rfl, rfl, rfl⟩

theorem WF.key_at {s : rb_tree α} {t : Tree α} (T : Traits α κ) (hwf : WF s t) {a : Nat}
    (ha : a ∈ t.addrs) : ∃ k, get_key T s.mem a = .ok k := by
  obtain ⟨v, hv⟩ := (slot_of_null hwf ha).2.2.2
  exact ⟨T.KeyOfValue v, by simp [get_key, hv]⟩

theorem WF.decrement_ok {s : rb_tree α} {t : Tree α} (hwf : WF s t) (hrb : t.RootBlack)
    (fuel : Nat) (hf : t.size ≤ fuel) {a : Nat} (ha : a ∈ t.addrs)
    (hne : a ≠ t.first s.header) :
    ∃ b, b ∈ t.addrs ∧ decrement fuel s.mem a = .ok b := by
  obtain ⟨ctx, c, l, v, r, e⟩ := focus_exists t [] a ha
  simp only [plug_nil] at e
  subst e
  have z := Z_top.2 hwf.z
  have hb : ctxBeforeA ctx ++ l.addrs ≠ [] := by
    intro hemp
    apply hne
    simp only [List.append_eq_nil] at hemp
    simp [Tree.first, addrs_plug, hemp.1, hemp.2]
  have hroot : c = rb_tree_red → ctx ≠ [] := by
    intro hc hctx
    subst hctx
    simp [Tree.RootBlack, Tree.isRed, hc] at hrb
  have hfuel : ctx.length + l.height ≤ fuel := by
    have h1 := length_le_ctx ctx
    have h2 := l.height_le_size
    have h3 := size_plug ctx (Tree.node a c l v r)
    simp only [Tree.size_node] at h3
    omega
  refine ⟨(ctxBeforeA ctx ++ l.addrs).getLast?.getD 0, ?_, decrement_spec 0 fuel z hroot hb hfuel⟩
  cases hx : (ctxBeforeA ctx ++ l.addrs).getLast? with
  | none => exact absurd (List.getLast?_eq_none_iff.1 hx) hb
  | some x =>
    have hm := List.mem_of_getLast?_eq_some hx
    simp only [Option.getD_some, mem_addrs_plug, Tree.addrs_node, List.mem_append,
      List.mem_cons] at hm ⊢
    tauto

theorem WF_created {s : rb_tree α} {t : Tree α} (hwf : WF s t) (v : α) (p : Nat) (junk : Bool)
    (hfresh : s.mem p = none) :
    WF ({ s with mem := create_node s.mem p junk v } : rb_tree α) t := by
  have hph : p ≠ s.header := fun e => hwf.hdr_live (e ▸ hfresh)
  have hpt : p ∉ t.addrs := fun hm => Rep_live hwf.z.rsub p hm hfresh
  refine WF_congr hwf rfl rfl ?_
  intro a ha
  apply upd_ne
  rcases ha with rfl | ha
  · exact Ne.symm hph
  · exact fun e => hpt (e ▸ ha)

/-- Linking the created node at a null place `ctx` of the tree. -/
theorem node_at_slot (T : Traits α κ) {s : rb_tree α} {t : Tree α} (hwf : WF s t)
    (hrb : t.RootBlack) (v : α) (p : Nat) (junk : Bool) (hp0 : p ≠ 0)
    (hfresh : s.mem p = none) (fuel : Nat) (hf : t.size < fuel)
    (hcnt : s.node_count < T.max_size) (ctx : Ctx α) (hctx : plug ctx .nil = t) :
    ∃ s', rb_tree.insert_node_at T fuel { s with mem := create_node s.mem p junk v }
        (ctxPtr s.header ctx) p (headIsLeft ctx) = .ok (s', p) ∧
      WF s' (reblanced ctx (.node p junk .nil v .nil)) ∧ s'.header = s.header := by
  have hc2 : s.node_count + 1 < 2 ^ T.size_bits := by
    simp only [Traits.max_size] at hcnt; omega
  obtain ⟨s', e1, w1, w2, _⟩ := insert_value_at_spec T hwf hrb ctx hctx v p junk hp0 hfresh
    fuel hf hc2
  exact ⟨s', e1, w1, w2⟩

theorem WF.nodup_addrs {s : rb_tree α} {t : Tree α} (hwf : WF s t) :
    (t.nodes.map Prod.fst).Nodup := by
  have := List.Nodup.of_cons hwf.z.nodup
  simpa [Tree.addrs] using this

/-- In a list with distinct addresses the split at an address is unique. -/
theorem nodes_split_unique {L X Y pre post : List (Nat × α)} {a : Nat} {v w : α}
    (hnd : (L.map Prod.fst).Nodup) (h1 : L = X ++ (a, v) :: Y)
    (h2 : L = pre ++ (a, w) :: post) : X = pre ∧ v = w ∧ Y = post := by
  subst h1
  simp only [List.map_append, List.map_cons] at hnd
  have hx : a ∉ X.map Prod.fst := fun hm => List.disjoint_of_nodup_append hnd hm (by simp)
  have hy : a ∉ Y.map Prod.fst := (List.nodup_cons.1 (List.nodup_append.1 hnd).2.1).1
  have hx' : (a, w) ∉ X := fun hm => hx (List.mem_map.2 ⟨(a, w), hm, rfl⟩)
  have hy' : (a, w) ∉ Y := fun hm => hy (List.mem_map.2 ⟨(a, w), hm, rfl⟩)
  have := (List.append_cons_inj_of_not_mem hx' hy').1 h2
  exact ⟨this.1, (Prod.mk.inj this.2.1).2, this.2.2⟩

/-- A null link at a node is the place right after the node (right link) or
right before it (left link) in the in-order sequence. -/
theorem slot_sides {s : rb_tree α} {t : Tree α} (hwf : WF s t) {pre post : List (Nat × α)}
    {a : Nat} {w : α} (hn : t.nodes = pre ++ (a, w) :: post) :
    (get_right s.mem a = .ok 0 →
      ∃ ctx, plug ctx .nil = t ∧ ctxPtr s.header ctx = a ∧ headIsLeft ctx = false ∧
        ctxBefore ctx = pre ++ [(a, w)] ∧ ctxAfter ctx = post) ∧
    (get_left s.mem a = .ok 0 →
      ∃ ctx, plug ctx .nil = t ∧ ctxPtr s.header ctx = a ∧ headIsLeft ctx = true ∧
        ctxBefore ctx = pre ∧ ctxAfter ctx = (a, w) :: post) := by
  have ha : a ∈ t.addrs := by simp [Tree.addrs, hn]
  have hnd := hwf.nodup_addrs
  obtain ⟨ctx, c, l, v, r, e⟩ := focus_exists t [] a ha
  simp only [plug_nil] at e
  subst e
  have z := Z_top.2 hwf.z
  have hrd := z.rd_focus
  have hnp := nodes_plug ctx (Tree.node a c l v r)
  simp only [Tree.nodes_node] at hnp
  constructor
  · intro h
    rw [get_right_ok hrd] at h
    injection h with h
    have hr : r = .nil := (Rep_ptr_eq_zero_iff z.rsub.2.2.2).1 h
    subst hr
    obtain ⟨h1, h2, h3⟩ := nodes_split_unique hnd (X := ctxBefore ctx ++ l.nodes)
      (Y := ctxAfter ctx) (v := v) (by rw [hnp]; simp) hn
    subst h2
    exact ⟨.R a c l v :: ctx, rfl, rfl, rfl, by simp [ctxBefore, ← h1], by simp [ctxAfter, ← h3]⟩
  · intro h
    rw [get_left_ok hrd] at h
    injection h with h
    have hl : l = .nil := (Rep_ptr_eq_zero_iff z.rsub.2.2.1).1 h
    subst hl
    obtain ⟨h1, h2, h3⟩ := nodes_split_unique hnd (X := ctxBefore ctx)
      (Y := r.nodes ++ ctxAfter ctx) (v := v) (by rw [hnp]; simp) hn
    subst h2
    exact ⟨.L a c v r :: ctx, rfl, rfl, rfl, by simp [ctxBefore, ← h1], by simp [ctxAfter, ← h3]⟩

theorem WF.key_of_node (T : Traits α κ) {s : rb_tree α} {t : Tree α} (hwf : WF s t) {a : Nat}
    {w : α} (hm : (a, w) ∈ t.nodes) : get_key T s.mem a = .ok (T.KeyOfValue w) := by
  simp [get_key, Rep_get_value hwf.z.rsub hm]

/-- Decrementing at a node other than the first gives the node before it in
order. -/
theorem WF.prev_addr {s : rb_tree α} {t : Tree α} (hwf : WF s t) (hrb : t.RootBlack)
    (fuel : Nat) (hf : t.size ≤ fuel) {pre post : List (Nat × α)} {a : Nat} {w : α}
    (hn : t.nodes = pre ++ (a, w) :: post) (hpre : pre ≠ []) :
    decrement fuel s.mem a = .ok ((pre.map Prod.fst).getLast?.getD s.header) := by
  have ha : a ∈ t.addrs := by simp [Tree.addrs, hn]
  have hnd := List.Nodup.of_cons hwf.z.nodup
  obtain ⟨ctx, c, l, v, r, e⟩ := focus_exists t [] a ha
  simp only [plug_nil] at e
  subst e
  have z := Z_top.2 hwf.z
  have hA : (plug ctx (Tree.node a c l v r)).addrs =
      pre.map Prod.fst ++ a :: post.map Prod.fst := by simp [Tree.addrs, hn]
  simp only [plug_nil] at hnd
  rw [hA] at hnd
  rw [addrs_plug] at hA
  simp only [Tree.addrs_node, List.append_assoc, List.cons_append] at hA
  rw [← List.append_assoc] at hA
  have hn1 : a ∉ pre.map Prod.fst := by
    intro hm
    have := List.disjoint_of_nodup_append hnd hm
    exact this (by simp)
  have hn2 : a ∉ post.map Prod.fst := by
    have h2 := (List.nodup_append.1 hnd).2.1
    exact (List.nodup_cons.1 h2).1
  have hsp := (List.append_cons_inj_of_not_mem hn1 hn2).1 hA.symm
  have hb : ctxBeforeA ctx ++ l.addrs ≠ [] := by
    rw [← hsp.1]; simpa using hpre
  have hroot : c = rb_tree_red → ctx ≠ [] := by
    intro hc hctx
    subst hctx
    simp [Tree.RootBlack, Tree.isRed, hc] at hrb
  have hfuel : ctx.length + l.height ≤ fuel := by
    have h1 := length_le_ctx ctx
    have h2 := l.height_le_size
    have h3 := size_plug ctx (Tree.node a c l v r)
    simp only [Tree.size_node] at h3
    omega
  rw [decrement_spec s.header fuel z hroot hb hfuel, hsp.1]

/-- A node other than the first has a node right before it in order. -/
theorem pred_split {t : Tree α} {hint hdr : Nat} (hh : hint ∈ t.addrs)
    (hnf : hint ≠ t.first hdr) :
    ∃ pre b wb wh post, t.nodes = pre ++ (b, wb) :: (hint, wh) :: post := by
  simp only [Tree.addrs, List.mem_map] at hh
  obtain ⟨⟨a, wh⟩, hm, ha⟩ := hh
  simp only at ha
  subst ha
  obtain ⟨P, post, hn⟩ := List.append_of_mem hm
  rcases List.eq_nil_or_concat P with rfl | ⟨pre, x, rfl⟩
  · exfalso; apply hnf; simp [Tree.first, Tree.addrs, hn]
  · obtain ⟨b, wb⟩ := x
    exact ⟨pre, b, wb, wh, post, by simp [hn]⟩

theorem Strict_nodes (T : Traits α κ) {t : Tree α} (hs : t.StrictOrdered T) :
    t.nodes.Pairwise (fun a b => T.key_compare (T.KeyOfValue a.2) (T.KeyOfValue b.2) = true) := by
  simp only [Tree.StrictOrdered, Tree.toList, List.pairwise_map] at hs
  exact hs

theorem weak_upto (T : Traits α κ) (hT : StrictWeakOrder T.key_compare) {key : κ}
    {X : List (Nat × α)} {b : Nat × α}
    (ho : (X ++ [b]).Pairwise
      (fun x y => T.key_compare (T.KeyOfValue y.2) (T.KeyOfValue x.2) = false))
    (hk : T.key_compare key (T.KeyOfValue b.2) = false) :
    ∀ e ∈ X ++ [b], T.key_compare key (T.KeyOfValue e.2) = false := by
  intro e he
  rw [List.pairwise_append] at ho
  simp only [List.mem_append, List.mem_singleton] at he
  rcases he with he | rfl
  · exact hT.neg_trans _ _ _ hk (ho.2.2 e he b (by simp))
  · exact hk

theorem weak_from (T : Traits α κ) (hT : StrictWeakOrder T.key_compare) {key : κ}
    {h : Nat × α} {Y : List (Nat × α)}
    (ho : (h :: Y).Pairwise
      (fun x y => T.key_compare (T.KeyOfValue y.2) (T.KeyOfValue x.2) = false))
    (hk : T.key_compare (T.KeyOfValue h.2) key = false) :
    ∀ e ∈ h :: Y, T.key_compare (T.KeyOfValue e.2) key = false := by
  intro e he
  rw [List.pairwise_cons] at ho
  simp only [List.mem_cons] at he
  rcases he with rfl | he
  · exact hk
  · exact hT.neg_trans _ _ _ (ho.1 e he) hk

theorem strict_upto (T : Traits α κ) (hT : StrictWeakOrder T.key_compare) {key : κ}
    {X : List (Nat × α)} {b : Nat × α}
    (ho : (X ++ [b]).Pairwise
      (fun x y => T.key_compare (T.KeyOfValue y.2) (T.KeyOfValue x.2) = false))
    (hk : T.key_compare (T.KeyOfValue b.2) key = true) :
    ∀ e ∈ X ++ [b], T.key_compare (T.KeyOfValue e.2) key = true := by
  intro e he
  rw [List.pairwise_append] at ho
  simp only [List.mem_append, List.mem_singleton] at he
  rcases he with he | rfl
  · cases hc : T.key_compare (T.KeyOfValue e.2) key with
    | true => rfl
    | false =>
      have := hT.neg_trans _ _ _ (ho.2.2 e he b (by simp)) hc
      rw [hk] at this
      cases this
  · exact hk

theorem strict_from (T : Traits α κ) (hT : StrictWeakOrder T.key_compare) {key : κ}
    {h : Nat × α} {Y : List (Nat × α)}
    (ho : (h :: Y).Pairwise
      (fun x y => T.key_compare (T.KeyOfValue y.2) (T.KeyOfValue x.2) = false))
    (hk : T.key_compare key (T.KeyOfValue h.2) = true) :
    ∀ e ∈ h :: Y, T.key_compare key (T.KeyOfValue e.2) = true := by
  intro e he
  rw [List.pairwise_cons] at ho
  simp only [List.mem_cons] at he
  rcases he with rfl | he
  · exact hk
  · cases hc : T.key_compare key (T.KeyOfValue e.2) with
    | true => rfl
    | false =>
      have := hT.neg_trans _ _ _ hc (ho.1 e he)
      rw [hk] at this
      cases this

theorem nodes_descend (T : Traits α κ) (key : κ) (t : Tree α) :
    t.nodes = ctxBefore (descend T key t []) ++ ctxAfter (descend T key t []) := by
  have := congrArg Tree.nodes (plug_descend T key t [])
  simp only [nodes_plug, Tree.nodes_nil, List.append_nil, plug_nil] at this
  exact this.symm

/-- The place the insertion descent ends at is a place for the key. -/
theorem descend_weak (T : Traits α κ) (hT : StrictWeakOrder T.key_compare) (key : κ)
    (t : Tree α) (ho : t.Ordered T) : SidesWeak T key (descend T key t []) := by
  obtain ⟨hb, ha⟩ := descend_sides T hT key t [] (by simpa using ho) (by simp [ctxBefore])
    (by simp [ctxAfter])
  exact ⟨hb, fun e he => hT.asymm (ha e he)⟩

/-- With a passed duplicate test, the place the descent ends at has only
smaller keys before it and only greater keys after it. -/
theorem descend_strict (T : Traits α κ) (hT : StrictWeakOrder T.key_compare) (key : κ)
    (t : Tree α) (ho : t.Ordered T)
    (hok : pred_ok T key (ctxBefore (descend T key t [])) = true) :
    SidesStrict T key (descend T key t []) := by
  obtain ⟨_, ha⟩ := descend_sides T hT key t [] (by simpa using ho) (by simp [ctxBefore])
    (by simp [ctxAfter])
  refine ⟨?_, ha⟩
  have hsn := Ordered_nodes T ho
  rw [nodes_descend T key t, List.pairwise_append] at hsn
  cases hl : (ctxBefore (descend T key t [])).getLast? with
  | none =>
    rw [List.getLast?_eq_none_iff.1 hl]
    simp
  | some b =>
    simp only [pred_ok, hl] at hok
    have hx := List.dropLast_append_getLast? b (by simpa using hl)
    rw [← hx]
    exact strict_upto T hT (by rw [hx]; exact hsn.1) hok

theorem multi_at_pos_spec (T : Traits α κ) {s : rb_tree α} {t : Tree α} (hwf : WF s t)
    (hrb : t.RootBlack) (v : α) (p : Nat) (junk : Bool) (hp0 : p ≠ 0)
    (hfresh : s.mem p = none) (fuel : Nat) (hf : t.size < fuel)
    (hcnt : s.node_count < T.max_size) (key : κ) :
    ∃ s' ctx, plug ctx .nil = t ∧
      rb_tree.insert_multi_at_pos T fuel { s with mem := create_node s.mem p junk v } key p =
        .ok (s', p) ∧
      WF s' (reblanced ctx (.node p junk .nil v .nil)) ∧ s'.header = s.header ∧
      (StrictWeakOrder T.key_compare → t.Ordered T → SidesWeak T key ctx) := by
  have hwf1 := WF_created hwf v p junk hfresh
  have e := plug_descend T key t []
  simp only [plug_nil] at e
  obtain ⟨s', e1, w1, w2⟩ := node_at_slot T hwf hrb v p junk hp0 hfresh fuel hf hcnt _ e
  refine ⟨s', _, e, ?_, w1, w2, fun hT ho => descend_weak T hT key t ho⟩
  simp only [rb_tree.insert_multi_at_pos, get_insert_multi_pos_spec T hwf1 key fuel hf, ok_bind]
  exact e1

theorem unique_at_pos_spec (T : Traits α κ) {s : rb_tree α} {t : Tree α} (hwf : WF s t)
    (hrb : t.RootBlack) (v : α) (p : Nat) (junk : Bool) (hp0 : p ≠ 0)
    (hfresh : s.mem p = none) (fuel : Nat) (hf : t.size < fuel)
    (hcnt : s.node_count < T.max_size) (key : κ) :
    (∃ s' ctx, plug ctx .nil = t ∧
      rb_tree.insert_unique_at_pos T fuel { s with mem := create_node s.mem p junk v } key p =
        .ok (s', p) ∧
      WF s' (reblanced ctx (.node p junk .nil v .nil)) ∧ s'.header = s.header ∧
      (StrictWeakOrder T.key_compare → t.Ordered T → SidesStrict T key ctx)) ∨
    (t ≠ .nil ∧ pred_ok T key (ctxBefore (descend T key t [])) = false ∧ ∃ it,
      rb_tree.insert_unique_at_pos T fuel { s with mem := create_node s.mem p junk v } key p =
        .ok (s, it)) := by
  have hwf1 := WF_created hwf v p junk hfresh
  have e := plug_descend T key t []
  simp only [plug_nil] at e
  have hpos := get_insert_unique_pos_spec T hwf1 hrb key fuel hf
  cases hok : pred_ok T key (ctxBefore (descend T key t [])) with
  | true =>
    left
    obtain ⟨s', e1, w1, w2⟩ := node_at_slot T hwf hrb v p junk hp0 hfresh fuel hf hcnt _ e
    refine ⟨s', _, e, ?_, w1, w2, fun hT ho => descend_strict T hT key t ho hok⟩
    simp only [rb_tree.insert_unique_at_pos, hpos, ok_bind, hok, if_true]
    exact e1
  | false =>
    right
    have hrd : rd (create_node s.mem p junk v) p = .ok _ := rd_upd_same _ _ hp0
    refine ⟨?_, rfl, ctxPtr s.header (descend T key t []), ?_⟩
    · intro hnil
      subst hnil
      simp [descend, ctxBefore, pred_ok] at hok
    · simp [rb_tree.insert_unique_at_pos, hpos, hok, destroy_node, hrd, free_create hfresh]

theorem hint_place_spec {s : rb_tree α} {t : Tree α} (hwf : WF s t)
    {pre post : List (Nat × α)} {bnp np : Nat} {wb wh : α}
    (hn : t.nodes = pre ++ (bnp, wb) :: (np, wh) :: post) :
    ∃ pl, hint_place s.mem bnp np = .ok pl ∧
      ∀ x b, pl = some (x, b) →
        ∃ ctx, plug ctx .nil = t ∧ ctxPtr s.header ctx = x ∧ headIsLeft ctx = b ∧
          ctxBefore ctx = pre ++ [(bnp, wb)] ∧ ctxAfter ctx = (np, wh) :: post := by
  have hb : bnp ∈ t.addrs := by simp [Tree.addrs, hn]
  have hnp : np ∈ t.addrs := by simp [Tree.addrs, hn]
  obtain ⟨-, -, ⟨bl, br, -, ebr⟩, -⟩ := slot_of_null hwf hb
  obtain ⟨-, -, ⟨nl, nr, enl, -⟩, -⟩ := slot_of_null hwf hnp
  have hsr := (slot_sides hwf hn).1
  have hsl := (slot_sides hwf (show t.nodes = (pre ++ [(bnp, wb)]) ++ (np, wh) :: post by
    simp [hn])).2
  by_cases h1 : br = 0
  · subst h1
    refine ⟨some (bnp, false), by simp [hint_place, ebr], ?_⟩
    intro x b hx
    simp only [Option.some.injEq, Prod.mk.injEq] at hx
    obtain ⟨rfl, rfl⟩ := hx
    exact hsr ebr
  · by_cases h2 : nl = 0
    · subst h2
      refine ⟨some (np, true), by simp [hint_place, ebr, h1, enl], ?_⟩
      intro x b hx
      simp only [Option.some.injEq, Prod.mk.injEq] at hx
      obtain ⟨rfl, rfl⟩ := hx
      exact hsl enl
    · exact ⟨none, by simp [hint_place, ebr, h1, enl, h2], fun x b hx => by cases hx⟩

theorem insert_multi_use_hint_spec (T : Traits α κ) {s : rb_tree α} {t : Tree α} (hwf : WF s t)
    (hrb : t.RootBlack) (v : α) (p : Nat) (junk : Bool) (hp0 : p ≠ 0)
    (hfresh : s.mem p = none) (fuel : Nat) (hf : t.size < fuel)
    (hcnt : s.node_count < T.max_size) (key : κ) {hint : Nat} (hh : hint ∈ t.addrs)
    (hnf : hint ≠ t.first s.header) :
    ∃ s' ctx, plug ctx .nil = t ∧
      rb_tree.insert_multi_use_hint T fuel { s with mem := create_node s.mem p junk v } hint
        key p = .ok (s', p) ∧
      WF s' (reblanced ctx (.node p junk .nil v .nil)) ∧ s'.header = s.header ∧
      (StrictWeakOrder T.key_compare → t.Ordered T → SidesWeak T key ctx) := by
  have hwf1 := WF_created hwf v p junk hfresh
  obtain ⟨pre, before, wb, wh, post, hn⟩ := pred_split hh hnf
  have hn' : t.nodes = (pre ++ [(before, wb)]) ++ (hint, wh) :: post := by simp [hn]
  have hdec : decrement fuel (create_node s.mem p junk v) hint = .ok before := by
    have := hwf1.prev_addr hrb fuel (by omega) hn' (by simp)
    simpa using this
  have hkb := hwf1.key_of_node T (a := before) (w := wb) (by simp [hn])
  have hkh := hwf1.key_of_node T (a := hint) (w := wh) (by simp [hn])
  obtain ⟨pl, hpl, hslot⟩ := hint_place_spec hwf1 hn
  have hplace : ∃ pl', (∀ x b, pl' = some (x, b) →
        ∃ ctx, plug ctx .nil = t ∧ ctxPtr s.header ctx = x ∧ headIsLeft ctx = b ∧
          (StrictWeakOrder T.key_compare → t.Ordered T → SidesWeak T key ctx)) ∧
      rb_tree.insert_multi_use_hint T fuel { s with mem := create_node s.mem p junk v } hint
        key p =
      (match pl' with
        | some (x, add_to_left) =>
          rb_tree.insert_node_at T fuel { s with mem := create_node s.mem p junk v } x p
            add_to_left
        | none =>
          rb_tree.insert_multi_at_pos T fuel { s with mem := create_node s.mem p junk v }
            key p) := by
    by_cases c1 : T.key_compare key (T.KeyOfValue wb) = true
    · exact ⟨none, (fun x b hx => by cases hx),
        by simp [rb_tree.insert_multi_use_hint, hdec, hkb, c1]⟩
    · by_cases c2 : T.key_compare (T.KeyOfValue wh) key = true
      · exact ⟨none, (fun x b hx => by cases hx),
          by simp [rb_tree.insert_multi_use_hint, hdec, hkb, c1, hkh, c2]⟩
      · refine ⟨pl, ?_, ?_⟩
        · intro x b hx
          obtain ⟨ctx, e, e2, e3, e4, e5⟩ := hslot x b hx
          refine ⟨ctx, e, e2, e3, fun hT ho => ?_⟩
          have hon := Ordered_nodes T ho
          rw [hn', List.pairwise_append] at hon
          constructor
          · rw [e4]; exact weak_upto T hT hon.1 (by simpa using c1)
          · rw [e5]; exact weak_from T hT hon.2.1 (by simpa using c2)
        · rcases pl with _ | ⟨x, b⟩ <;>
            simp [rb_tree.insert_multi_use_hint, hdec, hkb, c1, hkh, c2, hpl]
  obtain ⟨pl', hs, he⟩ := hplace
  rw [he]
  cases pl' with
  | none => exact multi_at_pos_spec T hwf hrb v p junk hp0 hfresh fuel hf hcnt key
  | some xb =>
    obtain ⟨x, b⟩ := xb
    obtain ⟨ctx, e, rfl, rfl, hsd⟩ := hs x b rfl
    obtain ⟨s', e1, w1, w2⟩ := node_at_slot T hwf hrb v p junk hp0 hfresh fuel hf hcnt ctx e
    exact ⟨s', ctx, e, e1, w1, w2, hsd⟩

theorem insert_unique_use_hint_spec (T : Traits α κ) {s : rb_tree α} {t : Tree α}
    (hwf : WF s t) (hrb : t.RootBlack) (v : α) (p : Nat) (junk : Bool) (hp0 : p ≠ 0)
    (hfresh : s.mem p = none) (fuel : Nat) (hf : t.size < fuel)
    (hcnt : s.node_count < T.max_size) (key : κ) {hint : Nat} (hh : hint ∈ t.addrs)
    (hnf : hint ≠ t.first s.header) :
    (∃ s' ctx, plug ctx .nil = t ∧
      rb_tree.insert_unique_use_hint T fuel { s with mem := create_node s.mem p junk v } hint
        key p = .ok (s', p) ∧
      WF s' (reblanced ctx (.node p junk .nil v .nil)) ∧ s'.header = s.header ∧
      (StrictWeakOrder T.key_compare → t.Ordered T → SidesStrict T key ctx)) ∨
    (t ≠ .nil ∧ pred_ok T key (ctxBefore (descend T key t [])) = false ∧ ∃ it,
      rb_tree.insert_unique_use_hint T fuel { s with mem := create_node s.mem p junk v } hint
        key p = .ok (s, it)) := by
  have hwf1 := WF_created hwf v p junk hfresh
  obtain ⟨pre, before, wb, wh, post, hn⟩ := pred_split hh hnf
  have hn' : t.nodes = (pre ++ [(before, wb)]) ++ (hint, wh) :: post := by simp [hn]
  have hdec : decrement fuel (create_node s.mem p junk v) hint = .ok before := by
    have := hwf1.prev_addr hrb fuel (by omega) hn' (by simp)
    simpa using this
  have hkb := hwf1.key_of_node T (a := before) (w := wb) (by simp [hn])
  have hkh := hwf1.key_of_node T (a := hint) (w := wh) (by simp [hn])
  obtain ⟨pl, hpl, hslot⟩ := hint_place_spec hwf1 hn
  have hplace : ∃ pl', (∀ x b, pl' = some (x, b) →
        ∃ ctx, plug ctx .nil = t ∧ ctxPtr s.header ctx = x ∧ headIsLeft ctx = b ∧
          (StrictWeakOrder T.key_compare → t.Ordered T → SidesStrict T key ctx)) ∧
      rb_tree.insert_unique_use_hint T fuel { s with mem := create_node s.mem p junk v } hint
        key p =
      (match pl' with
        | some (x, add_to_left) =>
          rb_tree.insert_node_at T fuel { s with mem := create_node s.mem p junk v } x p
            add_to_left
        | none =>
          rb_tree.insert_unique_at_pos T fuel { s with mem := create_node s.mem p junk v }
            key p) := by
    by_cases c1 : T.key_compare (T.KeyOfValue wb) key = true
    · by_cases c2 : T.key_compare key (T.KeyOfValue wh) = true
      · refine ⟨pl, ?_, ?_⟩
        · intro x b hx
          obtain ⟨ctx, e, e2, e3, e4, e5⟩ := hslot x b hx
          refine ⟨ctx, e, e2, e3, fun hT ho => ?_⟩
          have hon := Ordered_nodes T ho
          rw [hn', List.pairwise_append] at hon
          constructor
          · rw [e4]; exact strict_upto T hT hon.1 c1
          · rw [e5]; exact strict_from T hT hon.2.1 c2
        · rcases pl with _ | ⟨x, b⟩ <;>
            simp [rb_tree.insert_unique_use_hint, hdec, hkb, c1, hkh, c2, hpl]
      · exact ⟨none, (fun x b hx => by cases hx),
          by simp [rb_tree.insert_unique_use_hint, hdec, hkb, c1, hkh, c2]⟩
    · exact ⟨none, (fun x b hx => by cases hx),
        by simp [rb_tree.insert_unique_use_hint, hdec, hkb, c1]⟩
  obtain ⟨pl', hs, he⟩ := hplace
  rw [he]
  cases pl' with
  | none => exact unique_at_pos_spec T hwf hrb v p junk hp0 hfresh fuel hf hcnt key
  | some xb =>
    obtain ⟨x, b⟩ := xb
    obtain ⟨ctx, e, rfl, rfl, hsd⟩ := hs x b rfl
    obtain ⟨s', e1, w1, w2⟩ := node_at_slot T hwf hrb v p junk hp0 hfresh fuel hf hcnt ctx e
    exact Or.inl ⟨s', ctx, e, e1, w1, w2, hsd⟩

end hinted

/-! ## Every insertion member on a well-formed tree -/

section insertions

variable {α κ : Type}

theorem first_mem_addrs {t : Tree α} (h : t ≠ .nil) (hdr : Nat) : t.first hdr ∈ t.addrs := by
  cases hn : t.addrs with
  | nil => exact absurd hn (addrs_ne_nil h)
  | cons x xs => simp [Tree.first, hn]

theorem last_mem_addrs {t : Tree α} (h : t ≠ .nil) (hdr : Nat) : t.last hdr ∈ t.addrs := by
  cases hx : t.addrs.getLast? with
  | none => exact absurd (List.getLast?_eq_none_iff.1 hx) (addrs_ne_nil h)
  | some x =>
    have := List.mem_of_getLast?_eq_some hx
    simpa [Tree.last, hx] using this

theorem first_split {t : Tree α} (hne : t ≠ .nil) (hdr : Nat) :
    ∃ w rest, t.nodes = (t.first hdr, w) :: rest := by
  cases hn : t.nodes with
  | nil => exact absurd (by simp [Tree.addrs, hn]) (addrs_ne_nil hne)
  | cons x rest =>
    obtain ⟨a, w⟩ := x
    exact ⟨w, rest, by simp [Tree.first, Tree.addrs, hn]⟩

theorem last_split {t : Tree α} (hne : t ≠ .nil) (hdr : Nat) :
    ∃ pre w, t.nodes = pre ++ [(t.last hdr, w)] := by
  rcases List.eq_nil_or_concat t.nodes with hn | ⟨pre, x, hn⟩
  · exact absurd (by simp [Tree.addrs, hn]) (addrs_ne_nil hne)
  · obtain ⟨a, w⟩ := x
    exact ⟨pre, w, by simp [Tree.last, Tree.addrs, hn]⟩

theorem emplace_multi_use_hint_spec (T : Traits α κ) {s : rb_tree α} {t : Tree α}
    (hwf : WF s t) (hrb : t.RootBlack) (v : α) (p : Nat) (junk : Bool) (hp0 : p ≠ 0)
    (hfresh : s.mem p = none) (fuel : Nat) (hf : t.size < fuel)
    (hcnt : s.node_count < T.max_size) {hint : Nat} (hh : hint = s.header ∨ hint ∈ t.addrs) :
    ∃ s' ctx, plug ctx .nil = t ∧
      s.emplace_multi_use_hint T fuel hint v p junk = .ok (s', p) ∧
      WF s' (reblanced ctx (.node p junk .nil v .nil)) ∧ s'.header = s.header ∧
      (StrictWeakOrder T.key_compare → t.Ordered T → SidesWeak T (T.KeyOfValue v) ctx) := by
  have hm : ¬ s.node_count > T.max_size - 1 := by omega
  have hwf1 := WF_created hwf v p junk hfresh
  have hk : get_key T (create_node s.mem p junk v) p = .ok (T.KeyOfValue v) := by
    simp [get_key, get_value, create_node, rd_upd_same _ _ hp0]
  by_cases hnil : t = .nil
  · subst hnil
    have hc0 : s.node_count = 0 := by simpa using hwf.count
    obtain ⟨s', e1, w1, w2⟩ := node_at_slot T hwf hrb v p junk hp0 hfresh fuel hf hcnt [] rfl
    refine ⟨s', [], rfl, ?_, w1, w2, fun _ _ => ⟨by simp [ctxBefore], by simp [ctxAfter]⟩⟩
    simp only [rb_tree.emplace_multi_use_hint, if_neg hm]
    rw [if_pos hc0]
    exact e1
  · have hc0 : s.node_count ≠ 0 := by
      rw [hwf.count]
      exact fun h => hnil (size_zero_nil h)
    have hbeg : rb_tree.begin { s with mem := create_node s.mem p junk v } =
        .ok (t.first s.header) := hwf1.begin_eq
    by_cases h1 : hint = t.first s.header
    · obtain ⟨wf, rest, hfn⟩ := first_split hnil s.header
      have hkh := hwf1.key_of_node T (a := t.first s.header) (w := wf) (by simp [hfn])
      by_cases c : T.key_compare (T.KeyOfValue v) (T.KeyOfValue wf) = true
      · obtain ⟨ctx, e, e2, e3, e4, e5⟩ := left_spine s.header t [] hnil
        simp only [plug_nil] at e
        obtain ⟨s', e1, w1, w2⟩ := node_at_slot T hwf hrb v p junk hp0 hfresh fuel hf hcnt ctx e
        refine ⟨s', ctx, e, ?_, w1, w2, fun hT ho => ?_⟩
        · rw [e2, e3] at e1
          simp only [rb_tree.emplace_multi_use_hint, hm, if_false, hc0, hk, ok_bind, hbeg, h1,
            if_true, hkh, c]
          exact e1
        · have hon := Ordered_nodes T ho
          rw [hfn] at hon
          refine ⟨by rw [e4]; simp [ctxBefore], ?_⟩
          rw [e5]
          simp only [ctxAfter, List.append_nil]
          rw [hfn]
          exact weak_from T hT hon (hT.asymm c)
      · obtain ⟨s', ctx, e, e1, w1, w2⟩ := multi_at_pos_spec T hwf hrb v p junk hp0 hfresh fuel
          hf hcnt (T.KeyOfValue v)
        refine ⟨s', ctx, e, ?_, w1, w2⟩
        simp only [rb_tree.emplace_multi_use_hint, hm, if_false, hc0, hk, ok_bind, hbeg, h1,
          if_true, hkh, c]
        exact e1
    · by_cases h2 : hint = s.header
      · have hrm : get_right (create_node s.mem p junk v) s.header = .ok (t.last s.header) :=
          get_right_ok hwf1.z.rd_header
        obtain ⟨pre, wl, hln⟩ := last_split hnil s.header
        have hkr := hwf1.key_of_node T (a := t.last s.header) (w := wl) (by simp [hln])
        have hne : ¬ s.header = t.first s.header := fun e => h1 (h2.trans e)
        by_cases c : T.key_compare (T.KeyOfValue v) (T.KeyOfValue wl) = true
        · obtain ⟨s', ctx, e, e1, w1, w2⟩ := multi_at_pos_spec T hwf hrb v p junk hp0 hfresh
            fuel hf hcnt (T.KeyOfValue v)
          refine ⟨s', ctx, e, ?_, w1, w2⟩
          simp only [rb_tree.emplace_multi_use_hint, hm, if_false, hc0, hk, ok_bind, hbeg, h2,
            hne, rb_tree.end_, if_true, hrm, hkr, c, Bool.not_true]
          exact e1
        · obtain ⟨ctx, e, e2, e3, e4, e5⟩ := right_spine s.header t [] hnil
          simp only [plug_nil] at e
          obtain ⟨s', e1, w1, w2⟩ := node_at_slot T hwf hrb v p junk hp0 hfresh fuel hf hcnt
            ctx e
          simp only [Bool.not_eq_true] at c
          refine ⟨s', ctx, e, ?_, w1, w2, fun hT ho => ?_⟩
          · rw [e2, e3] at e1
            simp only [rb_tree.emplace_multi_use_hint, hm, if_false, hc0, hk, ok_bind, hbeg, h2,
              hne, rb_tree.end_, if_true, hrm, hkr, c, Bool.not_false]
            exact e1
          · have hon := Ordered_nodes T ho
            rw [hln] at hon
            refine ⟨?_, by rw [e5]; simp [ctxAfter]⟩
            rw [e4]
            simp only [ctxBefore, List.nil_append]
            rw [hln]
            exact weak_upto T hT hon c
      · obtain ⟨s', ctx, e, e1, w1, w2⟩ := insert_multi_use_hint_spec T hwf hrb v p junk hp0
          hfresh fuel hf hcnt (T.KeyOfValue v) (hh.resolve_left h2) h1
        refine ⟨s', ctx, e, ?_, w1, w2⟩
        simp only [rb_tree.emplace_multi_use_hint, hm, if_false, hc0, hk, ok_bind, hbeg, h1,
          rb_tree.end_, h2]
        exact e1

theorem emplace_unique_use_hint_spec (T : Traits α κ) {s : rb_tree α} {t : Tree α}
    (hwf : WF s t) (hrb : t.RootBlack) (v : α) (p : Nat) (junk : Bool) (hp0 : p ≠ 0)
    (hfresh : s.mem p = none) (fuel : Nat) (hf : t.size < fuel)
    (hcnt : s.node_count < T.max_size) {hint : Nat} (hh : hint = s.header ∨ hint ∈ t.addrs) :
    (∃ s' ctx, plug ctx .nil = t ∧
      s.emplace_unique_use_hint T fuel hint v p junk = .ok (s', p) ∧
      WF s' (reblanced ctx (.node p junk .nil v .nil)) ∧ s'.header = s.header ∧
      (StrictWeakOrder T.key_compare → t.Ordered T →
        SidesStrict T (T.KeyOfValue v) ctx)) ∨
    (t ≠ .nil ∧
      pred_ok T (T.KeyOfValue v) (ctxBefore (descend T (T.KeyOfValue v) t [])) = false ∧
      ∃ it, s.emplace_unique_use_hint T fuel hint v p junk = .ok (s, it)) := by
  have hm : ¬ s.node_count > T.max_size - 1 := by omega
  have hwf1 := WF_created hwf v p junk hfresh
  have hk : get_key T (create_node s.mem p junk v) p = .ok (T.KeyOfValue v) := by
    simp [get_key, get_value, create_node, rd_upd_same _ _ hp0]
  by_cases hnil : t = .nil
  · subst hnil
    have hc0 : s.node_count = 0 := by simpa using hwf.count
    obtain ⟨s', e1, w1, w2⟩ := node_at_slot T hwf hrb v p junk hp0 hfresh fuel hf hcnt [] rfl
    refine Or.inl ⟨s', [], rfl, ?_, w1, w2,
      fun _ _ => ⟨by simp [ctxBefore], by simp [ctxAfter]⟩⟩
    simp only [rb_tree.emplace_unique_use_hint, if_neg hm]
    rw [if_pos hc0]
    exact e1
  · have hc0 : s.node_count ≠ 0 := by
      rw [hwf.count]
      exact fun h => hnil (size_zero_nil h)
    have hbeg : rb_tree.begin { s with mem := create_node s.mem p junk v } =
        .ok (t.first s.header) := hwf1.begin_eq
    by_cases h1 : hint = t.first s.header
    · obtain ⟨wf, rest, hfn⟩ := first_split hnil s.header
      have hkh := hwf1.key_of_node T (a := t.first s.header) (w := wf) (by simp [hfn])
      have hfun : s.emplace_unique_use_hint T fuel hint v p junk =
          if T.key_compare (T.KeyOfValue v) (T.KeyOfValue wf) then
            rb_tree.insert_node_at T fuel { s with mem := create_node s.mem p junk v }
              (t.first s.header) p true
          else rb_tree.insert_unique_at_pos T fuel { s with mem := create_node s.mem p junk v }
            (T.KeyOfValue v) p := by
        simp only [rb_tree.emplace_unique_use_hint, hm, if_false, hc0, hk, ok_bind, hbeg, h1,
          if_true, hkh]
      rw [hfun]
      by_cases c : T.key_compare (T.KeyOfValue v) (T.KeyOfValue wf) = true
      · obtain ⟨ctx, e, e2, e3, e4, e5⟩ := left_spine s.header t [] hnil
        simp only [plug_nil] at e
        obtain ⟨s', e1, w1, w2⟩ := node_at_slot T hwf hrb v p junk hp0 hfresh fuel hf hcnt ctx e
        rw [e2, e3] at e1
        rw [if_pos c]
        refine Or.inl ⟨s', ctx, e, e1, w1, w2, fun hT ho => ?_⟩
        have hon := Ordered_nodes T ho
        rw [hfn] at hon
        refine ⟨by rw [e4]; simp [ctxBefore], ?_⟩
        rw [e5]
        simp only [ctxAfter, List.append_nil]
        rw [hfn]
        exact strict_from T hT hon c
      · rw [if_neg c]
        exact unique_at_pos_spec T hwf hrb v p junk hp0 hfresh fuel hf hcnt (T.KeyOfValue v)
    · by_cases h2 : hint = s.header
      · have hrm : get_right (create_node s.mem p junk v) s.header = .ok (t.last s.header) :=
          get_right_ok hwf1.z.rd_header
        obtain ⟨pre, wl, hln⟩ := last_split hnil s.header
        have hkr := hwf1.key_of_node T (a := t.last s.header) (w := wl) (by simp [hln])
        have hne : ¬ s.header = t.first s.header := fun e => h1 (h2.trans e)
        have hfun : s.emplace_unique_use_hint T fuel hint v p junk =
            if T.key_compare (T.KeyOfValue wl) (T.KeyOfValue v) then
              rb_tree.insert_node_at T fuel { s with mem := create_node s.mem p junk v }
                (t.last s.header) p false
            else rb_tree.insert_unique_at_pos T fuel
              { s with mem := create_node s.mem p junk v } (T.KeyOfValue v) p := by
          simp only [rb_tree.emplace_unique_use_hint, hm, if_false, hc0, hk, ok_bind, hbeg, h2,
            hne, rb_tree.end_, if_true, hrm, hkr]
        rw [hfun]
        by_cases c : T.key_compare (T.KeyOfValue wl) (T.KeyOfValue v) = true
        · obtain ⟨ctx, e, e2, e3, e4, e5⟩ := right_spine s.header t [] hnil
          simp only [plug_nil] at e
          obtain ⟨s', e1, w1, w2⟩ := node_at_slot T hwf hrb v p junk hp0 hfresh fuel hf hcnt
            ctx e
          rw [e2, e3] at e1
          rw [if_pos c]
          refine Or.inl ⟨s', ctx, e, e1, w1, w2, fun hT ho => ?_⟩
          have hon := Ordered_nodes T ho
          rw [hln] at hon
          refine ⟨?_, by rw [e5]; simp [ctxAfter]⟩
          rw [e4]
          simp only [ctxBefore, List.nil_append]
          rw [hln]
          exact strict_upto T hT hon c
        · rw [if_neg c]
          exact unique_at_pos_spec T hwf hrb v p junk hp0 hfresh fuel hf hcnt (T.KeyOfValue v)
      · have hfun : s.emplace_unique_use_hint T fuel hint v p junk =
            rb_tree.insert_unique_use_hint T fuel { s with mem := create_node s.mem p junk v }
              hint (T.KeyOfValue v) p := by
          simp only [rb_tree.emplace_unique_use_hint, hm, if_false, hc0, hk, ok_bind, hbeg, h1,
            rb_tree.end_, h2]
        rw [hfun]
        exact insert_unique_use_hint_spec T hwf hrb v p junk hp0 hfresh fuel hf hcnt
          (T.KeyOfValue v) (hh.resolve_left h2) h1

theorem emplace_multi_spec (T : Traits α κ) {s : rb_tree α} {t : Tree α}
    (hwf : WF s t) (hrb : t.RootBlack) (v : α) (p : Nat) (junk : Bool) (hp0 : p ≠ 0)
    (hfresh : s.mem p = none) (fuel : Nat) (hf : t.size < fuel)
    (hcnt : s.node_count < T.max_size) :
    ∃ s' ctx, plug ctx .nil = t ∧ s.emplace_multi T fuel v p junk = .ok (s', p) ∧
      WF s' (reblanced ctx (.node p junk .nil v .nil)) ∧ s'.header = s.header ∧
      (StrictWeakOrder T.key_compare → t.Ordered T → SidesWeak T (T.KeyOfValue v) ctx) := by
  have hm : ¬ s.node_count > T.max_size - 1 := by omega
  have hwf1 := WF_created hwf v p junk hfresh
  have hk : get_key T (create_node s.mem p junk v) p = .ok (T.KeyOfValue v) := by
    simp [get_key, get_value, create_node, rd_upd_same _ _ hp0]
  obtain ⟨s', ctx, e, e1, w1, w2⟩ := multi_at_pos_spec T hwf hrb v p junk hp0 hfresh fuel
    hf hcnt (T.KeyOfValue v)
  refine ⟨s', ctx, e, ?_, w1, w2⟩
  simp only [rb_tree.emplace_multi, hm, if_false, hk, ok_bind]
  exact e1

/-- Every single-element insertion on a well-formed tree within capacity, with a
valid hint: it returns; either the new node `p` was linked at a null place `ctx`
of the tree and the tree was repaired, or (unique keys, duplicate found in a
non-empty tree) the tree object is exactly as before. -/
theorem insertion_spec (T : Traits α κ) {s : rb_tree α} {t : Tree α}
    (hwf : WF s t) (hrb : t.RootBlack) (p : Nat) (junk : Bool) (hp0 : p ≠ 0)
    (hfresh : s.mem p = none) (fuel : Nat) (hf : t.size < fuel)
    (hcnt : s.node_count < T.max_size) (op : Insertion α)
    (hhint : ∀ h, op.hint = some h → h = s.header ∨ h ∈ t.addrs) :
    ∃ s' it, s.insertion T fuel p junk op = .ok (s', it) ∧
      ((∃ ctx v, plug ctx .nil = t ∧ it = p ∧
          WF s' (reblanced ctx (.node p junk .nil v .nil)) ∧ s'.header = s.header) ∨
        (t ≠ .nil ∧ s' = s)) := by
  have hdup : ∀ v, pred_ok T (T.KeyOfValue v) (ctxBefore (ins_path T v t)) = false →
      t ≠ .nil := by
    intro v hok hnil
    subst hnil
    simp [ins_path, descend, ctxBefore, pred_ok] at hok
  have hpl : ∀ v, plug (ins_path T v t) .nil = t := by
    intro v
    have e := plug_descend T (T.KeyOfValue v) t []
    simpa using e
  cases op with
  | insert_unique v =>
    cases hok : pred_ok T (T.KeyOfValue v) (ctxBefore (ins_path T v t)) with
    | true =>
      obtain ⟨s', e1, _, w1, w2, _⟩ := insert_unique_spec_new T hwf hrb v p junk hp0 hfresh
        fuel hf hcnt hok
      exact ⟨s', p, by simp [rb_tree.insertion, e1], Or.inl ⟨_, v, hpl v, rfl, w1, w2⟩⟩
    | false =>
      obtain ⟨e1, _⟩ := insert_unique_spec_dup T hwf hrb v p junk hp0 hfresh fuel hf hcnt hok
      exact ⟨s, ctxPtr s.header (ins_path T v t), by simp [rb_tree.insertion, e1],
        Or.inr ⟨hdup v hok, rfl⟩⟩
  | insert_multi v =>
    obtain ⟨s', e1, w1, w2, _⟩ := insert_multi_spec T hwf hrb v p junk hp0 hfresh fuel hf hcnt
    exact ⟨s', p, by simp [rb_tree.insertion, e1], Or.inl ⟨_, v, hpl v, rfl, w1, w2⟩⟩
  | emplace_unique v =>
    cases hok : pred_ok T (T.KeyOfValue v) (ctxBefore (ins_path T v t)) with
    | true =>
      obtain ⟨s', _, e1, w1, w2, _⟩ := insert_unique_spec_new T hwf hrb v p junk hp0 hfresh
        fuel hf hcnt hok
      exact ⟨s', p, by simp [rb_tree.insertion, e1], Or.inl ⟨_, v, hpl v, rfl, w1, w2⟩⟩
    | false =>
      obtain ⟨_, e1⟩ := insert_unique_spec_dup T hwf hrb v p junk hp0 hfresh fuel hf hcnt hok
      exact ⟨s, ctxPtr s.header (ins_path T v t), by simp [rb_tree.insertion, e1],
        Or.inr ⟨hdup v hok, rfl⟩⟩
  | emplace_multi v =>
    obtain ⟨s', ctx, e, e1, w1, w2, _⟩ := emplace_multi_spec T hwf hrb v p junk hp0 hfresh fuel
      hf hcnt
    exact ⟨s', p, by simp [rb_tree.insertion, e1], Or.inl ⟨ctx, v, e, rfl, w1, w2⟩⟩
  | insert_unique_hint hint v =>
    rcases emplace_unique_use_hint_spec T hwf hrb v p junk hp0 hfresh fuel hf hcnt
      (hhint hint rfl) with ⟨s', ctx, e, e1, w1, w2, _⟩ | ⟨hne, _, it, e1⟩
    · exact ⟨s', p, by simp [rb_tree.insertion, e1], Or.inl ⟨ctx, v, e, rfl, w1, w2⟩⟩
    · exact ⟨s, it, by simp [rb_tree.insertion, e1], Or.inr ⟨hne, rfl⟩⟩
  | insert_multi_hint hint v =>
    obtain ⟨s', ctx, e, e1, w1, w2, _⟩ := emplace_multi_use_hint_spec T hwf hrb v p junk hp0
      hfresh fuel hf hcnt (hhint hint rfl)
    exact ⟨s', p, by simp [rb_tree.insertion, e1], Or.inl ⟨ctx, v, e, rfl, w1, w2⟩⟩
  | emplace_unique_use_hint hint v =>
    rcases emplace_unique_use_hint_spec T hwf hrb v p junk hp0 hfresh fuel hf hcnt
      (hhint hint rfl) with ⟨s', ctx, e, e1, w1, w2, _⟩ | ⟨hne, _, it, e1⟩
    · exact ⟨s', p, by simp [rb_tree.insertion, e1], Or.inl ⟨ctx, v, e, rfl, w1, w2⟩⟩
    · exact ⟨s, it, by simp [rb_tree.insertion, e1], Or.inr ⟨hne, rfl⟩⟩
  | emplace_multi_use_hint hint v =>
    obtain ⟨s', ctx, e, e1, w1, w2, _⟩ := emplace_multi_use_hint_spec T hwf hrb v p junk hp0
      hfresh fuel hf hcnt (hhint hint rfl)
    exact ⟨s', p, by simp [rb_tree.insertion, e1], Or.inl ⟨ctx, v, e, rfl, w1, w2⟩⟩

/-- In a well-formed non-empty tree the header caches are exact: `leftmost()` is
`minimum(root())` and `rightmost()` is `maximum(root())`. -/
theorem WF.caches_exact {s : rb_tree α} {t : Tree α} (hwf : WF s t) (hne : t ≠ .nil)
    (fuel : Nat) (hf : t.size ≤ fuel) :
    s.root = .ok t.ptr ∧ t.ptr ≠ 0 ∧ s.begin = .ok (t.first s.header) ∧
      minimum fuel s.mem t.ptr = .ok (t.first s.header) ∧
      get_right s.mem s.header = .ok (t.last s.header) ∧
      maximum fuel s.mem t.ptr = .ok (t.last s.header) := by
  have hh := Nat.le_trans t.height_le_size hf
  refine ⟨hwf.root_ptr, ?_, hwf.begin_eq, minimum_spec s.header t [] fuel hne hh hwf.z,
    get_right_ok hwf.z.rd_header, maximum_spec s.header t [] fuel hne hh hwf.z⟩
  exact fun h => hne ((Rep_ptr_eq_zero_iff hwf.z.rsub).1 h)

theorem plug_eq_nil {ctx : Ctx α} {t : Tree α} (h : plug ctx t = .nil) : ctx = [] := by
  cases ctx with
  | nil => rfl
  | cons f fs =>
    exfalso
    refine plug_ne_nil fs (f.fill t) ?_ h
    cases f <;> simp [Frame.fill]

end insertions

section claims_insertions

variable {α κ : Type}

theorem create_node_throws_eq {s : rb_tree α} {p : Nat} (junk : Bool) (h : s.mem p = none) :
    s.create_node_throws p junk = s := by
  cases s with
  | mk mem header node_count =>
    simp only [rb_tree.create_node_throws, rb_tree.mk.injEq, and_true]
    funext a
    by_cases e : a = p
    · subst e
      simpa [free] using h.symm
    · rw [free_ne _ e, get_node, upd_ne _ _ e]

/-- With a payload constructor that returns, the calls with a fallible
constructor are the plain members. -/
theorem try_members_agree (T : Traits α κ) (fuel : Nat) (s : rb_tree α) (value : α) (p : Nat)
    (junk : Bool) :
    s.insert_multi_try T fuel value none p junk =
        insertion_call T s (s.insert_multi T fuel value p junk) ∧
      s.insert_unique_try T fuel value none p junk =
        insertion_call T s (s.insert_unique T fuel value p junk) ∧
      ∀ {X : Type} (rest : Except Fault (rb_tree α × X)),
        s.emplace_try T none p junk rest = insertion_call T s rest := by
  refine ⟨?_, ?_, fun rest => rfl⟩
  · simp only [rb_tree.insert_multi_try, insertion_call, rb_tree.insert_multi]
    by_cases hg : s.node_count > T.max_size - 1
    · simp [hg]
    · simp only [hg, if_false]
      cases s.get_insert_multi_pos T fuel (T.KeyOfValue value) with
      | error e => rfl
      | ok res =>
        simp only [rb_tree.insert_value_at_try, ok_bind]
        cases s.insert_value_at T fuel res.1 value res.2 p junk with
        | error e => rfl
        | ok r => rfl
  · simp only [rb_tree.insert_unique_try, insertion_call, rb_tree.insert_unique]
    by_cases hg : s.node_count > T.max_size - 1
    · simp [hg]
    · simp only [hg, if_false]
      cases s.get_insert_unique_pos T fuel (T.KeyOfValue value) with
      | error e => rfl
      | ok res =>
        obtain ⟨⟨x, b⟩, c⟩ := res
        cases c with
        | false => rfl
        | true =>
          simp only [rb_tree.insert_value_at_try, ok_bind, if_true]
          cases s.insert_value_at T fuel x value b p junk with
          | error e => rfl
          | ok r => rfl

/-- C21: on a well-formed tree within capacity, when the payload constructor
throws `e` inside `create_node`, `insert_multi`, `insert_unique` (for a key not
yet present; for a duplicate no payload is constructed and the call returns the
tree as it is), `emplace_unique`, `emplace_multi` and the hinted `emplace_*`
members all end with the exception `e` leaving the call, and the tree object
(node heap with every link, colour and payload, the header with `leftmost` and
`rightmost`, and `node_count`) is equal to the one before the call. -/
theorem payload_failure_leaves_tree_unchanged (T : Traits α κ) {s : rb_tree α} {t : Tree α}
    (hwf : WF s t) (hrb : t.RootBlack) (value : α) (e : Fault) (p : Nat) (junk : Bool)
    (hfresh : s.mem p = none) (fuel : Nat) (hf : t.size < fuel)
    (hcnt : s.node_count < T.max_size) :
    s.insert_multi_try T fuel value (some e) p junk = .thrown e s ∧
    s.insert_unique_try T fuel value (some e) p junk =
      (if pred_ok T (T.KeyOfValue value) (ctxBefore (ins_path T value t)) then .thrown e s
        else .returned s (ctxPtr s.header (ins_path T value t), false)) ∧
    s.emplace_try T (some e) p junk (s.emplace_unique T fuel value p junk) = .thrown e s ∧
    s.emplace_try T (some e) p junk (s.emplace_multi T fuel value p junk) = .thrown e s ∧
    (∀ hint, s.emplace_try T (some e) p junk
      (s.emplace_unique_use_hint T fuel hint value p junk) = .thrown e s) ∧
    (∀ hint, s.emplace_try T (some e) p junk
      (s.emplace_multi_use_hint T fuel hint value p junk) = .thrown e s) := by
  have hm : ¬ s.node_count > T.max_size - 1 := by omega
  have hs := create_node_throws_eq junk hfresh
  have hemp : ∀ {X : Type} (rest : Except Fault (rb_tree α × X)),
      s.emplace_try T (some e) p junk rest = .thrown e s := by
    intro X rest
    simp only [rb_tree.emplace_try, hm, if_false, hs]
  refine ⟨?_, ?_, hemp _, hemp _, fun _ => hemp _, fun _ => hemp _⟩
  · simp only [rb_tree.insert_multi_try, hm, if_false,
      get_insert_multi_pos_spec T hwf _ fuel hf, rb_tree.insert_value_at_try, hs]
  · simp only [rb_tree.insert_unique_try, hm, if_false,
      get_insert_unique_pos_spec T hwf hrb _ fuel hf, rb_tree.insert_value_at_try, hs, ins_path]

theorem payload_failure_leaves_tree_unchanged_witness :
    three_tree.insert_multi_try natT 10 5 (some .out_of_range) 5 rb_tree_red =
      .thrown .out_of_range three_tree ∧
    three_tree.insert_unique_try natT 10 5 (some .out_of_range) 5 rb_tree_red =
      (if pred_ok natT (natT.KeyOfValue 5) (ctxBefore (ins_path natT 5 three_abs)) then
        .thrown .out_of_range three_tree
        else .returned three_tree (ctxPtr three_tree.header (ins_path natT 5 three_abs), false)) ∧
    three_tree.emplace_try natT (some .out_of_range) 5 rb_tree_red
      (three_tree.emplace_unique natT 10 5 5 rb_tree_red) = .thrown .out_of_range three_tree ∧
    three_tree.emplace_try natT (some .out_of_range) 5 rb_tree_red
      (three_tree.emplace_multi natT 10 5 5 rb_tree_red) = .thrown .out_of_range three_tree ∧
    (∀ hint, three_tree.emplace_try natT (some .out_of_range) 5 rb_tree_red
      (three_tree.emplace_unique_use_hint natT 10 hint 5 5 rb_tree_red) =
        .thrown .out_of_range three_tree) ∧
    (∀ hint, three_tree.emplace_try natT (some .out_of_range) 5 rb_tree_red
      (three_tree.emplace_multi_use_hint natT 10 hint 5 5 rb_tree_red) =
        .thrown .out_of_range three_tree) :=
  payload_failure_leaves_tree_unchanged natT three_WF three_RB.root_black 5 .out_of_range 5
    rb_tree_red (by decide) 10 (by decide) (by decide)

theorem size_inserted (ctx : Ctx α) (p : Nat) (junk : Bool) (v : α) :
    (reblanced ctx (.node p junk .nil v .nil)).size = (plug ctx (.nil : Tree α)).size + 1 := by
  rw [size_reblanced ctx _ (by simp), size_plug, size_plug]
  simp only [Tree.size_node, Tree.size]
  omega

/-- C26: on a well-formed tree with a black root (or none) and within capacity,
after every single-element insertion (`insert_unique`, `insert_multi`,
`emplace_unique`, `emplace_multi` and the hinted variants with a valid hint) the
tree has a root, `header->left` is `minimum(root)` and `header->right` is
`maximum(root)`; when the tree was empty, the new node is the root, it is black,
and `leftmost` and `rightmost` are both the new node. -/
theorem insertion_keeps_caches_exact (T : Traits α κ) {s : rb_tree α} {t : Tree α}
    (hwf : WF s t) (hrb : t.RootBlack) (p : Nat) (junk : Bool) (hp0 : p ≠ 0)
    (hfresh : s.mem p = none) (fuel : Nat) (hf : t.size + 3 ≤ fuel)
    (hcnt : s.node_count < T.max_size) (op : Insertion α)
    (hhint : ∀ h, op.hint = some h → h = s.header ∨ h ∈ t.addrs) :
    ∃ s' it r lm rm, s.insertion T fuel p junk op = .ok (s', it) ∧
      s'.root = .ok r ∧ r ≠ 0 ∧
      get_left s'.mem s'.header = .ok lm ∧ minimum fuel s'.mem r = .ok lm ∧
      get_right s'.mem s'.header = .ok rm ∧ maximum fuel s'.mem r = .ok rm ∧
      (t = .nil → it = p ∧ r = p ∧ lm = p ∧ rm = p ∧
        get_color s'.mem p = .ok rb_tree_black) := by
  obtain ⟨s', it, e1, h⟩ := insertion_spec T hwf hrb p junk hp0 hfresh fuel (by omega) hcnt op
    hhint
  rcases h with ⟨ctx, v, e, hit, w1, w2⟩ | ⟨hne, hs⟩
  · have hsz := size_inserted ctx p junk v
    rw [e] at hsz
    have hne : reblanced ctx (.node p junk .nil v .nil) ≠ .nil := by
      intro h0
      rw [h0] at hsz
      simp [Tree.size] at hsz
    obtain ⟨c1, c2, c3, c4, c5, c6⟩ := w1.caches_exact hne fuel (by omega)
    refine ⟨s', it, _, _, _, e1, c1, c2, c3, c4, c5, c6, ?_⟩
    intro hnil
    subst hnil
    have hctx := plug_eq_nil e
    subst hctx
    have ht : reblanced ([] : Ctx α) (.node p junk .nil v .nil) =
        .node p rb_tree_black .nil v .nil := by
      simp [reblanced, fixup, Tree.redden, Tree.blacken]
    rw [ht] at w1
    refine ⟨hit, ?_, ?_, ?_, w1.z.get_color⟩
    · rw [ht]; rfl
    · rw [ht]; simp [Tree.first]
    · rw [ht]; simp [Tree.last]
  · subst hs
    obtain ⟨c1, c2, c3, c4, c5, c6⟩ := hwf.caches_exact hne fuel (by omega)
    exact ⟨s', it, _, _, _, e1, c1, c2, c3, c4, c5, c6, fun h => absurd h hne⟩

theorem insertion_keeps_caches_exact_witness :
    ∃ s' it r lm rm,
      empty_tree.insertion natT 10 2 rb_tree_red (.emplace_unique_use_hint 1 7) = .ok (s', it) ∧
      s'.root = .ok r ∧ r ≠ 0 ∧
      get_left s'.mem s'.header = .ok lm ∧ minimum 10 s'.mem r = .ok lm ∧
      get_right s'.mem s'.header = .ok rm ∧ maximum 10 s'.mem r = .ok rm ∧
      ((Tree.nil : Tree Nat) = .nil → it = 2 ∧ r = 2 ∧ lm = 2 ∧ rm = 2 ∧
        get_color s'.mem 2 = .ok rb_tree_black) :=
  insertion_keeps_caches_exact natT (WF_init (fun _ => none) 1 (by decide)) rfl 2 rb_tree_red
    (by decide) (by decide) 10 (by decide) (by decide) (.emplace_unique_use_hint 1 7)
    (fun h hh => by
      simp only [Insertion.hint, Option.some.injEq] at hh
      subst hh
      left
      rfl)

end claims_insertions

/-! ## Claims C31, C32, C34, C37, C39: erase relinking, post-decrement, hashtable erase -/

section claims_erase_links

/-- A tree built by `insert_unique` calls on the empty tree, with fresh and
distinct node addresses, is a well-formed red-black tree. -/
theorem built_valid (ops : List (Nat × Nat × Bool)) (hnd : (ops.map (fun x => x.2.1)).Nodup)
    (hfr : ∀ x ∈ ops, x.2.1 ≠ 0 ∧ empty_tree.mem x.2.1 = none) (hlen : ops.length < 20) :
    ∃ s t, insert_unique_all natT 20 ops empty_tree = .ok s ∧ WF s t ∧ t.RB natT := by
  obtain ⟨s, t, e, w1, w2, _⟩ := insert_unique_all_spec natT natT_swo 20 ops empty_tree .nil
    (WF_init _ 1 (by decide)) (RB_nil _) (by simp [Tree.StrictOrdered, Tree.toList]) hnd hfr
    (by simpa using hlen) (by simp only [Tree.size_nil, Traits.max_size, natT]; omega)
  exact ⟨s, t, e, w1, w2⟩

/-- C31: in the tree of Scenario A the root 50 (address 2) has two children and
its in-order successor is 60 (address 7), the left child of 70 (address 4).
`erase` of the root returns, but the successor search stops at the right child
70: node 70 takes the root's place, its left link to 60 is overwritten with the
root's left subtree, and node 60, though never destroyed, is no longer linked
from the tree; iteration gives 20, 30, 40, 70, 80. -/
theorem erase_two_children_detaches_successor :
    (∃ s t, scenario_A = .ok s ∧ WF s t ∧ t.RB natT) ∧
      (scenario_A >>= fun s => s.to_list 20) = .ok [20, 30, 40, 50, 60, 70, 80] ∧
      (scenario_A >>= fun s => s.find natT 20 50) = .ok 2 ∧
      (scenario_A >>= fun s => increment 20 s.mem 2) = .ok 7 ∧
      (scenario_A.map fun s => (get_left s.mem 2, get_right s.mem 2, get_left s.mem 4)) =
        .ok (.ok 3, .ok 4, .ok 7) ∧
      (scenario_A >>= fun s => (s.erase natT 20 2).map fun r =>
        (r.1.root, get_parent r.1.mem 4, get_left r.1.mem 4, get_right r.1.mem 4)) =
        .ok (.ok 4, .ok 1, .ok 3, .ok 8) ∧
      (scenario_A >>= fun s => (s.erase natT 20 2).map fun r =>
        (get_parent r.1.mem 3, get_value r.1.mem 7, get_parent r.1.mem 7, r.1.size)) =
        .ok (.ok 4, .ok 60, .ok 4, 6) ∧
      (scenario_A >>= fun s => s.erase natT 20 2 >>= fun r => r.1.to_list 20) =
        .ok [20, 30, 40, 70, 80] := by
  refine ⟨?_, by decide, by decide, by decide, by decide, by decide, by decide, by decide⟩
  exact built_valid (ops_from 2 [50, 30, 70, 20, 40, 60, 80]) (by simp [ops_from])
    (by simp [ops_from, empty_tree, rb_tree_init, upd]) (by simp [ops_from])

/-- C32: in the tree built from 2, 1, 3, 4 the node 3 (address 4) is the right
child of the root 2 (address 2) and has the single child 4 (address 5).  The
relinking step of `erase` for it returns with the root's right link still
pointing to the erased node and the root's other link, which pointed to node 1
(address 3), overwritten with the child; the child's parent is the root. -/
theorem splice_right_child_overwrites_left_link :
    (∃ s t, scenario_2134 = .ok s ∧ WF s t ∧ t.RB natT) ∧
      (scenario_2134 >>= fun s => s.to_list 20) = .ok [1, 2, 3, 4] ∧
      (scenario_2134.map fun s => (s.root, get_left s.mem 2, get_right s.mem 2)) =
        .ok (.ok 2, .ok 3, .ok 4) ∧
      (scenario_2134.map fun s => (get_parent s.mem 4, get_left s.mem 4, get_right s.mem 4)) =
        .ok (.ok 2, .ok 0, .ok 5) ∧
      (scenario_2134 >>= fun s => (rb_tree_rebalance_for_erase 20 s.mem 4 s.header).map
        fun r => (get_left r.1 2, get_right r.1 2, get_parent r.1 5, r.2)) =
        .ok (.ok 5, .ok 4, .ok 2, 4) ∧
      (scenario_2134 >>= fun s => s.erase natT 20 4 >>= fun r => r.1.to_list 20) =
        .error .wild_access := by
  refine ⟨?_, by decide, by decide, by decide, by decide, by decide⟩
  exact built_valid (ops_from 2 [2, 1, 3, 4]) (by simp [ops_from])
    (by simp [ops_from, empty_tree, rb_tree_init, upd]) (by simp [ops_from])

/-- C34: erasing the left leaf (key 1, address 3) of the tree 2(1, 3) gives the
tree 2(-, 3), whose mirror image has node 2 with left child 4 and no right
child; erasing the same node from the mirror image of 2(1, 3), where it is the
right leaf, leaves node 2 with no left child and a right link to the destroyed
node, so walking the result reads released memory. -/
theorem erase_of_mirror_is_not_mirror_of_erase :
    WF three_tree three_abs ∧ three_abs.RB natT ∧
      three_tree.mirror.to_list 10 = .ok [3, 2, 1] ∧
      (three_tree.erase natT 10 3).map (fun r =>
        (get_left (mirror_mem r.1.mem) 2, get_right (mirror_mem r.1.mem) 2,
          r.1.mirror.to_list 10)) = .ok (.ok 4, .ok 0, .ok [3, 2]) ∧
      (three_tree.mirror.erase natT 10 3).map (fun r =>
        (get_left r.1.mem 2, get_right r.1.mem 2, r.1.to_list 10)) =
        .ok (.ok 0, .ok 3, .error .wild_access) :=
  ⟨three_WF, three_RB, by decide, by decide, by decide⟩

/-- C37: on the tree 2(1, 3) (addresses 2, 3, 4) the post-increment at node 1
returns the old position 3 and moves to the successor 2, but the
post-decrement at node 3 (address 4), whose predecessor is node 2 (address 2),
returns the new position 2 and not the position 4 it had before the step. -/
theorem post_decrement_returns_new_position :
    WF three_tree three_abs ∧ three_abs.RB natT ∧
      post_increment 10 three_tree.mem 3 = .ok (3, 2) ∧
      decrement 10 three_tree.mem 4 = .ok 2 ∧
      post_decrement 10 three_tree.mem 4 = .ok (2, 2) :=
  ⟨three_WF, three_RB, by decide, by decide, by decide⟩

/-- C39: the table built by the constructor `hashtable(100)` and `insert_unique`
of 2 and of 103 has 101 buckets, `num_elements = 2` and two chained nodes, both
in bucket 2: first the node holding 103 (address 2), then the node holding 2
(address 1).  `erase` of the later node (address 1) unlinks and releases it, one
node stays chained, but `size()` is still 2; `erase` of the first node of the
bucket (address 2) leaves `size()` at 1. -/
theorem hashtable_erase_later_node_keeps_count :
    table_2_103.map (fun h => (h.buckets.length, h.chained_nodes 10, h.size)) =
        .ok (101, .ok 2, 2) ∧
      table_2_103.map (fun h => (h.bucket 2, (h.node_at 2).map (fun n => (n.next, n.value)),
        (h.node_at 1).map (fun n => (n.next, n.value)))) =
        .ok (.ok 2, .ok (1, 103), .ok (0, 2)) ∧
      table_2_103.map (fun h => (h.bkt_num natH 103, h.bkt_num natH 2)) = .ok (2, 2) ∧
      (table_2_103 >>= fun t => (t.erase natH 10 1).map (fun h =>
        ((h.node_at 2).map (fun n => n.next), (h.mem 1).isSome, h.chained_nodes 10, h.size))) =
        .ok (.ok 0, false, .ok 1, 2) ∧
      (table_2_103 >>= fun t => (t.erase natH 10 2).map (fun h =>
        (h.bucket 2, (h.mem 2).isSome, h.chained_nodes 10, h.size))) =
        .ok (.ok 1, false, .ok 1, 1) := by
  refine ⟨by decide, by decide, by decide, by decide, by decide⟩

end claims_erase_links

/-! ## Claims C36 and C40: stepping back, and the links `rb_tree_reblance` follows -/

section claims_back

variable {α κ : Type}

/-- Decrementing `end()` of a non-empty tree gives `rightmost()`. -/
theorem WF.decrement_end {s : rb_tree α} {t : Tree α} (hwf : WF s t) (hne : t ≠ .nil)
    (fuel : Nat) : decrement fuel s.mem s.header = .ok (t.last s.header) := by
  cases t with
  | nil => exact absurd rfl hne
  | node a c l v r =>
    have z := hwf.z
    have hh := z.rd_header
    simp only [plug_nil, Tree.ptr_node] at hh
    have hp : get_parent s.mem a = .ok s.header := by simpa using z.get_parent
    have h1 : is_header s.mem s.header = .ok true := by
      simp [is_header, get_color_ok hh, get_parent_ok hh, hp]
    simp [decrement, h1, get_right_ok hh]

/-- C36: in a valid non-empty red-black tree, decrementing `end()` returns the
position of the last node in order, whose key is not less than any key of the
tree; and for every node, incrementing from it returns a position from which
decrementing returns the node again. -/
theorem decrement_inverts_increment (T : Traits α κ) (hT : StrictWeakOrder T.key_compare)
    {s : rb_tree α} {t : Tree α} (hwf : WF s t) (hrb : t.RB T) (hne : t ≠ .nil) (fuel : Nat)
    (hf : t.size + 2 ≤ fuel) :
    (∃ a w, decrement fuel s.mem s.end_ = .ok a ∧ t.nodes.getLast? = some (a, w) ∧
      get_value s.mem a = .ok w ∧
      ∀ u ∈ t.toList, T.key_compare (T.KeyOfValue w) (T.KeyOfValue u) = false) ∧
    ∀ a ∈ t.addrs, ∃ b, increment fuel s.mem a = .ok b ∧ decrement fuel s.mem b = .ok a := by
  have hlast : ∀ (pre : List (Nat × α)) (a : Nat) (w : α), t.nodes = pre ++ [(a, w)] →
      t.last s.header = a := by
    intro pre a w h
    simp [Tree.last, Tree.addrs, h]
  constructor
  · cases hx : t.nodes.getLast? with
    | none =>
      have := List.getLast?_eq_none_iff.1 hx
      exact absurd (by simp [Tree.addrs, this]) (addrs_ne_nil hne)
    | some e =>
      obtain ⟨a, w⟩ := e
      obtain ⟨pre, hpre⟩ : ∃ pre, t.nodes = pre ++ [(a, w)] := by
        have h1 := List.dropLast_append_getLast? (a, w) (by simpa using hx)
        exact ⟨t.nodes.dropLast, h1.symm⟩
      refine ⟨a, w, ?_, rfl, Rep_get_value hwf.z.rsub (by simp [hpre]), ?_⟩
      · rw [rb_tree.end_, hwf.decrement_end hne fuel, hlast pre a w hpre]
      · intro u hu
        have ho := Ordered_nodes T hrb.ordered
        rw [hpre, List.pairwise_append] at ho
        simp only [Tree.toList, hpre, List.map_append, List.map_cons, List.map_nil,
          List.mem_append, List.mem_map, List.mem_singleton] at hu
        rcases hu with ⟨x, hx1, rfl⟩ | rfl
        · exact ho.2.2 x hx1 (a, w) (by simp)
        · exact hT.irrefl _
  · intro a ha
    simp only [Tree.addrs, List.mem_map] at ha
    obtain ⟨⟨a', w⟩, hm, rfl⟩ := ha
    obtain ⟨pre, post, hn⟩ := List.append_of_mem hm
    rw [hwf.next_addr fuel hf hn]
    cases post with
    | nil =>
      refine ⟨s.header, rfl, ?_⟩
      rw [hwf.decrement_end hne fuel, hlast pre a' w hn]
    | cons y post =>
      obtain ⟨b, w'⟩ := y
      refine ⟨b, rfl, ?_⟩
      have hn' : t.nodes = (pre ++ [(a', w)]) ++ (b, w') :: post := by simp [hn]
      rw [hwf.prev_addr hrb.root_black fuel (by omega) hn' (by simp)]
      simp

theorem decrement_inverts_increment_witness :
    (∃ a w, decrement 10 three_tree.mem three_tree.end_ = .ok a ∧
      three_abs.nodes.getLast? = some (a, w) ∧ get_value three_tree.mem a = .ok w ∧
      ∀ u ∈ three_abs.toList, natT.key_compare (natT.KeyOfValue w) (natT.KeyOfValue u) = false) ∧
    ∀ a ∈ three_abs.addrs, ∃ b, increment 10 three_tree.mem a = .ok b ∧
      decrement 10 three_tree.mem b = .ok a :=
  decrement_inverts_increment natT natT_swo three_WF three_RB (by simp [three_abs]) 10
    (by decide)

/-- The parent frame of the focus is a real node of the tree, and it is not the
root when there is a frame above it. -/
theorem Z.frame_parent {m m0 : Mem α} {hdr lm rm : Nat} {f : Frame α} {ctx : Ctx α} {t : Tree α}
    (h : Z m m0 hdr lm rm (f :: ctx) t) :
    mystl.get_parent m f.addr = .ok (ctxPtr hdr ctx) ∧ f.addr ≠ 0 ∧ f.addr ≠ hdr ∧
      (∃ v, mystl.get_value m f.addr = .ok v) ∧
      (ctx ≠ [] → f.addr ≠ (plug (f :: ctx) t).ptr) := by
  have hp := Z_up.1 h
  cases f with
  | L a c v r =>
    simp only [Frame.fill_L] at hp
    have hd := hp.focus_disjoint (z := a) (by simp)
    refine ⟨hp.get_parent, hd.2.2.2, hd.1, ⟨v, hp.get_value⟩, ?_⟩
    intro hc
    obtain ⟨g, gs, rfl⟩ := List.exists_cons_of_ne_nil hc
    exact hp.focus_ne_root (by simp)
  | R a c l v =>
    simp only [Frame.fill_R] at hp
    have hd := hp.focus_disjoint (z := a) (by simp)
    refine ⟨hp.get_parent, hd.2.2.2, hd.1, ⟨v, hp.get_value⟩, ?_⟩
    intro hc
    obtain ⟨g, gs, rfl⟩ := List.exists_cons_of_ne_nil hc
    exact hp.focus_ne_root (by simp)

/-- One pass of the loop of `rb_tree_reblance` from a state of the invariant:
the links it follows lead to real nodes, the body returns, and the invariant
holds again. -/
theorem reblance_step_safe {m : Mem α} {hdr x : Nat} (hinv : ReblanceInv m hdr x)
    (hc : reblance_cond m x hdr = .ok true) :
    ∃ root xp xpp m' x', get_parent m hdr = .ok root ∧ get_parent m x = .ok xp ∧
      xp ≠ 0 ∧ xp ≠ hdr ∧ xp ≠ root ∧ get_parent m xp = .ok xpp ∧ xpp ≠ 0 ∧ xpp ≠ hdr ∧
      (∃ v, get_value m xpp = .ok v) ∧
      reblance_body m x hdr = .ok (m', x') ∧ ReblanceInv m' hdr x' := by
  obtain ⟨m0, lm, rm, ctx, t, z, hne, rfl, hb⟩ := hinv
  rw [z.reblance_cond hne] at hc
  cases ctx with
  | nil => simp at hc
  | cons f1 ctx =>
    cases ctx with
    | nil =>
      have hb' : f1.color = rb_tree_black := hb
      simp [hb', rb_tree_black, rb_tree_red] at hc
    | cons f2 rest =>
      have z1 := Z_up.1 z
      obtain ⟨p1, p2, p3, _, p5⟩ := z.frame_parent
      obtain ⟨_, q2, q3, q4, _⟩ := z1.frame_parent
      have hx : get_parent m t.ptr = .ok f1.addr := by
        cases t with
        | nil => exact absurd rfl hne
        | node a c l v r => exact z.get_parent
      obtain ⟨m1, hbody⟩ := reblance_body_spec hne z
      have hroot := z.get_root
      cases hfc : fix_case t f1 f2 with
      | inl t' =>
        rw [hfc] at hbody
        obtain ⟨e1, z2⟩ := hbody
        exact ⟨_, f1.addr, f2.addr, m1, t'.ptr, hroot, hx, p2, p3, p5 (by simp), p1, q2, q3, q4,
          e1, ⟨m0, lm, rm, rest, t', z2, fix_case_inl_ne_nil hfc, rfl, hb.tail2⟩⟩
      | inr ft =>
        obtain ⟨f', t'⟩ := ft
        rw [hfc] at hbody
        obtain ⟨e1, z2⟩ := hbody
        obtain ⟨hne', hbl⟩ := fix_case_inr hne hfc
        have hb2 : LastBlack (f' :: rest) := by
          cases rest with
          | nil => exact hbl
          | cons g gs => exact hb
        exact ⟨_, f1.addr, f2.addr, m1, t'.ptr, hroot, hx, p2, p3, p5 (by simp), p1, q2, q3, q4,
          e1, ⟨m0, lm, rm, f' :: rest, t', z2, hne', rfl, hb2⟩⟩

/-- C40: for a valid red-black tree and the attach position found by the
insertion descent, linking the new node gives a state of the loop invariant of
`rb_tree_reblance`, and the call returns.  At every state of the invariant the
loop test returns, and when it is true the parent of `x` is a real node other
than the root, the grandparent of `x` is a real tree node other than the
header, and the loop body, rotations included, returns without following a
null link and re-establishes the invariant. -/
theorem reblance_follows_no_null_link (T : Traits α κ) {s : rb_tree α} {t : Tree α}
    (hwf : WF s t) (hrb : t.RB T) (v : α) (p : Nat) (junk : Bool) (hp0 : p ≠ 0)
    (hfresh : s.mem p = none) (fuel : Nat) (hf : t.size < fuel) :
    ∃ x add_to_left m1 m2 m3,
      s.get_insert_multi_pos T fuel (T.KeyOfValue v) = .ok (x, add_to_left) ∧
      link_node (create_node s.mem p junk v) s.header x p add_to_left = .ok m1 ∧
      set_color m1 p rb_tree_red = .ok m2 ∧ ReblanceInv m2 s.header p ∧
      rb_tree_reblance fuel m1 p s.header = .ok m3 ∧
      ∀ (m : Mem α) (x : Nat), ReblanceInv m s.header x →
        (∃ b, reblance_cond m x s.header = .ok b) ∧
        (reblance_cond m x s.header = .ok true →
          ∃ root xp xpp m' x', get_parent m s.header = .ok root ∧ get_parent m x = .ok xp ∧
            xp ≠ 0 ∧ xp ≠ s.header ∧ xp ≠ root ∧ get_parent m xp = .ok xpp ∧ xpp ≠ 0 ∧
            xpp ≠ s.header ∧ (∃ w, get_value m xpp = .ok w) ∧
            reblance_body m x s.header = .ok (m', x') ∧ ReblanceInv m' s.header x') := by
  have z0 := hwf.z
  have hph : p ≠ s.header := fun e => hwf.hdr_live (e ▸ hfresh)
  have hpt : p ∉ t.addrs := fun hm => Rep_live z0.rsub p hm hfresh
  have hctx := plug_descend T (T.KeyOfValue v) t []
  simp only [plug_nil] at hctx
  have z1 : Z s.mem s.mem s.header
      ((plug (descend T (T.KeyOfValue v) t []) (.nil : Tree α)).first s.header)
      ((plug (descend T (T.KeyOfValue v) t []) (.nil : Tree α)).last s.header)
      (descend T (T.KeyOfValue v) t []) .nil := by
    rw [hctx]; exact Z_top.2 (by rw [hctx]; exact z0)
  obtain ⟨m1, e1, z2⟩ := link_node_spec 0 junk v z1 hp0 hph (by rw [hctx]; exact hpt)
  have hlen : (descend T (T.KeyOfValue v) t []).length < fuel := by
    have h1 := length_le_ctx (descend T (T.KeyOfValue v) t [])
    have h2 := size_plug (descend T (T.KeyOfValue v) t []) (.nil : Tree α)
    rw [hctx] at h2
    simp at h2
    omega
  have hlast : LastBlack (descend T (T.KeyOfValue v) t []) := by
    cases hd : descend T (T.KeyOfValue v) t [] with
    | nil => trivial
    | cons f fs =>
      rw [hd] at hctx
      exact lastBlack_of_rootBlack _ .nil (by rw [hctx]; exact hrb.root_black) (by simp)
  obtain ⟨m3, e3, _⟩ := rb_tree_reblance_spec fuel z2 (by simp) hlast hlen
  obtain ⟨m2, e2, z4⟩ := z2.recolor rb_tree_red
  refine ⟨_, _, m1, m2, m3, get_insert_multi_pos_spec T hwf _ fuel hf, e1, e2,
    ⟨_, _, _, _, _, z4, by simp, rfl, hlast⟩, e3, ?_⟩
  intro m x hinv
  refine ⟨?_, fun hc => reblance_step_safe hinv hc⟩
  obtain ⟨m0, lm, rm, ctx, t', z, hne, rfl, _⟩ := hinv
  exact ⟨_, z.reblance_cond hne⟩

theorem reblance_follows_no_null_link_witness :
    ∃ x add_to_left m1 m2 m3,
      three_tree.get_insert_multi_pos natT 10 (natT.KeyOfValue 5) = .ok (x, add_to_left) ∧
      link_node (create_node three_tree.mem 5 rb_tree_black 5) three_tree.header x 5
        add_to_left = .ok m1 ∧
      set_color m1 5 rb_tree_red = .ok m2 ∧ ReblanceInv m2 three_tree.header 5 ∧
      rb_tree_reblance 10 m1 5 three_tree.header = .ok m3 ∧
      ∀ (m : Mem Nat) (x : Nat), ReblanceInv m three_tree.header x →
        (∃ b, reblance_cond m x three_tree.header = .ok b) ∧
        (reblance_cond m x three_tree.header = .ok true →
          ∃ root xp xpp m' x', get_parent m three_tree.header = .ok root ∧
            get_parent m x = .ok xp ∧
            xp ≠ 0 ∧ xp ≠ three_tree.header ∧ xp ≠ root ∧ get_parent m xp = .ok xpp ∧ xpp ≠ 0 ∧
            xpp ≠ three_tree.header ∧ (∃ w, get_value m xpp = .ok w) ∧
            reblance_body m x three_tree.header = .ok (m', x') ∧
            ReblanceInv m' three_tree.header x') :=
  reblance_follows_no_null_link natT three_WF three_RB 5 5 rb_tree_black (by decide)
    (by decide) 10 (by decide)

end claims_back

/-! ## Claim C33: `rb_tree_reblance` commutes with the mirror image -/

section mirror

variable {α : Type}

@[simp] theorem Tree.mirror_nil : (Tree.nil : Tree α).mirror = .nil := rfl

@[simp] theorem Tree.mirror_node (a : Nat) (c : Bool) (l : Tree α) (v : α) (r : Tree α) :
    (Tree.node a c l v r).mirror = .node a c r.mirror v l.mirror := rfl

@[simp] theorem Tree.ptr_mirror (t : Tree α) : t.mirror.ptr = t.ptr := by cases t <;> rfl

@[simp] theorem Tree.isRed_mirror (t : Tree α) : t.mirror.isRed = t.isRed := by cases t <;> rfl

theorem Tree.blacken_mirror (t : Tree α) : t.mirror.blacken = t.blacken.mirror := by
  cases t <;> rfl

theorem Tree.redden_mirror (t : Tree α) : t.mirror.redden = t.redden.mirror := by
  cases t <;> rfl

theorem Tree.mirror_ne_nil {t : Tree α} (h : t ≠ .nil) : t.mirror ≠ .nil := by
  cases t with
  | nil => exact absurd rfl h
  | node a c l v r => simp

theorem Tree.nodes_mirror (t : Tree α) : t.mirror.nodes = t.nodes.reverse := by
  induction t with
  | nil => rfl
  | node a c l v r ihl ihr => simp [ihl, ihr]

theorem Tree.addrs_mirror (t : Tree α) : t.mirror.addrs = t.addrs.reverse := by
  simp [Tree.addrs, Tree.nodes_mirror]

@[simp] theorem Frame.addr_mirror (f : Frame α) : f.mirror.addr = f.addr := by cases f <;> rfl

@[simp] theorem Frame.color_mirror (f : Frame α) : f.mirror.color = f.color := by
  cases f <;> rfl

theorem Frame.fill_mirror (f : Frame α) (t : Tree α) :
    f.mirror.fill t.mirror = (f.fill t).mirror := by cases f <;> rfl

theorem plug_mirror (ctx : Ctx α) (t : Tree α) :
    plug (ctx.map Frame.mirror) t.mirror = (plug ctx t).mirror := by
  induction ctx generalizing t with
  | nil => rfl
  | cons f fs ih => simp only [List.map_cons, plug_cons, Frame.fill_mirror, ih]

@[simp] theorem ctxPtr_mirror (hdr : Nat) (ctx : Ctx α) :
    ctxPtr hdr (ctx.map Frame.mirror) = ctxPtr hdr ctx := by cases ctx <;> simp

theorem Rep_mirror {m : Mem α} {par : Nat} {t : Tree α} (h : Rep m par t) :
    Rep (mirror_mem m) par t.mirror := by
  induction t generalizing par with
  | nil => trivial
  | node a c l v r ihl ihr =>
    obtain ⟨h0, ha, hl, hr⟩ := h
    exact ⟨h0, by simp [mirror_mem, ha], ihr hr, ihl hl⟩

theorem RepCtx_mirror {m : Mem α} {hdr lm rm : Nat} {ctx : Ctx α} {h : Nat}
    (hc : RepCtx m hdr lm rm ctx h) :
    RepCtx (mirror_mem m) hdr rm lm (ctx.map Frame.mirror) h := by
  induction ctx generalizing h with
  | nil =>
    have hc' : m hdr = some (rb_tree_node.mk rb_tree_red h lm rm none) := hc
    show mirror_mem m hdr = some (rb_tree_node.mk rb_tree_red h rm lm none)
    simp [mirror_mem, hc']
  | cons f fs ih =>
    cases f with
    | L a c v r =>
      obtain ⟨h0, ha, hs, hrest⟩ := hc
      exact ⟨h0, by simp [mirror_mem, ha], Rep_mirror hs, ih hrest⟩
    | R a c l v =>
      obtain ⟨h0, ha, hs, hrest⟩ := hc
      exact ⟨h0, by simp [mirror_mem, ha], Rep_mirror hs, ih hrest⟩

/-- The mirrored memory holds the mirrored tree, with `leftmost` and
`rightmost` exchanged. -/
theorem Z_mirror {m m0 : Mem α} {hdr lm rm : Nat} {ctx : Ctx α} {t : Tree α}
    (h : Z m m0 hdr lm rm ctx t) :
    Z (mirror_mem m) (mirror_mem m0) hdr rm lm (ctx.map Frame.mirror) t.mirror := by
  refine ⟨h.hdr_ne, ?_, ?_, ?_, ?_⟩
  · rw [plug_mirror, Tree.addrs_mirror]
    have := h.nodup
    rw [List.nodup_cons] at this ⊢
    exact ⟨by simpa using this.1, List.nodup_reverse.2 this.2⟩
  · simpa using RepCtx_mirror h.rctx
  · simpa using Rep_mirror h.rsub
  · intro a h1 h2
    rw [plug_mirror, Tree.addrs_mirror, List.mem_reverse] at h2
    simp [mirror_mem, h.frame a h1 h2]

theorem fix_case_mirror (t : Tree α) (f1 f2 : Frame α) :
    fix_case t.mirror f1.mirror f2.mirror =
      (fix_case t f1 f2).map Tree.mirror (Prod.map Frame.mirror Tree.mirror) := by
  cases t <;> cases f1 <;> cases f2 <;>
    simp only [fix_case, Frame.mirror, Tree.mirror, Tree.isRed_mirror] <;>
    (try split) <;> simp [Frame.mirror, Tree.blacken_mirror]

theorem fixup_mirror : ∀ (ctx : Ctx α) (t : Tree α),
    fixup (ctx.map Frame.mirror) t.mirror =
      ((fixup ctx t).1.map Frame.mirror, (fixup ctx t).2.mirror)
  | [], t => by simp [fixup]
  | [f], t => by simp [fixup]
  | f1 :: f2 :: rest, t => by
    by_cases hc : f1.color = rb_tree_red
    · cases hfc : fix_case t f1 f2 with
      | inl t' =>
        have := fixup_mirror rest t'
        simp [fixup, hc, hfc, fix_case_mirror, this]
      | inr ft =>
        obtain ⟨f', t'⟩ := ft
        simp [fixup, hc, hfc, fix_case_mirror]
    · have hc' : f1.color = rb_tree_black := by simpa using hc
      simp [fixup, hc']

theorem reblanced_mirror (ctx : Ctx α) (t : Tree α) :
    reblanced (ctx.map Frame.mirror) t.mirror = (reblanced ctx t).mirror := by
  simp only [reblanced, Tree.redden_mirror, fixup_mirror, plug_mirror, Tree.blacken_mirror]

theorem LastBlack_mirror : ∀ (ctx : Ctx α), LastBlack ctx → LastBlack (ctx.map Frame.mirror)
  | [], _ => trivial
  | [f], h => by
    have h' : f.color = rb_tree_black := h
    show f.mirror.color = rb_tree_black
    simpa using h'
  | _ :: g :: gs, h => LastBlack_mirror (g :: gs) h

theorem Rep_unique {m1 m2 : Mem α} {par : Nat} {t : Tree α} (h1 : Rep m1 par t)
    (h2 : Rep m2 par t) : ∀ a ∈ t.addrs, m1 a = m2 a := by
  induction t generalizing par with
  | nil => simp
  | node b c l v r ihl ihr =>
    obtain ⟨_, hb1, hl1, hr1⟩ := h1
    obtain ⟨_, hb2, hl2, hr2⟩ := h2
    intro a ha
    simp only [Tree.addrs_node, List.mem_append, List.mem_cons] at ha
    rcases ha with ha | rfl | ha
    · exact ihl hl1 hl2 a ha
    · rw [hb1, hb2]
    · exact ihr hr1 hr2 a ha

/-- Two memories that hold the same tree under the same header, with the same
cached ends and the same contents elsewhere, are equal. -/
theorem Z_unique {m1 m2 m0 : Mem α} {hdr lm rm : Nat} {t : Tree α}
    (h1 : Z m1 m0 hdr lm rm [] t) (h2 : Z m2 m0 hdr lm rm [] t) : m1 = m2 := by
  funext a
  by_cases ha : a = hdr
  · subst ha; rw [h1.header, h2.header]
  · by_cases hm : a ∈ t.addrs
    · exact Rep_unique h1.rsub h2.rsub a hm
    · rw [h1.frame a ha (by simpa using hm), h2.frame a ha (by simpa using hm)]

/-- C33: for a linked tree with a black root (or `x` the root itself) and a
node `x` of it, `rb_tree_reblance` returns on the memory and on its mirror
image (every `left` and `right` link swapped), and the result on the mirror
image is the mirror image of the result; the two results hold the repaired
tree and its mirror image. -/
theorem reblance_mirror_symmetric {m m0 : Mem α} {hdr lm rm : Nat} {ctx : Ctx α} {t : Tree α}
    (fuel : Nat) (h : Z m m0 hdr lm rm ctx t) (hne : t ≠ .nil) (hb : LastBlack ctx)
    (hf : ctx.length < fuel) :
    ∃ m', rb_tree_reblance fuel m t.ptr hdr = .ok m' ∧
      rb_tree_reblance fuel (mirror_mem m) t.ptr hdr = .ok (mirror_mem m') ∧
      Z m' m0 hdr lm rm [] (reblanced ctx t) ∧
      Z (mirror_mem m') (mirror_mem m0) hdr rm lm [] (reblanced ctx t).mirror := by
  obtain ⟨m1, e1, z1⟩ := rb_tree_reblance_spec fuel h hne hb hf
  obtain ⟨m2, e2, z2⟩ := rb_tree_reblance_spec fuel (Z_mirror h) (Tree.mirror_ne_nil hne)
    (LastBlack_mirror ctx hb) (by simpa using hf)
  rw [Tree.ptr_mirror] at e2
  rw [reblanced_mirror] at z2
  have z3 : Z (mirror_mem m1) (mirror_mem m0) hdr rm lm [] (reblanced ctx t).mirror :=
    Z_mirror z1
  have e : m2 = mirror_mem m1 := Z_unique z2 z3
  rw [e] at e2
  exact ⟨m1, e1, e2, z1, z3⟩

theorem reblance_mirror_symmetric_witness :
    (∃ m', rb_tree_reblance 10 zigzag_mem 4 1 = .ok m' ∧
      rb_tree_reblance 10 (mirror_mem zigzag_mem) 4 1 = .ok (mirror_mem m') ∧
      Z m' zigzag_mem 1 2 3 []
        (reblanced [Frame.L 3 rb_tree_red 4 .nil, Frame.R 2 rb_tree_black .nil 2]
          (.node 4 rb_tree_red .nil 3 .nil)) ∧
      Z (mirror_mem m') (mirror_mem zigzag_mem) 1 3 2 []
        (reblanced [Frame.L 3 rb_tree_red 4 .nil, Frame.R 2 rb_tree_black .nil 2]
          (.node 4 rb_tree_red .nil 3 .nil)).mirror) ∧
    zigzag_linked.map (fun m => node_fields m 1) = .ok (node_fields zigzag_mem 1) ∧
    zigzag_linked.map (fun m => node_fields m 2) = .ok (node_fields zigzag_mem 2) ∧
    zigzag_linked.map (fun m => node_fields m 3) = .ok (node_fields zigzag_mem 3) ∧
    zigzag_linked.map (fun m => node_fields m 4) = .ok (node_fields zigzag_mem 4) ∧
    zigzag_linked.map (fun m => (get_value m 2, get_value m 3, get_value m 4)) =
      .ok (get_value zigzag_mem 2, get_value zigzag_mem 3, get_value zigzag_mem 4) ∧
    reblance_cond zigzag_mem 4 1 = .ok true ∧
    reblance_cond (mirror_mem zigzag_mem) 4 1 = .ok true ∧
    (get_parent zigzag_mem 4, get_parent zigzag_mem 3, get_right zigzag_mem 2,
      get_left (mirror_mem zigzag_mem) 2) = (.ok 3, .ok 2, .ok 3, .ok 3) ∧
    reblanced [Frame.L 3 rb_tree_red 4 .nil, Frame.R 2 rb_tree_black .nil 2]
        (.node 4 rb_tree_red .nil 3 .nil) =
      .node 4 rb_tree_black (.node 2 rb_tree_red .nil 2 .nil) 3
        (.node 3 rb_tree_red .nil 4 .nil) ∧
    (rb_tree_reblance 10 zigzag_mem 4 1).map (fun m => node_fields m 1) =
      .ok (.ok 4, .ok 2, .ok 3, .ok rb_tree_red) ∧
    (rb_tree_reblance 10 zigzag_mem 4 1).map (fun m => node_fields m 4) =
      .ok (.ok 1, .ok 2, .ok 3, .ok rb_tree_black) ∧
    (rb_tree_reblance 10 (mirror_mem zigzag_mem) 4 1).map (fun m => node_fields m 1) =
      .ok (.ok 4, .ok 3, .ok 2, .ok rb_tree_red) ∧
    (rb_tree_reblance 10 (mirror_mem zigzag_mem) 4 1).map (fun m => node_fields m 4) =
      .ok (.ok 1, .ok 3, .ok 2, .ok rb_tree_black) := by
  have hz : Z zigzag_mem zigzag_mem 1 2 3 []
      (plug [Frame.L 3 rb_tree_red 4 .nil, Frame.R 2 rb_tree_black .nil 2]
        (.node 4 rb_tree_red .nil 3 .nil)) := by
    refine ⟨by decide, by decide, ?_, ⟨by decide, by decide, trivial,
      ⟨by decide, by decide, ⟨by decide, by decide, trivial, trivial⟩, trivial⟩⟩,
      fun _ _ _ => rfl⟩
    simp only [RepCtx]
    decide
  exact ⟨reblance_mirror_symmetric 10 (Z_top.2 hz) (by simp) rfl (by decide), by decide,
    by decide, by decide, by decide, by decide, by decide, by decide, by decide, rfl, by decide,
    by decide, by decide, by decide⟩

end mirror

/-! ## Claim C35: the hinted insertions against the plain ones -/

section claims_hint_order

variable {α κ : Type}

/-- A split of an ordered sequence at a place for `k` falls inside the run of
elements equivalent to `k`. -/
theorem weak_split (T : Traits α κ) (k : κ) : ∀ (A B C X Y : List (Nat × α)),
    A ++ B ++ C = X ++ Y →
    (∀ e ∈ A, T.key_compare (T.KeyOfValue e.2) k = true) →
    (∀ e ∈ C, T.key_compare k (T.KeyOfValue e.2) = true) →
    (∀ e ∈ X, T.key_compare k (T.KeyOfValue e.2) = false) →
    (∀ e ∈ Y, T.key_compare (T.KeyOfValue e.2) k = false) →
    ∃ B1 B2, B = B1 ++ B2 ∧ X = A ++ B1 ∧ Y = B2 ++ C := by
  intro A
  induction A with
  | nil =>
    intro B
    induction B with
    | nil =>
      intro C X Y h _ hC hX _
      cases X with
      | nil => exact ⟨[], [], rfl, rfl, by simpa using h.symm⟩
      | cons x X =>
        exfalso
        simp only [List.nil_append, List.cons_append] at h
        have h1 := hC x (by rw [h]; simp)
        have h2 := hX x (by simp)
        rw [h1] at h2
        cases h2
    | cons b B ih =>
      intro C X Y h hA hC hX hY
      cases X with
      | nil => exact ⟨[], b :: B, rfl, rfl, by simpa using h.symm⟩
      | cons x X =>
        simp only [List.nil_append, List.cons_append, List.cons.injEq] at h
        obtain ⟨rfl, h⟩ := h
        obtain ⟨B1, B2, e1, e2, e3⟩ := ih C X Y (by simpa using h) hA hC
          (fun e he => hX e (by simp [he])) hY
        simp only [List.nil_append] at e2
        exact ⟨b :: B1, B2, by simp [e1], by simp [e2], e3⟩
  | cons a A ih =>
    intro B C X Y h hA hC hX hY
    cases X with
    | nil =>
      exfalso
      simp only [List.nil_append, List.cons_append] at h
      have h1 := hA a (by simp)
      have h2 := hY a (by rw [← h]; simp)
      rw [h1] at h2
      cases h2
    | cons x X =>
      simp only [List.cons_append, List.cons.injEq] at h
      obtain ⟨rfl, h⟩ := h
      obtain ⟨B1, B2, e1, e2, e3⟩ := ih B C X Y h (fun e he => hA e (by simp [he])) hC
        (fun e he => hX e (by simp [he])) hY
      exact ⟨B1, B2, e1, by simp [e2], e3⟩

theorem forall2_of_all {β : Type} (R : β → β → Prop) : ∀ (l1 l2 : List β),
    l1.length = l2.length → (∀ x ∈ l1, ∀ y ∈ l2, R x y) → List.Forall₂ R l1 l2
  | [], [], _, _ => .nil
  | [], _ :: _, h, _ => by simp at h
  | _ :: _, [], h, _ => by simp at h
  | x :: l1, y :: l2, h, hr =>
    .cons (hr x (by simp) y (by simp))
      (forall2_of_all R l1 l2 (by simpa using h)
        (fun a ha b hb => hr a (by simp [ha]) b (by simp [hb])))

theorem forall2_append {β : Type} {R : β → β → Prop} {l1 l1' l2 l2' : List β}
    (h1 : List.Forall₂ R l1 l1') (h2 : List.Forall₂ R l2 l2') :
    List.Forall₂ R (l1 ++ l2) (l1' ++ l2') := by
  induction h1 with
  | nil => simpa using h2
  | cons h _ ih => exact .cons h ih

theorem forall2_self {β : Type} {R : β → β → Prop} (hrefl : ∀ x, R x x) :
    ∀ (l : List β), List.Forall₂ R l l
  | [] => .nil
  | x :: l => .cons (hrefl x) (forall2_self hrefl l)

/-- Moving an element over a run of elements all related to it: the two
sequences are permutations of each other and related position by position. -/
theorem run_shift {β : Type} (R : β → β → Prop) (hrefl : ∀ x, R x x) (a b1 b2 c : List β)
    (v : β) (hb : ∀ x ∈ v :: b2, ∀ y ∈ v :: b2, R x y) :
    (a ++ b1 ++ v :: (b2 ++ c)).Perm (a ++ (b1 ++ b2 ++ [v]) ++ c) ∧
      List.Forall₂ R (a ++ b1 ++ v :: (b2 ++ c)) (a ++ (b1 ++ b2 ++ [v]) ++ c) := by
  have e1 : a ++ b1 ++ v :: (b2 ++ c) = (a ++ b1) ++ ((v :: b2) ++ c) := by simp
  have e2 : a ++ (b1 ++ b2 ++ [v]) ++ c = (a ++ b1) ++ ((b2 ++ [v]) ++ c) := by simp
  rw [e1, e2]
  constructor
  · refine List.Perm.append_left _ (List.Perm.append_right _ ?_)
    have : ([v] ++ b2).Perm (b2 ++ [v]) := List.perm_append_comm
    simpa using this
  · refine forall2_append (forall2_self hrefl _) (forall2_append ?_ (forall2_self hrefl _))
    refine forall2_of_all R _ _ (by simp) ?_
    intro x hx y hy
    exact hb x hx y (by simpa [or_comm] using hy)

theorem cons_run {γ : Type} (k : γ) : ∀ (M rest : List γ), (∀ x ∈ M, x = k) →
    k :: (M ++ rest) = M ++ k :: rest
  | [], _, _ => rfl
  | m :: M, rest, h => by
    have hm : m = k := h m (by simp)
    subst hm
    have := cons_run m M rest (fun x hx => h x (by simp [hx]))
    simp [this]

theorem shifted_keys {β γ : Type} (f : β → γ) (a b1 b2 c : List β) (v : β)
    (hb : ∀ x ∈ b2, f x = f v) :
    (a ++ b1 ++ v :: (b2 ++ c)).map f = (a ++ (b1 ++ b2 ++ [v]) ++ c).map f := by
  have := cons_run (f v) (b2.map f) (c.map f) (by
    intro x hx
    obtain ⟨y, hy, rfl⟩ := List.mem_map.1 hx
    exact hb y hy)
  simp [this]

theorem equiv_self {lt : κ → κ → Bool} (h : StrictWeakOrder lt) (a : κ) : equiv lt a a :=
  ⟨h.irrefl a, h.irrefl a⟩

theorem equiv_via {lt : κ → κ → Bool} (h : StrictWeakOrder lt) {a b k : κ}
    (ha : equiv lt a k) (hb : equiv lt b k) : equiv lt a b :=
  ⟨h.neg_trans _ _ _ ha.1 hb.2, h.neg_trans _ _ _ hb.1 ha.2⟩

theorem nodes_at_place {ctx : Ctx α} {t : Tree α} (e : plug ctx .nil = t) (p : Nat) (junk : Bool)
    (v : α) :
    t.nodes = ctxBefore ctx ++ ctxAfter ctx ∧
      (reblanced ctx (.node p junk .nil v .nil)).nodes = ctxBefore ctx ++ (p, v) :: ctxAfter ctx ∧
      (reblanced ctx (.node p junk .nil v .nil)).size = t.size + 1 := by
  have h1 : t.nodes = ctxBefore ctx ++ ctxAfter ctx := by
    have := congrArg Tree.nodes e
    simpa [nodes_plug] using this.symm
  have h2 : (reblanced ctx (.node p junk .nil v .nil)).nodes =
      ctxBefore ctx ++ (p, v) :: ctxAfter ctx := by
    simp [reblanced_nodes, nodes_plug]
  refine ⟨h1, h2, ?_⟩
  rw [← Tree.length_nodes, ← Tree.length_nodes, h1, h2]
  simp only [List.length_append, List.length_cons]
  omega

/-- The multi-key hinted insertion against `insert_multi`: both return, and the
two in-order sequences differ at most in where the new element stands among
the elements equivalent to it. -/
theorem hinted_multi_order (T : Traits α κ) (hT : StrictWeakOrder T.key_compare)
    {s : rb_tree α} {t : Tree α} (hwf : WF s t) (hrb : t.RB T) (v : α) (p : Nat) (junk : Bool)
    (hp0 : p ≠ 0) (hfresh : s.mem p = none) (fuel : Nat) (hf : t.size < fuel)
    (hcnt : s.node_count < T.max_size) {hint : Nat} (hh : hint = s.header ∨ hint ∈ t.addrs) :
    ∃ s1 s2 P M Q, s.emplace_multi_use_hint T fuel hint v p junk = .ok (s1, p) ∧
      s.insert_multi T fuel v p junk = .ok (s2, p) ∧
      s.to_list (fuel + 2) = .ok (P ++ (M ++ Q)) ∧
      s1.to_list (fuel + 2) = .ok (P ++ (v :: (M ++ Q))) ∧
      s2.to_list (fuel + 2) = .ok (P ++ (M ++ (v :: Q))) ∧
      (∀ x ∈ M, equiv T.key_compare (T.KeyOfValue x) (T.KeyOfValue v)) ∧
      (∀ x ∈ Q, T.key_compare (T.KeyOfValue v) (T.KeyOfValue x) = true) ∧
      ((∀ a b, equiv T.key_compare a b → a = b) →
        (P ++ (v :: (M ++ Q))).map T.KeyOfValue = (P ++ (M ++ (v :: Q))).map T.KeyOfValue) := by
  obtain ⟨s1, ctx, e, e1, w1, _, hsd⟩ := emplace_multi_use_hint_spec T hwf hrb.root_black v p
    junk hp0 hfresh fuel hf hcnt hh
  obtain ⟨s2, e2, w2, _, _⟩ := insert_multi_spec T hwf hrb.root_black v p junk hp0 hfresh fuel
    hf hcnt
  obtain ⟨hX, hY⟩ := hsd hT hrb.ordered
  obtain ⟨A, B, C, hn, hA, hB, hC⟩ := ordered_split T hT (T.KeyOfValue v) t.nodes
    (Ordered_nodes T hrb.ordered)
  have hn2 := nodes_ins_tree_equiv T hT (T.KeyOfValue v) v p junk t hrb.ordered
    (equiv_self hT _) hn hA hB hC
  obtain ⟨hnx, hn1, hsz⟩ := nodes_at_place e p junk v
  obtain ⟨B1, B2, hB12, hXe, hYe⟩ := weak_split T (T.KeyOfValue v) A B C _ _
    (hn.symm.trans hnx) hA hC hX hY
  have hl0 := to_list_spec hwf (fuel + 2) (by omega)
  have hl1 := to_list_spec w1 (fuel + 2) (by omega)
  have hl2 := to_list_spec w2 (fuel + 2) (by rw [size_ins_tree]; omega)
  have t0 : t.toList =
      (A.map Prod.snd ++ B1.map Prod.snd) ++ (B2.map Prod.snd ++ C.map Prod.snd) := by
    simp [Tree.toList, hn, hB12]
  have t1 : (reblanced ctx (.node p junk .nil v .nil)).toList =
      (A.map Prod.snd ++ B1.map Prod.snd) ++ (v :: (B2.map Prod.snd ++ C.map Prod.snd)) := by
    simp [Tree.toList, hn1, hXe, hYe]
  have t2 : (ins_tree T v p junk t).toList =
      (A.map Prod.snd ++ B1.map Prod.snd) ++ (B2.map Prod.snd ++ (v :: C.map Prod.snd)) := by
    simp [Tree.toList, hn2, hB12]
  have hB2 : ∀ x ∈ B2.map Prod.snd, equiv T.key_compare (T.KeyOfValue x) (T.KeyOfValue v) := by
    intro x hx
    obtain ⟨y, hy, rfl⟩ := List.mem_map.1 hx
    exact hB y (by rw [hB12]; simp [hy])
  have hC2 : ∀ x ∈ C.map Prod.snd, T.key_compare (T.KeyOfValue v) (T.KeyOfValue x) = true := by
    intro x hx
    obtain ⟨y, hy, rfl⟩ := List.mem_map.1 hx
    exact hC y hy
  refine ⟨s1, s2, A.map Prod.snd ++ B1.map Prod.snd, B2.map Prod.snd, C.map Prod.snd, e1, e2,
    by rw [hl0, t0], by rw [hl1, t1], by rw [hl2, t2], hB2, hC2, ?_⟩
  intro heq
  have := shifted_keys T.KeyOfValue (A.map Prod.snd) (B1.map Prod.snd) (B2.map Prod.snd)
    (C.map Prod.snd) v (fun x hx => heq _ _ (hB2 x hx))
  simpa using this

/-- The unique-key hinted insertion against `insert_unique`: both return and
leave trees with the same in-order sequence. -/
theorem hinted_unique_order (T : Traits α κ) (hT : StrictWeakOrder T.key_compare)
    {s : rb_tree α} {t : Tree α} (hwf : WF s t) (hrb : t.RB T) (v : α)
    (p : Nat) (junk : Bool) (hp0 : p ≠ 0) (hfresh : s.mem p = none) (fuel : Nat)
    (hf : t.size < fuel) (hcnt : s.node_count < T.max_size) {hint : Nat}
    (hh : hint = s.header ∨ hint ∈ t.addrs) :
    ∃ s1 it1 s2 r2 L, s.emplace_unique_use_hint T fuel hint v p junk = .ok (s1, it1) ∧
      s.insert_unique T fuel v p junk = .ok (s2, r2) ∧
      s1.to_list (fuel + 2) = .ok L ∧ s2.to_list (fuel + 2) = .ok L := by
  rcases emplace_unique_use_hint_spec T hwf hrb.root_black v p junk hp0 hfresh fuel hf hcnt hh
    with ⟨s1, ctx, e, e1, w1, _, hsd⟩ | ⟨_, hok, it, e1⟩
  · obtain ⟨hX, hY⟩ := hsd hT hrb.ordered
    obtain ⟨hnx, hn1, hsz⟩ := nodes_at_place e p junk v
    have hnone : ∀ x ∈ t.toList,
        ¬ equiv T.key_compare (T.KeyOfValue x) (T.KeyOfValue v) := by
      intro x hx hq
      simp only [Tree.toList, hnx, List.map_append, List.mem_append, List.mem_map] at hx
      rcases hx with ⟨y, hy, rfl⟩ | ⟨y, hy, rfl⟩
      · have := hX y hy
        rw [hq.1] at this
        cases this
      · have := hY y hy
        rw [hq.2] at this
        cases this
    have hok : pred_ok T (T.KeyOfValue v) (ctxBefore (ins_path T v t)) = true :=
      (pred_ok_iff T hT v t hrb.ordered).2 hnone
    obtain ⟨s2, e2, _, w2, _, _⟩ := insert_unique_spec_new T hwf hrb.root_black v p junk hp0
      hfresh fuel hf hcnt hok
    obtain ⟨hX', hY'⟩ := descend_strict T hT (T.KeyOfValue v) t hrb.ordered hok
    have hsp := append_split_unique
      (fun e : Nat × α => T.key_compare (T.KeyOfValue e.2) (T.KeyOfValue v) = true)
      (ctxBefore ctx) (ctxBefore (ins_path T v t))
      (hnx.symm.trans (nodes_ins_path T v t)) hX
      (fun e he hf' => by have := hT.asymm (hY e he); rw [hf'] at this; cases this)
      hX'
      (fun e he hf' => by have := hT.asymm (hY' e he); rw [hf'] at this; cases this)
    have hl1 := to_list_spec w1 (fuel + 2) (by omega)
    have hl2 := to_list_spec w2 (fuel + 2) (by rw [size_ins_tree]; omega)
    refine ⟨s1, p, s2, (p, true), _, e1, e2, hl1, ?_⟩
    rw [hl2]
    simp only [Tree.toList, hn1, nodes_ins_tree, hsp.1, hsp.2]
  · obtain ⟨e2, _⟩ := insert_unique_spec_dup T hwf hrb.root_black v p junk hp0 hfresh fuel hf
      hcnt hok
    exact ⟨s, it, s, _, _, e1, e2, to_list_spec hwf (fuel + 2) (by omega),
      to_list_spec hwf (fuel + 2) (by omega)⟩

/-- At capacity the four members end the same way: each throws `length_error`
before anything else is done. -/
theorem hinted_at_capacity (T : Traits α κ) (s : rb_tree α) (fuel hint : Nat) (v : α) (p : Nat)
    (junk : Bool) (h : s.node_count > T.max_size - 1) :
    s.emplace_unique_use_hint T fuel hint v p junk = .error .length_error ∧
      s.insert_unique T fuel v p junk = .error .length_error ∧
      s.emplace_multi_use_hint T fuel hint v p junk = .error .length_error ∧
      s.insert_multi T fuel v p junk = .error .length_error := by
  simp [rb_tree.emplace_unique_use_hint, rb_tree.insert_unique, rb_tree.emplace_multi_use_hint,
    rb_tree.insert_multi, h]

/-- C35 (amended): for a valid tree, a hint in `[begin(), end()]` and a value
`v`.  `emplace_unique_use_hint(hint, v)` and `insert_unique(v)` both return and
leave the same in-order sequence.  `emplace_multi_use_hint(hint, v)` and
`insert_multi(v)` both return; the stored sequence being `P ++ M ++ Q`, where
every element of `M` has a key equivalent to that of `v` and every element of
`Q` a greater one, `insert_multi` leaves `P ++ M ++ [v] ++ Q` and the hinted call
leaves `P ++ [v] ++ M ++ Q`, so the two differ only in where `v` stands inside
the run of elements equivalent to it, and their key sequences are equal when
equivalent keys are equal.  (When `size()` has reached `max_size()`, all four
calls throw `length_error`.) -/
theorem hinted_insertion_order (T : Traits α κ) (hT : StrictWeakOrder T.key_compare)
    {s : rb_tree α} {t : Tree α} (hwf : WF s t) (hrb : t.RB T) (v : α) (p : Nat) (junk : Bool)
    (hp0 : p ≠ 0) (hfresh : s.mem p = none) (fuel : Nat) (hf : t.size < fuel)
    {hint : Nat} (hh : hint = s.header ∨ hint ∈ t.addrs) :
    (s.node_count < T.max_size →
      (∃ s1 it1 s2 r2 L, s.emplace_unique_use_hint T fuel hint v p junk = .ok (s1, it1) ∧
        s.insert_unique T fuel v p junk = .ok (s2, r2) ∧
        s1.to_list (fuel + 2) = .ok L ∧ s2.to_list (fuel + 2) = .ok L) ∧
      ∃ s1 s2 P M Q, s.emplace_multi_use_hint T fuel hint v p junk = .ok (s1, p) ∧
        s.insert_multi T fuel v p junk = .ok (s2, p) ∧
        s.to_list (fuel + 2) = .ok (P ++ (M ++ Q)) ∧
        s1.to_list (fuel + 2) = .ok (P ++ (v :: (M ++ Q))) ∧
        s2.to_list (fuel + 2) = .ok (P ++ (M ++ (v :: Q))) ∧
        (∀ x ∈ M, equiv T.key_compare (T.KeyOfValue x) (T.KeyOfValue v)) ∧
        (∀ x ∈ Q, T.key_compare (T.KeyOfValue v) (T.KeyOfValue x) = true) ∧
        ((∀ a b, equiv T.key_compare a b → a = b) →
          (P ++ (v :: (M ++ Q))).map T.KeyOfValue =
            (P ++ (M ++ (v :: Q))).map T.KeyOfValue)) ∧
    (s.node_count > T.max_size - 1 →
      s.emplace_unique_use_hint T fuel hint v p junk = .error .length_error ∧
      s.insert_unique T fuel v p junk = .error .length_error ∧
      s.emplace_multi_use_hint T fuel hint v p junk = .error .length_error ∧
      s.insert_multi T fuel v p junk = .error .length_error) :=
  ⟨fun hcnt => ⟨hinted_unique_order T hT hwf hrb v p junk hp0 hfresh fuel hf hcnt hh,
      hinted_multi_order T hT hwf hrb v p junk hp0 hfresh fuel hf hcnt hh⟩,
    hinted_at_capacity T s fuel hint v p junk⟩

theorem three_RB_decade : three_abs.RB decadeT := by
  refine ⟨?_, rfl, ?_, ?_⟩
  · simp [Tree.Ordered, three_abs, decadeT]
  · simp [three_abs]
  · simp [three_abs]

theorem decadeT_swo : StrictWeakOrder decadeT.key_compare := by
  refine ⟨?_, ?_, ?_⟩
  · intro a; simp [decadeT]
  · intro a b c h1 h2; simp [decadeT] at *; omega
  · intro a b c h1 h2; simp [decadeT] at *; omega

theorem hinted_insertion_order_witness :
    ((∃ s1 it1 s2 r2 L,
        three_tree.emplace_unique_use_hint decadeT 10 4 5 5 rb_tree_black = .ok (s1, it1) ∧
        three_tree.insert_unique decadeT 10 5 5 rb_tree_black = .ok (s2, r2) ∧
        s1.to_list (10 + 2) = .ok L ∧ s2.to_list (10 + 2) = .ok L) ∧
      ∃ s1 s2 P M Q,
        three_tree.emplace_multi_use_hint decadeT 10 4 5 5 rb_tree_black = .ok (s1, 5) ∧
        three_tree.insert_multi decadeT 10 5 5 rb_tree_black = .ok (s2, 5) ∧
        three_tree.to_list (10 + 2) = .ok (P ++ (M ++ Q)) ∧
        s1.to_list (10 + 2) = .ok (P ++ (5 :: (M ++ Q))) ∧
        s2.to_list (10 + 2) = .ok (P ++ (M ++ (5 :: Q))) ∧
        (∀ x ∈ M, equiv decadeT.key_compare (decadeT.KeyOfValue x) (decadeT.KeyOfValue 5)) ∧
        (∀ x ∈ Q, decadeT.key_compare (decadeT.KeyOfValue 5) (decadeT.KeyOfValue x) = true) ∧
        ((∀ a b, equiv decadeT.key_compare a b → a = b) →
          (P ++ (5 :: (M ++ Q))).map decadeT.KeyOfValue =
            (P ++ (M ++ (5 :: Q))).map decadeT.KeyOfValue)) ∧
    (three_tree.emplace_multi_use_hint decadeT 10 4 5 5 rb_tree_black >>=
      fun r => r.1.to_list 12) = .ok [1, 2, 5, 3] ∧
    (three_tree.insert_multi decadeT 10 5 5 rb_tree_black >>=
      fun r => r.1.to_list 12) = .ok [1, 2, 3, 5] ∧
    (three_tree.emplace_unique_use_hint natT 10 4 5 5 rb_tree_black >>=
      fun r => r.1.to_list 12) = .ok [1, 2, 3, 5] ∧
    (three_tree.insert_unique natT 10 5 5 rb_tree_black >>=
      fun r => r.1.to_list 12) = .ok [1, 2, 3, 5] :=
  ⟨(hinted_insertion_order decadeT decadeT_swo three_WF three_RB_decade 5 5 rb_tree_black
    (by decide) (by decide) 10 (by decide) (Or.inr (by decide))).1 (by decide),
    by decide, by decide, by decide, by decide⟩

/-- C35, counterexample: under a comparison that looks at the tens only, the
valid tree holding 10 and 11 (nodes 2 and 3) gets the key 12 between 10 and 11
from `emplace_multi_use_hint` with the hint at node 11, and after 11 from
`insert_multi`: the two in-order key sequences differ. -/
theorem hinted_multi_changes_key_order :
    StrictWeakOrder decadeT.key_compare ∧
    (∃ s t, decade_pair = .ok s ∧ WF s t ∧ t.RB decadeT ∧ t.nodes = [(2, 10), (3, 11)] ∧
      s.mem 4 = none ∧ s.node_count < decadeT.max_size) ∧
    (decade_pair >>= fun s => s.emplace_multi_use_hint decadeT 10 3 12 4 rb_tree_red >>=
      fun r => (r.1.to_list 10).map (List.map decadeT.KeyOfValue)) = .ok [10, 12, 11] ∧
    (decade_pair >>= fun s => s.insert_multi decadeT 10 12 4 rb_tree_red >>=
      fun r => (r.1.to_list 10).map (List.map decadeT.KeyOfValue)) = .ok [10, 11, 12] := by
  refine ⟨decadeT_swo, ?_, by decide, by decide⟩
  obtain ⟨s, t, e, w1, w2, w3, _⟩ := insert_multi_all_spec decadeT decadeT_swo 20 10
    (ops_from 2 [10, 11]) empty_tree .nil [] [] [] (WF_init _ 1 (by decide)) (RB_nil _) rfl
    (by simp) (by simp) (by simp) (by simp [ops_from, equiv, decadeT])
    (by simp [ops_from])
    (by simp [ops_from, empty_tree, rb_tree_init, upd])
    (by simp [ops_from]) (by simp [ops_from, Traits.max_size, decadeT])
  have hd : decade_pair.map (fun s => ((s.mem 4).isSome, s.node_count)) = .ok (false, 2) := by
    decide
  have e' : decade_pair = .ok s := e
  rw [e'] at hd
  simp only [Except.map, Except.ok.injEq, Prod.mk.injEq] at hd
  refine ⟨s, t, e', w1, w2, by simpa [ops_from] using w3, ?_, ?_⟩
  · cases hm : s.mem 4 with
    | none => rfl
    | some n => rw [hm] at hd; simp at hd
  · rw [hd.2]; simp [Traits.max_size, decadeT]

end claims_hint_order

/-! ## Claim C38: `map::operator[]` -/

section claims_map

variable {α κ β : Type}

/-- Linking a node at a place with only smaller keys before it and only greater
keys after it keeps the keys strictly increasing. -/
theorem strict_at_place (T : Traits α κ) {ctx : Ctx α} {t : Tree α} (e : plug ctx .nil = t)
    (hs : t.StrictOrdered T) (p : Nat) (junk : Bool) (v : α)
    (hsd : SidesStrict T (T.KeyOfValue v) ctx) :
    (reblanced ctx (.node p junk .nil v .nil)).StrictOrdered T := by
  obtain ⟨hnx, hn1, _⟩ := nodes_at_place e p junk v
  obtain ⟨hb, ha⟩ := hsd
  have hs' := hs
  simp only [Tree.StrictOrdered, Tree.toList, hnx, List.map_append, List.pairwise_append,
    List.mem_map] at hs'
  simp only [Tree.StrictOrdered, Tree.toList, hn1, List.map_append, List.map_cons,
    List.pairwise_append, List.pairwise_cons, List.mem_map, List.mem_cons]
  refine ⟨hs'.1, ⟨?_, hs'.2.1⟩, ?_⟩
  · rintro a ⟨x, hx, rfl⟩
    exact ha x hx
  · rintro a ⟨x, hx, rfl⟩ b hb'
    rcases hb' with rfl | ⟨y, hy, rfl⟩
    · exact hb x hx
    · exact hs'.2.2 _ ⟨x, hx, rfl⟩ _ ⟨y, hy, rfl⟩

/-- Linking a node at such a place of a red-black tree and repairing gives a
red-black tree. -/
theorem rb_at_place (T : Traits α κ) (hT : StrictWeakOrder T.key_compare) {ctx : Ctx α}
    {t : Tree α} (e : plug ctx .nil = t) (hrb : t.RB T) (hs : t.StrictOrdered T) (p : Nat)
    (junk : Bool) (v : α) (hsd : SidesStrict T (T.KeyOfValue v) ctx) :
    (reblanced ctx (.node p junk .nil v .nil)).RB T ∧
      (reblanced ctx (.node p junk .nil v .nil)).StrictOrdered T := by
  have hs1 := strict_at_place T e hs p junk v hsd
  obtain ⟨r1, r2, r3⟩ := reblanced_valid ctx p junk v (by rw [e]; exact hrb.no_red_red)
    (by rw [e]; exact hrb.balanced) (by rw [e]; exact hrb.root_black)
  exact ⟨⟨StrictOrdered.ordered T hT hs1, r3, r1, r2⟩, hs1⟩

/-- When `KeyOfValue` gives the first component of a pair unchanged (as in
`map<int, int>`, where the conversions to the mapped type and back change
nothing): on a valid red-black tree with unique keys, within capacity, `m[k]`
returns and leaves a valid red-black tree with unique keys in which `find(k)`
is not `end()`.  If an element with key `k` is stored, the map is unchanged and
its mapped value is yielded; otherwise the pair `(k, dflt)` is inserted at its
place in order, `size()` grows by exactly one and `dflt` is yielded. -/
theorem map_index_spec (T : Traits (κ × β) κ) (hsel : ∀ x, T.KeyOfValue x = x.1)
    (hT : StrictWeakOrder T.key_compare) {s : rb_tree (κ × β)} {t : Tree (κ × β)}
    (hwf : WF s t) (hrb : t.RB T) (hs : t.StrictOrdered T) (k : κ) (dflt : β) (p : Nat)
    (junk : Bool) (hp0 : p ≠ 0) (hfresh : s.mem p = none) (fuel : Nat) (hf : t.size < fuel)
    (hcnt : s.node_count < T.max_size) :
    ∃ s' r t', map_index T fuel s k dflt p junk = .ok (s', r) ∧ WF s' t' ∧ t'.RB T ∧
      t'.StrictOrdered T ∧
      (∃ it, s'.find T (fuel + 1) k = .ok it ∧ it ≠ s'.end_) ∧
      (∀ e ∈ t.toList, equiv T.key_compare (T.KeyOfValue e) k →
        s' = s ∧ t' = t ∧ r = e.2) ∧
      ((∀ e ∈ t.toList, ¬ equiv T.key_compare (T.KeyOfValue e) k) →
        r = dflt ∧ s'.size = s.size + 1 ∧
        ∃ X Y, t.nodes = X ++ Y ∧ t'.nodes = X ++ (p, (k, dflt)) :: Y) := by
  have ho := hrb.ordered
  obtain ⟨A, B, C, hn, hA, hB, hC⟩ := ordered_split T hT k t.nodes (Ordered_nodes T ho)
  have hlb := lower_bound_spec T hT hwf ho k fuel hf
  rw [hn, List.append_assoc, first_addr_split _ A (B ++ C) s.header
    (fun e he => by simp [hA e he])
    (fun e he => by
      rcases List.mem_append.1 he with h | h
      · simp [(hB e h).1]
      · simp [hT.asymm (hC e h)])] at hlb
  cases B with
  | cons b B' =>
    obtain ⟨a, w⟩ := b
    have hmem : (a, w) ∈ t.nodes := by rw [hn]; simp
    have hval := Rep_get_value hwf.z.rsub hmem
    have hne := hwf.not_header hmem
    have hq := hB (a, w) (by simp)
    have hq2 : T.key_compare k w.1 = false := by rw [← hsel]; exact hq.2
    have hcall : map_index T fuel s k dflt p junk = .ok (s, w.2) := by
      simp [map_index, hlb, rb_tree.end_, hne, hval, hq2]
    have hw : w ∈ t.toList := by
      simp only [Tree.toList, List.mem_map]
      exact ⟨(a, w), hmem, rfl⟩
    obtain ⟨it, _, e1, e2, _⟩ := find_hit T hT hwf ho k (fuel + 1) (by omega) ⟨w, hw, hq⟩
    refine ⟨s, w.2, t, hcall, hwf, hrb, hs, ⟨it, e1, e2⟩, ?_, ?_⟩
    · intro e he heq
      refine ⟨rfl, rfl, ?_⟩
      have hsn := Strict_nodes T hs
      rw [hn] at hsn
      simp only [Tree.toList, hn, List.mem_map, List.mem_append, List.mem_cons] at he
      obtain ⟨x, hx, rfl⟩ := he
      rcases hx with (hx | hx | hx) | hx
      · have := hA x hx
        rw [heq.1] at this
        cases this
      · rw [hx]
      · exfalso
        have h1 : T.key_compare (T.KeyOfValue w) (T.KeyOfValue x.2) = true := by
          simp only [List.pairwise_append, List.pairwise_cons] at hsn
          exact hsn.1.2.1.1 x hx
        have h2 := (equiv_via hT hq (hB x (by simp [hx]))).1
        rw [h1] at h2
        cases h2
      · have := hC x hx
        rw [heq.2] at this
        cases this
    · intro hno
      exact absurd hq (hno w hw)
  | nil =>
    simp only [List.nil_append, List.append_nil] at hlb hn
    have hno : ∀ e ∈ t.toList, ¬ equiv T.key_compare (T.KeyOfValue e) k := by
      intro e he heq
      simp only [Tree.toList, hn, List.mem_map, List.mem_append] at he
      obtain ⟨x, hx, rfl⟩ := he
      rcases hx with hx | hx
      · have := hA x hx
        rw [heq.1] at this
        cases this
      · have := hC x hx
        rw [heq.2] at this
        cases this
    have hkey : T.KeyOfValue (k, dflt) = k := hsel _
    have hhint : (C.map Prod.fst).head?.getD s.header = s.header ∨
        (C.map Prod.fst).head?.getD s.header ∈ t.addrs := by
      cases C with
      | nil => exact Or.inl rfl
      | cons c C' => exact Or.inr (by simp [Tree.addrs, hn])
    have habs : map_index T fuel s k dflt p junk =
        (s.emplace_unique_use_hint T fuel ((C.map Prod.fst).head?.getD s.header) (k, dflt) p
          junk >>= fun r => get_value r.1.mem r.2 >>= fun v => pure (r.1, v.2)) := by
      cases C with
      | nil => simp [map_index, hlb, rb_tree.end_]
      | cons c C' =>
        obtain ⟨a, w⟩ := c
        have hmem : (a, w) ∈ t.nodes := by rw [hn]; simp
        have hval := Rep_get_value hwf.z.rsub hmem
        have hne := hwf.not_header hmem
        have hc := hC (a, w) (by simp)
        have hc2 : T.key_compare k w.1 = true := by rw [← hsel]; exact hc
        simp only [List.map_cons, List.head?_cons, Option.getD_some] at hlb ⊢
        simp [map_index, hlb, rb_tree.end_, hne, hval, hc2]
    rcases emplace_unique_use_hint_spec T hwf hrb.root_black (k, dflt) p junk hp0 hfresh fuel hf
      hcnt hhint with ⟨s', ctx, e, e1, w1, _, hsd⟩ | ⟨_, hok, _, _⟩
    · obtain ⟨hnx, hn1, hsz⟩ := nodes_at_place e p junk (k, dflt)
      obtain ⟨hrb', hs'⟩ := rb_at_place T hT e hrb hs p junk (k, dflt) (hsd hT ho)
      have hval := Rep_get_value w1.z.rsub (a := p) (v := (k, dflt)) (by rw [hn1]; simp)
      have hin : (k, dflt) ∈ (reblanced ctx (.node p junk .nil (k, dflt) .nil)).toList := by
        simp [Tree.toList, hn1]
      obtain ⟨it, _, f1, f2, _⟩ := find_hit T hT w1 hrb'.ordered k (fuel + 1) (by omega)
        ⟨(k, dflt), hin, by rw [hkey]; exact equiv_self hT k⟩
      refine ⟨s', dflt, _, by rw [habs, e1]; simp [hval], w1, hrb', hs', ⟨it, f1, f2⟩, ?_, ?_⟩
      · intro e' he heq
        exact absurd heq (hno e' he)
      · intro _
        refine ⟨rfl, ?_, ctxBefore ctx, ctxAfter ctx, hnx, hn1⟩
        simp only [rb_tree.size]
        rw [w1.count, hwf.count, hsz]
    · exfalso
      have := (pred_ok_iff T hT (k, dflt) t ho).2 (by rw [hkey]; exact hno)
      simp only [ins_path] at this
      rw [this] at hok
      cases hok

theorem pairT_swo : StrictWeakOrder pairT.key_compare := by
  refine ⟨?_, ?_, ?_⟩
  · intro a; simp [pairT]
  · intro a b c h1 h2; simp [pairT] at *; omega
  · intro a b c h1 h2; simp [pairT] at *; omega

theorem map_index_spec_witness :
    ∃ s' r t', map_index pairT 10 empty_pairs 7 0 2 rb_tree_red = .ok (s', r) ∧ WF s' t' ∧
      t'.RB pairT ∧ t'.StrictOrdered pairT ∧
      (∃ it, s'.find pairT (10 + 1) 7 = .ok it ∧ it ≠ s'.end_) ∧
      (∀ e ∈ (Tree.nil : Tree (Nat × Nat)).toList,
        equiv pairT.key_compare (pairT.KeyOfValue e) 7 →
        s' = empty_pairs ∧ t' = .nil ∧ r = e.2) ∧
      ((∀ e ∈ (Tree.nil : Tree (Nat × Nat)).toList,
          ¬ equiv pairT.key_compare (pairT.KeyOfValue e) 7) →
        r = 0 ∧ s'.size = empty_pairs.size + 1 ∧
        ∃ X Y, (Tree.nil : Tree (Nat × Nat)).nodes = X ++ Y ∧
          t'.nodes = X ++ (2, (7, 0)) :: Y) :=
  map_index_spec pairT (fun _ => rfl) pairT_swo (WF_init _ 1 (by decide)) (RB_nil _)
    (by simp [Tree.StrictOrdered, Tree.toList]) 7 0 2 rb_tree_red (by decide) (by decide) 10
    (by decide) (by decide)

/-- C38: in `map<int, bool, less<int>>` the functor `select1st` hands the tree
the key converted to the mapped type `bool` (and from there back to `int`), so
the key 5 is seen as 1.  On the empty map `m[5]` returns, inserts `(5, false)`
and leaves a valid red-black tree of size 1, but `find(5)` on it is `end()`;
a following `m[7]`, with no element of key 7 stored, inserts nothing: `size()`
stays 1 and the map still holds `(5, false)` only, and `find(7)` is `end()`. -/
theorem map_index_key_not_found :
    WF empty_flags .nil ∧
    (∃ s t, flags_5 = .ok s ∧ WF s t ∧ t.RB flagT ∧ t.toList = [(5, false)]) ∧
    (map_index flagT 10 empty_flags 5 false 2 rb_tree_red).map
      (fun r => (r.2, r.1.size, r.1.to_list 10)) = .ok (false, 1, .ok [(5, false)]) ∧
    flagT.KeyOfValue (5, false) = 1 ∧
    (flags_5 >>= fun s => (s.find flagT 10 5).map (fun it => (it, s.end_))) = .ok (1, 1) ∧
    (flags_5 >>= fun s => (map_index flagT 10 s 7 false 3 rb_tree_red).map
      (fun r => (r.2, r.1.size, r.1.to_list 10))) = .ok (false, 1, .ok [(5, false)]) ∧
    (flags_5 >>= fun s => map_index flagT 10 s 7 false 3 rb_tree_red >>=
      fun r => (r.1.find flagT 10 7).map (fun it => (it, r.1.end_))) = .ok (1, 1) := by
  have hw0 : WF empty_flags .nil := WF_init _ 1 (by decide)
  have hlb : empty_flags.lower_bound flagT 10 5 = .ok empty_flags.header := by decide
  refine ⟨hw0, ?_, by decide, by decide, by decide, by decide, by decide⟩
  rcases emplace_unique_use_hint_spec flagT hw0 rfl ((5 : Nat), false) 2 rb_tree_red
    (by decide) (by decide) 10 (by decide) (by decide) (Or.inl rfl) with
    ⟨s', ctx, e, e1, w1, _, _⟩ | ⟨hne, _⟩
  · have hctx := plug_eq_nil e
    subst hctx
    have ht : reblanced ([] : Ctx (Nat × Bool)) (.node 2 rb_tree_red .nil (5, false) .nil) =
        .node 2 rb_tree_black .nil (5, false) .nil := by
      simp [reblanced, fixup, Tree.redden, Tree.blacken]
    rw [ht] at w1
    have hval := Rep_get_value w1.z.rsub (a := 2) (v := ((5 : Nat), false)) (by simp)
    refine ⟨s', _, ?_, w1, ⟨by simp [Tree.Ordered], rfl, by simp, by simp⟩, by simp [Tree.toList]⟩
    simp only [flags_5, map_index, hlb, rb_tree.end_, ok_bind, if_true]
    rw [e1]
    simp [hval, Except.map]
  · exact absurd rfl hne

end claims_map

/-! ## Claim C25: `node_count` after insertions and `clear()` -/

section claims_count

variable {α κ : Type}

/-- Every single-element insertion on a well-formed tree within capacity, with a
valid hint, together with its success flag: either the new node `p` with the
value of the call was linked at a null place `ctx` of the tree and the flag (if
the member has one) is `true`, and then a unique-key member found no stored
element with an equivalent key; or the member is a unique-key one, the tree
object is exactly as before and the flag (if any) is `false`, and then an
element with an equivalent key is stored. -/
theorem insertion_result_spec (T : Traits α κ) {s : rb_tree α} {t : Tree α}
    (hwf : WF s t) (hrb : t.RootBlack) (p : Nat) (junk : Bool) (hp0 : p ≠ 0)
    (hfresh : s.mem p = none) (fuel : Nat) (hf : t.size < fuel)
    (hcnt : s.node_count < T.max_size) (op : Insertion α)
    (hhint : ∀ h, op.hint = some h → h = s.header ∨ h ∈ t.addrs) :
    (∃ s' ctx flag, plug ctx .nil = t ∧
        s.insertion_result T fuel p junk op = .ok (s', p, flag) ∧ flag ≠ some false ∧
        WF s' (reblanced ctx (.node p junk .nil op.value .nil)) ∧
        (StrictWeakOrder T.key_compare → t.Ordered T → op.unique = true →
          ∀ e ∈ t.toList, ¬ equiv T.key_compare (T.KeyOfValue e) (T.KeyOfValue op.value))) ∨
      (op.unique = true ∧ ∃ it flag,
        s.insertion_result T fuel p junk op = .ok (s, it, flag) ∧ flag ≠ some true ∧
        (StrictWeakOrder T.key_compare → t.Ordered T →
          ∃ e ∈ t.toList, equiv T.key_compare (T.KeyOfValue e) (T.KeyOfValue op.value))) := by
  have hpl : ∀ v, plug (ins_path T v t) .nil = t := by
    intro v
    have e := plug_descend T (T.KeyOfValue v) t []
    simpa using e
  have hyes : ∀ v, pred_ok T (T.KeyOfValue v) (ctxBefore (ins_path T v t)) = true →
      StrictWeakOrder T.key_compare → t.Ordered T →
      ∀ e ∈ t.toList, ¬ equiv T.key_compare (T.KeyOfValue e) (T.KeyOfValue v) :=
    fun v hok hT ho => (pred_ok_iff T hT v t ho).1 hok
  have hno : ∀ v, pred_ok T (T.KeyOfValue v) (ctxBefore (ins_path T v t)) = false →
      StrictWeakOrder T.key_compare → t.Ordered T →
      ∃ e ∈ t.toList, equiv T.key_compare (T.KeyOfValue e) (T.KeyOfValue v) := by
    intro v hok hT ho
    by_contra hcon
    have := (pred_ok_iff T hT v t ho).2 (fun e he hq => hcon ⟨e, he, hq⟩)
    rw [hok] at this
    cases this
  have hside : ∀ (v : α) (ctx : Ctx α), plug ctx .nil = t →
      SidesStrict T (T.KeyOfValue v) ctx →
      ∀ e ∈ t.toList, ¬ equiv T.key_compare (T.KeyOfValue e) (T.KeyOfValue v) := by
    intro v ctx e hsd x hx hq
    obtain ⟨hX, hY⟩ := hsd
    obtain ⟨hnx, _, _⟩ := nodes_at_place e p junk v
    simp only [Tree.toList, hnx, List.map_append, List.mem_append, List.mem_map] at hx
    rcases hx with ⟨y, hy, rfl⟩ | ⟨y, hy, rfl⟩
    · have := hX y hy
      rw [hq.1] at this
      cases this
    · have := hY y hy
      rw [hq.2] at this
      cases this
  cases op with
  | insert_unique v =>
    cases hok : pred_ok T (T.KeyOfValue v) (ctxBefore (ins_path T v t)) with
    | true =>
      obtain ⟨s', e1, _, w1, _, _⟩ := insert_unique_spec_new T hwf hrb v p junk hp0 hfresh
        fuel hf hcnt hok
      exact Or.inl ⟨s', _, some true, hpl v, by simp [rb_tree.insertion_result, e1], by simp,
        w1, fun hT ho _ => hyes v hok hT ho⟩
    | false =>
      obtain ⟨e1, _⟩ := insert_unique_spec_dup T hwf hrb v p junk hp0 hfresh fuel hf hcnt hok
      exact Or.inr ⟨rfl, ctxPtr s.header (ins_path T v t), some false,
        by simp [rb_tree.insertion_result, e1], by simp,
        hno v hok⟩
  | insert_multi v =>
    obtain ⟨s', e1, w1, _, _⟩ := insert_multi_spec T hwf hrb v p junk hp0 hfresh fuel hf hcnt
    exact Or.inl ⟨s', _, none, hpl v, by simp [rb_tree.insertion_result, e1], by simp, w1,
      fun _ _ h => by simp [Insertion.unique] at h⟩
  | emplace_unique v =>
    cases hok : pred_ok T (T.KeyOfValue v) (ctxBefore (ins_path T v t)) with
    | true =>
      obtain ⟨s', _, e1, w1, _, _⟩ := insert_unique_spec_new T hwf hrb v p junk hp0 hfresh
        fuel hf hcnt hok
      exact Or.inl ⟨s', _, some true, hpl v, by simp [rb_tree.insertion_result, e1], by simp,
        w1, fun hT ho _ => hyes v hok hT ho⟩
    | false =>
      obtain ⟨_, e1⟩ := insert_unique_spec_dup T hwf hrb v p junk hp0 hfresh fuel hf hcnt hok
      exact Or.inr ⟨rfl, ctxPtr s.header (ins_path T v t), some false,
        by simp [rb_tree.insertion_result, e1], by simp,
        hno v hok⟩
  | emplace_multi v =>
    obtain ⟨s', ctx, e, e1, w1, _, _⟩ := emplace_multi_spec T hwf hrb v p junk hp0 hfresh fuel
      hf hcnt
    exact Or.inl ⟨s', ctx, none, e, by simp [rb_tree.insertion_result, e1], by simp, w1,
      fun _ _ h => by simp [Insertion.unique] at h⟩
  | insert_unique_hint hint v =>
    rcases emplace_unique_use_hint_spec T hwf hrb v p junk hp0 hfresh fuel hf hcnt
      (hhint hint rfl) with ⟨s', ctx, e, e1, w1, _, hsd⟩ | ⟨_, hok, it, e1⟩
    · exact Or.inl ⟨s', ctx, none, e, by simp [rb_tree.insertion_result, e1], by simp, w1,
        fun hT ho _ => hside v ctx e (hsd hT ho)⟩
    · exact Or.inr ⟨rfl, it, none, by simp [rb_tree.insertion_result, e1], by simp,
        hno v hok⟩
  | insert_multi_hint hint v =>
    obtain ⟨s', ctx, e, e1, w1, _, _⟩ := emplace_multi_use_hint_spec T hwf hrb v p junk hp0
      hfresh fuel hf hcnt (hhint hint rfl)
    exact Or.inl ⟨s', ctx, none, e, by simp [rb_tree.insertion_result, e1], by simp, w1,
      fun _ _ h => by simp [Insertion.unique] at h⟩
  | emplace_unique_use_hint hint v =>
    rcases emplace_unique_use_hint_spec T hwf hrb v p junk hp0 hfresh fuel hf hcnt
      (hhint hint rfl) with ⟨s', ctx, e, e1, w1, _, hsd⟩ | ⟨_, hok, it, e1⟩
    · exact Or.inl ⟨s', ctx, none, e, by simp [rb_tree.insertion_result, e1], by simp, w1,
        fun hT ho _ => hside v ctx e (hsd hT ho)⟩
    · exact Or.inr ⟨rfl, it, none, by simp [rb_tree.insertion_result, e1], by simp,
        hno v hok⟩
  | emplace_multi_use_hint hint v =>
    obtain ⟨s', ctx, e, e1, w1, _, _⟩ := emplace_multi_use_hint_spec T hwf hrb v p junk hp0
      hfresh fuel hf hcnt (hhint hint rfl)
    exact Or.inl ⟨s', ctx, none, e, by simp [rb_tree.insertion_result, e1], by simp, w1,
      fun _ _ h => by simp [Insertion.unique] at h⟩

/-- C25: on a well-formed tree (so `node_count` is the number of nodes linked
below the root) within capacity, every single-element insertion (`insert_unique`,
`insert_multi`, `emplace_unique`, `emplace_multi` and the hinted variants with a
valid hint) returns and leaves a well-formed tree whose `node_count` is again the
number of its nodes, which is also the number of elements an iteration from
`begin()` to `end()` visits.  Either the new node was linked into the in-order
sequence and `node_count` grew by exactly one, or the tree object is unchanged.
The first is the case for every multi-key member and whenever the returned
success flag is `true`; the second whenever the flag is `false`.  Under a strict
weak order on an ordered tree, `node_count` grows by one when no stored key is
equivalent to the new one, and a unique-key member leaves the tree unchanged
when one is.  `clear()` leaves the empty tree with `node_count` zero. -/
theorem node_count_tracks_nodes (T : Traits α κ) {s : rb_tree α} {t : Tree α}
    (hwf : WF s t) (hrb : t.RootBlack) (p : Nat) (junk : Bool) (hp0 : p ≠ 0)
    (hfresh : s.mem p = none) (fuel : Nat) (hf : t.size + 3 ≤ fuel)
    (hcnt : s.node_count < T.max_size) (op : Insertion α)
    (hhint : ∀ h, op.hint = some h → h = s.header ∨ h ∈ t.addrs) :
    (∃ s' it flag t', s.insertion_result T fuel p junk op = .ok (s', it, flag) ∧ WF s' t' ∧
      s'.node_count = t'.size ∧ (s'.to_list fuel).map List.length = .ok s'.node_count ∧
      ((it = p ∧ s'.node_count = s.node_count + 1 ∧ t'.size = t.size + 1 ∧
          ∃ X Y, t.nodes = X ++ Y ∧ t'.nodes = X ++ (p, op.value) :: Y) ∨
        (s' = s ∧ t' = t)) ∧
      (op.unique = false → s'.node_count = s.node_count + 1) ∧
      (flag = some true → s'.node_count = s.node_count + 1) ∧
      (flag = some false → s' = s) ∧
      (StrictWeakOrder T.key_compare → t.Ordered T →
        ((∀ e ∈ t.toList,
            ¬ equiv T.key_compare (T.KeyOfValue e) (T.KeyOfValue op.value)) →
          s'.node_count = s.node_count + 1) ∧
        (op.unique = true →
          (∃ e ∈ t.toList, equiv T.key_compare (T.KeyOfValue e) (T.KeyOfValue op.value)) →
          s' = s))) ∧
    (∃ s'', s.clear fuel = .ok s'' ∧ WF s'' .nil ∧ s''.node_count = 0 ∧
      (s''.to_list fuel).map List.length = .ok s''.node_count) := by
  have hlen : ∀ {s1 : rb_tree α} {t1 : Tree α}, WF s1 t1 → t1.size + 2 ≤ fuel →
      (s1.to_list fuel).map List.length = .ok s1.node_count := by
    intro s1 t1 h1 hf1
    rw [to_list_spec h1 fuel hf1, h1.count, ← Tree.length_nodes]
    simp [Except.map, Tree.toList]
  constructor
  · rcases insertion_result_spec T hwf hrb p junk hp0 hfresh fuel (by omega) hcnt op hhint with
      ⟨s', ctx, flag, e, e1, hfl, w1, huq⟩ | ⟨hu, it, flag, e1, hfl, hex⟩
    · obtain ⟨hnx, hn1, hsz⟩ := nodes_at_place e p junk op.value
      have hc : s'.node_count = s.node_count + 1 := by rw [w1.count, hwf.count, hsz]
      refine ⟨s', p, flag, _, e1, w1, w1.count, hlen w1 (by omega),
        Or.inl ⟨rfl, hc, hsz, _, _, hnx, hn1⟩, fun _ => hc, fun _ => hc,
        fun h => absurd h hfl, fun hT ho => ⟨fun _ => hc, fun hu hex => ?_⟩⟩
      obtain ⟨x, hx, hq⟩ := hex
      exact absurd hq (huq hT ho hu x hx)
    · refine ⟨s, it, flag, t, e1, hwf, hwf.count, hlen hwf (by omega), Or.inr ⟨rfl, rfl⟩,
        fun h => ?_, fun h => absurd h hfl, fun _ => rfl,
        fun hT ho => ⟨fun hnone => ?_, fun _ _ => rfl⟩⟩
      · rw [hu] at h
        cases h
      · obtain ⟨x, hx, hq⟩ := hex hT ho
        exact absurd hq (hnone x hx)
  · obtain ⟨s'', e1, w1, _⟩ := clear_spec hwf fuel
      (Nat.lt_of_le_of_lt t.height_le_size (by omega))
    exact ⟨s'', e1, w1, by simpa using w1.count, hlen w1 (by simp only [Tree.size]; omega)⟩

theorem node_count_tracks_nodes_witness :
    ((∃ s' it flag t', three_tree.insertion_result natT 10 5 rb_tree_red (.insert_unique 5) =
        .ok (s', it, flag) ∧ WF s' t' ∧
      s'.node_count = t'.size ∧ (s'.to_list 10).map List.length = .ok s'.node_count ∧
      ((it = 5 ∧ s'.node_count = three_tree.node_count + 1 ∧ t'.size = three_abs.size + 1 ∧
          ∃ X Y, three_abs.nodes = X ++ Y ∧
            t'.nodes = X ++ (5, (Insertion.insert_unique 5 : Insertion Nat).value) :: Y) ∨
        (s' = three_tree ∧ t' = three_abs)) ∧
      ((Insertion.insert_unique 5 : Insertion Nat).unique = false →
        s'.node_count = three_tree.node_count + 1) ∧
      (flag = some true → s'.node_count = three_tree.node_count + 1) ∧
      (flag = some false → s' = three_tree) ∧
      (StrictWeakOrder natT.key_compare → three_abs.Ordered natT →
        ((∀ e ∈ three_abs.toList,
            ¬ equiv natT.key_compare (natT.KeyOfValue e)
              (natT.KeyOfValue (Insertion.insert_unique 5 : Insertion Nat).value)) →
          s'.node_count = three_tree.node_count + 1) ∧
        ((Insertion.insert_unique 5 : Insertion Nat).unique = true →
          (∃ e ∈ three_abs.toList, equiv natT.key_compare (natT.KeyOfValue e)
            (natT.KeyOfValue (Insertion.insert_unique 5 : Insertion Nat).value)) →
          s' = three_tree))) ∧
    (∃ s'', three_tree.clear 10 = .ok s'' ∧ WF s'' .nil ∧ s''.node_count = 0 ∧
      (s''.to_list 10).map List.length = .ok s''.node_count)) ∧
    (three_tree.insertion_result natT 10 5 rb_tree_red (.insert_unique 5)).map
      (fun r => (r.2.1, r.2.2, r.1.node_count, r.1.to_list 10)) =
      .ok (5, some true, 4, .ok [1, 2, 3, 5]) ∧
    (three_tree.insertion_result natT 10 5 rb_tree_red (.insert_unique 3)).map
      (fun r => (r.2.2, r.1.node_count, r.1.to_list 10)) =
      .ok (some false, 3, .ok [1, 2, 3]) ∧
    (three_tree.insertion_result natT 10 5 rb_tree_red (.insert_multi 3)).map
      (fun r => (r.2.1, r.2.2, r.1.node_count, r.1.to_list 10)) =
      .ok (5, none, 4, .ok [1, 2, 3, 3]) ∧
    (three_tree.insertion_result natT 10 5 rb_tree_red (.emplace_unique_use_hint 4 3)).map
      (fun r => (r.2.2, r.1.node_count, r.1.to_list 10)) = .ok (none, 3, .ok [1, 2, 3]) ∧
    (three_tree.clear 10).map (fun r => (r.node_count, r.to_list 10)) = .ok (0, .ok []) :=
  ⟨node_count_tracks_nodes natT three_WF three_RB.root_black 5 rb_tree_red (by decide)
    (by decide) 10 (by decide) (by decide) (.insert_unique 5)
    (fun h hh => by simp [Insertion.hint] at hh),
    by decide, by decide, by decide, by decide, by decide⟩

end claims_count
end mystl
